import Mathlib

/-!
# Inline line breaking (WebCore, layout/inlineformatting)

A shallow embedding of `InlineLineBreaker.cpp`: the line breaker decides, for a
candidate run list and the status of the open line, whether the candidate is
kept, split or pushed to the next line.

Conventions of the embedding.

* `InlineLayoutUnit` is declared outside the sources at hand; it is embedded as
  `Int` (exact arithmetic on layout units).
* `unsigned` values are `Nat`; where the source's 32 bit arithmetic can wrap
  (conversion of a hyphenation limit, the sum of the two limits, the
  hyphen-before index) the wrap is written out with `% 4294967296`.
* The class hierarchy `InlineItem` / `InlineTextItem` / `InlineSoftLineBreakItem`
  is one record: the fields of the subclasses are read only behind the
  corresponding `isText` test, as `downcast` is in the source.
* Style, font and text measurement are collaborators. What the code reads from
  a style is a field of `RenderStyle`; the functions it calls (`TextUtil`,
  `Hyphenation`) are the fields of `Collaborators`.
* `Vector::operator[]` and `Vector::last` are bounds checked: a function that
  indexes a run list returns `Option`, `none` standing for the failed check.
-/

namespace WebCore.Layout

/-- Logical widths and positions of inline layout. -/
abbrev InlineLayoutUnit := Int

/-- Values of `white-space` (RenderStyleConstants). -/
inductive WhiteSpace where
  | Normal | Pre | PreWrap | PreLine | NoWrap | KHTMLNoWrap | BreakSpaces
  deriving DecidableEq, Repr

/-- Values of `word-break`. -/
inductive WordBreak where
  | Normal | BreakAll | KeepAll | BreakWord
  deriving DecidableEq, Repr

/-- Values of `hyphens`. -/
inductive Hyphens where
  | None | Manual | Auto
  deriving DecidableEq, Repr

/-- What the line breaker reads from `style.fontCascade()`: the width of a
space, the pixel size and the measured width of the style's hyphen string
(`fontCascade.width(TextRun { StringView { style.hyphenString() } })`). -/
structure FontCascade where
  spaceWidth : InlineLayoutUnit := 0
  pixelSize : Int := 0
  hyphenStringWidth : InlineLayoutUnit := 0
  deriving DecidableEq, Repr

/-- The style properties the line breaker queries. The hyphenation limits are
the source's signed `short` values; `-1` is their initial value. -/
structure RenderStyle where
  whiteSpace : WhiteSpace := WhiteSpace.Normal
  wordBreak : WordBreak := WordBreak.Normal
  hyphens : Hyphens := Hyphens.Manual
  locale : String := ""
  hyphenationLimitBefore : Int := -1
  hyphenationLimitAfter : Int := -1
  letterSpacing : InlineLayoutUnit := 0
  fontCascade : FontCascade := {}
  deriving DecidableEq, Repr

/-- `RenderStyle::initialHyphenationLimitBefore()`. -/
def RenderStyle.initialHyphenationLimitBefore : Int := -1

/-- `RenderStyle::initialHyphenationLimitAfter()`. -/
def RenderStyle.initialHyphenationLimitAfter : Int := -1

/-- The text of a text box (`Box::textContext()`). -/
structure TextContext where
  content : List Char := []
  canUseSimplifiedContentMeasuring : Bool := false
  deriving DecidableEq, Repr

/-- A layout box, as far as inline layout reads it. `id` stands for the
address of the box: two references are to the same box when the ids agree. -/
structure Box where
  id : Nat := 0
  style : RenderStyle := {}
  textContext : Option TextContext := none
  deriving DecidableEq, Repr

/-- `InlineItem::Type`. -/
inductive InlineItemType where
  | Text | HardLineBreak | SoftLineBreak | Box | Float | ContainerStart | ContainerEnd
  deriving DecidableEq, Repr

/-- `InlineTextItem::TextItemType`. -/
inductive TextItemType where
  | Undefined | Whitespace | NonWhitespace
  deriving DecidableEq, Repr

/-- An inline item. `start`, `length`, `width` and `textItemType` are the
members of `InlineTextItem` (meaningful when `type` is `Text`), `position` is
the member of `InlineSoftLineBreakItem`. -/
structure InlineItem where
  layoutBox : Box := {}
  type : InlineItemType := InlineItemType.Text
  start : Nat := 0
  length : Nat := 0
  width : Option InlineLayoutUnit := none
  textItemType : TextItemType := TextItemType.Undefined
  position : Nat := 0
  deriving DecidableEq, Repr

namespace InlineItem

def style (item : InlineItem) : RenderStyle := item.layoutBox.style

def isText (item : InlineItem) : Bool := item.type == InlineItemType.Text

def isBox (item : InlineItem) : Bool := item.type == InlineItemType.Box

def isFloat (item : InlineItem) : Bool := item.type == InlineItemType.Float

def isHardLineBreak (item : InlineItem) : Bool := item.type == InlineItemType.HardLineBreak

def isSoftLineBreak (item : InlineItem) : Bool := item.type == InlineItemType.SoftLineBreak

def isLineBreak (item : InlineItem) : Bool := item.isHardLineBreak || item.isSoftLineBreak

def isContainerStart (item : InlineItem) : Bool := item.type == InlineItemType.ContainerStart

def isContainerEnd (item : InlineItem) : Bool := item.type == InlineItemType.ContainerEnd

/-- `InlineTextItem::isWhitespace`. -/
def isWhitespace (item : InlineItem) : Bool := item.textItemType == TextItemType.Whitespace

end InlineItem

/-- Result of `TextUtil::split`. -/
structure SplitData where
  start : Nat := 0
  length : Nat := 0
  logicalWidth : InlineLayoutUnit := 0
  deriving DecidableEq, Repr

/-- The functions the line breaker calls and that live outside these sources.

* `width box from to` is `TextUtil::width`;
* `split box start length textWidth availableWidth` is `TextUtil::split` (its
  last argument, the content logical left, is always `{ }` here);
* `shouldPreserveTrailingWhitespace` is the `TextUtil` predicate on styles;
* `canHyphenate`, `lastHyphenLocation text beforeIndex locale` are those of
  `Hyphenation.h`;
* `enoughWidthForHyphenation availableWidth fontPixelSize` is the rendering
  heuristic of the same name. -/
structure Collaborators where
  width : Box → Nat → Nat → InlineLayoutUnit
  split : Box → Nat → Nat → InlineLayoutUnit → InlineLayoutUnit → SplitData
  shouldPreserveTrailingWhitespace : RenderStyle → Bool
  canHyphenate : String → Bool
  lastHyphenLocation : List Char → Nat → String → Nat
  enoughWidthForHyphenation : InlineLayoutUnit → Int → Bool

/-- Conversion of a signed value to `unsigned` (32 bit). -/
def toUnsigned (v : Int) : Nat := (v % 4294967296).toNat

namespace LineBreaker

/-- `BreakingContext::ContentWrappingRule`. -/
inductive ContentWrappingRule where
  | Keep | Split | Push
  deriving DecidableEq, Repr

/-- `BreakingContext::PartialTrailingContent`. -/
structure PartialTrailingContent where
  runIndex : Nat := 0
  length : Nat := 0
  logicalWidth : InlineLayoutUnit := 0
  needsHyphen : Bool := false
  deriving DecidableEq, Repr

/-- `LineBreaker::BreakingContext`. -/
structure BreakingContext where
  contentWrappingRule : ContentWrappingRule
  partialTrailingContent : Option PartialTrailingContent
  deriving DecidableEq, Repr

/-- `LineBreaker::LeftSide`. -/
structure LeftSide where
  length : Nat := 0
  logicalWidth : InlineLayoutUnit := 0
  needsHyphen : Bool := false
  deriving DecidableEq, Repr

/-- `LineBreaker::LineStatus`. -/
structure LineStatus where
  availableWidth : InlineLayoutUnit
  trimmableWidth : InlineLayoutUnit
  lineHasFullyTrimmableTrailingRun : Bool
  lineIsEmpty : Bool
  deriving DecidableEq, Repr

namespace Content

/-- `LineBreaker::Content::Run`. -/
structure Run where
  inlineItem : InlineItem
  logicalWidth : InlineLayoutUnit := 0
  deriving DecidableEq, Repr

/-- `LineBreaker::Content::TrailingTrimmableContent`. -/
structure TrailingTrimmableContent where
  isFullyTrimmable : Bool := false
  width : InlineLayoutUnit := 0
  deriving DecidableEq, Repr

/-- `TrailingTrimmableContent::reset`. -/
def TrailingTrimmableContent.reset (_t : TrailingTrimmableContent) : TrailingTrimmableContent :=
  { isFullyTrimmable := false, width := 0 }

end Content

/-- `LineBreaker::Content`: the candidate runs with the cached total width and
the trailing trimmable state. -/
structure Content where
  m_continousRuns : List Content.Run := []
  m_trailingTrimmableContent : Content.TrailingTrimmableContent := {}
  m_width : InlineLayoutUnit := 0
  deriving DecidableEq, Repr

namespace Content

/-- Modelled from the spec: the accessors of `Content` are defined in
`InlineLineBreaker.h`, which is not among the sources. `runs()` is the run
list. -/
def runs (c : Content) : List Run := c.m_continousRuns

/-- Modelled from the spec: `isEmpty()` of the missing header, the run list is
empty. -/
def isEmpty (c : Content) : Bool := c.m_continousRuns.isEmpty

/-- Modelled from the spec: `size()` of the missing header. -/
def size (c : Content) : Nat := c.m_continousRuns.length

/-- Modelled from the spec: `width()` of the missing header, the candidate's
total width as cached by `append`. -/
def width (c : Content) : InlineLayoutUnit := c.m_width

/-- Modelled from the spec: `nonTrimmableWidth()` of the missing header, the
"width excluding that trailing trimmable content". -/
def nonTrimmableWidth (c : Content) : InlineLayoutUnit :=
  c.m_width - c.m_trailingTrimmableContent.width

/-- Modelled from the spec: `hasTrailingTrimmableContent()` of the missing
header, the candidate has a non-zero trailing trimmable width. -/
def hasTrailingTrimmableContent (c : Content) : Bool :=
  decide (c.m_trailingTrimmableContent.width ≠ 0)

/-- Modelled from the spec: `isTrailingContentFullyTrimmable()` of the missing
header. -/
def isTrailingContentFullyTrimmable (c : Content) : Bool :=
  c.m_trailingTrimmableContent.isFullyTrimmable

/-- `Content::reset`. -/
def reset (_c : Content) : Content :=
  { m_continousRuns := [], m_trailingTrimmableContent := { isFullyTrimmable := false, width := 0 },
    m_width := 0 }

/-- `Content::append` (its assertions are debug-only and not part of the
state change). -/
def append (o : Collaborators) (c : Content) (inlineItem : InlineItem)
    (logicalWidth : InlineLayoutUnit) : Content :=
  let c1 : Content :=
    { c with
      m_continousRuns := c.m_continousRuns ++ [{ inlineItem := inlineItem, logicalWidth := logicalWidth }]
      m_width := c.m_width + logicalWidth }
  if inlineItem.isBox || inlineItem.isLineBreak then
    { c1 with m_trailingTrimmableContent := c1.m_trailingTrimmableContent.reset }
  else if inlineItem.isText then
    let isFullyTrimmable : Bool :=
      inlineItem.isWhitespace && !o.shouldPreserveTrailingWhitespace inlineItem.style
    if isFullyTrimmable then
      { c1 with
        m_trailingTrimmableContent :=
          { isFullyTrimmable := true, width := c1.m_trailingTrimmableContent.width + logicalWidth } }
    else if inlineItem.style.letterSpacing ≠ 0 then
      { c1 with
        m_trailingTrimmableContent :=
          { isFullyTrimmable := false, width := inlineItem.style.letterSpacing } }
    else
      { c1 with m_trailingTrimmableContent := c1.m_trailingTrimmableContent.reset }
  else
    c1

/-- A candidate as the caller assembles it: an empty `Content` (the state
`reset` leaves) followed by one `append` per (item, width) pair, in order. -/
def ofRuns (o : Collaborators) (items : List (InlineItem × InlineLayoutUnit)) : Content :=
  items.foldl (fun c p => c.append o p.1 p.2) {}

/-- `Content::hasTextContentOnly`, on the run list. -/
def hasTextContentOnlyIn : List Run → Bool
  | [] => false
  | run :: rest =>
    if run.inlineItem.isContainerStart || run.inlineItem.isContainerEnd then
      hasTextContentOnlyIn rest
    else
      run.inlineItem.isText

/-- `Content::hasTextContentOnly`. -/
def hasTextContentOnly (c : Content) : Bool := hasTextContentOnlyIn c.m_continousRuns

/-- `Content::hasNonContentRunsOnly`, on the run list. -/
def hasNonContentRunsOnlyIn : List Run → Bool
  | [] => true
  | run :: rest =>
    if run.inlineItem.isContainerStart || run.inlineItem.isContainerEnd then
      hasNonContentRunsOnlyIn rest
    else
      false

/-- `Content::hasNonContentRunsOnly`. -/
def hasNonContentRunsOnly (c : Content) : Bool := hasNonContentRunsOnlyIn c.m_continousRuns

/-- The run is not a container marker: the test both loops above make before
they look at a run. -/
def isContentRun (run : Run) : Bool :=
  !(run.inlineItem.isContainerStart || run.inlineItem.isContainerEnd)

/-- The first run of the candidate that is not a container marker. -/
def firstContentRun (c : Content) : Option Run := c.m_continousRuns.find? isContentRun

end Content

/-- `isContentWrappingAllowed` (static helper). -/
def isContentWrappingAllowed (run : Content.Run) : Bool :=
  if !run.inlineItem.isText then
    false
  else
    run.inlineItem.style.whiteSpace != WhiteSpace.Pre
      && run.inlineItem.style.whiteSpace != WhiteSpace.NoWrap

/-- `isTrailingWhitespaceWithPreWrap` (static helper). -/
def isTrailingWhitespaceWithPreWrap (trailingInlineItem : InlineItem) : Bool :=
  if !trailingInlineItem.isText then
    false
  else
    trailingInlineItem.style.whiteSpace == WhiteSpace.PreWrap && trailingInlineItem.isWhitespace

/-- `LineBreaker::shouldWrapFloatBox`. -/
def shouldWrapFloatBox (floatLogicalWidth availableWidth : InlineLayoutUnit)
    (lineIsEmpty : Bool) : Bool :=
  !lineIsEmpty && decide (floatLogicalWidth > availableWidth)

end LineBreaker

/-- The line breaker object: its only member is the hyphenation switch. -/
structure LineBreaker where
  n_hyphenationIsDisabled : Bool := false
  deriving DecidableEq, Repr

namespace LineBreaker

/-- The `unsigned limitBefore` of `tryBreakingTextRun`. -/
def hyphenationLimitBefore (style : RenderStyle) : Nat :=
  if style.hyphenationLimitBefore = RenderStyle.initialHyphenationLimitBefore then 0
  else toUnsigned style.hyphenationLimitBefore

/-- The `unsigned limitAfter` of `tryBreakingTextRun`. -/
def hyphenationLimitAfter (style : RenderStyle) : Nat :=
  if style.hyphenationLimitAfter = RenderStyle.initialHyphenationLimitAfter then 0
  else toUnsigned style.hyphenationLimitAfter

/-- The text of the item, `StringView(textContent).substring(start, length)`. -/
def itemText (item : InlineItem) : List Char :=
  match item.layoutBox.textContext with
  | some textContext => (textContext.content.drop item.start).take item.length
  | none => []

/-- `LineBreaker::tryBreakingTextRun`. -/
def tryBreakingTextRun (o : Collaborators) (self : LineBreaker) (overflowRun : Content.Run)
    (availableWidth : InlineLayoutUnit) : Option LeftSide :=
  let style := overflowRun.inlineItem.style
  let breakWords := style.wordBreak
  if breakWords = WordBreak.KeepAll then
    none
  else
    let inlineTextItem := overflowRun.inlineItem
    if breakWords = WordBreak.BreakAll then
      let splitData := o.split inlineTextItem.layoutBox inlineTextItem.start inlineTextItem.length
        overflowRun.logicalWidth availableWidth
      some { length := splitData.length, logicalWidth := splitData.logicalWidth, needsHyphen := false }
    else if self.n_hyphenationIsDisabled || style.hyphens != Hyphens.Auto
        || !o.canHyphenate style.locale then
      none
    else
      let runLength := inlineTextItem.length
      let limitBefore := hyphenationLimitBefore style
      let limitAfter := hyphenationLimitAfter style
      if limitBefore ≥ runLength ∨ limitAfter ≥ runLength
          ∨ (limitBefore + limitAfter) % 4294967296 > runLength then
        none
      else
        let fontCascade := style.fontCascade
        let hyphenWidth := fontCascade.hyphenStringWidth
        let availableWidthExcludingHyphen := availableWidth - hyphenWidth
        if availableWidthExcludingHyphen ≤ 0
            ∨ o.enoughWidthForHyphenation (availableWidthExcludingHyphen + fontCascade.spaceWidth)
                fontCascade.pixelSize = false then
          none
        else
          let splitData := o.split inlineTextItem.layoutBox inlineTextItem.start runLength
            overflowRun.logicalWidth availableWidthExcludingHyphen
          if splitData.length < limitBefore then
            none
          else
            let hyphenBefore := (min splitData.length (runLength - limitAfter) + 1) % 4294967296
            let hyphenLocation :=
              (o.lastHyphenLocation (itemText inlineTextItem) hyphenBefore style.locale) % 4294967296
            if hyphenLocation = 0 ∨ hyphenLocation < limitBefore then
              none
            else
              some { length := hyphenLocation
                     logicalWidth := o.width inlineTextItem.layoutBox inlineTextItem.start hyphenLocation
                     needsHyphen := true }

/-- Outcome of the first loop of `wordBreakingBehavior`: either the function
returns from inside the loop, or the loop is left (by `break` or by its
condition) with the given value of `index`. -/
inductive ForwardScan where
  | returned (partialTrailingContent : PartialTrailingContent)
  | stopped (index : Nat)
  deriving DecidableEq, Repr

/-- The first loop of `wordBreakingBehavior`, started at `index` with the runs
from `index` on still to visit and `accumulatedRunWidth` the width of the runs
before `index`. -/
def wordBreakingForwardScan (o : Collaborators) (self : LineBreaker)
    (availableWidth : InlineLayoutUnit) :
    List Content.Run → Nat → InlineLayoutUnit → ForwardScan
  | [], index, _ => ForwardScan.stopped index
  | run :: rest, index, accumulatedRunWidth =>
    if accumulatedRunWidth + run.logicalWidth > availableWidth ∧ isContentWrappingAllowed run = true then
      let adjustedAvailableWidth := max 0 (availableWidth - accumulatedRunWidth)
      match tryBreakingTextRun o self run adjustedAvailableWidth with
      | some leftSide =>
        ForwardScan.returned
          { runIndex := index, length := leftSide.length, logicalWidth := leftSide.logicalWidth
            needsHyphen := leftSide.needsHyphen }
      | none => ForwardScan.stopped index
    else
      wordBreakingForwardScan o self availableWidth rest (index + 1)
        (accumulatedRunWidth + run.logicalWidth)

/-- The second loop of `wordBreakingBehavior`, `while (index--)`. -/
def wordBreakingBackwardScan (runs : List Content.Run) : Nat → Option PartialTrailingContent
  | 0 => none
  | index + 1 =>
    match runs[index]? with
    | some run =>
      if isContentWrappingAllowed run then
        some { runIndex := index, length := run.inlineItem.length, logicalWidth := run.logicalWidth
               needsHyphen := false }
      else
        wordBreakingBackwardScan runs index
    | none => none

/-- `LineBreaker::wordBreakingBehavior`. -/
def wordBreakingBehavior (o : Collaborators) (self : LineBreaker) (runs : List Content.Run)
    (availableWidth : InlineLayoutUnit) : Option PartialTrailingContent :=
  match wordBreakingForwardScan o self availableWidth runs 0 0 with
  | ForwardScan.returned partialTrailingContent => some partialTrailingContent
  | ForwardScan.stopped index => wordBreakingBackwardScan runs index

/-- The value of `accumulatedRunWidth` when the first loop of
`wordBreakingBehavior` reaches `index`: the width of the runs before it. -/
def accumulatedRunWidth (runs : List Content.Run) (index : Nat) : InlineLayoutUnit :=
  ((runs.take index).map (fun run => run.logicalWidth)).sum

/-- `LineBreaker::breakingContextForInlineContent`. The result is `none` only
when `runs[0]` or `runs.last()` is taken of an empty run list. -/
def breakingContextForInlineContent (o : Collaborators) (self : LineBreaker)
    (candidateRuns : Content) (lineStatus : LineStatus) : Option BreakingContext :=
  let keep : BreakingContext :=
    { contentWrappingRule := ContentWrappingRule.Keep, partialTrailingContent := none }
  let textOrBox : Option BreakingContext :=
    if candidateRuns.hasTextContentOnly then
      let runs := candidateRuns.runs
      match wordBreakingBehavior o self runs lineStatus.availableWidth with
      | some partialTrailingContent =>
        some { contentWrappingRule := ContentWrappingRule.Split
               partialTrailingContent := some partialTrailingContent }
      | none =>
        match runs[0]?, runs.getLast? with
        | some first, some last =>
          let contentShouldOverflow := lineStatus.lineIsEmpty || !isContentWrappingAllowed first
          let contentShouldOverflow :=
            if isTrailingWhitespaceWithPreWrap last.inlineItem then true else contentShouldOverflow
          some { contentWrappingRule :=
                   if contentShouldOverflow then ContentWrappingRule.Keep else ContentWrappingRule.Push
                 partialTrailingContent := none }
        | _, _ => none
    else
      some { contentWrappingRule :=
               if lineStatus.lineIsEmpty then ContentWrappingRule.Keep else ContentWrappingRule.Push
             partialTrailingContent := none }
  if candidateRuns.width ≤ lineStatus.availableWidth then
    some keep
  else if candidateRuns.hasTrailingTrimmableContent then
    if candidateRuns.nonTrimmableWidth ≤ lineStatus.availableWidth then
      some keep
    else if lineStatus.lineHasFullyTrimmableTrailingRun && candidateRuns.isTrailingContentFullyTrimmable then
      some keep
    else
      textOrBox
  else if decide (lineStatus.trimmableWidth ≠ 0) && candidateRuns.hasNonContentRunsOnly then
    if candidateRuns.width ≤ lineStatus.availableWidth + lineStatus.trimmableWidth then
      some keep
    else
      textOrBox
  else
    textOrBox

end LineBreaker

/-! ## The commit-boundary test -/

namespace LineBreaker

namespace Content

/-- The last run that is not a container marker: the run at which the loop
`for (auto i = content.size(); i--;)` of `isAtContentBoundary` breaks. -/
def lastContentRun (c : Content) : Option Run := c.m_continousRuns.reverse.find? isContentRun

/-- `LineBreaker::Content::isAtContentBoundary`. Two references are to the
same layout box when the ids of the boxes agree. A failed `ASSERT_NOT_REACHED`
does not stop a release build: control falls through to the final
`return true`. -/
def isAtContentBoundary (inlineItem : InlineItem) (content : Content) : Bool :=
  match content.runs.getLast? with
  | none => false
  | some lastRun =>
    let lastUncomittedContent := lastRun.inlineItem
    if inlineItem.isText then
      if inlineItem.isWhitespace then
        true
      else if lastUncomittedContent.isContainerStart then
        false
      else
        let lastUncomittedContent :=
          if lastUncomittedContent.isContainerEnd then
            match content.lastContentRun with
            | some previous => previous.inlineItem
            | none => lastUncomittedContent
          else
            lastUncomittedContent
        if lastRun.inlineItem.isContainerEnd && lastUncomittedContent.isContainerEnd then
          false
        else if lastUncomittedContent.isText then
          if lastUncomittedContent.isWhitespace then
            true
          else if inlineItem.layoutBox.id = lastUncomittedContent.layoutBox.id then
            true
          else
            false
        else if lastUncomittedContent.isBox then
          true
        else
          true
    else if inlineItem.isBox then
      if lastUncomittedContent.isContainerStart then
        false
      else if lastUncomittedContent.isContainerEnd then
        true
      else if lastUncomittedContent.isText || lastUncomittedContent.isBox then
        true
      else
        true
    else if inlineItem.isContainerStart || inlineItem.isContainerEnd then
      if lastUncomittedContent.isContainerStart || lastUncomittedContent.isContainerEnd then
        false
      else if lastUncomittedContent.isText then
        lastUncomittedContent.isWhitespace
      else if lastUncomittedContent.isBox then
        inlineItem.isContainerStart
      else
        true
    else
      true

/-- The content with its trailing container-start and container-end markers
removed (the run list only; the commit-boundary test reads nothing else). -/
def withoutTrailingMarkers (c : Content) : Content :=
  { c with m_continousRuns := c.m_continousRuns.rdropWhile (fun run => !isContentRun run) }

end Content

end LineBreaker

/-! ## Text segmentation (`InlineTextItem.cpp`) -/

/-- Values of `vertical-align`. -/
inductive VerticalAlign where
  | Baseline | Middle | Sub | Super | TextTop | TextBottom | Top | BaselineMiddle | Bottom | Length
  deriving DecidableEq, Repr

/-- What inline layout reads from `style.fontMetrics()`. -/
structure FontMetrics where
  ascent : InlineLayoutUnit := 0
  descent : InlineLayoutUnit := 0
  height : InlineLayoutUnit := 0
  deriving DecidableEq, Repr

/-- The queries on a style that are member functions of `RenderStyle`, a class
outside these sources: each is a function of the style. `nbspModeIsSpace` is
`style.nbspMode() == NBSPMode::Space`. -/
structure StyleQueries where
  preserveNewline : RenderStyle → Bool
  collapseWhiteSpace : RenderStyle → Bool
  autoWrap : RenderStyle → Bool
  nbspModeIsSpace : RenderStyle → Bool
  verticalAlign : RenderStyle → VerticalAlign
  fontMetrics : RenderStyle → FontMetrics
  computedLineHeight : RenderStyle → InlineLayoutUnit

/-- The line break iterator of `BreakLines.h`: the six search functions, each
from the text and a start position to the next breakable position, and the
test `lineBreakIterator.mode() == LineBreakIteratorMode::Default`. -/
structure BreakLines where
  iteratorModeIsDefault : List Char → Bool
  nextBreakablePosition : List Char → Nat → Nat
  nextBreakablePositionIgnoringNBSP : List Char → Nat → Nat
  nextBreakablePositionKeepingAllWords : List Char → Nat → Nat
  nextBreakablePositionKeepingAllWordsIgnoringNBSP : List Char → Nat → Nat
  nextBreakablePositionWithoutShortcut : List Char → Nat → Nat
  nextBreakablePositionIgnoringNBSPWithoutShortcut : List Char → Nat → Nat

/-- Subtraction of `unsigned` values. -/
def unsignedSub (a b : Nat) : Nat := (a + 4294967296 - b) % 4294967296

namespace InlineTextItem

/-- `isWhitespaceCharacter`. Its parameter is a `char`: the code unit taken
from the text is narrowed to 8 bits at the call. -/
def isWhitespaceCharacter (character : Char) (preserveNewline : Bool) : Bool :=
  let narrowed := character.toNat % 256
  narrowed == 32 || narrowed == 9 || (narrowed == 10 && !preserveNewline)

/-- The lambda `isSegmentBreakCandidate` of `createAndAppendTextItems`. -/
def isSegmentBreakCandidate (character : Char) : Bool := character.toNat == 10

/-- `moveToNextNonWhitespacePosition`: the number of whitespace characters
from `startPosition` on. -/
def moveToNextNonWhitespacePosition (textContent : List Char) (startPosition : Nat)
    (preserveNewline : Bool) : Nat :=
  ((textContent.drop startPosition).takeWhile
    (fun character => isWhitespaceCharacter character preserveNewline)).length

/-- The lambda `findNextBreakablePosition` of `moveToNextBreakablePosition`. -/
def findNextBreakablePosition (b : BreakLines) (q : StyleQueries) (text : List Char)
    (style : RenderStyle) (startPosition : Nat) : Nat :=
  let keepAllWordsForCJK := style.wordBreak == WordBreak.KeepAll
  let breakNBSP := q.autoWrap style && q.nbspModeIsSpace style
  if keepAllWordsForCJK then
    if breakNBSP then b.nextBreakablePositionKeepingAllWords text startPosition
    else b.nextBreakablePositionKeepingAllWordsIgnoringNBSP text startPosition
  else if b.iteratorModeIsDefault text then
    if breakNBSP then b.nextBreakablePosition text startPosition
    else b.nextBreakablePositionIgnoringNBSP text startPosition
  else if breakNBSP then b.nextBreakablePositionWithoutShortcut text startPosition
  else b.nextBreakablePositionIgnoringNBSPWithoutShortcut text startPosition

/-- The loop of `moveToNextBreakablePosition`, entered with
`startPositionForNextBreakablePosition = current`; `remaining` counts the
positions from `current` to the end of the text. -/
def moveToNextBreakablePositionFrom (find : Nat → Nat) (startPosition textLength : Nat) :
    Nat → Nat → Nat
  | 0, _ => unsignedSub textLength startPosition
  | remaining + 1, current =>
    if current < textLength then
      if find current ≠ startPosition then
        unsignedSub (find current) startPosition
      else
        moveToNextBreakablePositionFrom find startPosition textLength remaining (current + 1)
    else
      unsignedSub textLength startPosition

/-- `moveToNextBreakablePosition`. -/
def moveToNextBreakablePosition (b : BreakLines) (q : StyleQueries) (startPosition : Nat)
    (text : List Char) (style : RenderStyle) : Nat :=
  moveToNextBreakablePositionFrom (findNextBreakablePosition b q text style) startPosition
    text.length (text.length - startPosition) startPosition

/-- `InlineTextItem::createWhitespaceItem`. -/
def createWhitespaceItem (inlineBox : Box) (start length : Nat)
    (width : Option InlineLayoutUnit) : InlineItem :=
  { layoutBox := inlineBox, type := InlineItemType.Text, start := start, length := length
    width := width, textItemType := TextItemType.Whitespace }

/-- `InlineTextItem::createNonWhitespaceItem`. -/
def createNonWhitespaceItem (inlineBox : Box) (start length : Nat)
    (width : Option InlineLayoutUnit) : InlineItem :=
  { layoutBox := inlineBox, type := InlineItemType.Text, start := start, length := length
    width := width, textItemType := TextItemType.NonWhitespace }

/-- `InlineTextItem::createEmptyItem`: the one-argument constructor leaves the
members at their defaults. -/
def createEmptyItem (inlineBox : Box) : InlineItem :=
  { layoutBox := inlineBox, type := InlineItemType.Text }

/-- `InlineSoftLineBreakItem::createSoftLineBreakItem`. -/
def createSoftLineBreakItem (inlineBox : Box) (position : Nat) : InlineItem :=
  { layoutBox := inlineBox, type := InlineItemType.SoftLineBreak, position := position }

/-- The lambda `inlineItemWidth` of `createAndAppendTextItems`. -/
def inlineItemWidth (o : Collaborators) (inlineBox : Box) (textContext : TextContext)
    (startPosition length : Nat) : Option InlineLayoutUnit :=
  if !textContext.canUseSimplifiedContentMeasuring then none
  else some (o.width inlineBox startPosition (startPosition + length))

/-- The `while` loop of `createAndAppendTextItems`, run for at most `fuel`
iterations; `none` when the fuel does not suffice. -/
def createAndAppendTextItemsFrom (o : Collaborators) (q : StyleQueries) (b : BreakLines)
    (inlineBox : Box) (textContext : TextContext) :
    Nat → Nat → List InlineItem → Option (List InlineItem)
  | 0, currentPosition, inlineContent =>
    if currentPosition < textContext.content.length then none else some inlineContent
  | fuel + 1, currentPosition, inlineContent =>
    if h : currentPosition < textContext.content.length then
      let text := textContext.content
      let style := inlineBox.style
      let character := text.get ⟨currentPosition, h⟩
      if isSegmentBreakCandidate character && q.preserveNewline style then
        createAndAppendTextItemsFrom o q b inlineBox textContext fuel
          ((currentPosition + 1) % 4294967296)
          (inlineContent ++ [createSoftLineBreakItem inlineBox currentPosition])
      else if isWhitespaceCharacter character (q.preserveNewline style) then
        let length := moveToNextNonWhitespacePosition text currentPosition (q.preserveNewline style)
        let simpleSingleWhitespaceContent :=
          textContext.canUseSimplifiedContentMeasuring
            && (length == 1 || q.collapseWhiteSpace style)
        let width :=
          if simpleSingleWhitespaceContent then some style.fontCascade.spaceWidth
          else inlineItemWidth o inlineBox textContext currentPosition length
        createAndAppendTextItemsFrom o q b inlineBox textContext fuel
          ((currentPosition + length) % 4294967296)
          (inlineContent ++ [createWhitespaceItem inlineBox currentPosition length width])
      else
        let length := moveToNextBreakablePosition b q currentPosition text style
        createAndAppendTextItemsFrom o q b inlineBox textContext fuel
          ((currentPosition + length) % 4294967296)
          (inlineContent ++ [createNonWhitespaceItem inlineBox currentPosition length
            (inlineItemWidth o inlineBox textContext currentPosition length)])
    else
      some inlineContent

/-- `InlineTextItem::createAndAppendTextItems`: the inline content with the
items of the box appended. `none` when the box has no text context or the loop
needs more than `fuel` iterations. -/
def createAndAppendTextItems (o : Collaborators) (q : StyleQueries) (b : BreakLines)
    (fuel : Nat) (inlineContent : List InlineItem) (inlineBox : Box) :
    Option (List InlineItem) :=
  match inlineBox.textContext with
  | none => none
  | some textContext =>
    if textContext.content.length = 0 then
      some (inlineContent ++ [createEmptyItem inlineBox])
    else
      createAndAppendTextItemsFrom o q b inlineBox textContext fuel 0 inlineContent

/-- The offset in the text at which an emitted item starts. -/
def textStart (item : InlineItem) : Nat :=
  if item.isSoftLineBreak then item.position else item.start

/-- The number of characters an emitted item stands for: its length for a text
item, 1 for a soft line break, nothing for any other item. -/
def textLength (item : InlineItem) : Nat :=
  if item.isSoftLineBreak then 1 else if item.isText then item.length else 0

/-- The items cover the text from `position` to `textEnd` without gap or
overlap: each starts where the one before ends and has at least one
character. -/
def partitionsText : Nat → List InlineItem → Nat → Bool
  | position, [], textEnd => position == textEnd
  | position, item :: rest, textEnd =>
    textStart item == position && decide (1 ≤ textLength item)
      && partitionsText (position + textLength item) rest textEnd

end InlineTextItem

/-! ## Display geometry

`DisplayRun.h`, `DisplayLineBox.h` and `DisplayInlineRect.h` are not among the
sources; the line builder uses the types below through the member functions
named in the comments. The rectangle, the text context and the display run of
the builder are written over an arbitrary number type `U`, so that the
horizontal alignment can be read both on integral layout units and in exact
arithmetic. -/

namespace Display

/-- Modelled from the spec: `Display::InlineRect`, the logical rectangle
(top, left, width, height) of a run or a line. -/
structure InlineRect (U : Type) where
  top : U
  left : U
  width : U
  height : U
  deriving DecidableEq, Repr

namespace InlineRect

variable {U : Type}

/-- Modelled from the spec: `InlineRect::moveHorizontally`. -/
def moveHorizontally [Add U] (rect : InlineRect U) (offset : U) : InlineRect U :=
  { rect with left := rect.left + offset }

/-- Modelled from the spec: `InlineRect::moveVertically`. -/
def moveVertically [Add U] (rect : InlineRect U) (offset : U) : InlineRect U :=
  { rect with top := rect.top + offset }

/-- Modelled from the spec: `InlineRect::expandHorizontally`. -/
def expandHorizontally [Add U] (rect : InlineRect U) (delta : U) : InlineRect U :=
  { rect with width := rect.width + delta }

/-- Modelled from the spec: `InlineRect::expandVertically`. -/
def expandVertically [Add U] (rect : InlineRect U) (delta : U) : InlineRect U :=
  { rect with height := rect.height + delta }

/-- Modelled from the spec: `InlineRect::right`. -/
def right [Add U] (rect : InlineRect U) : U := rect.left + rect.width

/-- Modelled from the spec: `InlineRect::bottom`. -/
def bottom [Add U] (rect : InlineRect U) : U := rect.top + rect.height

end InlineRect

/-- `ExpansionBehavior`, a set of bit flags. -/
abbrev ExpansionBehavior := Nat

/-- Modelled from the spec: `Display::Run::TextContext::ExpansionContext`. -/
structure ExpansionContext (U : Type) where
  behavior : ExpansionBehavior
  horizontalExpansion : U
  deriving DecidableEq, Repr

/-- Modelled from the spec: `Display::Run::TextContext`, the range
`[start, start + length)` of the text content a run shows, with the expansion
set by justification. -/
structure TextContext (U : Type) where
  start : Nat
  length : Nat
  content : List Char
  expansion : Option (ExpansionContext U) := none
  deriving DecidableEq, Repr

namespace TextContext

variable {U : Type}

/-- Modelled from the spec: `TextContext::expand`, the text context grows to
the given length. -/
def expand (textContext : TextContext U) (expandedLength : Nat) : TextContext U :=
  { textContext with length := expandedLength }

/-- Modelled from the spec: `TextContext::setExpansion`. -/
def setExpansion (textContext : TextContext U) (expansion : ExpansionContext U) :
    TextContext U :=
  { textContext with expansion := some expansion }

end TextContext

/-- Modelled from the spec: `Display::LineBox::Baseline`. -/
structure Baseline where
  ascent : InlineLayoutUnit := 0
  descent : InlineLayoutUnit := 0
  deriving DecidableEq, Repr

/-- Modelled from the spec: `Baseline::height`. -/
def Baseline.height (baseline : Baseline) : InlineLayoutUnit :=
  baseline.ascent + baseline.descent

/-- Modelled from the spec: `Display::LineBox`, one line's logical rectangle,
baseline, baseline offset and emptiness flag. A line box starts out as
considered empty. -/
structure LineBox where
  m_rect : InlineRect InlineLayoutUnit := { top := 0, left := 0, width := 0, height := 0 }
  m_baseline : Baseline := {}
  m_baselineOffset : InlineLayoutUnit := 0
  m_isConsideredEmpty : Bool := true
  deriving DecidableEq, Repr

namespace LineBox

/-- Modelled from the spec: `LineBox::logicalLeft`. -/
def logicalLeft (lineBox : LineBox) : InlineLayoutUnit := lineBox.m_rect.left

/-- Modelled from the spec: `LineBox::logicalRight`. -/
def logicalRight (lineBox : LineBox) : InlineLayoutUnit := lineBox.m_rect.right

/-- Modelled from the spec: `LineBox::logicalTop`. -/
def logicalTop (lineBox : LineBox) : InlineLayoutUnit := lineBox.m_rect.top

/-- Modelled from the spec: `LineBox::logicalBottom`. -/
def logicalBottom (lineBox : LineBox) : InlineLayoutUnit := lineBox.m_rect.bottom

/-- Modelled from the spec: `LineBox::logicalWidth`. -/
def logicalWidth (lineBox : LineBox) : InlineLayoutUnit := lineBox.m_rect.width

/-- Modelled from the spec: `LineBox::logicalHeight`. -/
def logicalHeight (lineBox : LineBox) : InlineLayoutUnit := lineBox.m_rect.height

/-- Modelled from the spec: `LineBox::baseline`. -/
def baseline (lineBox : LineBox) : Baseline := lineBox.m_baseline

/-- Modelled from the spec: `LineBox::baselineOffset`. -/
def baselineOffset (lineBox : LineBox) : InlineLayoutUnit := lineBox.m_baselineOffset

/-- Modelled from the spec: `LineBox::isConsideredEmpty`. -/
def isConsideredEmpty (lineBox : LineBox) : Bool := lineBox.m_isConsideredEmpty

/-- Modelled from the spec: `LineBox::setIsConsideredEmpty`. -/
def setIsConsideredEmpty (lineBox : LineBox) : LineBox :=
  { lineBox with m_isConsideredEmpty := true }

/-- Modelled from the spec: `LineBox::setIsConsideredNonEmpty`. -/
def setIsConsideredNonEmpty (lineBox : LineBox) : LineBox :=
  { lineBox with m_isConsideredEmpty := false }

/-- Modelled from the spec: `LineBox::expandHorizontally`. -/
def expandHorizontally (lineBox : LineBox) (delta : InlineLayoutUnit) : LineBox :=
  { lineBox with m_rect := lineBox.m_rect.expandHorizontally delta }

/-- Modelled from the spec: `LineBox::shrinkHorizontally`. -/
def shrinkHorizontally (lineBox : LineBox) (delta : InlineLayoutUnit) : LineBox :=
  lineBox.expandHorizontally (-delta)

/-- Modelled from the spec: `LineBox::shrinkVertically`. -/
def shrinkVertically (lineBox : LineBox) (delta : InlineLayoutUnit) : LineBox :=
  { lineBox with m_rect := lineBox.m_rect.expandVertically (-delta) }

/-- Modelled from the spec: `LineBox::moveHorizontally`. -/
def moveHorizontally (lineBox : LineBox) (delta : InlineLayoutUnit) : LineBox :=
  { lineBox with m_rect := lineBox.m_rect.moveHorizontally delta }

/-- Modelled from the spec: `LineBox::setLogicalHeight`. -/
def setLogicalHeight (lineBox : LineBox) (logicalHeight : InlineLayoutUnit) : LineBox :=
  { lineBox with m_rect := { lineBox.m_rect with height := logicalHeight } }

/-- Modelled from the spec: `LineBox::setLogicalHeightIfGreater`. -/
def setLogicalHeightIfGreater (lineBox : LineBox) (logicalHeight : InlineLayoutUnit) : LineBox :=
  if logicalHeight ≤ lineBox.m_rect.height then lineBox else lineBox.setLogicalHeight logicalHeight

/-- Modelled from the spec: `LineBox::setBaselineOffsetIfGreater`. -/
def setBaselineOffsetIfGreater (lineBox : LineBox) (baselineOffset : InlineLayoutUnit) : LineBox :=
  { lineBox with m_baselineOffset := max baselineOffset lineBox.m_baselineOffset }

/-- Modelled from the spec: `LineBox::setAscentIfGreater`; a greater ascent
also pushes the baseline offset. -/
def setAscentIfGreater (lineBox : LineBox) (ascent : InlineLayoutUnit) : LineBox :=
  if ascent < lineBox.m_baseline.ascent then lineBox
  else
    let moved := lineBox.setBaselineOffsetIfGreater ascent
    { moved with m_baseline := { moved.m_baseline with ascent := ascent } }

/-- Modelled from the spec: `LineBox::setDescentIfGreater`. -/
def setDescentIfGreater (lineBox : LineBox) (descent : InlineLayoutUnit) : LineBox :=
  if descent < lineBox.m_baseline.descent then lineBox
  else { lineBox with m_baseline := { lineBox.m_baseline with descent := descent } }

/-- Modelled from the spec: `LineBox::resetBaseline`. -/
def resetBaseline (lineBox : LineBox) : LineBox :=
  { lineBox with m_baselineOffset := 0, m_baseline := { ascent := 0, descent := 0 } }

/-- Modelled from the spec: `LineBox::resetDescent`. -/
def resetDescent (lineBox : LineBox) : LineBox :=
  { lineBox with m_baseline := { lineBox.m_baseline with descent := 0 } }

end LineBox

end Display

/-! ## The line builder (`InlineLineBuilder.h`, `InlineLineBuilder.cpp`) -/

/-- `TextAlignMode`. -/
inductive TextAlignMode where
  | Left | Right | Center | Justify | WebKitLeft | WebKitRight | WebKitCenter | Start | End
  deriving DecidableEq, Repr

/-- What the line builder reads from the geometry of a box
(`formattingContext().geometryForBox(layoutBox)`). -/
structure BoxGeometry where
  borderLeft : InlineLayoutUnit := 0
  borderRight : InlineLayoutUnit := 0
  borderTop : InlineLayoutUnit := 0
  paddingLeft : Option InlineLayoutUnit := none
  paddingRight : Option InlineLayoutUnit := none
  paddingTop : Option InlineLayoutUnit := none
  horizontalMarginStart : InlineLayoutUnit := 0
  horizontalMarginEnd : InlineLayoutUnit := 0
  marginBefore : InlineLayoutUnit := 0
  height : InlineLayoutUnit := 0
  marginBoxHeight : InlineLayoutUnit := 0
  contentBoxHeight : InlineLayoutUnit := 0
  deriving DecidableEq, Repr

/-- The values of the `ExpansionBehavior` flags (`TextFlags.h`). -/
structure ExpansionFlags where
  forbidTrailingExpansion : Display.ExpansionBehavior
  allowTrailingExpansion : Display.ExpansionBehavior
  forbidLeadingExpansion : Display.ExpansionBehavior
  allowLeadingExpansion : Display.ExpansionBehavior
  defaultExpansion : Display.ExpansionBehavior

namespace LineBuilder

/-- `LineBuilder::Run`, the display run the builder hands out. -/
structure Run (U : Type) where
  m_layoutBox : Box
  m_type : InlineItemType
  m_logicalRect : Display.InlineRect U
  m_textContext : Option (Display.TextContext U)
  m_expansionOpportunityCount : Nat := 0
  m_isCollapsedToVisuallyEmpty : Bool := false
  deriving DecidableEq, Repr

namespace Run

variable {U : Type}

def isText (run : Run U) : Bool := run.m_type == InlineItemType.Text

def isBox (run : Run U) : Bool := run.m_type == InlineItemType.Box

def isLineBreak (run : Run U) : Bool :=
  run.m_type == InlineItemType.HardLineBreak || run.m_type == InlineItemType.SoftLineBreak

def isContainerStart (run : Run U) : Bool := run.m_type == InlineItemType.ContainerStart

def isContainerEnd (run : Run U) : Bool := run.m_type == InlineItemType.ContainerEnd

def layoutBox (run : Run U) : Box := run.m_layoutBox

def style (run : Run U) : RenderStyle := run.m_layoutBox.style

def logicalRect (run : Run U) : Display.InlineRect U := run.m_logicalRect

def textContext (run : Run U) : Option (Display.TextContext U) := run.m_textContext

def adjustLogicalTop (run : Run U) (logicalTop : U) : Run U :=
  { run with m_logicalRect := { run.m_logicalRect with top := logicalTop } }

def moveHorizontally [Add U] (run : Run U) (offset : U) : Run U :=
  { run with m_logicalRect := run.m_logicalRect.moveHorizontally offset }

def moveVertically [Add U] (run : Run U) (offset : U) : Run U :=
  { run with m_logicalRect := run.m_logicalRect.moveVertically offset }

def setLogicalHeight (run : Run U) (logicalHeight : U) : Run U :=
  { run with m_logicalRect := { run.m_logicalRect with height := logicalHeight } }

def hasExpansionOpportunity (run : Run U) : Bool := run.m_expansionOpportunityCount != 0

def expansionOpportunityCount (run : Run U) : Nat := run.m_expansionOpportunityCount

/-- `Run::expansionBehavior`. -/
def expansionBehavior (run : Run U) : Option Display.ExpansionBehavior :=
  match run.m_textContext with
  | some textContext => textContext.expansion.map (fun expansion => expansion.behavior)
  | none => none

/-- `Run::adjustExpansionBehavior`: the behavior changes, the horizontal
expansion stays. A run without text context or expansion is left alone (the
source asserts that it has both). -/
def adjustExpansionBehavior (run : Run U) (expansionBehavior : Display.ExpansionBehavior) :
    Run U :=
  match run.m_textContext with
  | some textContext =>
    match textContext.expansion with
    | some expansion =>
      { run with
        m_textContext := some (textContext.setExpansion
          { behavior := expansionBehavior, horizontalExpansion := expansion.horizontalExpansion }) }
    | none => run
  | none => run

/-- `Run::setComputedHorizontalExpansion`: the rectangle grows by the
expansion, which is recorded in the text context with the behavior kept. -/
def setComputedHorizontalExpansion [Add U] (run : Run U) (logicalExpansion : U) : Run U :=
  let expanded : Run U :=
    { run with m_logicalRect := run.m_logicalRect.expandHorizontally logicalExpansion }
  match run.m_textContext with
  | some textContext =>
    match textContext.expansion with
    | some expansion =>
      { expanded with
        m_textContext := some (textContext.setExpansion
          { behavior := expansion.behavior, horizontalExpansion := logicalExpansion }) }
    | none => expanded
  | none => expanded

end Run

/-- `LineBuilder::InlineItemRun`, a run committed to the open line. -/
structure InlineItemRun where
  m_inlineItem : InlineItem
  m_logicalLeft : InlineLayoutUnit := 0
  m_logicalWidth : InlineLayoutUnit := 0
  m_textContext : Option (Display.TextContext InlineLayoutUnit) := none
  m_isCollapsed : Bool := false
  m_collapsedToZeroAdvanceWidth : Bool := false
  deriving DecidableEq, Repr

namespace InlineItemRun

def layoutBox (run : InlineItemRun) : Box := run.m_inlineItem.layoutBox

def style (run : InlineItemRun) : RenderStyle := run.m_inlineItem.layoutBox.style

def logicalLeft (run : InlineItemRun) : InlineLayoutUnit := run.m_logicalLeft

def logicalWidth (run : InlineItemRun) : InlineLayoutUnit := run.m_logicalWidth

def textContext (run : InlineItemRun) : Option (Display.TextContext InlineLayoutUnit) :=
  run.m_textContext

def isText (run : InlineItemRun) : Bool := run.m_inlineItem.isText

def isBox (run : InlineItemRun) : Bool := run.m_inlineItem.isBox

def isContainerStart (run : InlineItemRun) : Bool := run.m_inlineItem.isContainerStart

def isContainerEnd (run : InlineItemRun) : Bool := run.m_inlineItem.isContainerEnd

def isLineBreak (run : InlineItemRun) : Bool := run.m_inlineItem.isLineBreak

def type (run : InlineItemRun) : InlineItemType := run.m_inlineItem.type

def setIsCollapsed (run : InlineItemRun) : InlineItemRun := { run with m_isCollapsed := true }

def isCollapsed (run : InlineItemRun) : Bool := run.m_isCollapsed

def moveHorizontally (run : InlineItemRun) (offset : InlineLayoutUnit) : InlineItemRun :=
  { run with m_logicalLeft := run.m_logicalLeft + offset }

def isCollapsedToZeroAdvanceWidth (run : InlineItemRun) : Bool :=
  run.m_collapsedToZeroAdvanceWidth

/-- `InlineItemRun::isWhitespace`. -/
def isWhitespace (run : InlineItemRun) : Bool :=
  run.m_inlineItem.isText && run.m_inlineItem.isWhitespace

/-- Modelled from the spec: `InlineTextItem::isCollapsible` is declared in
`InlineTextItem.h`, which is not among the sources; a collapsible item is
whitespace of a style that collapses white space. -/
def itemIsCollapsible (q : StyleQueries) (inlineItem : InlineItem) : Bool :=
  inlineItem.isWhitespace && q.collapseWhiteSpace inlineItem.style

/-- `InlineItemRun::isCollapsible`. -/
def isCollapsible (q : StyleQueries) (run : InlineItemRun) : Bool :=
  run.m_inlineItem.isText && itemIsCollapsible q run.m_inlineItem

def hasExpansionOpportunity (run : InlineItemRun) : Bool :=
  run.isWhitespace && !run.isCollapsedToZeroAdvanceWidth

/-- `InlineItemRun::isTrimmableWhitespace`. -/
def isTrimmableWhitespace (o : Collaborators) (run : InlineItemRun) : Bool :=
  if !run.isWhitespace then false
  else !o.shouldPreserveTrailingWhitespace run.style

/-- `InlineItemRun::hasTrailingLetterSpacing`. -/
def hasTrailingLetterSpacing (run : InlineItemRun) : Bool :=
  !run.isWhitespace && decide (run.style.letterSpacing > 0)

/-- `InlineItemRun::trailingLetterSpacing`. -/
def trailingLetterSpacing (run : InlineItemRun) : InlineLayoutUnit :=
  if !run.hasTrailingLetterSpacing then 0 else run.style.letterSpacing

/-- `InlineItemRun::setCollapsesToZeroAdvanceWidth`. -/
def setCollapsesToZeroAdvanceWidth (run : InlineItemRun) : InlineItemRun :=
  { run with m_collapsedToZeroAdvanceWidth := true, m_logicalWidth := 0 }

/-- `InlineItemRun::removeTrailingLetterSpacing`. -/
def removeTrailingLetterSpacing (run : InlineItemRun) : InlineItemRun :=
  { run with m_logicalWidth := run.m_logicalWidth - run.trailingLetterSpacing }

end InlineItemRun

/-- `LineBuilder::TrimmableContent`: the members kept beside the reference to
the run list of the builder. -/
structure TrimmableContent where
  m_firstRunIndex : Option Nat := none
  m_width : InlineLayoutUnit := 0
  m_lastRunIsFullyTrimmable : Bool := false
  deriving DecidableEq, Repr

namespace TrimmableContent

def width (t : TrimmableContent) : InlineLayoutUnit := t.m_width

def firstRunIndex (t : TrimmableContent) : Option Nat := t.m_firstRunIndex

def isEmpty (t : TrimmableContent) : Bool := !t.m_firstRunIndex.isSome

def isTrailingRunFullyTrimmable (t : TrimmableContent) : Bool := t.m_lastRunIsFullyTrimmable

def isTrailingRunPartiallyTrimmable (t : TrimmableContent) : Bool :=
  !t.isEmpty && !t.isTrailingRunFullyTrimmable

/-- `TrimmableContent::reset`. -/
def reset (_t : TrimmableContent) : TrimmableContent :=
  { m_firstRunIndex := none, m_width := 0, m_lastRunIsFullyTrimmable := false }

/-- `TrimmableContent::append`. An index outside the run list (a failed
bounds check) leaves the content as it is. -/
def append (o : Collaborators) (runs : List InlineItemRun) (t : TrimmableContent)
    (runIndex : Nat) : TrimmableContent :=
  match runs[runIndex]? with
  | none => t
  | some trimmableRun =>
    let isFullyTrimmable := trimmableRun.isTrimmableWhitespace o
    let trimmableWidth :=
      if isFullyTrimmable then trimmableRun.logicalWidth else trimmableRun.trailingLetterSpacing
    let trimmableWidth := max 0 trimmableWidth
    { m_width := t.m_width + trimmableWidth
      m_lastRunIsFullyTrimmable := isFullyTrimmable
      m_firstRunIndex := some (t.m_firstRunIndex.getD runIndex) }

/-- The loop of `TrimmableContent::trim` over the runs from the first
trimmable index on, entered with `accumulatedTrimmedWidth`: the runs as the
loop leaves them and the final accumulated width. -/
def trimRunsFrom : List InlineItemRun → InlineLayoutUnit → List InlineItemRun × InlineLayoutUnit
  | [], accumulatedTrimmedWidth => ([], accumulatedTrimmedWidth)
  | run :: rest, accumulatedTrimmedWidth =>
    let run := run.moveHorizontally (-accumulatedTrimmedWidth)
    if !run.isText then
      let result := trimRunsFrom rest accumulatedTrimmedWidth
      (run :: result.1, result.2)
    else if run.isWhitespace then
      let result := trimRunsFrom rest (accumulatedTrimmedWidth + run.logicalWidth)
      (run.setCollapsesToZeroAdvanceWidth :: result.1, result.2)
    else
      let result := trimRunsFrom rest (accumulatedTrimmedWidth + run.trailingLetterSpacing)
      (run.removeTrailingLetterSpacing :: result.1, result.2)

/-- `TrimmableContent::trim`: the run list and the trimmable content after the
call, and the returned width. Called on an empty trimmable content (the source
asserts it is not) it changes nothing and returns 0. -/
def trim (runs : List InlineItemRun) (t : TrimmableContent) :
    List InlineItemRun × TrimmableContent × InlineLayoutUnit :=
  match t.m_firstRunIndex with
  | none => (runs, t, 0)
  | some firstRunIndex =>
    let result := trimRunsFrom (runs.drop firstRunIndex) 0
    (runs.take firstRunIndex ++ result.1, t.reset, result.2)

/-- The loop of `TrimmableContent::trimTrailingRun`,
`for (auto index = size; index-- && *m_firstRunIndex >= index;)`, entered with
the value of `index` before the decrement. -/
def trimTrailingRunFrom (runs : List InlineItemRun) (t : TrimmableContent) (firstRunIndex : Nat) :
    Nat → List InlineItemRun × TrimmableContent × InlineLayoutUnit
  | 0 => (runs, t, 0)
  | index + 1 =>
    if firstRunIndex ≥ index then
      match runs[index]? with
      | none => (runs, t, 0)
      | some run =>
        if !run.isText then
          trimTrailingRunFrom runs t firstRunIndex index
        else
          let trimmedWidth :=
            if run.isWhitespace then run.logicalWidth else run.trailingLetterSpacing
          let trimmedRun :=
            if run.isWhitespace then run.setCollapsesToZeroAdvanceWidth
            else run.removeTrailingLetterSpacing
          let t1 := { t with m_width := t.m_width - trimmedWidth }
          let t2 := if index = firstRunIndex then { t1 with m_firstRunIndex := none } else t1
          (runs.set index trimmedRun, t2, trimmedWidth)
    else
      (runs, t, 0)

/-- `TrimmableContent::trimTrailingRun`. Called on an empty trimmable content
(the source asserts it is not) it changes nothing and returns 0. -/
def trimTrailingRun (runs : List InlineItemRun) (t : TrimmableContent) :
    List InlineItemRun × TrimmableContent × InlineLayoutUnit :=
  match t.m_firstRunIndex with
  | none => (runs, t, 0)
  | some firstRunIndex => trimTrailingRunFrom runs t firstRunIndex runs.length

end TrimmableContent

/-- `LineBuilder::Constraints::HeightAndBaseline`. -/
structure HeightAndBaseline where
  height : InlineLayoutUnit := 0
  baselineOffset : InlineLayoutUnit := 0
  strut : Option Display.Baseline := none
  deriving DecidableEq, Repr

/-- `LineBuilder::Constraints`; `logicalTopLeft` is given by its two
coordinates. -/
structure Constraints where
  logicalLeft : InlineLayoutUnit := 0
  logicalTop : InlineLayoutUnit := 0
  availableLogicalWidth : InlineLayoutUnit := 0
  lineIsConstrainedByFloat : Bool := false
  heightAndBaseline : Option HeightAndBaseline := none
  deriving DecidableEq, Repr

/-- The inline formatting context and the layout state, as far as the line
builder queries them: the geometry of a box, the kind of a box, the last line
box of the formatting context an inline-block establishes, the quirk
`lineDescentNeedsCollapsing`, and the expansion flags. -/
structure FormattingContext where
  geometryForBox : Box → BoxGeometry
  replaced : Box → Bool
  isFloatingPositioned : Box → Bool
  isInlineBlockBox : Box → Bool
  establishesFormattingContext : Box → Bool
  establishesInlineFormattingContext : Box → Bool
  lastLineBox : Box → Display.LineBox
  lineDescentNeedsCollapsing : List (Run InlineLayoutUnit) → Bool
  flags : ExpansionFlags

/-- Everything the line builder calls outside its own code. -/
structure Environment where
  o : Collaborators
  q : StyleQueries
  fc : FormattingContext

end LineBuilder

/-- The data members of `LineBuilder` (the reference to the formatting context
is the `Environment` passed to the member functions). -/
structure LineBuilder where
  m_inlineItemRuns : List LineBuilder.InlineItemRun := []
  m_trimmableContent : LineBuilder.TrimmableContent := {}
  m_initialStrut : Option Display.Baseline := none
  m_lineLogicalWidth : InlineLayoutUnit := 0
  m_horizontalAlignment : Option TextAlignMode := none
  m_skipAlignment : Bool := false
  m_hasIntrusiveFloat : Bool := false
  m_lineBox : Display.LineBox := {}
  m_lineIsVisuallyEmptyBeforeTrimmableContent : Option Bool := none
  deriving DecidableEq, Repr

namespace LineBuilder

/-- `LineBuilder::IsLastLineWithInlineContent`. -/
inductive IsLastLineWithInlineContent where
  | No | Yes
  deriving DecidableEq, Repr

def isVisuallyEmpty (s : LineBuilder) : Bool := s.m_lineBox.isConsideredEmpty

def hasIntrusiveFloat (s : LineBuilder) : Bool := s.m_hasIntrusiveFloat

def logicalTop (s : LineBuilder) : InlineLayoutUnit := s.m_lineBox.logicalTop

def logicalBottom (s : LineBuilder) : InlineLayoutUnit := s.m_lineBox.logicalBottom

def logicalLeft (s : LineBuilder) : InlineLayoutUnit := s.m_lineBox.logicalLeft

def logicalWidth (s : LineBuilder) : InlineLayoutUnit := s.m_lineLogicalWidth

def logicalRight (s : LineBuilder) : InlineLayoutUnit := s.logicalLeft + s.logicalWidth

def logicalHeight (s : LineBuilder) : InlineLayoutUnit := s.m_lineBox.logicalHeight

def contentLogicalWidth (s : LineBuilder) : InlineLayoutUnit := s.m_lineBox.logicalWidth

def contentLogicalRight (s : LineBuilder) : InlineLayoutUnit := s.m_lineBox.logicalRight

def baselineOffset (s : LineBuilder) : InlineLayoutUnit := s.m_lineBox.baselineOffset

def availableWidth (s : LineBuilder) : InlineLayoutUnit := s.logicalWidth - s.contentLogicalWidth

def trailingTrimmableWidth (s : LineBuilder) : InlineLayoutUnit := s.m_trimmableContent.width

def isTrailingRunFullyTrimmable (s : LineBuilder) : Bool :=
  s.m_trimmableContent.isTrailingRunFullyTrimmable

def isTextAlignJustify (s : LineBuilder) : Bool :=
  s.m_horizontalAlignment == some TextAlignMode.Justify

def lineBox (s : LineBuilder) : Display.LineBox := s.m_lineBox

/-- The text content of the box of an item
(`inlineItem.layoutBox().textContext()->content`). -/
def boxContent (box : Box) : List Char :=
  match box.textContext with
  | some textContext => textContext.content
  | none => []

/-- `shouldPreserveLeadingContent` (static helper). -/
def shouldPreserveLeadingContent (inlineTextItem : InlineItem) : Bool :=
  if !inlineTextItem.isWhitespace then true
  else
    inlineTextItem.style.whiteSpace == WhiteSpace.Pre
      || inlineTextItem.style.whiteSpace == WhiteSpace.PreWrap
      || inlineTextItem.style.whiteSpace == WhiteSpace.BreakSpaces

/-- `LineBuilder::isVisuallyNonEmpty`. -/
def isVisuallyNonEmpty (env : Environment) (s : LineBuilder) (run : InlineItemRun) : Bool :=
  if run.isText then
    !run.isCollapsedToZeroAdvanceWidth
  else if run.isContainerStart || run.isContainerEnd then
    if run.logicalWidth = 0 then false
    else
      let boxGeometry := env.fc.geometryForBox run.layoutBox
      if run.isContainerStart then
        decide (boxGeometry.borderLeft ≠ 0)
          || (boxGeometry.paddingLeft.isSome && decide (boxGeometry.paddingLeft.getD 0 ≠ 0))
      else
        decide (boxGeometry.borderRight ≠ 0)
          || (boxGeometry.paddingRight.isSome && decide (boxGeometry.paddingRight.getD 0 ≠ 0))
  else if run.isLineBreak then
    true
  else if run.isBox then
    if !env.fc.establishesFormattingContext run.layoutBox then true
    else if run.logicalWidth = 0 then false
    else if s.m_skipAlignment || decide ((env.fc.geometryForBox run.layoutBox).height ≠ 0) then true
    else false
  else
    false

/-- The loop of the lambda `willCollapseCompletely` over the committed runs,
last run first. -/
def precedingContentIsCollapsible (q : StyleQueries) : List InlineItemRun → Bool
  | [] => true
  | run :: previous =>
    if run.isBox then false
    else if run.isText then run.isCollapsible q
    else precedingContentIsCollapsible q previous

/-- The lambda `willCollapseCompletely` of `appendTextContent`. -/
def willCollapseCompletely (env : Environment) (s : LineBuilder) (inlineItem : InlineItem) :
    Bool :=
  if inlineItem.length = 0 then true
  else if s.m_inlineItemRuns.isEmpty then !shouldPreserveLeadingContent inlineItem
  else if !InlineItemRun.itemIsCollapsible env.q inlineItem then false
  else precedingContentIsCollapsible env.q s.m_inlineItemRuns.reverse

/-- The run `appendTextContent` appends (`lineRun`), with the flags set as in
the first half of the function. -/
def textRunOf (env : Environment) (s : LineBuilder) (inlineItem : InlineItem)
    (logicalWidth : InlineLayoutUnit) : InlineItemRun :=
  let collapsesToZeroAdvanceWidth := willCollapseCompletely env s inlineItem
  let collapsedRun :=
    InlineItemRun.itemIsCollapsible env.q inlineItem && decide (inlineItem.length > 1)
  let contentStart := inlineItem.start
  let contentLength := if collapsedRun then 1 else inlineItem.length
  let lineRun : InlineItemRun :=
    { m_inlineItem := inlineItem, m_logicalLeft := s.contentLogicalWidth
      m_logicalWidth := logicalWidth
      m_textContext := some { start := contentStart, length := contentLength
                              content := boxContent inlineItem.layoutBox } }
  let lineRun := if collapsesToZeroAdvanceWidth then lineRun.setCollapsesToZeroAdvanceWidth else lineRun
  if collapsedRun then lineRun.setIsCollapsed else lineRun

/-- `LineBuilder::appendTextContent`. -/
def appendTextContent (env : Environment) (s : LineBuilder) (inlineItem : InlineItem)
    (logicalWidth : InlineLayoutUnit) : LineBuilder :=
  let lineRun := textRunOf env s inlineItem logicalWidth
  let runs := s.m_inlineItemRuns ++ [lineRun]
  let lineBox := s.m_lineBox.expandHorizontally lineRun.logicalWidth
  let trimmableListNeedsReset :=
    !s.m_trimmableContent.isEmpty && !lineRun.isTrimmableWhitespace env.o
  let trimmableContent :=
    if trimmableListNeedsReset then s.m_trimmableContent.reset else s.m_trimmableContent
  let isTrimmable := lineRun.isTrimmableWhitespace env.o || lineRun.hasTrailingLetterSpacing
  if isTrimmable then
    { s with
      m_inlineItemRuns := runs
      m_lineBox := lineBox
      m_lineIsVisuallyEmptyBeforeTrimmableContent :=
        if trimmableContent.isEmpty then some lineBox.isConsideredEmpty
        else s.m_lineIsVisuallyEmptyBeforeTrimmableContent
      m_trimmableContent := trimmableContent.append env.o runs (runs.length - 1) }
  else
    { s with m_inlineItemRuns := runs, m_lineBox := lineBox, m_trimmableContent := trimmableContent }

/-- `LineBuilder::appendNonBreakableSpace`. -/
def appendNonBreakableSpace (s : LineBuilder) (inlineItem : InlineItem)
    (logicalLeft logicalWidth : InlineLayoutUnit) : LineBuilder :=
  { s with
    m_inlineItemRuns :=
      s.m_inlineItemRuns
        ++ [{ m_inlineItem := inlineItem, m_logicalLeft := logicalLeft, m_logicalWidth := logicalWidth }]
    m_lineBox := s.m_lineBox.expandHorizontally logicalWidth }

/-- `LineBuilder::appendInlineContainerStart`. -/
def appendInlineContainerStart (s : LineBuilder) (inlineItem : InlineItem)
    (logicalWidth : InlineLayoutUnit) : LineBuilder :=
  appendNonBreakableSpace s inlineItem s.contentLogicalWidth logicalWidth

/-- The lambda `trimTrailingLetterSpacing` of `appendInlineContainerEnd`. -/
def trimTrailingLetterSpacing (s : LineBuilder) : LineBuilder :=
  if !s.m_trimmableContent.isTrailingRunPartiallyTrimmable then s
  else
    let trimmed := TrimmableContent.trimTrailingRun s.m_inlineItemRuns s.m_trimmableContent
    { s with
      m_inlineItemRuns := trimmed.1
      m_trimmableContent := trimmed.2.1
      m_lineBox := s.m_lineBox.shrinkHorizontally trimmed.2.2 }

/-- `LineBuilder::appendInlineContainerEnd`. -/
def appendInlineContainerEnd (s : LineBuilder) (inlineItem : InlineItem)
    (logicalWidth : InlineLayoutUnit) : LineBuilder :=
  let s1 := trimTrailingLetterSpacing s
  appendNonBreakableSpace s1 inlineItem s1.contentLogicalRight logicalWidth

/-- `LineBuilder::appendNonReplacedInlineBox`. -/
def appendNonReplacedInlineBox (env : Environment) (s : LineBuilder) (inlineItem : InlineItem)
    (logicalWidth : InlineLayoutUnit) : LineBuilder :=
  let boxGeometry := env.fc.geometryForBox inlineItem.layoutBox
  { s with
    m_inlineItemRuns :=
      s.m_inlineItemRuns
        ++ [{ m_inlineItem := inlineItem
              m_logicalLeft := s.contentLogicalWidth + boxGeometry.horizontalMarginStart
              m_logicalWidth := logicalWidth }]
    m_lineBox :=
      s.m_lineBox.expandHorizontally
        (logicalWidth + boxGeometry.horizontalMarginStart + boxGeometry.horizontalMarginEnd)
    m_trimmableContent := s.m_trimmableContent.reset }

/-- `LineBuilder::appendReplacedInlineBox`. -/
def appendReplacedInlineBox (env : Environment) (s : LineBuilder) (inlineItem : InlineItem)
    (logicalWidth : InlineLayoutUnit) : LineBuilder :=
  appendNonReplacedInlineBox env s inlineItem logicalWidth

/-- `LineBuilder::appendLineBreak`. -/
def appendLineBreak (s : LineBuilder) (inlineItem : InlineItem) : LineBuilder :=
  if inlineItem.isHardLineBreak then
    { s with
      m_inlineItemRuns :=
        s.m_inlineItemRuns
          ++ [{ m_inlineItem := inlineItem, m_logicalLeft := s.contentLogicalWidth
                m_logicalWidth := 0 }] }
  else
    { s with
      m_inlineItemRuns :=
        s.m_inlineItemRuns
          ++ [{ m_inlineItem := inlineItem, m_logicalLeft := s.contentLogicalWidth
                m_logicalWidth := 0
                m_textContext := some { start := inlineItem.position, length := 1
                                        content := boxContent inlineItem.layoutBox } }] }

/-- The first half of `LineBuilder::append`, the dispatch on the kind of the
item. An item of no kind the builder knows (the source asserts there is none)
appends nothing. -/
def appendByKind (env : Environment) (s : LineBuilder) (inlineItem : InlineItem)
    (logicalWidth : InlineLayoutUnit) : LineBuilder :=
  if inlineItem.isText then appendTextContent env s inlineItem logicalWidth
  else if inlineItem.isLineBreak then appendLineBreak s inlineItem
  else if inlineItem.isContainerStart then appendInlineContainerStart s inlineItem logicalWidth
  else if inlineItem.isContainerEnd then appendInlineContainerEnd s inlineItem logicalWidth
  else if env.fc.replaced inlineItem.layoutBox then
    appendReplacedInlineBox env s inlineItem logicalWidth
  else if inlineItem.isBox then appendNonReplacedInlineBox env s inlineItem logicalWidth
  else s

/-- The second half of `LineBuilder::append`: the check whether the freshly
appended content makes the line visually non-empty. -/
def noteVisuallyNonEmpty (env : Environment) (s : LineBuilder) : LineBuilder :=
  match s.m_inlineItemRuns.getLast? with
  | some lastRun =>
    if s.m_lineBox.isConsideredEmpty && isVisuallyNonEmpty env s lastRun then
      { s with m_lineBox := s.m_lineBox.setIsConsideredNonEmpty }
    else s
  | none => s

/-- `LineBuilder::append`. -/
def append (env : Environment) (s : LineBuilder) (inlineItem : InlineItem)
    (logicalWidth : InlineLayoutUnit) : LineBuilder :=
  noteVisuallyNonEmpty env (appendByKind env s inlineItem logicalWidth)

/-- The appends of a line, in order. -/
def appendAll (env : Environment) (s : LineBuilder)
    (items : List (InlineItem × InlineLayoutUnit)) : LineBuilder :=
  items.foldl (fun builder item => append env builder item.1 item.2) s

/-- `LineBuilder::removeTrailingTrimmableContent`. -/
def removeTrailingTrimmableContent (env : Environment) (s : LineBuilder) : LineBuilder :=
  if s.m_trimmableContent.isEmpty || s.m_inlineItemRuns.isEmpty then s
  else
    let trimmed := TrimmableContent.trim s.m_inlineItemRuns s.m_trimmableContent
    let s1 : LineBuilder :=
      { s with
        m_inlineItemRuns := trimmed.1
        m_trimmableContent := trimmed.2.1
        m_lineBox := s.m_lineBox.shrinkHorizontally trimmed.2.2 }
    if !s1.m_lineIsVisuallyEmptyBeforeTrimmableContent.isSome then s1
    else
      let lineIsVisuallyEmpty := s1.m_inlineItemRuns.all (fun run => !isVisuallyNonEmpty env s1 run)
      let s2 :=
        if lineIsVisuallyEmpty then { s1 with m_lineBox := s1.m_lineBox.setIsConsideredEmpty }
        else s1
      { s2 with m_lineIsVisuallyEmptyBeforeTrimmableContent := none }

/-- `LineBuilder::ContinousContent`. -/
structure ContinousContent where
  m_initialInlineRun : InlineItemRun
  m_textIsAlignJustify : Bool := false
  m_expandedLength : Nat := 0
  m_expandedWidth : InlineLayoutUnit := 0
  m_trailingRunCanBeExpanded : Bool := false
  m_hasTrailingExpansionOpportunity : Bool := false
  m_expansionOpportunityCount : Nat := 0
  deriving DecidableEq, Repr

namespace ContinousContent

/-- `ContinousContent::canBeExpanded`. -/
def canBeExpanded (run : InlineItemRun) : Bool :=
  run.isText && !run.isCollapsed && !run.isCollapsedToZeroAdvanceWidth

/-- `ContinousContent::canBeMerged`. -/
def canBeMerged (c : ContinousContent) (run : InlineItemRun) : Bool :=
  run.isText && !run.isCollapsedToZeroAdvanceWidth
    && decide (c.m_initialInlineRun.layoutBox.id = run.layoutBox.id)

/-- The constructor of `ContinousContent`. -/
def start (initialInlineRun : InlineItemRun) (textIsAlignJustify : Bool) : ContinousContent :=
  { m_initialInlineRun := initialInlineRun, m_textIsAlignJustify := textIsAlignJustify
    m_trailingRunCanBeExpanded := canBeExpanded initialInlineRun }

/-- The length of the text context of a run, `textContext()->length()`. -/
def textLengthOf (run : InlineItemRun) : Nat :=
  match run.textContext with
  | some textContext => textContext.length
  | none => 0

/-- `ContinousContent::append`: `none` is the answer `false`, which leaves the
content as it is. -/
def append (c : ContinousContent) (inlineItemRun : InlineItemRun) : Option ContinousContent :=
  if !c.m_trailingRunCanBeExpanded then none
  else if !c.canBeMerged inlineItemRun then none
  else
    let c1 : ContinousContent :=
      { c with
        m_trailingRunCanBeExpanded := canBeExpanded inlineItemRun
        m_expandedLength := c.m_expandedLength + textLengthOf inlineItemRun
        m_expandedWidth := c.m_expandedWidth + inlineItemRun.logicalWidth }
    if c.m_textIsAlignJustify then
      some { c1 with
             m_hasTrailingExpansionOpportunity := inlineItemRun.hasExpansionOpportunity
             m_expansionOpportunityCount :=
               if inlineItemRun.hasExpansionOpportunity then c.m_expansionOpportunityCount + 1
               else c.m_expansionOpportunityCount }
    else
      some c1

/-- The constructor `Run(const InlineItemRun&)`. -/
def runOf (flags : ExpansionFlags) (inlineItemRun : InlineItemRun) : Run InlineLayoutUnit :=
  { m_layoutBox := inlineItemRun.layoutBox
    m_type := inlineItemRun.type
    m_logicalRect :=
      { top := 0, left := inlineItemRun.logicalLeft, width := inlineItemRun.logicalWidth
        height := 0 }
    m_textContext :=
      if inlineItemRun.hasExpansionOpportunity then
        inlineItemRun.textContext.map (fun textContext =>
          textContext.setExpansion
            { behavior := flags.defaultExpansion, horizontalExpansion := 0 })
      else inlineItemRun.textContext
    m_expansionOpportunityCount := if inlineItemRun.hasExpansionOpportunity then 1 else 0
    m_isCollapsedToVisuallyEmpty := inlineItemRun.isCollapsedToZeroAdvanceWidth }

/-- `ContinousContent::close`. -/
def close (flags : ExpansionFlags) (c : ContinousContent) : Run InlineLayoutUnit :=
  if c.m_expandedLength = 0 then runOf flags c.m_initialInlineRun
  else
    let textContext : Display.TextContext InlineLayoutUnit :=
      match c.m_initialInlineRun.textContext with
      | some textContext => textContext
      | none => { start := 0, length := 0, content := [] }
    let length := textContext.length + c.m_expandedLength
    let textContext := textContext.expand length
    let expansionBehavior : Display.ExpansionBehavior :=
      if c.m_hasTrailingExpansionOpportunity then
        flags.forbidLeadingExpansion ||| flags.allowTrailingExpansion
      else flags.allowLeadingExpansion ||| flags.allowTrailingExpansion
    let expansionOpportunityCount :=
      if c.m_textIsAlignJustify && c.m_initialInlineRun.hasExpansionOpportunity then
        c.m_expansionOpportunityCount + 1
      else c.m_expansionOpportunityCount
    let textContext :=
      if c.m_textIsAlignJustify then
        textContext.setExpansion { behavior := expansionBehavior, horizontalExpansion := 0 }
      else textContext
    { m_layoutBox := c.m_initialInlineRun.layoutBox
      m_type := c.m_initialInlineRun.type
      m_logicalRect :=
        { top := 0, left := c.m_initialInlineRun.logicalLeft
          width := c.m_initialInlineRun.logicalWidth + c.m_expandedWidth, height := 0 }
      m_textContext := some textContext
      m_expansionOpportunityCount := expansionOpportunityCount
      m_isCollapsedToVisuallyEmpty := c.m_initialInlineRun.isCollapsedToZeroAdvanceWidth }

end ContinousContent

/-- The merging loops of `LineBuilder::close`: `open` is the continuous content
being filled, if any; the runs still to visit follow. -/
def mergeRuns (flags : ExpansionFlags) (textIsAlignJustify : Bool) :
    Option ContinousContent → List InlineItemRun → List (Run InlineLayoutUnit)
  | none, [] => []
  | some continousContent, [] => [continousContent.close flags]
  | none, run :: rest =>
    mergeRuns flags textIsAlignJustify (some (ContinousContent.start run textIsAlignJustify)) rest
  | some continousContent, run :: rest =>
    match continousContent.append run with
    | some merged => mergeRuns flags textIsAlignJustify (some merged) rest
    | none =>
      continousContent.close flags
        :: mergeRuns flags textIsAlignJustify
            (some (ContinousContent.start run textIsAlignJustify)) rest

/-- `LineBuilder::halfLeadingMetrics`: `floorf` and `ceilf` of the exact
halves. -/
def halfLeadingMetrics (fontMetrics : FontMetrics) (lineLogicalHeight : InlineLayoutUnit) :
    Display.Baseline :=
  let ascent := fontMetrics.ascent
  let descent := fontMetrics.descent
  let twiceHalfLeading := lineLogicalHeight - (ascent + descent)
  let adjustedAscent := max (Int.fdiv (2 * ascent + twiceHalfLeading) 2) 0
  let adjustedDescent := max (-(Int.fdiv (-(2 * descent + twiceHalfLeading)) 2)) 0
  { ascent := adjustedAscent, descent := adjustedDescent }

/-- `LineBuilder::adjustBaselineAndLineHeight`. -/
def adjustBaselineAndLineHeight (env : Environment) (s : LineBuilder)
    (run : Run InlineLayoutUnit) : LineBuilder :=
  if run.isText || run.isLineBreak then
    match s.m_initialStrut with
    | none => s
    | some initialStrut =>
      let lineBox := s.m_lineBox.setAscentIfGreater initialStrut.ascent
      let lineBox := lineBox.setDescentIfGreater initialStrut.descent
      let lineBox := lineBox.setLogicalHeightIfGreater lineBox.baseline.height
      { s with m_lineBox := lineBox, m_initialStrut := none }
  else if run.isContainerStart then
    let fontMetrics := env.q.fontMetrics run.layoutBox.style
    if env.q.verticalAlign run.layoutBox.style = VerticalAlign.Baseline then
      let halfLeading := halfLeadingMetrics fontMetrics (env.q.computedLineHeight run.layoutBox.style)
      let lineBox :=
        if halfLeading.descent > 0 then s.m_lineBox.setDescentIfGreater halfLeading.descent
        else s.m_lineBox
      let lineBox :=
        if halfLeading.ascent > 0 then lineBox.setAscentIfGreater halfLeading.ascent else lineBox
      { s with m_lineBox := lineBox.setLogicalHeightIfGreater lineBox.baseline.height }
    else
      { s with m_lineBox := s.m_lineBox.setLogicalHeightIfGreater fontMetrics.height }
  else if run.isContainerEnd then
    s
  else if run.isBox then
    let boxGeometry := env.fc.geometryForBox run.layoutBox
    let marginBoxHeight := boxGeometry.marginBoxHeight
    match env.q.verticalAlign run.layoutBox.style with
    | VerticalAlign.Baseline =>
      if env.fc.isInlineBlockBox run.layoutBox
          && env.fc.establishesInlineFormattingContext run.layoutBox then
        let lastLineBox := env.fc.lastLineBox run.layoutBox
        let inlineBlockBaseline := lastLineBox.baseline
        let beforeHeight :=
          boxGeometry.marginBefore + boxGeometry.borderTop + boxGeometry.paddingTop.getD 0
        let lineBox := s.m_lineBox.setAscentIfGreater inlineBlockBaseline.ascent
        let lineBox := lineBox.setDescentIfGreater inlineBlockBaseline.descent
        let lineBox := lineBox.setBaselineOffsetIfGreater (beforeHeight + lastLineBox.baselineOffset)
        { s with m_lineBox := lineBox.setLogicalHeightIfGreater marginBoxHeight }
      else
        let lineBox := s.m_lineBox.setAscentIfGreater marginBoxHeight
        { s with
          m_lineBox :=
            lineBox.setLogicalHeightIfGreater (marginBoxHeight + max 0 lineBox.baseline.descent) }
    | VerticalAlign.Top =>
      { s with m_lineBox := s.m_lineBox.setLogicalHeightIfGreater marginBoxHeight }
    | VerticalAlign.Bottom =>
      let lineLogicalHeight := s.m_lineBox.logicalHeight
      if marginBoxHeight > lineLogicalHeight then
        let lineBox := s.m_lineBox.setLogicalHeightIfGreater marginBoxHeight
        { s with
          m_lineBox :=
            lineBox.setBaselineOffsetIfGreater
              (lineBox.baselineOffset + (marginBoxHeight - lineLogicalHeight)) }
      else s
    | _ => s
  else
    s

/-- `LineBuilder::runContentHeight`. -/
def runContentHeight (env : Environment) (run : Run InlineLayoutUnit) : InlineLayoutUnit :=
  let fontMetrics := env.q.fontMetrics run.style
  if run.isText || run.isLineBreak then fontMetrics.height
  else if run.isContainerStart || run.isContainerEnd then fontMetrics.height
  else
    let boxGeometry := env.fc.geometryForBox run.layoutBox
    if env.fc.replaced run.layoutBox || env.fc.isFloatingPositioned run.layoutBox then
      boxGeometry.contentBoxHeight
    else boxGeometry.marginBoxHeight

/-- The body of the loop of `LineBuilder::alignContentVertically`. -/
def alignRunVertically (env : Environment) (s : LineBuilder) (run : Run InlineLayoutUnit) :
    Run InlineLayoutUnit :=
  let layoutBox := run.layoutBox
  let ascent := (env.q.fontMetrics layoutBox.style).ascent
  let logicalTop : InlineLayoutUnit :=
    match env.q.verticalAlign layoutBox.style with
    | VerticalAlign.Baseline =>
      if run.isLineBreak || run.isText then
        s.baselineOffset - ascent
      else if run.isContainerStart then
        let boxGeometry := env.fc.geometryForBox layoutBox
        s.baselineOffset - ascent - boxGeometry.borderTop - boxGeometry.paddingTop.getD 0
      else if env.fc.isInlineBlockBox layoutBox
          && env.fc.establishesInlineFormattingContext layoutBox then
        let inlineBlockBaselineOffset := (env.fc.lastLineBox layoutBox).baselineOffset
        let boxGeometry := env.fc.geometryForBox layoutBox
        let baselineOffsetFromMarginBox :=
          boxGeometry.marginBefore + boxGeometry.borderTop + boxGeometry.paddingTop.getD 0
            + inlineBlockBaselineOffset
        s.baselineOffset - baselineOffsetFromMarginBox
      else
        s.baselineOffset - run.logicalRect.height
    | VerticalAlign.Top => 0
    | VerticalAlign.Bottom => s.logicalBottom - run.logicalRect.height
    | _ => 0
  ((run.adjustLogicalTop logicalTop).moveVertically s.logicalTop).moveHorizontally s.logicalLeft

/-- `LineBuilder::alignContentVertically`. -/
def alignContentVertically (env : Environment) (s : LineBuilder)
    (runList : List (Run InlineLayoutUnit)) : List (Run InlineLayoutUnit) :=
  runList.map (alignRunVertically env s)

section HorizontalAlignment

variable {U : Type} [LinearOrderedRing U] [Div U]

/-- The first step of `justifyRuns`: the last run, when it has an expansion
opportunity, gets `ForbidTrailingExpansion` added to its behavior. -/
def forbidTrailingExpansionOfLastRun (flags : ExpansionFlags) (runList : List (Run U)) :
    List (Run U) :=
  match runList.getLast? with
  | some lastRun =>
    if lastRun.hasExpansionOpportunity then
      runList.dropLast
        ++ [lastRun.adjustExpansionBehavior
              ((lastRun.expansionBehavior.getD 0) ||| flags.forbidTrailingExpansion)]
    else runList
  | none => runList

/-- The second loop of `justifyRuns`, entered with `accumulatedExpansion`. -/
def distributeExpansion (expansionToDistribute : U) : List (Run U) → U → List (Run U)
  | [], _ => []
  | run :: rest, accumulatedExpansion =>
    if !run.hasExpansionOpportunity then
      run.moveHorizontally accumulatedExpansion
        :: distributeExpansion expansionToDistribute rest accumulatedExpansion
    else
      let computedExpansion := expansionToDistribute * (run.expansionOpportunityCount : U)
      (run.setComputedHorizontalExpansion computedExpansion).moveHorizontally accumulatedExpansion
        :: distributeExpansion expansionToDistribute rest (accumulatedExpansion + computedExpansion)

/-- The sum of the expansion opportunities of the runs, the first loop of
`justifyRuns`. -/
def totalExpansionOpportunityCount (runList : List (Run U)) : Nat :=
  (runList.map (fun run => run.expansionOpportunityCount)).sum

/-- `LineBuilder::justifyRuns`; `availableWidth` is the value of
`availableWidth()`. -/
def justifyRuns (flags : ExpansionFlags) (availableWidth : U) (runList : List (Run U)) :
    List (Run U) :=
  let runList := forbidTrailingExpansionOfLastRun flags runList
  let expansionOpportunityCount := totalExpansionOpportunityCount runList
  if expansionOpportunityCount = 0 then runList
  else
    let expansionToDistribute := availableWidth / (expansionOpportunityCount : U)
    distributeExpansion expansionToDistribute runList 0

/-- The lambda `adjustmentForAlignment` of `alignContentHorizontally`. -/
def adjustmentForAlignment (horizontalAlignment : Option TextAlignMode) (availableWidth : U) :
    Option U :=
  match horizontalAlignment with
  | some TextAlignMode.Left => none
  | some TextAlignMode.WebKitLeft => none
  | some TextAlignMode.Start => none
  | some TextAlignMode.Right => some (max availableWidth 0)
  | some TextAlignMode.WebKitRight => some (max availableWidth 0)
  | some TextAlignMode.End => some (max availableWidth 0)
  | some TextAlignMode.Center => some (max (availableWidth / 2) 0)
  | some TextAlignMode.WebKitCenter => some (max (availableWidth / 2) 0)
  | some TextAlignMode.Justify => none
  | none => none

/-- `LineBuilder::alignContentHorizontally`; the members it reads are passed
in: `m_horizontalAlignment` and the value of `availableWidth()`. -/
def alignContentHorizontally (flags : ExpansionFlags)
    (horizontalAlignment : Option TextAlignMode) (availableWidth : U)
    (runList : List (Run U)) (lastLine : IsLastLineWithInlineContent) : List (Run U) :=
  if runList.isEmpty || decide (availableWidth ≤ 0) then runList
  else if horizontalAlignment = some TextAlignMode.Justify then
    if lastLine = IsLastLineWithInlineContent.No then justifyRuns flags availableWidth runList
    else runList
  else
    match adjustmentForAlignment horizontalAlignment availableWidth with
    | none => runList
    | some adjustment => runList.map (fun run => run.moveHorizontally adjustment)

end HorizontalAlignment

/-- `LineBuilder::close`: the display runs and the builder after the call. -/
def close (env : Environment) (s : LineBuilder) (isLastLineWithInlineContent : IsLastLineWithInlineContent) :
    List (Run InlineLayoutUnit) × LineBuilder :=
  let s1 := removeTrailingTrimmableContent env s
  let runList := mergeRuns env.fc.flags s1.isTextAlignJustify none s1.m_inlineItemRuns
  if !s1.m_skipAlignment then
    let s2 := runList.foldl (adjustBaselineAndLineHeight env) s1
    let runList := runList.map (fun run => run.setLogicalHeight (runContentHeight env run))
    let s3 : LineBuilder :=
      if s2.isVisuallyEmpty then
        { s2 with m_lineBox := s2.m_lineBox.resetBaseline.setLogicalHeight 0 }
      else s2
    let s4 : LineBuilder :=
      if env.fc.lineDescentNeedsCollapsing runList then
        { s3 with
          m_lineBox :=
            (s3.m_lineBox.shrinkVertically s3.m_lineBox.baseline.descent).resetDescent }
      else s3
    let runList := alignContentVertically env s4 runList
    let runList :=
      alignContentHorizontally env.fc.flags s4.m_horizontalAlignment s4.availableWidth runList
        isLastLineWithInlineContent
    (runList, s4)
  else
    (runList, s1)

end LineBuilder

/-- `LineBuilder::initialize`. -/
def LineBuilder.initialize (s : LineBuilder) (constraints : LineBuilder.Constraints) :
    LineBuilder :=
  let initialStrut : Option Display.Baseline :=
    match constraints.heightAndBaseline with
    | some heightAndBaseline => heightAndBaseline.strut
    | none => none
  let initialLineHeight : InlineLayoutUnit :=
    match constraints.heightAndBaseline with
    | some heightAndBaseline => heightAndBaseline.height
    | none => 0
  let initialBaselineOffset : InlineLayoutUnit :=
    match constraints.heightAndBaseline with
    | some heightAndBaseline => heightAndBaseline.baselineOffset
    | none => 0
  { s with
    m_initialStrut := initialStrut
    m_lineBox :=
      { m_rect := { top := constraints.logicalTop, left := constraints.logicalLeft, width := 0
                    height := initialLineHeight }
        m_baseline := { ascent := initialBaselineOffset
                        descent := initialLineHeight - initialBaselineOffset }
        m_baselineOffset := initialBaselineOffset
        m_isConsideredEmpty := true }
    m_lineLogicalWidth := constraints.availableLogicalWidth
    m_hasIntrusiveFloat := constraints.lineIsConstrainedByFloat
    m_inlineItemRuns := []
    m_trimmableContent := s.m_trimmableContent.reset
    m_lineIsVisuallyEmptyBeforeTrimmableContent := none }

/-- A line as the caller builds it: the builder is initialized with the
constraints and the items are appended in order. -/
def LineBuilder.openLine (env : LineBuilder.Environment) (s : LineBuilder)
    (constraints : LineBuilder.Constraints) (items : List (InlineItem × InlineLayoutUnit)) :
    LineBuilder :=
  LineBuilder.appendAll env ( LineBuilder.initialize s constraints) items

/-! ## Properties of an open line -/

namespace LineBuilder

/-- The run is trimmable whitespace, a line break or a container marker: a run
that may follow trailing trimmable whitespace without ending it. A run that is
not of this kind is a box or a text run other than trimmable whitespace. -/
def isTransparentForTrimming (o : Collaborators) (run : InlineItemRun) : Bool :=
  run.isTrimmableWhitespace o || run.isLineBreak || run.isContainerStart || run.isContainerEnd

/-- The number of characters of the inline items behind the committed runs:
the length of the text context of each run, plus the characters a collapsed
run stands for beyond the one it shows. -/
def committedTextLength (runs : List InlineItemRun) : Nat :=
  (runs.map (fun run =>
    ContinousContent.textLengthOf run
      + (if run.isCollapsed then run.m_inlineItem.length - 1 else 0))).sum

/-- The length of the text a display run shows. -/
def Run.textLength {U : Type} (run : Run U) : Nat :=
  match run.m_textContext with
  | some textContext => textContext.length
  | none => 0

/-- The sum of the text lengths of the display runs. -/
def displayTextLength {U : Type} (runList : List (Run U)) : Nat :=
  (runList.map (fun run => run.textLength)).sum

/-- The sum of the text lengths of the appended items: the length of a text
item, 1 for a soft line break. -/
def appendedTextLength (items : List (InlineItem × InlineLayoutUnit)) : Nat :=
  (items.map (fun item => InlineTextItem.textLength item.1)).sum

/-- The horizontal expansion recorded in the text context of a display run. -/
def Run.recordedExpansion {U : Type} (run : Run U) : Option U :=
  match run.m_textContext with
  | some textContext => textContext.expansion.map (fun expansion => expansion.horizontalExpansion)
  | none => none

/-- What holds of a line builder between two appends.

* `first_lt`: the first trimmable index is an index of the run list.
* `covered`: a trimmable whitespace run followed only by runs that are
  transparent for trimming lies at or after the first trimmable index.
* `partially`: when the trailing trimmable run is only partially trimmable, it
  is the run at the first trimmable index, a non-whitespace text run, and no
  text run follows it.
* `visual`: the line is considered empty exactly when no run is visually
  non-empty.
* `flagged`: while there is trimmable content, the emptiness of the line
  before it is on record. -/
structure Invariant (env : Environment) (s : LineBuilder) : Prop where
  first_lt : ∀ f, s.m_trimmableContent.m_firstRunIndex = some f → f < s.m_inlineItemRuns.length
  covered : ∀ i run, s.m_inlineItemRuns[i]? = some run →
    run.isTrimmableWhitespace env.o = true →
    (∀ j later, i < j → s.m_inlineItemRuns[j]? = some later →
      isTransparentForTrimming env.o later = true) →
    ∃ f, s.m_trimmableContent.m_firstRunIndex = some f ∧ f ≤ i
  partially : s.m_trimmableContent.m_lastRunIsFullyTrimmable = false →
    ∀ f, s.m_trimmableContent.m_firstRunIndex = some f →
      (∃ run, s.m_inlineItemRuns[f]? = some run ∧ run.isText = true ∧ run.isWhitespace = false)
        ∧ ∀ j later, f < j → s.m_inlineItemRuns[j]? = some later → later.isText = false
  visual : s.m_lineBox.m_isConsideredEmpty = true
    ↔ ∀ run ∈ s.m_inlineItemRuns, isVisuallyNonEmpty env s run = false
  flagged : s.m_trimmableContent.m_firstRunIndex.isSome = true →
    s.m_lineIsVisuallyEmptyBeforeTrimmableContent.isSome = true

/-- Two committed runs agree in all but the width, and in the width too unless
they are text runs. -/
def SameButTextWidth (before after : InlineItemRun) : Prop :=
  after.m_inlineItem = before.m_inlineItem ∧ after.m_logicalLeft = before.m_logicalLeft
    ∧ after.m_textContext = before.m_textContext ∧ after.m_isCollapsed = before.m_isCollapsed
    ∧ after.m_collapsedToZeroAdvanceWidth = before.m_collapsedToZeroAdvanceWidth
    ∧ (before.isText = false → after.m_logicalWidth = before.m_logicalWidth)

/-- What `TrimmableContent::trim` does to one run: the item, the text context
and the collapsed flag stay; a whitespace text run ends with width 0 and
flagged collapsed to zero advance width; any other run keeps that flag, and
keeps its width unless it is a text run. -/
def Trimmed (before after : InlineItemRun) : Prop :=
  after.m_inlineItem = before.m_inlineItem ∧ after.m_textContext = before.m_textContext
    ∧ after.m_isCollapsed = before.m_isCollapsed
    ∧ (before.isWhitespace = true →
        after.m_logicalWidth = 0 ∧ after.m_collapsedToZeroAdvanceWidth = true)
    ∧ (before.isWhitespace = false →
        after.m_collapsedToZeroAdvanceWidth = before.m_collapsedToZeroAdvanceWidth)
    ∧ (before.isText = false → after.m_logicalWidth = before.m_logicalWidth)

end LineBuilder

namespace LineBuilder

/-- What the alignment passes of `close` keep of a display run: the box, the
type, the length of the text, the number of expansion opportunities and the
flag for collapsed content, and the width of a run without an expansion
opportunity. -/
def Run.Aligned {U : Type} (before after : Run U) : Prop :=
  after.m_layoutBox = before.m_layoutBox ∧ after.m_type = before.m_type
    ∧ after.textLength = before.textLength
    ∧ after.m_expansionOpportunityCount = before.m_expansionOpportunityCount
    ∧ after.m_isCollapsedToVisuallyEmpty = before.m_isCollapsedToVisuallyEmpty
    ∧ (before.m_expansionOpportunityCount = 0 →
        after.m_logicalRect.width = before.m_logicalRect.width)

end LineBuilder

namespace LineBuilder

/-- The characters that the committed runs flagged collapsed stand for beyond
the one each of them shows: the length of the item less 1, summed over these
runs. -/
def collapsedTextLength (runs : List InlineItemRun) : Nat :=
  ((runs.filter (fun run => run.isCollapsed)).map (fun run => run.m_inlineItem.length - 1)).sum

end LineBuilder

namespace LineBuilder

/-- What holds of the tracked trimmable width between two appends.

* `nonneg`: the tracked width is not negative.
* `empty`: with no trimmable content the tracked width is 0.
* `partially`: when the trailing trimmable run is only partially trimmable, the
  tracked width is the trailing letter-spacing of the run at the first
  trimmable index. -/
structure TrimmableWidthInvariant (s : LineBuilder) : Prop where
  nonneg : 0 ≤ s.m_trimmableContent.m_width
  empty : s.m_trimmableContent.m_firstRunIndex = none → s.m_trimmableContent.m_width = 0
  partially : s.m_trimmableContent.m_lastRunIsFullyTrimmable = false →
    ∀ f run, s.m_trimmableContent.m_firstRunIndex = some f → s.m_inlineItemRuns[f]? = some run →
      s.m_trimmableContent.m_width = run.trailingLetterSpacing

end LineBuilder

namespace LineBuilder

end LineBuilder

namespace InlineTextItem

/-- Modelled from the spec: `InlineTextItem::end()` of `InlineTextItem.h`, which
is not among the sources: `start() + length()`, in `unsigned` arithmetic. -/
def endOffset (item : InlineItem) : Nat := (item.start + item.length) % 4294967296

/-- `InlineTextItem::left`; `none` when the `RELEASE_ASSERT` fails. -/
def left (item : InlineItem) (length : Nat) : Option InlineItem :=
  if length ≤ item.length then
    some { layoutBox := item.layoutBox, type := InlineItemType.Text, start := item.start
           length := length, width := none, textItemType := item.textItemType }
  else
    none

/-- `InlineTextItem::right`; `none` when the `RELEASE_ASSERT` fails. -/
def right (item : InlineItem) (length : Nat) : Option InlineItem :=
  if length ≤ item.length then
    some { layoutBox := item.layoutBox, type := InlineItemType.Text
           start := unsignedSub (endOffset item) length
           length := length, width := none, textItemType := item.textItemType }
  else
    none

end InlineTextItem

namespace LineBreaker

namespace Content

/-- `Content::trim`: the loop `for (auto i = m_continousRuns.size(); i--;)`
visits every run, from the last to the first, and subtracts its width; then
the run list is shrunk to `newSize`. -/
def trim (c : Content) (newSize : Nat) : Content :=
  { c with
    m_width := c.m_continousRuns.reverse.foldl (fun width run => width - run.logicalWidth) c.m_width
    m_continousRuns := c.m_continousRuns.take newSize }

/-- The sum of the logical widths of the runs the content holds. -/
def runsWidth (c : Content) : InlineLayoutUnit :=
  (c.m_continousRuns.map (fun run => run.logicalWidth)).sum

/-- The condition asserted at the top of the first loop of
`wordBreakingBehavior`: the run is text, a container start or a container
end. -/
def isTextOrMarker (run : Run) : Bool :=
  run.inlineItem.isText || run.inlineItem.isContainerStart || run.inlineItem.isContainerEnd

end Content

end LineBreaker

namespace LineBuilder

/-- What one pass of the loop of `TrimmableContent::trim` adds to
`accumulatedTrimmedWidth` for a run: nothing for a run that is not text, the
width of a whitespace run, the trailing letter-spacing of any other text
run. -/
def trimmableAmount (run : InlineItemRun) : InlineLayoutUnit :=
  if !run.isText then 0
  else if run.isWhitespace then run.logicalWidth
  else run.trailingLetterSpacing

/-- The tracked trimmable width is what the loop of `TrimmableContent::trim`
would accumulate over the runs from the first trimmable index on. -/
def TrimmableSumInvariant (s : LineBuilder) : Prop :=
  ∀ f, s.m_trimmableContent.m_firstRunIndex = some f →
    s.m_trimmableContent.m_width = ((s.m_inlineItemRuns.drop f).map trimmableAmount).sum

end LineBuilder

namespace LineBuilder

/-- The text range of a committed run: start and length of its text
context. -/
def InlineItemRun.textRange (run : InlineItemRun) : Option (Nat × Nat) :=
  run.m_textContext.map (fun textContext => (textContext.start, textContext.length))

/-- The text range of a display run: start and length of its text context. -/
def Run.textRange {U : Type} (run : Run U) : Option (Nat × Nat) :=
  run.m_textContext.map (fun textContext => (textContext.start, textContext.length))

/-- The text-context ranges of the runs follow one another from `position` on
without gap or overlap. -/
def coversFrom : Nat → List InlineItemRun → Prop
  | _, [] => True
  | position, run :: rest =>
    run.textRange = some (position, ContinousContent.textLengthOf run)
      ∧ coversFrom (position + ContinousContent.textLengthOf run) rest

/-- Two items that follow one another are in content order: if both are text
items of the same box, the second starts where the first ends. -/
def inContentOrder (a b : InlineItem) : Bool :=
  !(a.isText && b.isText && decide (a.layoutBox.id = b.layoutBox.id))
    || decide (b.start = a.start + a.length)

/-- The text context of a committed text run starts where its item starts, and
is as long as the item unless the run is flagged collapsed. -/
def InlineItemRun.coversItem (run : InlineItemRun) : Prop :=
  run.isText = true →
    ∃ textContext, run.m_textContext = some textContext
      ∧ textContext.start = run.m_inlineItem.start
      ∧ (run.m_isCollapsed = false → textContext.length = run.m_inlineItem.length)

/-- The display run is what the committed runs of `group` were merged into. It
is a run of the box of the first of them. A group of one run gives a display
run with the text range of that run. In a group of several runs every run is a
text run of the same box that is not collapsed to zero advance width, no run
but the last is flagged collapsed, and the text range of the display run is the
concatenation of the text-context ranges of the runs: they follow one another
from `start`, and the display run covers `start` and the sum of their
lengths. -/
def MergedFrom (group : List InlineItemRun) (displayRun : Run InlineLayoutUnit) : Prop :=
  ∃ first rest, group = first :: rest
    ∧ displayRun.m_layoutBox = first.layoutBox
    ∧ (rest = [] → displayRun.textRange = first.textRange)
    ∧ (rest ≠ [] →
        (∃ start, coversFrom start group
          ∧ displayRun.textRange
              = some (start, (group.map ContinousContent.textLengthOf).sum))
        ∧ (∀ run ∈ group, run.isText = true ∧ run.isCollapsedToZeroAdvanceWidth = false
            ∧ run.layoutBox.id = first.layoutBox.id)
        ∧ ∀ run ∈ group.dropLast, run.isCollapsed = false)

/-- What the alignment passes of `close` keep of a display run beside what
`Run.Aligned` says: the box and the text range. -/
def Run.SameRange {U : Type} (before after : Run U) : Prop :=
  after.m_layoutBox = before.m_layoutBox ∧ after.textRange = before.textRange

/-- The state of the merging loop of `close` while `group` is being merged
into the continuous content `c`: the group starts with the initial run of `c`,
`c` has counted the lengths of the runs after it, `c` remembers whether the
last run of the group can be expanded, every run before the last can be, every
run after the first is a text run of the box of the first that is not collapsed
to zero advance width, and if the first run is text the text ranges of the
group follow one another. -/
def Filling (c : ContinousContent) (group : List InlineItemRun) : Prop :=
  ∃ tail, group = c.m_initialInlineRun :: tail
    ∧ c.m_expandedLength = (tail.map ContinousContent.textLengthOf).sum
    ∧ (∃ last, group.getLast? = some last
        ∧ c.m_trailingRunCanBeExpanded = ContinousContent.canBeExpanded last)
    ∧ (∀ run ∈ group.dropLast, ContinousContent.canBeExpanded run = true)
    ∧ (∀ run ∈ tail, run.isText = true ∧ run.isCollapsedToZeroAdvanceWidth = false
        ∧ run.layoutBox.id = c.m_initialInlineRun.layoutBox.id)
    ∧ (c.m_initialInlineRun.isText = true → ∃ start, coversFrom start group)

end LineBuilder

/-! ## Sample collaborators and content

A fixed-pitch measurement used to evaluate the definitions on concrete input:
every character is 10 units wide, `split` returns the longest fitting prefix,
the only hyphenation point of a word is after its 4th character. -/

namespace Sample

/-- Fixed-pitch collaborators. -/
def fixedPitch : Collaborators where
  width := fun _ first last => 10 * ((last : Int) - (first : Int))
  split := fun _ start length _ availableWidth =>
    { start := start, length := min length (availableWidth / 10).toNat
      logicalWidth := 10 * (min length (availableWidth / 10).toNat : Nat) }
  shouldPreserveTrailingWhitespace := fun style =>
    style.whiteSpace == WhiteSpace.Pre || style.whiteSpace == WhiteSpace.PreWrap
      || style.whiteSpace == WhiteSpace.BreakSpaces
  canHyphenate := fun locale => locale == "en"
  lastHyphenLocation := fun _ beforeIndex _ => if 4 < beforeIndex then 4 else 0
  enoughWidthForHyphenation := fun availableWidth fontPixelSize =>
    decide (availableWidth > fontPixelSize * 5 / 4)

/-- A text box with the given id, style and text. -/
def textBox (id : Nat) (style : RenderStyle) (text : String) : Box :=
  { id := id, style := style, textContext := some { content := text.toList } }

/-- A non-whitespace text item of a box. -/
def word (box : Box) (start length : Nat) : InlineItem :=
  { layoutBox := box, type := InlineItemType.Text, start := start, length := length
    textItemType := TextItemType.NonWhitespace }

/-- A whitespace text item of a box. -/
def space (box : Box) (start length : Nat) : InlineItem :=
  { layoutBox := box, type := InlineItemType.Text, start := start, length := length
    textItemType := TextItemType.Whitespace }

/-- An item without text: a box, a container marker, a line break. -/
def item (box : Box) (type : InlineItemType) : InlineItem :=
  { layoutBox := box, type := type }

/-- A style that hyphenates automatically in a supported locale. -/
def hyphenating : RenderStyle :=
  { hyphens := Hyphens.Auto, locale := "en"
    fontCascade := { spaceWidth := 10, pixelSize := 16, hyphenStringWidth := 10 } }

/-- The box of the text "foo bar", normal wrapping. -/
def fooBar : Box := textBox 1 {} "foo bar"

/-- The box of the text "nowrap-content" with `white-space: nowrap`. -/
def nowrapBox : Box := textBox 2 { whiteSpace := WhiteSpace.NoWrap } "nowrap-content"

/-- The box of the word "hyphenation" with automatic hyphenation. -/
def hyphenationBox : Box := textBox 3 hyphenating "hyphenation"

/-- A span without text. -/
def span : Box := { id := 4 }

/-- A replaced box. -/
def image : Box := { id := 5 }

/-- The runs ["foo"][" "]["bar"] of one normally wrapping box. -/
def fooBarRuns : List LineBreaker.Content.Run :=
  [{ inlineItem := word fooBar 0 3, logicalWidth := 30 },
   { inlineItem := space fooBar 3 1, logicalWidth := 10 },
   { inlineItem := word fooBar 4 3, logicalWidth := 30 }]


/-- The box of the text "text-text". -/
def textText : Box := textBox 6 {} "text-text"

/-- The box of a text inside a span. -/
def spanText : Box := textBox 7 {} "inner"

/-- A candidate with the given items, each of width 10. -/
def candidate (items : List InlineItem) : LineBreaker.Content :=
  LineBreaker.Content.ofRuns fixedPitch (items.map (fun item => (item, 10)))


/-- The style queries as a function of `white-space`. -/
def styleQueries : StyleQueries where
  preserveNewline := fun style =>
    style.whiteSpace != WhiteSpace.Normal && style.whiteSpace != WhiteSpace.NoWrap
  collapseWhiteSpace := fun style =>
    style.whiteSpace != WhiteSpace.Pre && style.whiteSpace != WhiteSpace.PreWrap
      && style.whiteSpace != WhiteSpace.BreakSpaces
  autoWrap := fun style =>
    style.whiteSpace != WhiteSpace.NoWrap && style.whiteSpace != WhiteSpace.Pre
  nbspModeIsSpace := fun _ => false
  verticalAlign := fun _ => VerticalAlign.Baseline
  fontMetrics := fun _ => { ascent := 8, descent := 2, height := 10 }
  computedLineHeight := fun _ => 12

/-- The next position at or after `position` that holds a space, or the end of
the text. -/
def nextSpace (text : List Char) (position : Nat) : Nat :=
  position + ((text.drop position).takeWhile (fun character => character != ' ')).length

/-- A line break iterator that breaks before spaces only. -/
def breakAtSpaces : BreakLines where
  iteratorModeIsDefault := fun _ => true
  nextBreakablePosition := nextSpace
  nextBreakablePositionIgnoringNBSP := nextSpace
  nextBreakablePositionKeepingAllWords := nextSpace
  nextBreakablePositionKeepingAllWordsIgnoringNBSP := nextSpace
  nextBreakablePositionWithoutShortcut := nextSpace
  nextBreakablePositionIgnoringNBSPWithoutShortcut := nextSpace

/-- A text box without text. -/
def emptyTextBox : Box := textBox 8 {} ""


/-- The expansion flags as two bits: trailing expansion is bit 0, leading
expansion is bit 1, forbidding either is no bit. -/
def expansionFlags : ExpansionFlags where
  forbidTrailingExpansion := 0
  allowTrailingExpansion := 1
  forbidLeadingExpansion := 0
  allowLeadingExpansion := 2
  defaultExpansion := 1

/-- A formatting context in which no box has border, padding or margin and box
5 is a replaced box of height 20. -/
def formattingContext : LineBuilder.FormattingContext where
  geometryForBox := fun box =>
    if box.id = 5 then { height := 20, marginBoxHeight := 20, contentBoxHeight := 20 } else {}
  replaced := fun box => box.id == 5
  isFloatingPositioned := fun _ => false
  isInlineBlockBox := fun _ => false
  establishesFormattingContext := fun _ => false
  establishesInlineFormattingContext := fun _ => false
  lastLineBox := fun _ => {}
  lineDescentNeedsCollapsing := fun _ => false
  flags := expansionFlags

/-- The environment of the line builder made of the sample collaborators. -/
def environment : LineBuilder.Environment where
  o := fixedPitch
  q := styleQueries
  fc := formattingContext

/-- A line builder that aligns to the start. -/
def builder : LineBuilder := { m_horizontalAlignment := some TextAlignMode.Start }

/-- A line builder that justifies. -/
def justifyingBuilder : LineBuilder := { m_horizontalAlignment := some TextAlignMode.Justify }

/-- Constraints of a line 100 units wide, 12 high, with the baseline at 9. -/
def constraints : LineBuilder.Constraints :=
  { availableLogicalWidth := 100
    heightAndBaseline := some { height := 12, baselineOffset := 9 } }

/-- The box of a single collapsible space inside a span. -/
def spaceBox : Box := textBox 9 {} " "

/-- The items [container start][collapsible space][container end][container
start][container end], all markers of zero width. -/
def emptySpans : List (InlineItem × InlineLayoutUnit) :=
  [(item span InlineItemType.ContainerStart, 0), (space spaceBox 0 1, 10),
   (item span InlineItemType.ContainerEnd, 0), (item span InlineItemType.ContainerStart, 0),
   (item span InlineItemType.ContainerEnd, 0)]

/-- The items of the line "foo bar" followed by a trailing space. -/
def fooBarLine : List (InlineItem × InlineLayoutUnit) :=
  [(word fooBar 0 3, 30), (space fooBar 3 1, 10), (word fooBar 4 3, 30), (space fooBar 7 1, 10)]

/-- The run of the trailing space of `fooBarLine` after trimming. -/
def trimmedSpaceRun : LineBuilder.InlineItemRun :=
  { m_inlineItem := space fooBar 7 1, m_logicalLeft := 70, m_logicalWidth := 0
    m_textContext := some { start := 7, length := 1, content := LineBuilder.boxContent fooBar }
    m_collapsedToZeroAdvanceWidth := true }

/-- Two display runs over the rationals: a text run with one expansion
opportunity and a run without any. -/
def justifiedRuns : List (LineBuilder.Run ℚ) :=
  [{ m_layoutBox := fooBar, m_type := InlineItemType.Text
     m_logicalRect := { top := 0, left := 0, width := 30, height := 10 }
     m_textContext :=
       some { start := 0, length := 4, content := LineBuilder.boxContent fooBar
              expansion := some { behavior := 1, horizontalExpansion := 0 } }
     m_expansionOpportunityCount := 1 },
   { m_layoutBox := fooBar, m_type := InlineItemType.Text
     m_logicalRect := { top := 0, left := 30, width := 30, height := 10 }
     m_textContext := some { start := 4, length := 3, content := LineBuilder.boxContent fooBar } }]

/-- Constraints of a line that starts 10 units right of the origin. -/
def indentedConstraints : LineBuilder.Constraints :=
  { logicalLeft := 10, availableLogicalWidth := 100
    heightAndBaseline := some { height := 12, baselineOffset := 9 } }

/-- The items of "<span>foo</span>bar": [container start]["foo"][container
end]["bar"], markers of zero width. -/
def spanFooBar : List (InlineItem × InlineLayoutUnit) :=
  [(item span InlineItemType.ContainerStart, 0), (word fooBar 0 3, 30),
   (item span InlineItemType.ContainerEnd, 0), (word fooBar 4 3, 30)]

/-- An inline-block box. -/
def inlineBlock : Box := { id := 10 }

/-- A formatting context in which box 10 is an inline-block with inline
content, 20 wide and 30 high without border, padding or margin, whose last
line box is 30 high with the baseline 28 below its top (ascent 28, descent
2). -/
def inlineBlockContext : LineBuilder.FormattingContext where
  geometryForBox := fun box =>
    if box.id = 10 then { height := 30, marginBoxHeight := 30, contentBoxHeight := 30 } else {}
  replaced := fun _ => false
  isFloatingPositioned := fun _ => false
  isInlineBlockBox := fun box => box.id == 10
  establishesFormattingContext := fun box => box.id == 10
  establishesInlineFormattingContext := fun box => box.id == 10
  lastLineBox := fun _ =>
    { m_rect := { top := 0, left := 0, width := 20, height := 30 }
      m_baseline := { ascent := 28, descent := 2 }, m_baselineOffset := 28
      m_isConsideredEmpty := false }
  lineDescentNeedsCollapsing := fun _ => false
  flags := expansionFlags

/-- The environment with the inline-block formatting context. -/
def inlineBlockEnvironment : LineBuilder.Environment where
  o := fixedPitch
  q := styleQueries
  fc := inlineBlockContext

/-- Constraints of a line 12 high with the baseline at 9 and a strut of ascent
9 and descent 3. -/
def strutConstraints : LineBuilder.Constraints :=
  { availableLogicalWidth := 100
    heightAndBaseline :=
      some { height := 12, baselineOffset := 9, strut := some { ascent := 9, descent := 3 } } }

/-- The box of the text "wide" with a letter-spacing of 2. -/
def spacedBox : Box := textBox 11 { letterSpacing := 2 } "wide"

/-- The box of the text "tight" with a letter-spacing of -2. -/
def tightBox : Box := textBox 12 { letterSpacing := -2 } "tight"

/-- The box of an empty text with a letter-spacing of 2. -/
def emptySpacedBox : Box := textBox 13 { letterSpacing := 2 } ""

/-- The items of "foo<span>inner": a word, a container start, a word of
another box. -/
def fooSpanInner : List (InlineItem × InlineLayoutUnit) :=
  [(word fooBar 0 3, 30), (item span InlineItemType.ContainerStart, 0), (word spanText 0 5, 50)]

/-- The items of "foo<span><img>": a word, a container start, a replaced box
20 wide. -/
def fooSpanImage : List (InlineItem × InlineLayoutUnit) :=
  [(word fooBar 0 3, 30), (item span InlineItemType.ContainerStart, 0),
   (item image InlineItemType.Box, 20)]

/-- The box of the text "abc" with `word-break: break-all`. -/
def breakAllBox : Box := textBox 15 { wordBreak := WordBreak.BreakAll } "abc"

/-- The box of the text "to hyphenation" with automatic hyphenation. -/
def toHyphenationBox : Box := textBox 16 hyphenating "to hyphenation"


/-- A second replaced box. -/
def secondImage : Box := { id := 17 }

/-- The items of "<span><img></span><span>": a box inside a span, followed by
the start of another span. -/
def imageBetweenSpans : List InlineItem :=
  [item span InlineItemType.ContainerStart, item image InlineItemType.Box,
   item span InlineItemType.ContainerEnd, item span InlineItemType.ContainerStart]

end Sample

/-! ## The breaking decision -/

namespace LineBreaker

/-- The first rule: the candidate fits. -/
theorem breakingContext_rule1 (o : Collaborators) (self : LineBreaker)
    (candidateRuns : Content) (lineStatus : LineStatus)
    (hfits : candidateRuns.width ≤ lineStatus.availableWidth) :
    breakingContextForInlineContent o self candidateRuns lineStatus
      = some { contentWrappingRule := ContentWrappingRule.Keep, partialTrailingContent := none } := by
  simp [breakingContextForInlineContent, hfits]

/-- The second rule: the candidate has trailing trimmable content and fits
without it, or is fully trimmable at the end of a line that is. -/
theorem breakingContext_rule2 (o : Collaborators) (self : LineBreaker)
    (candidateRuns : Content) (lineStatus : LineStatus)
    (htrailing : candidateRuns.hasTrailingTrimmableContent = true)
    (hrule : candidateRuns.nonTrimmableWidth ≤ lineStatus.availableWidth
      ∨ (lineStatus.lineHasFullyTrimmableTrailingRun = true
          ∧ candidateRuns.isTrailingContentFullyTrimmable = true)) :
    breakingContextForInlineContent o self candidateRuns lineStatus
      = some { contentWrappingRule := ContentWrappingRule.Keep, partialTrailingContent := none } := by
  by_cases hfits : candidateRuns.width ≤ lineStatus.availableWidth
  · exact breakingContext_rule1 o self candidateRuns lineStatus hfits
  rcases hrule with hfit | ⟨hline, hfull⟩
  · simp [breakingContextForInlineContent, hfits, htrailing, hfit]
  · by_cases hfit : candidateRuns.nonTrimmableWidth ≤ lineStatus.availableWidth
    · simp [breakingContextForInlineContent, hfits, htrailing, hfit]
    · simp [breakingContextForInlineContent, hfits, htrailing, hfit, hline, hfull]

/-- C1: a candidate whose total width is at most the available width is kept,
with no partial trailing content, whatever the line status is (the candidate
need not even be non-empty). -/
theorem breakingContext_keep_of_fits (o : Collaborators) (self : LineBreaker)
    (candidateRuns : Content) (lineStatus : LineStatus)
    (hfits : candidateRuns.width ≤ lineStatus.availableWidth) :
    breakingContextForInlineContent o self candidateRuns lineStatus
      = some { contentWrappingRule := ContentWrappingRule.Keep, partialTrailingContent := none } :=
  breakingContext_rule1 o self candidateRuns lineStatus hfits

theorem breakingContext_keep_of_fits_witness :
    (Content.ofRuns Sample.fixedPitch [(Sample.word Sample.fooBar 0 3, 30)]).width ≤ 30
      ∧ breakingContextForInlineContent Sample.fixedPitch {}
          (Content.ofRuns Sample.fixedPitch [(Sample.word Sample.fooBar 0 3, 30)])
          { availableWidth := 30, trimmableWidth := 0, lineHasFullyTrimmableTrailingRun := false
            lineIsEmpty := false }
        = some { contentWrappingRule := ContentWrappingRule.Keep, partialTrailingContent := none } :=
  ⟨by decide, breakingContext_keep_of_fits _ _ _ _ (by decide)⟩

/-- C2: an overflowing candidate with trailing trimmable content is kept when
(a) its width without the trailing trimmable part is at most the available
width, or (b) the line ends in a fully trimmable run and the trailing content
of the candidate is fully trimmable. -/
theorem breakingContext_keep_of_trailing_trimmable (o : Collaborators) (self : LineBreaker)
    (candidateRuns : Content) (lineStatus : LineStatus)
    (_hover : candidateRuns.width > lineStatus.availableWidth)
    (htrailing : candidateRuns.hasTrailingTrimmableContent = true)
    (hrule : candidateRuns.nonTrimmableWidth ≤ lineStatus.availableWidth
      ∨ (lineStatus.lineHasFullyTrimmableTrailingRun = true
          ∧ candidateRuns.isTrailingContentFullyTrimmable = true)) :
    breakingContextForInlineContent o self candidateRuns lineStatus
      = some { contentWrappingRule := ContentWrappingRule.Keep, partialTrailingContent := none } :=
  breakingContext_rule2 o self candidateRuns lineStatus htrailing hrule

theorem breakingContext_keep_of_trailing_trimmable_witness :
    breakingContextForInlineContent Sample.fixedPitch {}
        (Content.ofRuns Sample.fixedPitch
          [(Sample.word Sample.fooBar 0 3, 30), (Sample.space Sample.fooBar 3 1, 10)])
        { availableWidth := 35, trimmableWidth := 0, lineHasFullyTrimmableTrailingRun := false
          lineIsEmpty := false }
      = some { contentWrappingRule := ContentWrappingRule.Keep, partialTrailingContent := none } :=
  breakingContext_keep_of_trailing_trimmable _ _ _ _ (by decide) (by decide) (Or.inl (by decide))

/-! ### Candidates made of container markers -/

theorem Content.hasNonContentRunsOnlyIn_append (runs : List Content.Run) (run : Content.Run) :
    Content.hasNonContentRunsOnlyIn (runs ++ [run])
      = (Content.hasNonContentRunsOnlyIn runs
          && (run.inlineItem.isContainerStart || run.inlineItem.isContainerEnd)) := by
  induction runs with
  | nil => simp [Content.hasNonContentRunsOnlyIn]
  | cons r rest ih =>
    simp only [List.cons_append, Content.hasNonContentRunsOnlyIn]
    split
    · exact ih
    · simp

/-- Appending a container marker only extends the run list and the width. -/
theorem Content.append_marker (o : Collaborators) (c : Content) (inlineItem : InlineItem)
    (logicalWidth : InlineLayoutUnit)
    (hmarker : inlineItem.isContainerStart = true ∨ inlineItem.isContainerEnd = true) :
    c.append o inlineItem logicalWidth
      = { c with
          m_continousRuns :=
            c.m_continousRuns ++ [{ inlineItem := inlineItem, logicalWidth := logicalWidth }]
          m_width := c.m_width + logicalWidth } := by
  have hbox : inlineItem.isBox = false := by
    rcases hmarker with h | h <;>
      simp_all [InlineItem.isBox, InlineItem.isContainerStart, InlineItem.isContainerEnd]
  have hbreak : inlineItem.isLineBreak = false := by
    rcases hmarker with h | h <;>
      simp_all [InlineItem.isLineBreak, InlineItem.isHardLineBreak, InlineItem.isSoftLineBreak,
        InlineItem.isContainerStart, InlineItem.isContainerEnd]
  have htext : inlineItem.isText = false := by
    rcases hmarker with h | h <;>
      simp_all [InlineItem.isText, InlineItem.isContainerStart, InlineItem.isContainerEnd]
  simp [Content.append, hbox, hbreak, htext]

/-- A run of appended markers keeps the trailing trimmable state and the
"markers only" property of the content it starts from. -/
theorem Content.foldl_append_markers (o : Collaborators)
    (items : List (InlineItem × InlineLayoutUnit)) :
    ∀ (c : Content),
      (∀ p ∈ items, p.1.isContainerStart = true ∨ p.1.isContainerEnd = true) →
      c.hasTrailingTrimmableContent = false → c.hasNonContentRunsOnly = true →
      (items.foldl (fun c p => c.append o p.1 p.2) c).hasTrailingTrimmableContent = false
        ∧ (items.foldl (fun c p => c.append o p.1 p.2) c).hasNonContentRunsOnly = true := by
  induction items with
  | nil => intro c _ h1 h2; exact ⟨h1, h2⟩
  | cons p rest ih =>
    intro c hmarkers h1 h2
    have hp := hmarkers p (List.mem_cons_self _ _)
    simp only [List.foldl_cons]
    apply ih _ (fun q hq => hmarkers q (List.mem_cons_of_mem _ hq))
    · rw [Content.append_marker o c p.1 p.2 hp]
      simpa [Content.hasTrailingTrimmableContent] using h1
    · rw [Content.append_marker o c p.1 p.2 hp]
      simp only [Content.hasNonContentRunsOnly, Content.hasNonContentRunsOnlyIn_append]
      simp only [Content.hasNonContentRunsOnly] at h2
      simpa [h2] using hp

/-- The third rule on the state of a candidate: markers only, no trailing
trimmable content. -/
theorem breakingContext_keep_of_markers_state (o : Collaborators) (self : LineBreaker)
    (candidateRuns : Content) (lineStatus : LineStatus)
    (htrailing : candidateRuns.hasTrailingTrimmableContent = false)
    (hmarkers : candidateRuns.hasNonContentRunsOnly = true)
    (hover : candidateRuns.width > lineStatus.availableWidth)
    (hfits : candidateRuns.width ≤ lineStatus.availableWidth + lineStatus.trimmableWidth) :
    breakingContextForInlineContent o self candidateRuns lineStatus
      = some { contentWrappingRule := ContentWrappingRule.Keep, partialTrailingContent := none } := by
  have hnot : ¬ candidateRuns.width ≤ lineStatus.availableWidth := not_le.mpr hover
  have htrim : lineStatus.trimmableWidth ≠ 0 := by
    intro h0
    rw [h0, add_zero] at hfits
    exact hnot hfits
  simp [breakingContextForInlineContent, hnot, htrailing, hmarkers, htrim, hfits]

/-- C3: an overflowing candidate made only of container-start and
container-end markers is kept when its width is at most the available width
plus the trimmable width of the line. The candidate is any content assembled by
appending markers. -/
theorem breakingContext_keep_of_markers (o : Collaborators) (self : LineBreaker)
    (items : List (InlineItem × InlineLayoutUnit)) (lineStatus : LineStatus)
    (hmarkers : ∀ p ∈ items, p.1.isContainerStart = true ∨ p.1.isContainerEnd = true)
    (hover : (Content.ofRuns o items).width > lineStatus.availableWidth)
    (hfits : (Content.ofRuns o items).width
      ≤ lineStatus.availableWidth + lineStatus.trimmableWidth) :
    breakingContextForInlineContent o self (Content.ofRuns o items) lineStatus
      = some { contentWrappingRule := ContentWrappingRule.Keep, partialTrailingContent := none } := by
  have hstate := Content.foldl_append_markers o items {} hmarkers (by decide) (by decide)
  exact breakingContext_keep_of_markers_state o self _ lineStatus hstate.1 hstate.2 hover hfits

theorem breakingContext_keep_of_markers_witness :
    breakingContextForInlineContent Sample.fixedPitch {}
        (Content.ofRuns Sample.fixedPitch
          [(Sample.item Sample.span InlineItemType.ContainerStart, 2),
           (Sample.item Sample.span InlineItemType.ContainerEnd, 2)])
        { availableWidth := 3, trimmableWidth := 10, lineHasFullyTrimmableTrailingRun := true
          lineIsEmpty := false }
      = some { contentWrappingRule := ContentWrappingRule.Keep, partialTrailingContent := none } :=
  breakingContext_keep_of_markers _ _ _ _ (by decide) (by decide) (by decide)

/-! ### Text that cannot be broken, and boxes -/

theorem Content.hasTextContentOnlyIn_ne_nil (runs : List Content.Run)
    (h : Content.hasTextContentOnlyIn runs = true) : runs ≠ [] := by
  intro hnil
  subst hnil
  simp [Content.hasTextContentOnlyIn] at h

theorem Content.hasNonContentRunsOnlyIn_of_text (runs : List Content.Run)
    (h : Content.hasTextContentOnlyIn runs = true) :
    Content.hasNonContentRunsOnlyIn runs = false := by
  induction runs with
  | nil => simp [Content.hasTextContentOnlyIn] at h
  | cons r rest ih =>
    simp only [Content.hasTextContentOnlyIn] at h
    simp only [Content.hasNonContentRunsOnlyIn]
    split
    · rename_i hm
      rw [if_pos hm] at h
      exact ih h
    · rfl

/-- The part of `breakingContextForInlineContent` below the three keep rules,
for a text candidate that word breaking cannot split. -/
theorem breakingContext_fallthrough (o : Collaborators) (self : LineBreaker)
    (candidateRuns : Content) (lineStatus : LineStatus)
    (hover : ¬ candidateRuns.width ≤ lineStatus.availableWidth)
    (hrule2 : ¬ (candidateRuns.hasTrailingTrimmableContent = true
      ∧ (candidateRuns.nonTrimmableWidth ≤ lineStatus.availableWidth
        ∨ (lineStatus.lineHasFullyTrimmableTrailingRun = true
            ∧ candidateRuns.isTrailingContentFullyTrimmable = true))))
    (hrule3 : candidateRuns.hasNonContentRunsOnly = false) :
    breakingContextForInlineContent o self candidateRuns lineStatus
      = if candidateRuns.hasTextContentOnly = true then
          match wordBreakingBehavior o self candidateRuns.runs lineStatus.availableWidth with
          | some partialTrailingContent =>
            some { contentWrappingRule := ContentWrappingRule.Split
                   partialTrailingContent := some partialTrailingContent }
          | none =>
            match candidateRuns.runs[0]?, candidateRuns.runs.getLast? with
            | some first, some last =>
              some { contentWrappingRule :=
                       if (if isTrailingWhitespaceWithPreWrap last.inlineItem = true then true
                           else (lineStatus.lineIsEmpty || !isContentWrappingAllowed first)) = true
                       then ContentWrappingRule.Keep else ContentWrappingRule.Push
                     partialTrailingContent := none }
            | _, _ => none
        else
          some { contentWrappingRule :=
                   if lineStatus.lineIsEmpty = true then ContentWrappingRule.Keep
                   else ContentWrappingRule.Push
                 partialTrailingContent := none } := by
  unfold breakingContextForInlineContent
  simp only [if_neg hover, hrule3, Bool.and_false, Bool.false_eq_true, if_false]
  by_cases htrailing : candidateRuns.hasTrailingTrimmableContent = true
  · have h2 : ¬ (candidateRuns.nonTrimmableWidth ≤ lineStatus.availableWidth
        ∨ (lineStatus.lineHasFullyTrimmableTrailingRun = true
            ∧ candidateRuns.isTrailingContentFullyTrimmable = true)) :=
      fun h => hrule2 ⟨htrailing, h⟩
    rw [not_or] at h2
    have h3 : (lineStatus.lineHasFullyTrimmableTrailingRun
        && candidateRuns.isTrailingContentFullyTrimmable) = false := by
      rw [Bool.and_eq_false_iff]
      by_contra hcon
      rw [not_or] at hcon
      exact h2.2 ⟨by simpa using hcon.1, by simpa using hcon.2⟩
    simp only [htrailing, if_true, if_neg h2.1, h3, Bool.false_eq_true, if_false]
  · simp only [htrailing, Bool.false_eq_true, if_false]

/-- C4: for a text-only candidate to which none of the keep rules applies and
which word breaking cannot split, the decision is Keep exactly when the line is
empty, or the first run forbids wrapping, or the last run is whitespace text
with `white-space: pre-wrap`; it is Push in every other case. Nothing is split
off. -/
theorem breakingContext_unbreakable_text (o : Collaborators) (self : LineBreaker)
    (candidateRuns : Content) (lineStatus : LineStatus)
    (htext : candidateRuns.hasTextContentOnly = true)
    (hrule1 : ¬ candidateRuns.width ≤ lineStatus.availableWidth)
    (hrule2 : ¬ (candidateRuns.hasTrailingTrimmableContent = true
      ∧ (candidateRuns.nonTrimmableWidth ≤ lineStatus.availableWidth
        ∨ (lineStatus.lineHasFullyTrimmableTrailingRun = true
            ∧ candidateRuns.isTrailingContentFullyTrimmable = true))))
    (hnosplit : wordBreakingBehavior o self candidateRuns.runs lineStatus.availableWidth = none) :
    ∃ (first last : Content.Run) (rule : ContentWrappingRule),
      candidateRuns.runs.head? = some first ∧ candidateRuns.runs.getLast? = some last
        ∧ breakingContextForInlineContent o self candidateRuns lineStatus
            = some { contentWrappingRule := rule, partialTrailingContent := none }
        ∧ (rule = ContentWrappingRule.Keep
            ↔ (lineStatus.lineIsEmpty = true ∨ isContentWrappingAllowed first = false
                ∨ isTrailingWhitespaceWithPreWrap last.inlineItem = true))
        ∧ (rule ≠ ContentWrappingRule.Keep → rule = ContentWrappingRule.Push) := by
  have hrule3 : candidateRuns.hasNonContentRunsOnly = false :=
    Content.hasNonContentRunsOnlyIn_of_text _ htext
  have hne : candidateRuns.runs ≠ [] := Content.hasTextContentOnlyIn_ne_nil _ htext
  rw [breakingContext_fallthrough o self candidateRuns lineStatus hrule1 hrule2 hrule3]
  obtain ⟨first, rest, hruns⟩ := List.exists_cons_of_ne_nil hne
  obtain ⟨last, hlast⟩ : ∃ last, candidateRuns.runs.getLast? = some last := by
    rw [hruns]
    exact ⟨_, List.getLast?_eq_getLast _ (List.cons_ne_nil _ _)⟩
  have hzero : candidateRuns.runs[0]? = some first := by simp [hruns]
  refine ⟨first, last,
    if (if isTrailingWhitespaceWithPreWrap last.inlineItem = true then true
        else (lineStatus.lineIsEmpty || !isContentWrappingAllowed first)) = true
    then ContentWrappingRule.Keep else ContentWrappingRule.Push,
    by simp [hruns], hlast, ?_, ?_, ?_⟩
  · simp only [htext, if_true, hnosplit, hzero, hlast]
  · cases lineStatus.lineIsEmpty <;> cases isContentWrappingAllowed first <;>
      cases isTrailingWhitespaceWithPreWrap last.inlineItem <;> simp
  · cases lineStatus.lineIsEmpty <;> cases isContentWrappingAllowed first <;>
      cases isTrailingWhitespaceWithPreWrap last.inlineItem <;> simp

theorem breakingContext_unbreakable_text_witness :
    ∃ (first last : Content.Run) (rule : ContentWrappingRule),
      (Content.ofRuns Sample.fixedPitch [(Sample.word Sample.fooBar 0 3, 30)]).runs.head?
          = some first
        ∧ (Content.ofRuns Sample.fixedPitch [(Sample.word Sample.fooBar 0 3, 30)]).runs.getLast?
          = some last
        ∧ breakingContextForInlineContent Sample.fixedPitch {}
            (Content.ofRuns Sample.fixedPitch [(Sample.word Sample.fooBar 0 3, 30)])
            { availableWidth := 20, trimmableWidth := 0, lineHasFullyTrimmableTrailingRun := false
              lineIsEmpty := false }
            = some { contentWrappingRule := rule, partialTrailingContent := none }
        ∧ (rule = ContentWrappingRule.Keep
            ↔ (false = true ∨ isContentWrappingAllowed first = false
                ∨ isTrailingWhitespaceWithPreWrap last.inlineItem = true))
        ∧ (rule ≠ ContentWrappingRule.Keep → rule = ContentWrappingRule.Push) :=
  breakingContext_unbreakable_text Sample.fixedPitch {}
    (Content.ofRuns Sample.fixedPitch [(Sample.word Sample.fooBar 0 3, 30)])
    { availableWidth := 20, trimmableWidth := 0, lineHasFullyTrimmableTrailingRun := false
      lineIsEmpty := false }
    (by decide) (by decide) (by decide) (by decide)

/-- Word breaking finds nothing in a single run that forbids wrapping. -/
theorem wordBreakingBehavior_single_unwrappable (o : Collaborators) (self : LineBreaker)
    (run : Content.Run) (availableWidth : InlineLayoutUnit)
    (hwrap : isContentWrappingAllowed run = false) :
    wordBreakingBehavior o self [run] availableWidth = none := by
  simp [wordBreakingBehavior, wordBreakingForwardScan, wordBreakingBackwardScan, hwrap]

/-- C5 (as the code decides it): a candidate made of a single text run with
`white-space: nowrap` is kept, with nothing split off, also when its width
exceeds the available width and the line is not empty: content whose first run
forbids wrapping overflows the line, it is neither split nor pushed. -/
theorem breakingContext_nowrap_run_kept (o : Collaborators) (self : LineBreaker)
    (candidateRuns : Content) (lineStatus : LineStatus) (run : Content.Run)
    (hruns : candidateRuns.runs = [run])
    (htext : run.inlineItem.isText = true)
    (hnowrap : run.inlineItem.style.whiteSpace = WhiteSpace.NoWrap) :
    breakingContextForInlineContent o self candidateRuns lineStatus
      = some { contentWrappingRule := ContentWrappingRule.Keep, partialTrailingContent := none } := by
  have hwrap : isContentWrappingAllowed run = false := by
    simp [isContentWrappingAllowed, htext, hnowrap]
  have hmarker : (run.inlineItem.isContainerStart || run.inlineItem.isContainerEnd) = false := by
    simp_all [InlineItem.isText, InlineItem.isContainerStart, InlineItem.isContainerEnd]
  have hruns2 : candidateRuns.m_continousRuns = [run] := hruns
  have htextonly : candidateRuns.hasTextContentOnly = true := by
    simp [Content.hasTextContentOnly, hruns2, Content.hasTextContentOnlyIn, hmarker, htext]
  by_cases hrule1 : candidateRuns.width ≤ lineStatus.availableWidth
  · exact breakingContext_rule1 o self candidateRuns lineStatus hrule1
  by_cases hrule2 : candidateRuns.hasTrailingTrimmableContent = true
      ∧ (candidateRuns.nonTrimmableWidth ≤ lineStatus.availableWidth
        ∨ (lineStatus.lineHasFullyTrimmableTrailingRun = true
            ∧ candidateRuns.isTrailingContentFullyTrimmable = true))
  · exact breakingContext_rule2 o self candidateRuns lineStatus hrule2.1 hrule2.2
  rw [breakingContext_fallthrough o self candidateRuns lineStatus hrule1 hrule2
    (Content.hasNonContentRunsOnlyIn_of_text _ htextonly)]
  simp [htextonly, hruns, wordBreakingBehavior_single_unwrappable o self run _ hwrap, hwrap]

theorem breakingContext_nowrap_run_kept_witness :
    breakingContextForInlineContent Sample.fixedPitch {}
        (Content.ofRuns Sample.fixedPitch [(Sample.word Sample.nowrapBox 0 14, 140)])
        { availableWidth := 100, trimmableWidth := 0, lineHasFullyTrimmableTrailingRun := false
          lineIsEmpty := false }
      = some { contentWrappingRule := ContentWrappingRule.Keep, partialTrailingContent := none } :=
  breakingContext_nowrap_run_kept Sample.fixedPitch {} _ _
    { inlineItem := Sample.word Sample.nowrapBox 0 14, logicalWidth := 140 }
    (by decide) (by decide) (by decide)

/-- C5, the claim as written fails: the single non-whitespace run
"nowrap-content" (`white-space: nowrap`, width 140) on a non-empty line with
available width 100 is not pushed, it is kept. -/
theorem breakingContext_nowrap_run_not_pushed :
    (Sample.word Sample.nowrapBox 0 14).isText = true
      ∧ (Sample.word Sample.nowrapBox 0 14).isWhitespace = false
      ∧ (Sample.word Sample.nowrapBox 0 14).style.whiteSpace = WhiteSpace.NoWrap
      ∧ (Content.ofRuns Sample.fixedPitch [(Sample.word Sample.nowrapBox 0 14, 140)]).width > 100
      ∧ breakingContextForInlineContent Sample.fixedPitch {}
          (Content.ofRuns Sample.fixedPitch [(Sample.word Sample.nowrapBox 0 14, 140)])
          { availableWidth := 100, trimmableWidth := 0, lineHasFullyTrimmableTrailingRun := false
            lineIsEmpty := false }
        ≠ some { contentWrappingRule := ContentWrappingRule.Push, partialTrailingContent := none } := by
  decide

/-- A candidate whose first content run is not text is neither "text only"
nor "markers only". -/
theorem Content.not_text_of_firstContentRun (runs : List Content.Run) (run : Content.Run)
    (hfirst : runs.find? Content.isContentRun = some run)
    (hnottext : run.inlineItem.isText = false) :
    Content.hasTextContentOnlyIn runs = false ∧ Content.hasNonContentRunsOnlyIn runs = false := by
  induction runs with
  | nil => simp at hfirst
  | cons r rest ih =>
    simp only [Content.hasTextContentOnlyIn, Content.hasNonContentRunsOnlyIn]
    by_cases hm : (r.inlineItem.isContainerStart || r.inlineItem.isContainerEnd) = true
    · have hr : Content.isContentRun r = false := by simp [Content.isContentRun, hm]
      rw [List.find?_cons, hr] at hfirst
      simp only [hm, if_true]
      exact ih hfirst
    · have hr : Content.isContentRun r = true := by
        simp only [Bool.not_eq_true] at hm
        simp [Content.isContentRun, hm]
      rw [List.find?_cons, hr] at hfirst
      simp only [Option.some.injEq] at hfirst
      subst hfirst
      simp only [hm, if_false, Bool.false_eq_true]
      exact ⟨hnottext, trivial⟩

/-- C6: an overflowing candidate whose first non-marker run is a box, and to
which the trailing-trimmable rules do not apply, is kept when the line is empty
and pushed otherwise; nothing is split off. -/
theorem breakingContext_box (o : Collaborators) (self : LineBreaker)
    (candidateRuns : Content) (lineStatus : LineStatus) (run : Content.Run)
    (hover : candidateRuns.width > lineStatus.availableWidth)
    (hfirst : candidateRuns.firstContentRun = some run)
    (hbox : run.inlineItem.isBox = true)
    (hrule2 : ¬ (candidateRuns.hasTrailingTrimmableContent = true
      ∧ (candidateRuns.nonTrimmableWidth ≤ lineStatus.availableWidth
        ∨ (lineStatus.lineHasFullyTrimmableTrailingRun = true
            ∧ candidateRuns.isTrailingContentFullyTrimmable = true)))) :
    breakingContextForInlineContent o self candidateRuns lineStatus
      = some { contentWrappingRule :=
                 if lineStatus.lineIsEmpty = true then ContentWrappingRule.Keep
                 else ContentWrappingRule.Push
               partialTrailingContent := none } := by
  have hnottext : run.inlineItem.isText = false := by
    simp_all [InlineItem.isText, InlineItem.isBox]
  have hkind := Content.not_text_of_firstContentRun candidateRuns.m_continousRuns run hfirst hnottext
  have htextonly : candidateRuns.hasTextContentOnly = false := hkind.1
  rw [breakingContext_fallthrough o self candidateRuns lineStatus (not_le.mpr hover) hrule2 hkind.2]
  simp [htextonly]

theorem breakingContext_box_witness :
    breakingContextForInlineContent Sample.fixedPitch {}
        (Content.ofRuns Sample.fixedPitch
          [(Sample.item Sample.span InlineItemType.ContainerStart, 0),
           (Sample.item Sample.image InlineItemType.Box, 50)])
        { availableWidth := 20, trimmableWidth := 0, lineHasFullyTrimmableTrailingRun := false
          lineIsEmpty := false }
      = some { contentWrappingRule := ContentWrappingRule.Push, partialTrailingContent := none } :=
  breakingContext_box Sample.fixedPitch {} _ _
    { inlineItem := Sample.item Sample.image InlineItemType.Box, logicalWidth := 50 }
    (by decide) (by decide) (by decide) (by decide)

/-- C7: a float is wrapped exactly when the line is not empty and the float is
strictly wider than the available width; never on an empty line. -/
theorem shouldWrapFloatBox_iff (floatLogicalWidth availableWidth : InlineLayoutUnit)
    (lineIsEmpty : Bool) :
    (shouldWrapFloatBox floatLogicalWidth availableWidth lineIsEmpty = true
        ↔ (lineIsEmpty = false ∧ floatLogicalWidth > availableWidth))
      ∧ shouldWrapFloatBox floatLogicalWidth availableWidth true = false := by
  simp [shouldWrapFloatBox]

/-! ## Breaking a text run -/

/-- C9: `tryBreakingTextRun` finds no split for a run with `word-break:
keep-all`; and for a run that is not `break-all` (in particular `normal`) it
finds none when hyphenation is disabled, `hyphens` is not `auto`, the locale
cannot hyphenate, the limits do not fit the run (`limitBefore >= length`,
`limitAfter >= length` or the unsigned sum `limitBefore + limitAfter > length`),
or the available width without the hyphen glyph is not positive. -/
theorem tryBreakingTextRun_none (o : Collaborators) (self : LineBreaker)
    (overflowRun : Content.Run) (availableWidth : InlineLayoutUnit)
    (h : overflowRun.inlineItem.style.wordBreak = WordBreak.KeepAll
      ∨ (overflowRun.inlineItem.style.wordBreak ≠ WordBreak.BreakAll
          ∧ (self.n_hyphenationIsDisabled = true
            ∨ overflowRun.inlineItem.style.hyphens ≠ Hyphens.Auto
            ∨ o.canHyphenate overflowRun.inlineItem.style.locale = false
            ∨ hyphenationLimitBefore overflowRun.inlineItem.style ≥ overflowRun.inlineItem.length
            ∨ hyphenationLimitAfter overflowRun.inlineItem.style ≥ overflowRun.inlineItem.length
            ∨ (hyphenationLimitBefore overflowRun.inlineItem.style
                + hyphenationLimitAfter overflowRun.inlineItem.style) % 4294967296
                > overflowRun.inlineItem.length
            ∨ availableWidth - overflowRun.inlineItem.style.fontCascade.hyphenStringWidth ≤ 0))) :
    tryBreakingTextRun o self overflowRun availableWidth = none := by
  unfold tryBreakingTextRun
  rcases h with hkeep | ⟨hnotall, hrest⟩
  · simp [hkeep]
  · by_cases hkeep : overflowRun.inlineItem.style.wordBreak = WordBreak.KeepAll
    · simp [hkeep]
    · simp only [hkeep, hnotall, if_false]
      rcases hrest with h1 | h1 | h1 | h1 | h1 | h1 | h1
      · simp [h1]
      · simp [h1]
      · simp [h1]
      · split
        · rfl
        · simp [h1]
      · split
        · rfl
        · simp [h1]
      · split
        · rfl
        · simp [h1]
      · split
        · rfl
        · split
          · rfl
          · simp [h1]

theorem tryBreakingTextRun_none_witness :
    tryBreakingTextRun Sample.fixedPitch { n_hyphenationIsDisabled := true }
        { inlineItem := Sample.word Sample.hyphenationBox 0 11, logicalWidth := 110 } 80 = none :=
  tryBreakingTextRun_none _ _ _ _ (Or.inr ⟨by decide, Or.inl rfl⟩)

/-- C10: when `tryBreakingTextRun` returns a hyphenated left side of length `L`
for a run of length `n` (the run is not `break-all`, or the returned flag is
set), `s` being the length reported by the split oracle, and the hyphenation
oracle answers with a location strictly before the index it is given, then
`0 < L`, `limitBefore <= L <= min s (n - limitAfter)` and the hyphen flag is
set. -/
theorem tryBreakingTextRun_hyphen_bounds (o : Collaborators) (self : LineBreaker)
    (overflowRun : Content.Run) (availableWidth : InlineLayoutUnit) (leftSide : LeftSide)
    (s : Nat)
    (hs : s = (o.split overflowRun.inlineItem.layoutBox overflowRun.inlineItem.start
        overflowRun.inlineItem.length overflowRun.logicalWidth
        (availableWidth - overflowRun.inlineItem.style.fontCascade.hyphenStringWidth)).length)
    (hreturn : tryBreakingTextRun o self overflowRun availableWidth = some leftSide)
    (hhyphen : leftSide.needsHyphen = true
      ∨ overflowRun.inlineItem.style.wordBreak ≠ WordBreak.BreakAll)
    (horacle :
      o.lastHyphenLocation (itemText overflowRun.inlineItem)
          ((min s (overflowRun.inlineItem.length
              - hyphenationLimitAfter overflowRun.inlineItem.style) + 1) % 4294967296)
          overflowRun.inlineItem.style.locale
        < (min s (overflowRun.inlineItem.length
              - hyphenationLimitAfter overflowRun.inlineItem.style) + 1) % 4294967296) :
    0 < leftSide.length
      ∧ hyphenationLimitBefore overflowRun.inlineItem.style ≤ leftSide.length
      ∧ leftSide.length
          ≤ min s (overflowRun.inlineItem.length - hyphenationLimitAfter overflowRun.inlineItem.style)
      ∧ leftSide.needsHyphen = true := by
  subst hs
  unfold tryBreakingTextRun at hreturn
  simp only at hreturn
  split at hreturn
  · cases hreturn
  split at hreturn
  · rename_i hall
    rcases hhyphen with hflag | hnot
    · cases hreturn
      cases hflag
    · exact absurd hall hnot
  split at hreturn
  · cases hreturn
  split at hreturn
  · cases hreturn
  split at hreturn
  · cases hreturn
  split at hreturn
  · cases hreturn
  split at hreturn
  · cases hreturn
  rename_i hloc
  cases hreturn
  simp only [not_or, not_lt] at hloc
  obtain ⟨hzero, hbefore⟩ := hloc
  have hmod := Nat.mod_le
    (o.lastHyphenLocation (itemText overflowRun.inlineItem)
      ((min (o.split overflowRun.inlineItem.layoutBox overflowRun.inlineItem.start
          overflowRun.inlineItem.length overflowRun.logicalWidth
          (availableWidth - overflowRun.inlineItem.style.fontCascade.hyphenStringWidth)).length
        (overflowRun.inlineItem.length
          - hyphenationLimitAfter overflowRun.inlineItem.style) + 1) % 4294967296)
      overflowRun.inlineItem.style.locale) 4294967296
  have hmod2 := Nat.mod_le
    (min (o.split overflowRun.inlineItem.layoutBox overflowRun.inlineItem.start
          overflowRun.inlineItem.length overflowRun.logicalWidth
          (availableWidth - overflowRun.inlineItem.style.fontCascade.hyphenStringWidth)).length
        (overflowRun.inlineItem.length
          - hyphenationLimitAfter overflowRun.inlineItem.style) + 1) 4294967296
  refine ⟨Nat.pos_of_ne_zero hzero, hbefore, ?_, rfl⟩
  have hlt := lt_of_le_of_lt hmod (lt_of_lt_of_le horacle hmod2)
  exact Nat.lt_succ_iff.mp hlt

theorem tryBreakingTextRun_hyphen_bounds_witness :
    tryBreakingTextRun Sample.fixedPitch {}
        { inlineItem := Sample.word Sample.hyphenationBox 0 11, logicalWidth := 110 } 80
      = some { length := 4, logicalWidth := 40, needsHyphen := true }
    ∧ (0 < 4 ∧ hyphenationLimitBefore Sample.hyphenating ≤ 4
      ∧ 4 ≤ min 7 (11 - hyphenationLimitAfter Sample.hyphenating) ∧ true = true) :=
  ⟨by decide,
    tryBreakingTextRun_hyphen_bounds Sample.fixedPitch {}
      { inlineItem := Sample.word Sample.hyphenationBox 0 11, logicalWidth := 110 } 80
      { length := 4, logicalWidth := 40, needsHyphen := true } 7 (by decide) (by decide)
      (Or.inl rfl) (by decide)⟩

/-! ## Word breaking: the backward scan -/

theorem accumulatedRunWidth_zero (runs : List Content.Run) : accumulatedRunWidth runs 0 = 0 := by
  simp [accumulatedRunWidth]

theorem accumulatedRunWidth_cons_succ (run : Content.Run) (rest : List Content.Run) (k : Nat) :
    accumulatedRunWidth (run :: rest) (k + 1) = run.logicalWidth + accumulatedRunWidth rest k := by
  simp [accumulatedRunWidth]

/-- The first loop stops at the first overflowing wrappable run when that run
cannot be broken. Stated for the loop entered at `index` with `accumulated`. -/
theorem wordBreakingForwardScan_stopped (o : Collaborators) (self : LineBreaker)
    (availableWidth : InlineLayoutUnit) (rest : List Content.Run) :
    ∀ (index : Nat) (accumulated : InlineLayoutUnit) (i : Nat) (run : Content.Run),
      rest[i]? = some run →
      (∀ k r, k < i → rest[k]? = some r →
        ¬ (accumulated + accumulatedRunWidth rest k + r.logicalWidth > availableWidth
            ∧ isContentWrappingAllowed r = true)) →
      accumulated + accumulatedRunWidth rest i + run.logicalWidth > availableWidth →
      isContentWrappingAllowed run = true →
      tryBreakingTextRun o self run
        (max 0 (availableWidth - (accumulated + accumulatedRunWidth rest i))) = none →
      wordBreakingForwardScan o self availableWidth rest index accumulated
        = ForwardScan.stopped (index + i) := by
  induction rest with
  | nil => intro index accumulated i run hi; simp at hi
  | cons r0 rest ih =>
    intro index accumulated i run hi hfirst hover hwrap hnone
    cases i with
    | zero =>
      simp only [List.getElem?_cons_zero, Option.some.injEq] at hi
      subst hi
      simp only [accumulatedRunWidth_zero, add_zero] at hover hnone
      simp [wordBreakingForwardScan, hover, hwrap, hnone]
    | succ i =>
      have h0 := hfirst 0 r0 (Nat.succ_pos i) (by simp)
      simp only [accumulatedRunWidth_zero, add_zero] at h0
      simp only [List.getElem?_cons_succ] at hi
      have hrec := ih (index + 1) (accumulated + r0.logicalWidth) i run hi
        (by
          intro k r hk hr
          have := hfirst (k + 1) r (Nat.succ_lt_succ hk) (by simpa using hr)
          rw [accumulatedRunWidth_cons_succ, ← add_assoc] at this
          exact this)
        (by rw [accumulatedRunWidth_cons_succ, ← add_assoc] at hover; exact hover)
        hwrap
        (by rw [accumulatedRunWidth_cons_succ, ← add_assoc] at hnone; exact hnone)
      rw [wordBreakingForwardScan, if_neg h0, hrec]
      congr 1
      omega

/-- The second loop returns the nearest wrappable run below `index`. -/
theorem wordBreakingBackwardScan_found (runs : List Content.Run) :
    ∀ (index j : Nat) (r : Content.Run), j < index → index ≤ runs.length →
      runs[j]? = some r → isContentWrappingAllowed r = true →
      (∀ k r1, j < k → k < index → runs[k]? = some r1 → isContentWrappingAllowed r1 = false) →
      wordBreakingBackwardScan runs index
        = some { runIndex := j, length := r.inlineItem.length, logicalWidth := r.logicalWidth
                 needsHyphen := false } := by
  intro index
  induction index with
  | zero => intro j r hj; omega
  | succ index ih =>
    intro j r hj hlen hr hwrap hbetween
    have hlt : index < runs.length := hlen
    rcases Nat.lt_succ_iff_lt_or_eq.mp hj with hjlt | hjeq
    · have hmid := hbetween index (runs.get ⟨index, hlt⟩) hjlt (Nat.lt_succ_self index)
        (by simp [List.getElem?_eq_getElem hlt])
      simp only [wordBreakingBackwardScan, List.getElem?_eq_getElem hlt]
      simp only [List.get_eq_getElem] at hmid
      simp only [hmid, Bool.false_eq_true, if_false]
      exact ih j r hjlt (Nat.le_of_lt hlt) hr hwrap
        (fun k r1 hjk hk => hbetween k r1 hjk (Nat.lt_succ_of_lt hk))
    · subst hjeq
      simp [wordBreakingBackwardScan, hr, hwrap]

/-- The second loop finds nothing when no run below `index` is wrappable. -/
theorem wordBreakingBackwardScan_none (runs : List Content.Run) :
    ∀ (index : Nat),
      (∀ k r, k < index → runs[k]? = some r → isContentWrappingAllowed r = false) →
      wordBreakingBackwardScan runs index = none := by
  intro index
  induction index with
  | zero => intro _; rfl
  | succ index ih =>
    intro hnone
    rw [wordBreakingBackwardScan]
    cases hget : runs[index]? with
    | none => rfl
    | some run =>
      have := hnone index run (Nat.lt_succ_self index) hget
      simp only [this, Bool.false_eq_true, if_false]
      exact ih (fun k r hk => hnone k r (Nat.lt_succ_of_lt hk))

/-- C8: when the first overflowing wrappable run, at index `i`, cannot be
broken, `wordBreakingBehavior` splits at the greatest index `j < i` whose run
permits wrapping, with that item's whole length, that run's width and no
hyphen; and it returns nothing when no run before `i` permits wrapping. -/
theorem wordBreakingBehavior_backward (o : Collaborators) (self : LineBreaker)
    (runs : List Content.Run) (availableWidth : InlineLayoutUnit) (i : Nat) (run : Content.Run)
    (hi : runs[i]? = some run)
    (hfirst : ∀ k r, k < i → runs[k]? = some r →
      ¬ (accumulatedRunWidth runs k + r.logicalWidth > availableWidth
          ∧ isContentWrappingAllowed r = true))
    (hover : accumulatedRunWidth runs i + run.logicalWidth > availableWidth)
    (hwrap : isContentWrappingAllowed run = true)
    (hunbreakable : tryBreakingTextRun o self run
      (max 0 (availableWidth - accumulatedRunWidth runs i)) = none) :
    (∀ j r, j < i → runs[j]? = some r → isContentWrappingAllowed r = true →
        (∀ k r1, j < k → k < i → runs[k]? = some r1 → isContentWrappingAllowed r1 = false) →
        wordBreakingBehavior o self runs availableWidth
          = some { runIndex := j, length := r.inlineItem.length, logicalWidth := r.logicalWidth
                   needsHyphen := false })
      ∧ ((∀ k r, k < i → runs[k]? = some r → isContentWrappingAllowed r = false) →
          wordBreakingBehavior o self runs availableWidth = none) := by
  have hstop : wordBreakingForwardScan o self availableWidth runs 0 0 = ForwardScan.stopped i := by
    have := wordBreakingForwardScan_stopped o self availableWidth runs 0 0 i run hi
      (by simpa using hfirst) (by simpa using hover) hwrap (by simpa using hunbreakable)
    simpa using this
  have hlen : i ≤ runs.length := by
    have := (List.getElem?_eq_some_iff.mp hi).1
    omega
  constructor
  · intro j r hj hr hwrapj hbetween
    simp only [wordBreakingBehavior, hstop]
    exact wordBreakingBackwardScan_found runs i j r hj hlen hr hwrapj hbetween
  · intro hnone
    simp only [wordBreakingBehavior, hstop]
    exact wordBreakingBackwardScan_none runs i hnone

theorem wordBreakingBehavior_backward_witness :
    wordBreakingBehavior Sample.fixedPitch {} Sample.fooBarRuns 30
      = some { runIndex := 0, length := 3, logicalWidth := 30, needsHyphen := false } :=
  (wordBreakingBehavior_backward Sample.fixedPitch {} Sample.fooBarRuns 30 1
      { inlineItem := Sample.space Sample.fooBar 3 1, logicalWidth := 10 } (by decide)
      (by
        intro k r hk hr
        obtain rfl : k = 0 := by omega
        obtain rfl : r = { inlineItem := Sample.word Sample.fooBar 0 3, logicalWidth := 30 } := by
          simpa [Sample.fooBarRuns] using hr.symm
        decide)
      (by decide) (by decide) (by decide)).1 0
    { inlineItem := Sample.word Sample.fooBar 0 3, logicalWidth := 30 } (by decide) (by decide)
    (by decide) (by intro k r1 hjk hk; omega)

end LineBreaker

namespace LineBreaker

/-! ## The width of a hyphenated split -/

/-- A choice between Keep and Push is not Split. -/
theorem keep_or_push_ne_split (p : Prop) [Decidable p] :
    (if p then ContentWrappingRule.Keep else ContentWrappingRule.Push)
      ≠ ContentWrappingRule.Split := by
  split <;> simp

/-- A Split decision comes from word breaking of a text-only candidate. -/
theorem breakingContext_split (o : Collaborators) (self : LineBreaker)
    (candidateRuns : Content) (lineStatus : LineStatus) (result : BreakingContext)
    (hresult : breakingContextForInlineContent o self candidateRuns lineStatus = some result)
    (hsplit : result.contentWrappingRule = ContentWrappingRule.Split) :
    candidateRuns.hasTextContentOnly = true
      ∧ ∃ partialTrailingContent,
          wordBreakingBehavior o self candidateRuns.runs lineStatus.availableWidth
            = some partialTrailingContent
          ∧ result.partialTrailingContent = some partialTrailingContent := by
  have hfall : (if candidateRuns.hasTextContentOnly = true then
        match wordBreakingBehavior o self candidateRuns.runs lineStatus.availableWidth with
        | some partialTrailingContent =>
          some { contentWrappingRule := ContentWrappingRule.Split
                 partialTrailingContent := some partialTrailingContent }
        | none =>
          match candidateRuns.runs[0]?, candidateRuns.runs.getLast? with
          | some first, some last =>
            some { contentWrappingRule :=
                     if (if isTrailingWhitespaceWithPreWrap last.inlineItem = true then true
                         else (lineStatus.lineIsEmpty || !isContentWrappingAllowed first)) = true
                     then ContentWrappingRule.Keep else ContentWrappingRule.Push
                   partialTrailingContent := none }
          | _, _ => none
      else
        some { contentWrappingRule :=
                 if lineStatus.lineIsEmpty = true then ContentWrappingRule.Keep
                 else ContentWrappingRule.Push
               partialTrailingContent := none }) = some result →
      candidateRuns.hasTextContentOnly = true
        ∧ ∃ partialTrailingContent,
            wordBreakingBehavior o self candidateRuns.runs lineStatus.availableWidth
              = some partialTrailingContent
            ∧ result.partialTrailingContent = some partialTrailingContent := by
    intro h
    split at h
    · rename_i htext
      refine ⟨htext, ?_⟩
      split at h
      · rename_i partialTrailingContent hword
        simp only [Option.some.injEq] at h
        subst h
        exact ⟨partialTrailingContent, hword, rfl⟩
      · split at h
        · simp only [Option.some.injEq] at h
          subst h
          exact absurd hsplit (keep_or_push_ne_split _)
        · cases h
    · simp only [Option.some.injEq] at h
      subst h
      exact absurd hsplit (keep_or_push_ne_split _)
  have hkeep : ∀ (keep : BreakingContext),
      keep.contentWrappingRule = ContentWrappingRule.Keep → some keep = some result → False := by
    intro keep hrule h
    simp only [Option.some.injEq] at h
    subst h
    rw [hrule] at hsplit
    cases hsplit
  unfold breakingContextForInlineContent at hresult
  simp only at hresult
  split at hresult
  · exact (hkeep _ rfl hresult).elim
  · split at hresult
    · split at hresult
      · exact (hkeep _ rfl hresult).elim
      · split at hresult
        · exact (hkeep _ rfl hresult).elim
        · exact hfall hresult
    · split at hresult
      · split at hresult
        · exact (hkeep _ rfl hresult).elim
        · exact hfall hresult
      · exact hfall hresult

/-- A hyphen-flagged left side carries the width the measurement oracle
reports for the arguments (item start, hyphen location). -/
theorem tryBreakingTextRun_hyphen_width (o : Collaborators) (self : LineBreaker)
    (overflowRun : Content.Run) (availableWidth : InlineLayoutUnit) (leftSide : LeftSide)
    (hreturn : tryBreakingTextRun o self overflowRun availableWidth = some leftSide)
    (hhyphen : leftSide.needsHyphen = true) :
    leftSide.logicalWidth
      = o.width overflowRun.inlineItem.layoutBox overflowRun.inlineItem.start leftSide.length := by
  unfold tryBreakingTextRun at hreturn
  simp only at hreturn
  split at hreturn
  · cases hreturn
  split at hreturn
  · cases hreturn
    cases hhyphen
  split at hreturn
  · cases hreturn
  split at hreturn
  · cases hreturn
  split at hreturn
  · cases hreturn
  split at hreturn
  · cases hreturn
  split at hreturn
  · cases hreturn
  cases hreturn
  rfl

/-- A return from inside the first loop hands on what `tryBreakingTextRun`
found for the run at the returned index. -/
theorem wordBreakingForwardScan_returned (o : Collaborators) (self : LineBreaker)
    (availableWidth : InlineLayoutUnit) (rest : List Content.Run) :
    ∀ (index : Nat) (accumulated : InlineLayoutUnit) (found : PartialTrailingContent),
      wordBreakingForwardScan o self availableWidth rest index accumulated
        = ForwardScan.returned found →
      ∃ (i : Nat) (run : Content.Run) (adjusted : InlineLayoutUnit),
        rest[i]? = some run ∧ found.runIndex = index + i
          ∧ tryBreakingTextRun o self run adjusted
              = some { length := found.length, logicalWidth := found.logicalWidth
                       needsHyphen := found.needsHyphen } := by
  induction rest with
  | nil => intro index accumulated found h; simp [wordBreakingForwardScan] at h
  | cons r0 rest ih =>
    intro index accumulated found h
    rw [wordBreakingForwardScan] at h
    split at h
    · simp only at h
      split at h
      · rename_i leftSide htry
        simp only [ForwardScan.returned.injEq] at h
        subst h
        exact ⟨0, r0, _, by simp, by simp, htry⟩
      · cases h
    · obtain ⟨i, run, adjusted, hi, hindex, htry⟩ := ih _ _ _ h
      exact ⟨i + 1, run, adjusted, by simpa using hi, by omega, htry⟩

/-- The second loop never asks for a hyphen. -/
theorem wordBreakingBackwardScan_no_hyphen (runs : List Content.Run) :
    ∀ (index : Nat) (found : PartialTrailingContent),
      wordBreakingBackwardScan runs index = some found → found.needsHyphen = false := by
  intro index
  induction index with
  | zero => intro found h; simp [wordBreakingBackwardScan] at h
  | succ index ih =>
    intro found h
    rw [wordBreakingBackwardScan] at h
    split at h
    · split at h
      · simp only [Option.some.injEq] at h
        subst h
        rfl
      · exact ih found h
    · cases h

/-- C11 (without the hyphen glyph): when the decision is Split with a
hyphen-flagged partial trailing content and the split run starts at offset 0 of
the text of its box, the logical width carried is the width the measurement
oracle reports for the kept text, the range `[start, start + length)` of the
box: the width of the kept prefix. The hyphen glyph width is not part of it. -/
theorem breakingContext_hyphenated_width (o : Collaborators) (self : LineBreaker)
    (candidateRuns : Content) (lineStatus : LineStatus)
    (partialTrailingContent : PartialTrailingContent)
    (hsplit : breakingContextForInlineContent o self candidateRuns lineStatus
      = some { contentWrappingRule := ContentWrappingRule.Split
               partialTrailingContent := some partialTrailingContent })
    (hhyphen : partialTrailingContent.needsHyphen = true)
    (hstart : ∀ run : Content.Run,
      candidateRuns.runs[partialTrailingContent.runIndex]? = some run →
      run.inlineItem.start = 0) :
    ∃ run, candidateRuns.runs[partialTrailingContent.runIndex]? = some run
      ∧ partialTrailingContent.logicalWidth
          = o.width run.inlineItem.layoutBox run.inlineItem.start
              (run.inlineItem.start + partialTrailingContent.length) := by
  obtain ⟨_, found, hword, hfound⟩ :=
    breakingContext_split o self candidateRuns lineStatus _ hsplit rfl
  simp only [Option.some.injEq] at hfound
  subst hfound
  unfold wordBreakingBehavior at hword
  split at hword
  · rename_i found hscan
    simp only [Option.some.injEq] at hword
    subst hword
    obtain ⟨i, run, adjusted, hi, hindex, htry⟩ :=
      wordBreakingForwardScan_returned o self _ _ _ _ _ hscan
    have hrun : candidateRuns.runs[found.runIndex]? = some run := by
      rw [hindex]; simpa using hi
    refine ⟨run, hrun, ?_⟩
    have hwidth : found.logicalWidth
        = o.width run.inlineItem.layoutBox run.inlineItem.start found.length :=
      tryBreakingTextRun_hyphen_width o self run adjusted _ htry hhyphen
    rw [hwidth, hstart run hrun, Nat.zero_add]
  · have := wordBreakingBackwardScan_no_hyphen _ _ _ hword
    rw [hhyphen] at this
    cases this

theorem breakingContext_hyphenated_width_witness :
    ∃ run, (Content.ofRuns Sample.fixedPitch
          [(Sample.word Sample.hyphenationBox 0 11, 110)]).runs[0]? = some run
      ∧ (40 : InlineLayoutUnit)
          = Sample.fixedPitch.width run.inlineItem.layoutBox run.inlineItem.start
              (run.inlineItem.start + 4) :=
  breakingContext_hyphenated_width Sample.fixedPitch {}
    (Content.ofRuns Sample.fixedPitch [(Sample.word Sample.hyphenationBox 0 11, 110)])
    { availableWidth := 80, trimmableWidth := 0, lineHasFullyTrimmableTrailingRun := false
      lineIsEmpty := false }
    { runIndex := 0, length := 4, logicalWidth := 40, needsHyphen := true } (by decide) rfl
    (by
      intro run hrun
      have hruns : (Content.ofRuns Sample.fixedPitch
            [(Sample.word Sample.hyphenationBox 0 11, 110)]).runs[0]?
          = some { inlineItem := Sample.word Sample.hyphenationBox 0 11, logicalWidth := 110 } := by
        decide
      have hsame : some run
          = some ({ inlineItem := Sample.word Sample.hyphenationBox 0 11, logicalWidth := 110 } :
              Content.Run) := hrun.symm.trans hruns
      simp only [Option.some.injEq] at hsame
      rw [hsame]
      rfl)

/-- C11, the claim as written fails: the word "hyphenation" (width 110,
`hyphens: auto`, hyphen glyph width 10) on a line with available width 80 is
split after 4 characters with the hyphen flag set; the width carried is 40, the
width of the kept prefix, not 40 plus the hyphen glyph width. -/
theorem breakingContext_hyphenated_width_excludes_hyphen :
    breakingContextForInlineContent Sample.fixedPitch {}
        (Content.ofRuns Sample.fixedPitch [(Sample.word Sample.hyphenationBox 0 11, 110)])
        { availableWidth := 80, trimmableWidth := 0, lineHasFullyTrimmableTrailingRun := false
          lineIsEmpty := false }
      = some { contentWrappingRule := ContentWrappingRule.Split
               partialTrailingContent :=
                 some { runIndex := 0, length := 4, logicalWidth := 40, needsHyphen := true } }
    ∧ (40 : InlineLayoutUnit)
        ≠ Sample.fixedPitch.width Sample.hyphenationBox 0 4
            + Sample.hyphenationBox.style.fontCascade.hyphenStringWidth := by
  decide

end LineBreaker

namespace LineBreaker

/-! ## The commit-boundary test -/

/-- C12: with a non-empty uncommitted content, an incoming whitespace text
item is always at a commit boundary; and so is an incoming text, box,
container-start or container-end item when the last uncommitted run is a
whitespace text item. -/
theorem Content.isAtContentBoundary_whitespace (inlineItem : InlineItem) (content : Content)
    (lastRun : Content.Run)
    (hlast : content.runs.getLast? = some lastRun)
    (h : (inlineItem.isText = true ∧ inlineItem.isWhitespace = true)
      ∨ ((lastRun.inlineItem.isText = true ∧ lastRun.inlineItem.isWhitespace = true)
          ∧ (inlineItem.isText = true ∨ inlineItem.isBox = true
              ∨ inlineItem.isContainerStart = true ∨ inlineItem.isContainerEnd = true))) :
    Content.isAtContentBoundary inlineItem content = true := by
  unfold Content.isAtContentBoundary
  rw [hlast]
  rcases h with ⟨htext, hws⟩ | ⟨⟨hlasttext, hlastws⟩, hkind⟩
  · simp [htext, hws]
  · have hstart : lastRun.inlineItem.isContainerStart = false := by
      simp_all [InlineItem.isText, InlineItem.isContainerStart]
    have hend : lastRun.inlineItem.isContainerEnd = false := by
      simp_all [InlineItem.isText, InlineItem.isContainerEnd]
    simp only [hstart, hend, hlasttext, hlastws, Bool.false_eq_true, if_false, if_true,
      Bool.false_and, Bool.or_self, Bool.true_or]
    split
    · split <;> rfl
    · split
      · rfl
      · split <;> rfl

theorem Content.isAtContentBoundary_whitespace_witness :
    Content.isAtContentBoundary (Sample.item Sample.image InlineItemType.Box)
        (Sample.candidate [Sample.word Sample.fooBar 0 3, Sample.space Sample.fooBar 3 1]) = true :=
  Content.isAtContentBoundary_whitespace _ _
    { inlineItem := Sample.space Sample.fooBar 3 1, logicalWidth := 10 } (by decide)
    (Or.inr ⟨by decide, by decide⟩)

/-- C13 (as the code decides it): when the last uncommitted run is a
non-whitespace text item and the incoming item is a non-whitespace text item
of the same layout box, the content is at a commit boundary: the items of one
box are split at soft breaking opportunities. -/
theorem Content.isAtContentBoundary_same_box (inlineItem : InlineItem) (content : Content)
    (lastRun : Content.Run)
    (hlast : content.runs.getLast? = some lastRun)
    (hlasttext : lastRun.inlineItem.isText = true)
    (hlastword : lastRun.inlineItem.isWhitespace = false)
    (htext : inlineItem.isText = true)
    (hword : inlineItem.isWhitespace = false)
    (hbox : inlineItem.layoutBox.id = lastRun.inlineItem.layoutBox.id) :
    Content.isAtContentBoundary inlineItem content = true := by
  have hstart : lastRun.inlineItem.isContainerStart = false := by
    simp_all [InlineItem.isText, InlineItem.isContainerStart]
  have hend : lastRun.inlineItem.isContainerEnd = false := by
    simp_all [InlineItem.isText, InlineItem.isContainerEnd]
  unfold Content.isAtContentBoundary
  rw [hlast]
  simp [htext, hword, hstart, hend, hlasttext, hlastword, hbox]

theorem Content.isAtContentBoundary_same_box_witness :
    Content.isAtContentBoundary (Sample.word Sample.textText 5 4)
        (Sample.candidate [Sample.word Sample.textText 0 5]) = true :=
  Content.isAtContentBoundary_same_box _ _
    { inlineItem := Sample.word Sample.textText 0 5, logicalWidth := 10 }
    (by decide) (by decide) (by decide) (by decide) (by decide) (by decide)

/-- C13, the claim as written fails: with "text-" uncommitted and "text" of the
same box incoming (both non-whitespace text items), the test does not answer
false. -/
theorem Content.isAtContentBoundary_same_box_not_false :
    (Sample.word Sample.textText 0 5).isText = true
      ∧ (Sample.word Sample.textText 0 5).isWhitespace = false
      ∧ (Sample.word Sample.textText 5 4).isText = true
      ∧ (Sample.word Sample.textText 5 4).isWhitespace = false
      ∧ (Sample.word Sample.textText 5 4).layoutBox = (Sample.word Sample.textText 0 5).layoutBox
      ∧ Content.isAtContentBoundary (Sample.word Sample.textText 5 4)
          (Sample.candidate [Sample.word Sample.textText 0 5]) ≠ false := by
  decide

/-- The first match from the back is the last element left when the
non-matching elements are dropped from the back. -/
theorem getLast?_rdropWhile_not {α : Type} (q : α → Bool) (l : List α) :
    (l.rdropWhile (fun a => !q a)).getLast? = l.reverse.find? q := by
  rw [List.rdropWhile, List.getLast?_reverse]
  generalize l.reverse = m
  induction m with
  | nil => rfl
  | cons a m ih =>
    by_cases ha : q a = true
    · simp [List.dropWhile, List.find?, ha]
    · simp only [Bool.not_eq_true] at ha
      simp [List.dropWhile, List.find?, ha, ih]

/-- Dropping trailing non-matching elements does not change the first match
from the back. -/
theorem find?_reverse_rdropWhile_not {α : Type} (q : α → Bool) (l : List α) :
    (l.rdropWhile (fun a => !q a)).reverse.find? q = l.reverse.find? q := by
  rw [List.rdropWhile, List.reverse_reverse]
  generalize l.reverse = m
  induction m with
  | nil => rfl
  | cons a m ih =>
    by_cases ha : q a = true
    · simp [List.dropWhile, ha]
    · simp only [Bool.not_eq_true] at ha
      simp [List.dropWhile, List.find?, ha, ih]

/-- Container markers are looked through from a trailing container end: for an
incoming text or box item and an uncommitted content that ends in a
container-end marker and holds at least one text or box run,
`isAtContentBoundary` answers as it does for the content with its trailing
container-start and container-end markers removed. -/
theorem Content.isAtContentBoundary_behind_container_end (inlineItem : InlineItem)
    (content : Content) (lastRun : Content.Run)
    (hitem : inlineItem.isText = true ∨ inlineItem.isBox = true)
    (hlast : content.runs.getLast? = some lastRun)
    (hend : lastRun.inlineItem.isContainerEnd = true)
    (hcontent : ∃ run ∈ content.runs, run.inlineItem.isText = true ∨ run.inlineItem.isBox = true) :
    Content.isAtContentBoundary inlineItem content
      = Content.isAtContentBoundary inlineItem content.withoutTrailingMarkers := by
  obtain ⟨witness, hmem, hkind⟩ := hcontent
  have hwitness : Content.isContentRun witness = true := by
    rcases hkind with h | h <;>
      simp_all [Content.isContentRun, InlineItem.isText, InlineItem.isBox,
        InlineItem.isContainerStart, InlineItem.isContainerEnd]
  obtain ⟨previous, hprevious⟩ : ∃ previous, content.lastContentRun = some previous := by
    cases hfind : content.lastContentRun with
    | some previous => exact ⟨previous, rfl⟩
    | none =>
      have hnone := List.find?_eq_none.mp hfind witness (List.mem_reverse.mpr hmem)
      exact absurd hwitness hnone
  have hpcontent : Content.isContentRun previous = true := List.find?_some hprevious
  have hpstart : previous.inlineItem.isContainerStart = false := by
    simp only [Content.isContentRun, Bool.not_eq_true', Bool.or_eq_false_iff] at hpcontent
    exact hpcontent.1
  have hpend : previous.inlineItem.isContainerEnd = false := by
    simp only [Content.isContentRun, Bool.not_eq_true', Bool.or_eq_false_iff] at hpcontent
    exact hpcontent.2
  have hstripped : content.withoutTrailingMarkers.runs.getLast? = some previous := by
    have := getLast?_rdropWhile_not Content.isContentRun content.m_continousRuns
    simpa [Content.withoutTrailingMarkers, Content.runs, Content.lastContentRun] using
      this.trans hprevious
  have hstart : lastRun.inlineItem.isContainerStart = false := by
    simp_all [InlineItem.isContainerStart, InlineItem.isContainerEnd]
  unfold Content.isAtContentBoundary
  rw [hlast, hstripped]
  by_cases htext : inlineItem.isText = true
  · by_cases hws : inlineItem.isWhitespace = true
    · simp [htext, hws]
    · simp only [htext, hws, hstart, hend, hprevious, hpstart, hpend, Bool.false_eq_true,
        if_false, if_true, Bool.and_false, Bool.false_and]
  · have hbox : inlineItem.isBox = true := by
      rcases hitem with h | h
      · exact absurd h htext
      · exact h
    simp only [htext, hbox, hstart, hend, hpstart, hpend, Bool.false_eq_true, if_false, if_true]
    split <;> rfl

/-- A content whose last run is not a container marker has no trailing markers
to remove. -/
theorem Content.withoutTrailingMarkers_of_content_run (content : Content) (lastRun : Content.Run)
    (hlast : content.runs.getLast? = some lastRun)
    (hrun : Content.isContentRun lastRun = true) :
    content.withoutTrailingMarkers = content := by
  have hkeep : content.m_continousRuns.rdropWhile (fun run => !Content.isContentRun run)
      = content.m_continousRuns := by
    rw [List.rdropWhile_eq_self_iff]
    intro hne
    have hget : content.m_continousRuns.getLast hne = lastRun := by
      have := List.getLast?_eq_getLast content.m_continousRuns hne
      rw [Content.runs] at hlast
      rw [hlast] at this
      simp only [Option.some.injEq] at this
      exact this.symm
    rw [hget, hrun]
    simp
  unfold Content.withoutTrailingMarkers
  rw [hkeep]

/-- C14 (container starts apart): for an incoming text or box item and an
uncommitted content that holds at least one text or box run and whose last run
is not a container-start marker, `isAtContentBoundary` answers as it does for
the content with its trailing container-start and container-end markers
removed: from a trailing container end the markers are looked through to the
nearest text or box run. -/
theorem Content.isAtContentBoundary_through_container_end (inlineItem : InlineItem)
    (content : Content) (lastRun : Content.Run)
    (hitem : inlineItem.isText = true ∨ inlineItem.isBox = true)
    (hlast : content.runs.getLast? = some lastRun)
    (hstart : lastRun.inlineItem.isContainerStart = false)
    (hcontent : ∃ run ∈ content.runs, run.inlineItem.isText = true ∨ run.inlineItem.isBox = true) :
    Content.isAtContentBoundary inlineItem content
      = Content.isAtContentBoundary inlineItem content.withoutTrailingMarkers := by
  by_cases hend : lastRun.inlineItem.isContainerEnd = true
  · exact Content.isAtContentBoundary_behind_container_end inlineItem content lastRun hitem hlast
      hend hcontent
  · simp only [Bool.not_eq_true] at hend
    rw [Content.withoutTrailingMarkers_of_content_run content lastRun hlast
      (by simp [Content.isContentRun, hstart, hend])]

theorem Content.isAtContentBoundary_through_container_end_witness :
    Content.isAtContentBoundary (Sample.word Sample.fooBar 4 3)
        (Sample.candidate [Sample.item Sample.image InlineItemType.Box,
          Sample.item Sample.span InlineItemType.ContainerEnd])
      = Content.isAtContentBoundary (Sample.word Sample.fooBar 4 3)
          (Sample.candidate [Sample.item Sample.image InlineItemType.Box,
            Sample.item Sample.span InlineItemType.ContainerEnd]).withoutTrailingMarkers :=
  Content.isAtContentBoundary_through_container_end _ _
    { inlineItem := Sample.item Sample.span InlineItemType.ContainerEnd, logicalWidth := 10 }
    (Or.inl (by decide)) (by decide) (by decide)
    ⟨{ inlineItem := Sample.item Sample.image InlineItemType.Box, logicalWidth := 10 },
      by decide, Or.inr (by decide)⟩

/-- C14, the claim as written fails: a trailing container start is not
transparent. The content "<span><img></span><span>" is built without meeting a
commit boundary; for an incoming second box the test answers false (the
container start and the box that follows it form one unbreakable unit), while
for the content without its trailing markers, "<span><img>", it answers
true. -/
theorem Content.isAtContentBoundary_container_start_not_transparent :
    (Sample.item Sample.secondImage InlineItemType.Box).isBox = true
      ∧ (List.range 4).map
          (fun n => Content.isAtContentBoundary (Sample.imageBetweenSpans.getD n {})
            (Sample.candidate (Sample.imageBetweenSpans.take n)))
          = [false, false, false, false]
      ∧ Content.isAtContentBoundary (Sample.item Sample.secondImage InlineItemType.Box)
          (Sample.candidate Sample.imageBetweenSpans) = false
      ∧ (Sample.candidate Sample.imageBetweenSpans).withoutTrailingMarkers.runs
          = (Sample.candidate (Sample.imageBetweenSpans.take 2)).runs
      ∧ Content.isAtContentBoundary (Sample.item Sample.secondImage InlineItemType.Box)
          (Sample.candidate Sample.imageBetweenSpans).withoutTrailingMarkers
          = true := by
  decide

end LineBreaker

/-! ## Text segmentation -/

namespace InlineTextItem

theorem length_takeWhile_le_length {α : Type} (p : α → Bool) (l : List α) :
    (l.takeWhile p).length ≤ l.length :=
  (List.takeWhile_sublist p).length_le

theorem unsignedSub_of_le (a b : Nat) (hle : b ≤ a) (ha : a < 4294967296) :
    unsignedSub a b = a - b := by
  unfold unsignedSub
  omega

/-- A whitespace run that starts at a whitespace character has at least one
character and ends inside the text. -/
theorem moveToNextNonWhitespacePosition_bounds (textContent : List Char) (startPosition : Nat)
    (preserveNewline : Bool) (h : startPosition < textContent.length)
    (hwhitespace :
      isWhitespaceCharacter (textContent.get ⟨startPosition, h⟩) preserveNewline = true) :
    1 ≤ moveToNextNonWhitespacePosition textContent startPosition preserveNewline
      ∧ startPosition + moveToNextNonWhitespacePosition textContent startPosition preserveNewline
          ≤ textContent.length := by
  unfold moveToNextNonWhitespacePosition
  constructor
  · rw [List.drop_eq_getElem_cons h]
    simp only [List.get_eq_getElem] at hwhitespace
    simp [List.takeWhile, hwhitespace]
  · have h1 := length_takeWhile_le_length
      (fun character => isWhitespaceCharacter character preserveNewline)
      (textContent.drop startPosition)
    rw [List.length_drop] at h1
    omega

/-- The loop of `moveToNextBreakablePosition` returns a length of at least one
character that ends inside the text, when the search answers every query with
a position between the query and the end of the text. -/
theorem moveToNextBreakablePositionFrom_bounds (find : Nat → Nat)
    (startPosition textLength : Nat) (hstart : startPosition < textLength)
    (hlength : textLength < 4294967296)
    (hfind : ∀ p, p < textLength → p ≤ find p ∧ find p ≤ textLength) :
    ∀ (remaining current : Nat), startPosition ≤ current →
      1 ≤ moveToNextBreakablePositionFrom find startPosition textLength remaining current
        ∧ startPosition
            + moveToNextBreakablePositionFrom find startPosition textLength remaining current
          ≤ textLength := by
  have hend : unsignedSub textLength startPosition = textLength - startPosition :=
    unsignedSub_of_le _ _ (Nat.le_of_lt hstart) hlength
  intro remaining
  induction remaining with
  | zero =>
    intro current _
    rw [moveToNextBreakablePositionFrom, hend]
    omega
  | succ remaining ih =>
    intro current hcurrent
    rw [moveToNextBreakablePositionFrom]
    split
    · rename_i hlt
      obtain ⟨hlow, hhigh⟩ := hfind current hlt
      split
      · rename_i hne
        rw [unsignedSub_of_le _ _ (by omega) (by omega)]
        omega
      · exact ih (current + 1) (by omega)
    · rw [hend]
      omega

/-- `moveToNextBreakablePosition` under the same assumption on the search. -/
theorem moveToNextBreakablePosition_bounds (b : BreakLines) (q : StyleQueries)
    (startPosition : Nat) (text : List Char) (style : RenderStyle)
    (hstart : startPosition < text.length) (hlength : text.length < 4294967296)
    (hfind : ∀ p, p < text.length →
      p ≤ findNextBreakablePosition b q text style p
        ∧ findNextBreakablePosition b q text style p ≤ text.length) :
    1 ≤ moveToNextBreakablePosition b q startPosition text style
      ∧ startPosition + moveToNextBreakablePosition b q startPosition text style ≤ text.length :=
  moveToNextBreakablePositionFrom_bounds _ startPosition text.length hstart hlength hfind _ _
    (Nat.le_refl _)

theorem partitionsText_append (items : List InlineItem) :
    ∀ (position middle textEnd : Nat) (rest : List InlineItem),
      partitionsText position items middle = true → partitionsText middle rest textEnd = true →
      partitionsText position (items ++ rest) textEnd = true := by
  induction items with
  | nil =>
    intro position middle textEnd rest h1 h2
    simp only [partitionsText, beq_iff_eq] at h1
    subst h1
    simpa using h2
  | cons item items ih =>
    intro position middle textEnd rest h1 h2
    simp only [partitionsText, Bool.and_eq_true] at h1
    simp only [List.cons_append, partitionsText, Bool.and_eq_true]
    exact ⟨h1.1, ih _ _ _ _ h1.2 h2⟩

/-- The loop of the segmenter, started inside the text with enough fuel, ends
and appends a partition of the rest of the text. -/
theorem createAndAppendTextItemsFrom_partitions (o : Collaborators) (q : StyleQueries)
    (b : BreakLines) (inlineBox : Box) (textContext : TextContext)
    (hlength : textContext.content.length < 4294967296)
    (hfind : ∀ p, p < textContext.content.length →
      p ≤ findNextBreakablePosition b q textContext.content inlineBox.style p
        ∧ findNextBreakablePosition b q textContext.content inlineBox.style p
            ≤ textContext.content.length) :
    ∀ (fuel currentPosition : Nat) (inlineContent : List InlineItem),
      currentPosition ≤ textContext.content.length →
      textContext.content.length - currentPosition ≤ fuel →
      ∃ items,
        createAndAppendTextItemsFrom o q b inlineBox textContext fuel currentPosition inlineContent
            = some (inlineContent ++ items)
          ∧ partitionsText currentPosition items textContext.content.length = true := by
  intro fuel
  induction fuel with
  | zero =>
    intro currentPosition inlineContent hle hfuel
    have heq : currentPosition = textContext.content.length := by omega
    refine ⟨[], ?_, ?_⟩
    · simp [createAndAppendTextItemsFrom, heq]
    · simp [partitionsText, heq]
  | succ fuel ih =>
    intro currentPosition inlineContent hle hfuel
    have key : ∀ (item : InlineItem) (next : Nat),
        textStart item = currentPosition → 1 ≤ textLength item →
        currentPosition + textLength item = next → next ≤ textContext.content.length →
        ∃ items,
          createAndAppendTextItemsFrom o q b inlineBox textContext fuel next
              (inlineContent ++ [item]) = some (inlineContent ++ items)
            ∧ partitionsText currentPosition items textContext.content.length = true := by
      intro item next hstart hone hnext hend
      obtain ⟨items, hrun, hpart⟩ := ih next (inlineContent ++ [item]) hend (by omega)
      rw [List.append_assoc, List.singleton_append] at hrun
      refine ⟨item :: items, hrun, ?_⟩
      simp only [partitionsText, hstart, beq_self_eq_true, hone, decide_True, Bool.and_self,
        Bool.true_and, hnext]
      exact hpart
    by_cases hlt : currentPosition < textContext.content.length
    · rw [createAndAppendTextItemsFrom, dif_pos hlt]
      simp only
      split
      · -- a preserved segment break
        have hwrap : (currentPosition + 1) % 4294967296 = currentPosition + 1 :=
          Nat.mod_eq_of_lt (by omega)
        rw [hwrap]
        exact key _ _ (by simp [textStart, createSoftLineBreakItem, InlineItem.isSoftLineBreak])
          (by simp [textLength, createSoftLineBreakItem, InlineItem.isSoftLineBreak])
          (by simp [textLength, createSoftLineBreakItem, InlineItem.isSoftLineBreak])
          (by omega)
      · split
        · -- a whitespace run
          rename_i hwhitespace
          obtain ⟨hone, hend⟩ := moveToNextNonWhitespacePosition_bounds textContext.content
            currentPosition (q.preserveNewline inlineBox.style) hlt hwhitespace
          have hwrap : (currentPosition + moveToNextNonWhitespacePosition textContext.content
              currentPosition (q.preserveNewline inlineBox.style)) % 4294967296
              = currentPosition + moveToNextNonWhitespacePosition textContext.content
                  currentPosition (q.preserveNewline inlineBox.style) :=
            Nat.mod_eq_of_lt (by omega)
          rw [hwrap]
          exact key _ _
            (by simp [textStart, createWhitespaceItem, InlineItem.isSoftLineBreak])
            (by simpa [textLength, createWhitespaceItem, InlineItem.isSoftLineBreak,
              InlineItem.isText] using hone)
            (by simp [textLength, createWhitespaceItem, InlineItem.isSoftLineBreak,
              InlineItem.isText])
            hend
        · -- a run up to the next breakable position
          obtain ⟨hone, hend⟩ := moveToNextBreakablePosition_bounds b q currentPosition
            textContext.content inlineBox.style hlt hlength hfind
          have hwrap : (currentPosition + moveToNextBreakablePosition b q currentPosition
              textContext.content inlineBox.style) % 4294967296
              = currentPosition + moveToNextBreakablePosition b q currentPosition
                  textContext.content inlineBox.style :=
            Nat.mod_eq_of_lt (by omega)
          rw [hwrap]
          exact key _ _
            (by simp [textStart, createNonWhitespaceItem, InlineItem.isSoftLineBreak])
            (by simpa [textLength, createNonWhitespaceItem, InlineItem.isSoftLineBreak,
              InlineItem.isText] using hone)
            (by simp [textLength, createNonWhitespaceItem, InlineItem.isSoftLineBreak,
              InlineItem.isText])
            hend
    · have heq : currentPosition = textContext.content.length := by omega
      refine ⟨[], ?_, ?_⟩
      · rw [createAndAppendTextItemsFrom, dif_neg hlt]; simp
      · simp [partitionsText, heq]

/-- C15: for a box with non-empty text and a breakable-position search that
answers a query at `p` with a position between `p` and the text length,
`createAndAppendTextItems` terminates (any fuel of at least the text length
suffices) and the appended items partition the text: the first starts at
offset 0, each has at least one character and starts where the one before
ends, the last ends at the text length. -/
theorem createAndAppendTextItems_partitions (o : Collaborators) (q : StyleQueries)
    (b : BreakLines) (fuel : Nat) (inlineContent : List InlineItem) (inlineBox : Box)
    (textContext : TextContext)
    (hbox : inlineBox.textContext = some textContext)
    (hnonempty : textContext.content ≠ [])
    (hlength : textContext.content.length < 4294967296)
    (hfind : ∀ p, p < textContext.content.length →
      p ≤ findNextBreakablePosition b q textContext.content inlineBox.style p
        ∧ findNextBreakablePosition b q textContext.content inlineBox.style p
            ≤ textContext.content.length)
    (hfuel : textContext.content.length ≤ fuel) :
    ∃ items,
      createAndAppendTextItems o q b fuel inlineContent inlineBox = some (inlineContent ++ items)
        ∧ items ≠ []
        ∧ partitionsText 0 items textContext.content.length = true := by
  have hpos : textContext.content.length ≠ 0 := by
    intro h
    exact hnonempty (List.length_eq_zero.mp h)
  obtain ⟨items, hrun, hpart⟩ := createAndAppendTextItemsFrom_partitions o q b inlineBox
    textContext hlength hfind fuel 0 inlineContent (Nat.zero_le _) (by omega)
  refine ⟨items, ?_, ?_, hpart⟩
  · simp only [createAndAppendTextItems, hbox, hpos, if_false]
    exact hrun
  · intro hnil
    subst hnil
    simp only [partitionsText, beq_iff_eq] at hpart
    exact hpos hpart.symm

theorem nextSpace_bounds (text : List Char) (p : Nat) (hp : p < text.length) :
    p ≤ Sample.nextSpace text p ∧ Sample.nextSpace text p ≤ text.length := by
  unfold Sample.nextSpace
  have h1 := length_takeWhile_le_length (fun character => character != ' ') (text.drop p)
  rw [List.length_drop] at h1
  omega

theorem createAndAppendTextItems_partitions_witness :
    ∃ items,
      createAndAppendTextItems Sample.fixedPitch Sample.styleQueries Sample.breakAtSpaces 7 []
          Sample.fooBar = some ([] ++ items)
        ∧ items ≠ []
        ∧ partitionsText 0 items 7 = true :=
  createAndAppendTextItems_partitions Sample.fixedPitch Sample.styleQueries Sample.breakAtSpaces
    7 [] Sample.fooBar { content := "foo bar".toList } (by decide) (by decide) (by decide)
    (fun p hp => nextSpace_bounds _ p hp) (by decide)

end InlineTextItem

/-! ## The line builder -/

namespace LineBuilder

/-! ### What an append records -/

theorem appendTextContent_runs (env : Environment) (s : LineBuilder) (inlineItem : InlineItem)
    (logicalWidth : InlineLayoutUnit) :
    (appendTextContent env s inlineItem logicalWidth).m_inlineItemRuns
      = s.m_inlineItemRuns ++ [textRunOf env s inlineItem logicalWidth] := by
  unfold appendTextContent
  simp only
  split <;> rfl

theorem appendTextContent_lineBox (env : Environment) (s : LineBuilder)
    (inlineItem : InlineItem) (logicalWidth : InlineLayoutUnit) :
    (appendTextContent env s inlineItem logicalWidth).m_lineBox
      = s.m_lineBox.expandHorizontally (textRunOf env s inlineItem logicalWidth).logicalWidth := by
  unfold appendTextContent
  simp only
  split <;> rfl

theorem appendTextContent_skipAlignment (env : Environment) (s : LineBuilder)
    (inlineItem : InlineItem) (logicalWidth : InlineLayoutUnit) :
    (appendTextContent env s inlineItem logicalWidth).m_skipAlignment = s.m_skipAlignment := by
  unfold appendTextContent
  simp only
  split <;> rfl

/-- The item of the run that `appendTextContent` records. -/
theorem textRunOf_item (env : Environment) (s : LineBuilder) (inlineItem : InlineItem)
    (logicalWidth : InlineLayoutUnit) :
    (textRunOf env s inlineItem logicalWidth).m_inlineItem = inlineItem := by
  unfold textRunOf
  simp only
  split <;> split <;> rfl

/-- The run recorded for the empty text item. -/
theorem textRunOf_empty (env : Environment) (s : LineBuilder) (inlineBox : Box)
    (logicalWidth : InlineLayoutUnit) :
    (textRunOf env s (InlineTextItem.createEmptyItem inlineBox) logicalWidth).m_inlineItem
        = InlineTextItem.createEmptyItem inlineBox
      ∧ (textRunOf env s (InlineTextItem.createEmptyItem inlineBox) logicalWidth).logicalWidth = 0
      ∧ (textRunOf env s (InlineTextItem.createEmptyItem inlineBox)
          logicalWidth).isCollapsedToZeroAdvanceWidth = true
      ∧ (textRunOf env s (InlineTextItem.createEmptyItem inlineBox) logicalWidth).isText = true := by
  have hcollapse : willCollapseCompletely env s (InlineTextItem.createEmptyItem inlineBox)
      = true := by
    simp [willCollapseCompletely, InlineTextItem.createEmptyItem]
  have hlength : (InlineTextItem.createEmptyItem inlineBox).length = 0 := rfl
  simp only [textRunOf, hcollapse, hlength, if_true, gt_iff_lt, Nat.not_lt_zero, decide_False,
    Bool.and_false, Bool.false_eq_true, if_false]
  exact ⟨rfl, rfl, rfl, rfl⟩

/-! ### The empty text item -/

/-- C16: for a box with empty text content the segmenter appends exactly one
text item, of length 0; appending that item to a line builder in any state
records one more run, of width 0 and flagged collapsed to zero advance width,
leaves the content width of the line unchanged and does not make a visually
empty line non-empty. -/
theorem append_empty_text_item (o : Collaborators) (q : StyleQueries) (b : BreakLines)
    (fuel : Nat) (inlineContent : List InlineItem) (inlineBox : Box)
    (textContext : TextContext) (env : Environment) (s : LineBuilder)
    (logicalWidth : InlineLayoutUnit)
    (hbox : inlineBox.textContext = some textContext)
    (hempty : textContext.content = []) :
    InlineTextItem.createAndAppendTextItems o q b fuel inlineContent inlineBox
        = some (inlineContent ++ [InlineTextItem.createEmptyItem inlineBox])
      ∧ (InlineTextItem.createEmptyItem inlineBox).isText = true
      ∧ (InlineTextItem.createEmptyItem inlineBox).length = 0
      ∧ (∃ run,
          (append env s (InlineTextItem.createEmptyItem inlineBox) logicalWidth).m_inlineItemRuns
              = s.m_inlineItemRuns ++ [run]
            ∧ run.m_inlineItem = InlineTextItem.createEmptyItem inlineBox
            ∧ run.logicalWidth = 0
            ∧ run.isCollapsedToZeroAdvanceWidth = true)
      ∧ (append env s (InlineTextItem.createEmptyItem inlineBox) logicalWidth).contentLogicalWidth
          = s.contentLogicalWidth
      ∧ (s.isVisuallyEmpty = true →
          (append env s (InlineTextItem.createEmptyItem inlineBox) logicalWidth).isVisuallyEmpty
            = true) := by
  have hrun := textRunOf_empty env s inlineBox logicalWidth
  have hskip : ∀ (s2 : LineBuilder),
      isVisuallyNonEmpty env s2
        (textRunOf env s (InlineTextItem.createEmptyItem inlineBox) logicalWidth) = false := by
    intro s2
    simp [isVisuallyNonEmpty, hrun.2.2.2, hrun.2.2.1]
  have happend : append env s (InlineTextItem.createEmptyItem inlineBox) logicalWidth
      = appendTextContent env s (InlineTextItem.createEmptyItem inlineBox) logicalWidth := by
    have hkind : (InlineTextItem.createEmptyItem inlineBox).isText = true := rfl
    have hlast : (appendTextContent env s (InlineTextItem.createEmptyItem inlineBox)
        logicalWidth).m_inlineItemRuns.getLast?
        = some (textRunOf env s (InlineTextItem.createEmptyItem inlineBox) logicalWidth) := by
      rw [appendTextContent_runs]; simp
    unfold append appendByKind noteVisuallyNonEmpty
    rw [if_pos hkind, hlast]
    simp only [hskip, Bool.and_false, Bool.false_eq_true, if_false]
  have hlineBox : (appendTextContent env s (InlineTextItem.createEmptyItem inlineBox)
      logicalWidth).m_lineBox = s.m_lineBox := by
    rw [appendTextContent_lineBox, hrun.2.1]
    simp [Display.LineBox.expandHorizontally, Display.InlineRect.expandHorizontally]
  refine ⟨?_, rfl, rfl, ?_, ?_, ?_⟩
  · simp [InlineTextItem.createAndAppendTextItems, hbox, hempty]
  · rw [happend]
    exact ⟨_, appendTextContent_runs env s _ _, hrun.1, hrun.2.1, hrun.2.2.1⟩
  · rw [happend]
    simp only [contentLogicalWidth, hlineBox]
  · intro hvisual
    rw [happend]
    simpa only [isVisuallyEmpty, hlineBox] using hvisual

theorem append_empty_text_item_witness :
    InlineTextItem.createAndAppendTextItems Sample.fixedPitch Sample.styleQueries
        Sample.breakAtSpaces 0 [] Sample.emptyTextBox
        = some ([] ++ [InlineTextItem.createEmptyItem Sample.emptyTextBox])
      ∧ (append Sample.environment ( LineBuilder.initialize Sample.builder Sample.constraints)
            (InlineTextItem.createEmptyItem Sample.emptyTextBox) 0).isVisuallyEmpty = true :=
  ⟨(append_empty_text_item Sample.fixedPitch Sample.styleQueries Sample.breakAtSpaces 0 []
      Sample.emptyTextBox { content := [] } Sample.environment
      ( LineBuilder.initialize Sample.builder Sample.constraints) 0 (by decide) rfl).1,
    (append_empty_text_item Sample.fixedPitch Sample.styleQueries Sample.breakAtSpaces 0 []
      Sample.emptyTextBox { content := [] } Sample.environment
      ( LineBuilder.initialize Sample.builder Sample.constraints) 0 (by decide) rfl).2.2.2.2.2
      (by decide)⟩

end LineBuilder

namespace LineBuilder

/-! ### Predicates of a run that depend on its item only -/

theorem isTrimmableWhitespace_of_item (o : Collaborators) (a b : InlineItemRun)
    (h : b.m_inlineItem = a.m_inlineItem) :
    b.isTrimmableWhitespace o = a.isTrimmableWhitespace o := by
  simp [InlineItemRun.isTrimmableWhitespace, InlineItemRun.isWhitespace, InlineItemRun.style, h]

theorem isTransparentForTrimming_of_item (o : Collaborators) (a b : InlineItemRun)
    (h : b.m_inlineItem = a.m_inlineItem) :
    isTransparentForTrimming o b = isTransparentForTrimming o a := by
  simp [isTransparentForTrimming, isTrimmableWhitespace_of_item o a b h,
    InlineItemRun.isLineBreak, InlineItemRun.isContainerStart, InlineItemRun.isContainerEnd, h]

theorem isText_of_item (a b : InlineItemRun) (h : b.m_inlineItem = a.m_inlineItem) :
    b.isText = a.isText := by
  simp [InlineItemRun.isText, h]

theorem isWhitespace_of_item (a b : InlineItemRun) (h : b.m_inlineItem = a.m_inlineItem) :
    b.isWhitespace = a.isWhitespace := by
  simp [InlineItemRun.isWhitespace, h]

/-- A text run is no line break and no container marker. -/
theorem not_marker_of_isText (run : InlineItemRun) (h : run.isText = true) :
    run.isLineBreak = false ∧ run.isContainerStart = false ∧ run.isContainerEnd = false
      ∧ run.isBox = false := by
  simp only [InlineItemRun.isText, InlineItem.isText, beq_iff_eq] at h
  simp [InlineItemRun.isLineBreak, InlineItemRun.isContainerStart, InlineItemRun.isContainerEnd,
    InlineItemRun.isBox, InlineItem.isLineBreak, InlineItem.isHardLineBreak,
    InlineItem.isSoftLineBreak, InlineItem.isContainerStart, InlineItem.isContainerEnd,
    InlineItem.isBox, h]

/-- Trimmable whitespace is whitespace text. -/
theorem isWhitespace_of_isTrimmableWhitespace (o : Collaborators) (run : InlineItemRun)
    (h : run.isTrimmableWhitespace o = true) : run.isWhitespace = true ∧ run.isText = true := by
  unfold InlineItemRun.isTrimmableWhitespace at h
  by_cases hw : run.isWhitespace = true
  · refine ⟨hw, ?_⟩
    simp only [InlineItemRun.isWhitespace, Bool.and_eq_true] at hw
    exact hw.1
  · simp [hw] at h

/-- A run that is not text is not trimmable whitespace. -/
theorem not_isTrimmableWhitespace_of_not_isText (o : Collaborators) (run : InlineItemRun)
    (h : run.isText = false) : run.isTrimmableWhitespace o = false := by
  cases hw : run.isTrimmableWhitespace o with
  | false => rfl
  | true =>
    have := (isWhitespace_of_isTrimmableWhitespace o run hw).2
    rw [h] at this
    cases this

/-- The visual emptiness of a run reads the builder for `m_skipAlignment`
only. -/
theorem isVisuallyNonEmpty_of_skipAlignment (env : Environment) (s s1 : LineBuilder)
    (run : InlineItemRun) (h : s1.m_skipAlignment = s.m_skipAlignment) :
    isVisuallyNonEmpty env s1 run = isVisuallyNonEmpty env s run := by
  simp [isVisuallyNonEmpty, h]

theorem SameButTextWidth.refl (run : InlineItemRun) : SameButTextWidth run run :=
  ⟨rfl, rfl, rfl, rfl, rfl, fun _ => rfl⟩

/-- The width of a text run does not matter for its visual emptiness. -/
theorem isVisuallyNonEmpty_of_same (env : Environment) (s : LineBuilder)
    (before after : InlineItemRun) (h : SameButTextWidth before after) :
    isVisuallyNonEmpty env s after = isVisuallyNonEmpty env s before := by
  obtain ⟨hitem, _, _, _, hflag, hwidth⟩ := h
  by_cases htext : before.isText = true
  · have htext2 : after.isText = true := by rw [isText_of_item before after hitem]; exact htext
    simp [isVisuallyNonEmpty, htext, htext2, InlineItemRun.isCollapsedToZeroAdvanceWidth, hflag]
  · simp only [Bool.not_eq_true] at htext
    have htext2 : after.isText = false := by rw [isText_of_item before after hitem]; exact htext
    have hw := hwidth htext
    simp [isVisuallyNonEmpty, htext, htext2, InlineItemRun.isContainerStart,
      InlineItemRun.isContainerEnd, InlineItemRun.isLineBreak, InlineItemRun.isBox,
      InlineItemRun.logicalWidth, InlineItemRun.layoutBox, hitem, hw]

/-! ### The check at the end of `append` -/

theorem noteVisuallyNonEmpty_runs (env : Environment) (s : LineBuilder) :
    (noteVisuallyNonEmpty env s).m_inlineItemRuns = s.m_inlineItemRuns := by
  unfold noteVisuallyNonEmpty
  split
  · split <;> rfl
  · rfl

theorem noteVisuallyNonEmpty_trimmableContent (env : Environment) (s : LineBuilder) :
    (noteVisuallyNonEmpty env s).m_trimmableContent = s.m_trimmableContent := by
  unfold noteVisuallyNonEmpty
  split
  · split <;> rfl
  · rfl

theorem noteVisuallyNonEmpty_flag (env : Environment) (s : LineBuilder) :
    (noteVisuallyNonEmpty env s).m_lineIsVisuallyEmptyBeforeTrimmableContent
      = s.m_lineIsVisuallyEmptyBeforeTrimmableContent := by
  unfold noteVisuallyNonEmpty
  split
  · split <;> rfl
  · rfl

theorem noteVisuallyNonEmpty_skipAlignment (env : Environment) (s : LineBuilder) :
    (noteVisuallyNonEmpty env s).m_skipAlignment = s.m_skipAlignment := by
  unfold noteVisuallyNonEmpty
  split
  · split <;> rfl
  · rfl

/-- After the check the line is considered empty when it was before and the
last run is not visually non-empty. -/
theorem noteVisuallyNonEmpty_empty (env : Environment) (s : LineBuilder)
    (lastRun : InlineItemRun) (hlast : s.m_inlineItemRuns.getLast? = some lastRun) :
    (noteVisuallyNonEmpty env s).m_lineBox.m_isConsideredEmpty
      = (s.m_lineBox.m_isConsideredEmpty && !isVisuallyNonEmpty env s lastRun) := by
  unfold noteVisuallyNonEmpty
  rw [hlast]
  simp only [Display.LineBox.isConsideredEmpty]
  by_cases h : (s.m_lineBox.m_isConsideredEmpty && isVisuallyNonEmpty env s lastRun) = true
  · rw [if_pos h]
    simp only [Bool.and_eq_true] at h
    simp [Display.LineBox.setIsConsideredNonEmpty, h.1, h.2]
  · rw [if_neg h]
    simp only [Bool.and_eq_true, not_and, Bool.not_eq_true] at h
    cases hempty : s.m_lineBox.m_isConsideredEmpty with
    | false => rfl
    | true => simp [h hempty]

/-- The invariant after one more run: the parts of it that speak of the
trimmable content are given, the part on visual emptiness follows from the
check at the end of `append`. -/
theorem Invariant.note (env : Environment) (s s1 : LineBuilder) (newRun : InlineItemRun)
    (hinv : Invariant env s)
    (hruns : s1.m_inlineItemRuns = s.m_inlineItemRuns ++ [newRun])
    (hskip : s1.m_skipAlignment = s.m_skipAlignment)
    (hempty : s1.m_lineBox.m_isConsideredEmpty = s.m_lineBox.m_isConsideredEmpty)
    (hfirst : ∀ f, s1.m_trimmableContent.m_firstRunIndex = some f → f < s1.m_inlineItemRuns.length)
    (hcovered : ∀ i run, s1.m_inlineItemRuns[i]? = some run →
      run.isTrimmableWhitespace env.o = true →
      (∀ j later, i < j → s1.m_inlineItemRuns[j]? = some later →
        isTransparentForTrimming env.o later = true) →
      ∃ f, s1.m_trimmableContent.m_firstRunIndex = some f ∧ f ≤ i)
    (hpartially : s1.m_trimmableContent.m_lastRunIsFullyTrimmable = false →
      ∀ f, s1.m_trimmableContent.m_firstRunIndex = some f →
        (∃ run, s1.m_inlineItemRuns[f]? = some run ∧ run.isText = true
            ∧ run.isWhitespace = false)
          ∧ ∀ j later, f < j → s1.m_inlineItemRuns[j]? = some later → later.isText = false)
    (hflagged : s1.m_trimmableContent.m_firstRunIndex.isSome = true →
      s1.m_lineIsVisuallyEmptyBeforeTrimmableContent.isSome = true) :
    Invariant env (noteVisuallyNonEmpty env s1) := by
  have hlast : s1.m_inlineItemRuns.getLast? = some newRun := by rw [hruns]; simp
  refine ⟨?_, ?_, ?_, ?_, ?_⟩
  · rw [noteVisuallyNonEmpty_trimmableContent, noteVisuallyNonEmpty_runs]
    exact hfirst
  · rw [noteVisuallyNonEmpty_trimmableContent, noteVisuallyNonEmpty_runs]
    exact hcovered
  · rw [noteVisuallyNonEmpty_trimmableContent, noteVisuallyNonEmpty_runs]
    exact hpartially
  · rw [noteVisuallyNonEmpty_empty env s1 newRun hlast, noteVisuallyNonEmpty_runs, hruns, hempty]
    have hsame : ∀ run, isVisuallyNonEmpty env (noteVisuallyNonEmpty env s1) run
        = isVisuallyNonEmpty env s run := by
      intro run
      rw [isVisuallyNonEmpty_of_skipAlignment env s (noteVisuallyNonEmpty env s1) run
        (by rw [noteVisuallyNonEmpty_skipAlignment, hskip])]
    have hsame1 : isVisuallyNonEmpty env s1 newRun = isVisuallyNonEmpty env s newRun :=
      isVisuallyNonEmpty_of_skipAlignment env s s1 newRun hskip
    simp only [hsame, hsame1, Bool.and_eq_true, Bool.not_eq_true', List.mem_append,
      List.mem_singleton]
    constructor
    · rintro ⟨h1, h2⟩ run (hmem | rfl)
      · exact (hinv.visual.mp h1) run hmem
      · exact h2
    · intro h
      exact ⟨hinv.visual.mpr (fun run hmem => h run (Or.inl hmem)), h newRun (Or.inr rfl)⟩
  · rw [noteVisuallyNonEmpty_trimmableContent, noteVisuallyNonEmpty_flag]
    exact hflagged

end LineBuilder

namespace LineBuilder

/-! ### The invariant of an open line -/

theorem getElem?_append_singleton {α : Type} (l : List α) (a x : α) (i : Nat)
    (h : (l ++ [a])[i]? = some x) :
    (i < l.length ∧ l[i]? = some x) ∨ (i = l.length ∧ x = a) := by
  by_cases hlt : i < l.length
  · left
    rw [List.getElem?_append_left hlt] at h
    exact ⟨hlt, h⟩
  · right
    rw [List.getElem?_append_right (by omega)] at h
    have hlen : i - l.length < [a].length := by
      by_contra hcon
      rw [List.getElem?_eq_none (by omega)] at h
      cases h
    simp only [List.length_singleton] at hlen
    have hzero : i - l.length = 0 := by omega
    rw [hzero] at h
    simp only [List.getElem?_cons_zero, Option.some.injEq] at h
    exact ⟨by omega, h.symm⟩

theorem getElem?_append_singleton_of_lt {α : Type} (l : List α) (a : α) (i : Nat)
    (h : i < l.length) : (l ++ [a])[i]? = l[i]? :=
  List.getElem?_append_left h

theorem getElem?_append_singleton_length {α : Type} (l : List α) (a : α) :
    (l ++ [a])[l.length]? = some a := by
  rw [List.getElem?_append_right (Nat.le_refl _)]
  simp

/-- The invariant holds of a line that has just been initialized. -/
theorem Invariant.initial (env : Environment) (s : LineBuilder) (constraints : Constraints) :
    Invariant env ( LineBuilder.initialize s constraints) := by
  refine ⟨?_, ?_, ?_, ?_, ?_⟩
  · intro f h
    simp [ LineBuilder.initialize, TrimmableContent.reset] at h
  · intro i run h
    simp [ LineBuilder.initialize] at h
  · intro _ f h
    simp [ LineBuilder.initialize, TrimmableContent.reset] at h
  · simp [ LineBuilder.initialize]
  · intro h
    simp [ LineBuilder.initialize, TrimmableContent.reset] at h

/-- A run that is not text is appended and the trimmable content stays. -/
theorem Invariant.push_keep (env : Environment) (s s1 : LineBuilder) (newRun : InlineItemRun)
    (hinv : Invariant env s)
    (hruns : s1.m_inlineItemRuns = s.m_inlineItemRuns ++ [newRun])
    (hskip : s1.m_skipAlignment = s.m_skipAlignment)
    (hempty : s1.m_lineBox.m_isConsideredEmpty = s.m_lineBox.m_isConsideredEmpty)
    (htrim : s1.m_trimmableContent = s.m_trimmableContent)
    (hflag : s1.m_lineIsVisuallyEmptyBeforeTrimmableContent
      = s.m_lineIsVisuallyEmptyBeforeTrimmableContent)
    (hnontext : newRun.isText = false) :
    Invariant env (noteVisuallyNonEmpty env s1) := by
  apply Invariant.note env s s1 newRun hinv hruns hskip hempty
  · intro f hf
    rw [htrim] at hf
    have := hinv.first_lt f hf
    rw [hruns, List.length_append, List.length_singleton]
    omega
  · intro i run hi htws hlater
    rw [htrim]
    rw [hruns] at hi
    rcases getElem?_append_singleton _ _ _ _ hi with ⟨hlt, hi⟩ | ⟨_, rfl⟩
    · apply hinv.covered i run hi htws
      intro j later hij hj
      apply hlater j later hij
      rw [hruns, getElem?_append_singleton_of_lt _ _ _ (List.getElem?_eq_some_iff.mp hj).1]
      exact hj
    · rw [not_isTrimmableWhitespace_of_not_isText env.o _ hnontext] at htws
      cases htws
  · intro hlastfully f hf
    rw [htrim] at hlastfully hf
    obtain ⟨⟨run, hrun, htext, hws⟩, hafter⟩ := hinv.partially hlastfully f hf
    refine ⟨⟨run, ?_, htext, hws⟩, ?_⟩
    · rw [hruns, getElem?_append_singleton_of_lt _ _ _ (List.getElem?_eq_some_iff.mp hrun).1]
      exact hrun
    · intro j later hfj hj
      rw [hruns] at hj
      rcases getElem?_append_singleton _ _ _ _ hj with ⟨_, hj⟩ | ⟨_, rfl⟩
      · exact hafter j later hfj hj
      · exact hnontext
  · intro hsome
    rw [htrim] at hsome
    rw [hflag]
    exact hinv.flagged hsome

/-- A run that ends trailing trimmable content and is not text (a box) is
appended and the trimmable content is reset. -/
theorem Invariant.push_reset (env : Environment) (s s1 : LineBuilder) (newRun : InlineItemRun)
    (hinv : Invariant env s)
    (hruns : s1.m_inlineItemRuns = s.m_inlineItemRuns ++ [newRun])
    (hskip : s1.m_skipAlignment = s.m_skipAlignment)
    (hempty : s1.m_lineBox.m_isConsideredEmpty = s.m_lineBox.m_isConsideredEmpty)
    (htrim : s1.m_trimmableContent = s.m_trimmableContent.reset)
    (hnontext : newRun.isText = false)
    (hblocks : isTransparentForTrimming env.o newRun = false) :
    Invariant env (noteVisuallyNonEmpty env s1) := by
  apply Invariant.note env s s1 newRun hinv hruns hskip hempty
  · intro f hf
    rw [htrim] at hf
    cases hf
  · intro i run hi htws hlater
    rw [hruns] at hi
    rcases getElem?_append_singleton _ _ _ _ hi with ⟨hlt, _⟩ | ⟨_, rfl⟩
    · have := hlater s.m_inlineItemRuns.length newRun hlt
        (by rw [hruns]; exact getElem?_append_singleton_length _ _)
      rw [hblocks] at this
      cases this
    · rw [not_isTrimmableWhitespace_of_not_isText env.o _ hnontext] at htws
      cases htws
  · intro _ f hf
    rw [htrim] at hf
    cases hf
  · intro hsome
    rw [htrim] at hsome
    cases hsome

end LineBuilder

namespace LineBuilder

theorem TrimmableContent.append_last (o : Collaborators) (runs : List InlineItemRun)
    (run : InlineItemRun) (t : TrimmableContent) :
    TrimmableContent.append o (runs ++ [run]) t runs.length
      = { m_width :=
            t.m_width
              + max 0 (if run.isTrimmableWhitespace o = true then run.logicalWidth
                       else run.trailingLetterSpacing)
          m_lastRunIsFullyTrimmable := run.isTrimmableWhitespace o
          m_firstRunIndex := some (t.m_firstRunIndex.getD runs.length) } := by
  unfold TrimmableContent.append
  rw [getElem?_append_singleton_length]

theorem textRunOf_isText (env : Environment) (s : LineBuilder) (inlineItem : InlineItem)
    (logicalWidth : InlineLayoutUnit) (htext : inlineItem.isText = true) :
    (textRunOf env s inlineItem logicalWidth).isText = true := by
  rw [InlineItemRun.isText, textRunOf_item]
  exact htext

/-- The trimmable content after `appendTextContent`, by the kind of the run. -/
theorem appendTextContent_trimmable (env : Environment) (s : LineBuilder)
    (inlineItem : InlineItem) (logicalWidth : InlineLayoutUnit) :
    ((textRunOf env s inlineItem logicalWidth).isTrimmableWhitespace env.o = true
        ∧ (appendTextContent env s inlineItem logicalWidth).m_trimmableContent.m_firstRunIndex
            = some (s.m_trimmableContent.m_firstRunIndex.getD s.m_inlineItemRuns.length)
        ∧ (appendTextContent env s inlineItem
            logicalWidth).m_trimmableContent.m_lastRunIsFullyTrimmable = true
        ∧ (s.m_lineIsVisuallyEmptyBeforeTrimmableContent.isSome = true →
            (appendTextContent env s inlineItem
              logicalWidth).m_lineIsVisuallyEmptyBeforeTrimmableContent.isSome = true)
        ∧ (s.m_trimmableContent.m_firstRunIndex = none →
            (appendTextContent env s inlineItem
              logicalWidth).m_lineIsVisuallyEmptyBeforeTrimmableContent.isSome = true))
      ∨ ((textRunOf env s inlineItem logicalWidth).isTrimmableWhitespace env.o = false
        ∧ (textRunOf env s inlineItem logicalWidth).isWhitespace = false
        ∧ (appendTextContent env s inlineItem logicalWidth).m_trimmableContent.m_firstRunIndex
            = some s.m_inlineItemRuns.length
        ∧ (appendTextContent env s inlineItem
            logicalWidth).m_trimmableContent.m_lastRunIsFullyTrimmable = false
        ∧ (appendTextContent env s inlineItem
            logicalWidth).m_lineIsVisuallyEmptyBeforeTrimmableContent.isSome = true)
      ∨ ((textRunOf env s inlineItem logicalWidth).isTrimmableWhitespace env.o = false
        ∧ (appendTextContent env s inlineItem logicalWidth).m_trimmableContent.m_firstRunIndex
            = none) := by
  by_cases htws : (textRunOf env s inlineItem logicalWidth).isTrimmableWhitespace env.o = true
  · left
    refine ⟨htws, ?_, ?_, ?_, ?_⟩
    · simp [appendTextContent, htws, TrimmableContent.append_last]
    · simp [appendTextContent, htws, TrimmableContent.append_last]
    · intro hsome
      simp only [appendTextContent, htws, Bool.not_true, Bool.and_false, Bool.false_eq_true,
        if_false, Bool.true_or, if_true]
      split
      · rfl
      · exact hsome
    · intro hnone
      simp [appendTextContent, htws, TrimmableContent.isEmpty, hnone]
  · simp only [Bool.not_eq_true] at htws
    right
    by_cases hls : (textRunOf env s inlineItem logicalWidth).hasTrailingLetterSpacing = true
    · left
      have hws : (textRunOf env s inlineItem logicalWidth).isWhitespace = false := by
        simp only [InlineItemRun.hasTrailingLetterSpacing, Bool.and_eq_true,
          Bool.not_eq_true'] at hls
        exact hls.1
      refine ⟨htws, hws, ?_, ?_, ?_⟩
      · cases hold : s.m_trimmableContent.m_firstRunIndex <;>
          simp [appendTextContent, htws, hls, TrimmableContent.append_last,
            TrimmableContent.isEmpty, TrimmableContent.reset, hold]
      · simp [appendTextContent, htws, hls, TrimmableContent.append_last]
      · cases hold : s.m_trimmableContent.m_firstRunIndex <;>
          simp [appendTextContent, htws, hls, TrimmableContent.isEmpty,
            TrimmableContent.reset, hold]
    · right
      simp only [Bool.not_eq_true] at hls
      refine ⟨htws, ?_⟩
      cases hold : s.m_trimmableContent.m_firstRunIndex <;>
        simp [appendTextContent, htws, hls, TrimmableContent.isEmpty,
          TrimmableContent.reset, hold]

/-- A text run that is not trimmable whitespace is not transparent for
trimming. -/
theorem not_transparent_of_text (o : Collaborators) (run : InlineItemRun)
    (htext : run.isText = true) (htws : run.isTrimmableWhitespace o = false) :
    isTransparentForTrimming o run = false := by
  obtain ⟨h1, h2, h3, _⟩ := not_marker_of_isText run htext
  simp [isTransparentForTrimming, htws, h1, h2, h3]

/-- The invariant is kept by the append of a text item. -/
theorem Invariant.push_text (env : Environment) (s : LineBuilder) (inlineItem : InlineItem)
    (logicalWidth : InlineLayoutUnit) (hinv : Invariant env s)
    (htext : inlineItem.isText = true) :
    Invariant env (noteVisuallyNonEmpty env (appendTextContent env s inlineItem logicalWidth)) := by
  have hruns := appendTextContent_runs env s inlineItem logicalWidth
  have hrtext := textRunOf_isText env s inlineItem logicalWidth htext
  have hempty : (appendTextContent env s inlineItem logicalWidth).m_lineBox.m_isConsideredEmpty
      = s.m_lineBox.m_isConsideredEmpty := by
    rw [appendTextContent_lineBox]; rfl
  have hlength : (appendTextContent env s inlineItem logicalWidth).m_inlineItemRuns.length
      = s.m_inlineItemRuns.length + 1 := by
    rw [hruns]; simp
  apply Invariant.note env s _ _ hinv hruns (appendTextContent_skipAlignment env s _ _) hempty
  · intro f hf
    rw [hlength]
    rcases appendTextContent_trimmable env s inlineItem logicalWidth with
      ⟨_, hfirst, _⟩ | ⟨_, _, hfirst, _⟩ | ⟨_, hfirst⟩
    · rw [hfirst] at hf
      simp only [Option.some.injEq] at hf
      cases hold : s.m_trimmableContent.m_firstRunIndex with
      | none => rw [hold] at hf; simp at hf; omega
      | some f0 =>
        rw [hold] at hf
        simp at hf
        have := hinv.first_lt f0 hold
        omega
    · rw [hfirst] at hf
      simp only [Option.some.injEq] at hf
      omega
    · rw [hfirst] at hf
      cases hf
  · intro i run hi htws hlater
    rw [hruns] at hi
    rcases appendTextContent_trimmable env s inlineItem logicalWidth with
      ⟨_, hfirst, _⟩ | ⟨hnew, _, hfirst, _⟩ | ⟨hnew, hfirst⟩
    · rw [hfirst]
      rcases getElem?_append_singleton _ _ _ _ hi with ⟨hlt, hi⟩ | ⟨hlen, _⟩
      · obtain ⟨f0, hf0, hle⟩ := hinv.covered i run hi htws (by
          intro j later hij hj
          apply hlater j later hij
          rw [hruns, getElem?_append_singleton_of_lt _ _ _ (List.getElem?_eq_some_iff.mp hj).1]
          exact hj)
        exact ⟨f0, by rw [hf0]; rfl, hle⟩
      · cases hold : s.m_trimmableContent.m_firstRunIndex with
        | none => exact ⟨_, rfl, by simp [hlen]⟩
        | some f0 =>
          have := hinv.first_lt f0 hold
          exact ⟨f0, rfl, by omega⟩
    · exfalso
      rcases getElem?_append_singleton _ _ _ _ hi with ⟨hlt, _⟩ | ⟨_, rfl⟩
      · have := hlater s.m_inlineItemRuns.length _ hlt
          (by rw [hruns]; exact getElem?_append_singleton_length _ _)
        rw [not_transparent_of_text env.o _ hrtext hnew] at this
        cases this
      · rw [hnew] at htws
        cases htws
    · exfalso
      rcases getElem?_append_singleton _ _ _ _ hi with ⟨hlt, _⟩ | ⟨_, rfl⟩
      · have := hlater s.m_inlineItemRuns.length _ hlt
          (by rw [hruns]; exact getElem?_append_singleton_length _ _)
        rw [not_transparent_of_text env.o _ hrtext hnew] at this
        cases this
      · rw [hnew] at htws
        cases htws
  · intro hlastfully f hf
    rcases appendTextContent_trimmable env s inlineItem logicalWidth with
      ⟨_, _, hfully, _⟩ | ⟨_, hws, hfirst, _⟩ | ⟨_, hfirst⟩
    · rw [hfully] at hlastfully
      cases hlastfully
    · rw [hfirst] at hf
      simp only [Option.some.injEq] at hf
      subst hf
      refine ⟨⟨_, by rw [hruns]; exact getElem?_append_singleton_length _ _, hrtext, hws⟩, ?_⟩
      intro j later hfj hj
      have := (List.getElem?_eq_some_iff.mp hj).1
      omega
    · rw [hfirst] at hf
      cases hf
  · intro hsome
    rcases appendTextContent_trimmable env s inlineItem logicalWidth with
      ⟨_, _, _, hkeep, hnew⟩ | ⟨_, _, _, _, hflag⟩ | ⟨_, hfirst⟩
    · cases hold : s.m_trimmableContent.m_firstRunIndex with
      | none => exact hnew hold
      | some f0 => exact hkeep (hinv.flagged (by rw [hold]; rfl))
    · exact hflag
    · rw [hfirst] at hsome
      cases hsome

end LineBuilder

namespace LineBuilder

/-- What `trimTrailingLetterSpacing` does to a line that satisfies the
invariant: at most the width of one text run and the width of the line box
change, and the trimmable content either stays or becomes empty. -/
theorem trimTrailingLetterSpacing_spec (env : Environment) (s : LineBuilder)
    (hinv : Invariant env s) :
    (trimTrailingLetterSpacing s).m_skipAlignment = s.m_skipAlignment
      ∧ (trimTrailingLetterSpacing s).m_lineBox.m_isConsideredEmpty
          = s.m_lineBox.m_isConsideredEmpty
      ∧ (trimTrailingLetterSpacing s).m_lineIsVisuallyEmptyBeforeTrimmableContent
          = s.m_lineIsVisuallyEmptyBeforeTrimmableContent
      ∧ (trimTrailingLetterSpacing s).m_inlineItemRuns.length = s.m_inlineItemRuns.length
      ∧ (∀ (i : Nat) (run : InlineItemRun), s.m_inlineItemRuns[i]? = some run →
          ∃ after : InlineItemRun,
            (trimTrailingLetterSpacing s).m_inlineItemRuns[i]? = some after
            ∧ SameButTextWidth run after)
      ∧ ((trimTrailingLetterSpacing s).m_trimmableContent = s.m_trimmableContent
          ∨ (s.m_trimmableContent.m_lastRunIsFullyTrimmable = false
              ∧ s.m_trimmableContent.m_firstRunIndex.isSome = true
              ∧ (trimTrailingLetterSpacing s).m_trimmableContent.m_firstRunIndex = none)) := by
  unfold trimTrailingLetterSpacing
  by_cases hp : s.m_trimmableContent.isTrailingRunPartiallyTrimmable = true
  swap
  · simp only [hp, Bool.not_false, if_true]
    exact ⟨trivial, trivial, trivial, trivial,
      fun i run hi => ⟨run, hi, SameButTextWidth.refl run⟩, Or.inl trivial⟩
  simp only [hp, Bool.not_true, Bool.false_eq_true, if_false]
  simp only [TrimmableContent.isTrailingRunPartiallyTrimmable, TrimmableContent.isEmpty,
    TrimmableContent.isTrailingRunFullyTrimmable, Bool.and_eq_true, Bool.not_eq_true',
    Bool.not_eq_false'] at hp
  obtain ⟨hsome, hfully⟩ := hp
  obtain ⟨f, hf⟩ := Option.isSome_iff_exists.mp hsome
  obtain ⟨⟨run, hrun, htext, hws⟩, _⟩ := hinv.partially hfully f hf
  have hlt := hinv.first_lt f hf
  obtain ⟨n, hn⟩ : ∃ n, s.m_inlineItemRuns.length = n + 1 := ⟨s.m_inlineItemRuns.length - 1, by omega⟩
  simp only [TrimmableContent.trimTrailingRun, hf, hn, TrimmableContent.trimTrailingRunFrom]
  by_cases hfn : f ≥ n
  · have hfeq : f = n := by omega
    subst hfeq
    simp only [ge_iff_le, le_refl, if_true, hrun, htext, hws, Bool.not_true, Bool.false_eq_true,
      if_false]
    refine ⟨trivial, rfl, trivial, by simp [hn], ?_, Or.inr ⟨hfully, rfl, trivial⟩⟩
    intro i before hi
    by_cases hif : f = i
    · subst hif
      rw [hrun] at hi
      simp only [Option.some.injEq] at hi
      subst hi
      refine ⟨run.removeTrailingLetterSpacing, by rw [List.getElem?_set_self hlt], ?_⟩
      refine ⟨rfl, rfl, rfl, rfl, rfl, ?_⟩
      intro hnot
      rw [htext] at hnot
      cases hnot
    · exact ⟨before, by rw [List.getElem?_set_ne hif]; exact hi, SameButTextWidth.refl before⟩
  · simp only [hfn, if_false]
    exact ⟨trivial, rfl, trivial, hn,
      fun i run hi => ⟨run, hi, SameButTextWidth.refl run⟩, Or.inl trivial⟩

/-- The invariant is kept by `trimTrailingLetterSpacing`. -/
theorem Invariant.trimTrailingLetterSpacing (env : Environment) (s : LineBuilder)
    (hinv : Invariant env s) : Invariant env (trimTrailingLetterSpacing s) := by
  obtain ⟨hskip, hempty, hflag, hlength, hsame, htrim⟩ := trimTrailingLetterSpacing_spec env s hinv
  have hback : ∀ (i : Nat) (after : InlineItemRun),
      (LineBuilder.trimTrailingLetterSpacing s).m_inlineItemRuns[i]? = some after →
      ∃ before : InlineItemRun,
        s.m_inlineItemRuns[i]? = some before ∧ SameButTextWidth before after := by
    intro i after hi
    have hlt : i < s.m_inlineItemRuns.length := by
      rw [← hlength]; exact (List.getElem?_eq_some_iff.mp hi).1
    obtain ⟨before, hbefore⟩ : ∃ before, s.m_inlineItemRuns[i]? = some before :=
      ⟨_, List.getElem?_eq_getElem hlt⟩
    obtain ⟨after2, hafter2, hrel⟩ := hsame i before hbefore
    rw [hi] at hafter2
    simp only [Option.some.injEq] at hafter2
    subst hafter2
    exact ⟨before, hbefore, hrel⟩
  refine ⟨?_, ?_, ?_, ?_, ?_⟩
  · intro f hf
    rw [hlength]
    rcases htrim with hkeep | ⟨_, _, hnone⟩
    · rw [hkeep] at hf; exact hinv.first_lt f hf
    · rw [hnone] at hf; cases hf
  · intro i after hi htws hlater
    obtain ⟨before, hbefore, hrel⟩ := hback i after hi
    have htws2 : before.isTrimmableWhitespace env.o = true := by
      rw [← isTrimmableWhitespace_of_item env.o before after hrel.1]; exact htws
    have hlater2 : ∀ j later, i < j → s.m_inlineItemRuns[j]? = some later →
        isTransparentForTrimming env.o later = true := by
      intro j later hij hj
      obtain ⟨later2, hlater2, hrel2⟩ := hsame j later hj
      rw [← isTransparentForTrimming_of_item env.o later later2 hrel2.1]
      exact hlater j later2 hij hlater2
    rcases htrim with hkeep | ⟨hfully, hsome, _⟩
    · rw [hkeep]
      exact hinv.covered i before hbefore htws2 hlater2
    · exfalso
      obtain ⟨f, hf⟩ := Option.isSome_iff_exists.mp hsome
      obtain ⟨⟨run, hrun, htext, hws⟩, hafter⟩ := hinv.partially hfully f hf
      have hblocks : isTransparentForTrimming env.o run = false := by
        apply not_transparent_of_text env.o run htext
        cases h : run.isTrimmableWhitespace env.o with
        | false => rfl
        | true =>
          have := (isWhitespace_of_isTrimmableWhitespace env.o run h).1
          rw [hws] at this
          cases this
      rcases Nat.lt_trichotomy i f with hlt | heq | hgt
      · have := hlater2 f run hlt hrun
        rw [hblocks] at this
        cases this
      · subst heq
        rw [hrun] at hbefore
        simp only [Option.some.injEq] at hbefore
        subst hbefore
        have := (isWhitespace_of_isTrimmableWhitespace env.o _ htws2).1
        rw [hws] at this
        cases this
      · have h1 := hafter i before hgt hbefore
        have h2 := (isWhitespace_of_isTrimmableWhitespace env.o _ htws2).2
        rw [h1] at h2
        cases h2
  · intro hfully f hf
    rcases htrim with hkeep | ⟨_, _, hnone⟩
    · rw [hkeep] at hfully hf
      obtain ⟨⟨run, hrun, htext, hws⟩, hafter⟩ := hinv.partially hfully f hf
      obtain ⟨after, hafter2, hrel⟩ := hsame f run hrun
      refine ⟨⟨after, hafter2, ?_, ?_⟩, ?_⟩
      · rw [isText_of_item run after hrel.1]; exact htext
      · rw [isWhitespace_of_item run after hrel.1]; exact hws
      · intro j later hfj hj
        obtain ⟨before, hbefore, hrel2⟩ := hback j later hj
        rw [isText_of_item before later hrel2.1]
        exact hafter j before hfj hbefore
    · rw [hnone] at hf; cases hf
  · rw [hempty]
    constructor
    · intro h after hmem
      obtain ⟨i, hi⟩ := List.mem_iff_getElem?.mp hmem
      obtain ⟨before, hbefore, hrel⟩ := hback i after hi
      rw [isVisuallyNonEmpty_of_skipAlignment env s _ after hskip,
        isVisuallyNonEmpty_of_same env s before after hrel]
      exact (hinv.visual.mp h) before (List.mem_iff_getElem?.mpr ⟨i, hbefore⟩)
    · intro h
      apply hinv.visual.mpr
      intro before hmem
      obtain ⟨i, hi⟩ := List.mem_iff_getElem?.mp hmem
      obtain ⟨after, hafter, hrel⟩ := hsame i before hi
      have := h after (List.mem_iff_getElem?.mpr ⟨i, hafter⟩)
      rw [isVisuallyNonEmpty_of_skipAlignment env s _ after hskip,
        isVisuallyNonEmpty_of_same env s before after hrel] at this
      exact this
  · intro hsome
    rw [hflag]
    rcases htrim with hkeep | ⟨_, hold, _⟩
    · rw [hkeep] at hsome; exact hinv.flagged hsome
    · exact hinv.flagged hold

end LineBuilder

namespace LineBuilder

/-- On a line that satisfies the invariant the visibility check changes
nothing. -/
theorem Invariant.note_self (env : Environment) (s : LineBuilder) (hinv : Invariant env s) :
    noteVisuallyNonEmpty env s = s := by
  unfold noteVisuallyNonEmpty
  cases hlast : s.m_inlineItemRuns.getLast? with
  | none => rfl
  | some lastRun =>
    simp only
    by_cases h : (s.m_lineBox.isConsideredEmpty && isVisuallyNonEmpty env s lastRun) = true
    · exfalso
      simp only [Bool.and_eq_true, Display.LineBox.isConsideredEmpty] at h
      have := (hinv.visual.mp h.1) lastRun (List.mem_of_getLast?_eq_some hlast)
      rw [h.2] at this
      cases this
    · rw [if_neg h]

/-- The run of an item that is no text item is no text run, whatever its
geometry. -/
theorem isText_mk (inlineItem : InlineItem) (left width : InlineLayoutUnit)
    (textContext : Option (Display.TextContext Int)) (h : inlineItem.isText = false) :
    InlineItemRun.isText
      { m_inlineItem := inlineItem, m_logicalLeft := left, m_logicalWidth := width,
        m_textContext := textContext } = false := h

/-- The invariant is kept by every append. -/
theorem Invariant.append (env : Environment) (s : LineBuilder) (inlineItem : InlineItem)
    (logicalWidth : InlineLayoutUnit) (hinv : Invariant env s) :
    Invariant env (LineBuilder.append env s inlineItem logicalWidth) := by
  unfold LineBuilder.append appendByKind
  by_cases htext : inlineItem.isText = true
  · rw [if_pos htext]
    exact Invariant.push_text env s inlineItem logicalWidth hinv htext
  rw [if_neg htext]
  simp only [Bool.not_eq_true] at htext
  by_cases hbreak : inlineItem.isLineBreak = true
  · rw [if_pos hbreak]
    unfold appendLineBreak
    by_cases hhard : inlineItem.isHardLineBreak = true
    · rw [if_pos hhard]
      exact Invariant.push_keep env s _ _ hinv rfl rfl rfl rfl rfl (isText_mk _ _ _ _ htext)
    · rw [if_neg hhard]
      exact Invariant.push_keep env s _ _ hinv rfl rfl rfl rfl rfl (isText_mk _ _ _ _ htext)
  rw [if_neg hbreak]
  by_cases hstart : inlineItem.isContainerStart = true
  · rw [if_pos hstart]
    exact Invariant.push_keep env s _ _ hinv rfl rfl rfl rfl rfl (isText_mk _ _ _ _ htext)
  rw [if_neg hstart]
  by_cases hend : inlineItem.isContainerEnd = true
  · rw [if_pos hend]
    exact Invariant.push_keep env (LineBuilder.trimTrailingLetterSpacing s) _ _
      (Invariant.trimTrailingLetterSpacing env s hinv) rfl rfl rfl rfl rfl
      (isText_mk _ _ _ _ htext)
  rw [if_neg hend]
  have hblocks : ∀ (left width : InlineLayoutUnit),
      isTransparentForTrimming env.o
        { m_inlineItem := inlineItem, m_logicalLeft := left, m_logicalWidth := width } = false := by
    intro left width
    simp only [Bool.not_eq_true] at hbreak hstart hend
    simp [isTransparentForTrimming, InlineItemRun.isLineBreak, InlineItemRun.isContainerStart,
      InlineItemRun.isContainerEnd, hbreak, hstart, hend,
      not_isTrimmableWhitespace_of_not_isText env.o _ (isText_mk inlineItem left width none htext)]
  by_cases hreplaced : env.fc.replaced inlineItem.layoutBox = true
  · rw [if_pos hreplaced]
    exact Invariant.push_reset env s _ _ hinv rfl rfl rfl rfl (isText_mk _ _ _ _ htext)
      (hblocks _ _)
  rw [if_neg hreplaced]
  by_cases hbox : inlineItem.isBox = true
  · rw [if_pos hbox]
    exact Invariant.push_reset env s _ _ hinv rfl rfl rfl rfl (isText_mk _ _ _ _ htext)
      (hblocks _ _)
  rw [if_neg hbox, Invariant.note_self env s hinv]
  exact hinv

/-- The invariant holds after any sequence of appends to a line that satisfies
it. -/
theorem Invariant.appendAll (env : Environment) (items : List (InlineItem × InlineLayoutUnit)) :
    ∀ s : LineBuilder, Invariant env s → Invariant env (LineBuilder.appendAll env s items) := by
  induction items with
  | nil => intro s hinv; exact hinv
  | cons item rest ih =>
    intro s hinv
    exact ih _ (Invariant.append env s item.1 item.2 hinv)

/-- The invariant holds of every open line. -/
theorem Invariant.openLine (env : Environment) (s : LineBuilder) (constraints : Constraints)
    (items : List (InlineItem × InlineLayoutUnit)) :
    Invariant env (LineBuilder.openLine env s constraints items) :=
  Invariant.appendAll env items _ (Invariant.initial env s constraints)

end LineBuilder

namespace LineBuilder

/-! ### The trimming step of `close` -/

/-- The loop of `TrimmableContent::trim` keeps the number of runs and trims
each run it visits. -/
theorem TrimmableContent.trimRunsFrom_spec (runs : List InlineItemRun) :
    ∀ accumulatedTrimmedWidth : InlineLayoutUnit,
      (TrimmableContent.trimRunsFrom runs accumulatedTrimmedWidth).1.length = runs.length
        ∧ ∀ (i : Nat) (before : InlineItemRun), runs[i]? = some before →
            ∃ after : InlineItemRun,
              (TrimmableContent.trimRunsFrom runs accumulatedTrimmedWidth).1[i]? = some after
                ∧ Trimmed before after := by
  induction runs with
  | nil =>
    intro accumulated
    refine ⟨rfl, ?_⟩
    intro i before hi
    simp at hi
  | cons run rest ih =>
    intro accumulated
    unfold TrimmableContent.trimRunsFrom
    simp only [InlineItemRun.moveHorizontally]
    by_cases htext : run.isText = true
    · have htext2 : InlineItemRun.isText
          { run with m_logicalLeft := run.m_logicalLeft + -accumulated } = true := htext
      by_cases hws : run.isWhitespace = true
      · have hws2 : InlineItemRun.isWhitespace
            { run with m_logicalLeft := run.m_logicalLeft + -accumulated } = true := hws
        simp only [htext2, hws2, Bool.not_true, Bool.false_eq_true, if_false, if_true]
        refine ⟨by simp [(ih _).1], ?_⟩
        intro i before hi
        cases i with
        | zero =>
          simp only [List.getElem?_cons_zero, Option.some.injEq] at hi
          subst hi
          refine ⟨_, List.getElem?_cons_zero, rfl, rfl, rfl, fun _ => ⟨rfl, rfl⟩, ?_, ?_⟩
          · intro h; rw [hws] at h; cases h
          · intro h; rw [htext] at h; cases h
        | succ i =>
          simp only [List.getElem?_cons_succ] at hi ⊢
          exact (ih _).2 i before hi
      · simp only [Bool.not_eq_true] at hws
        have hws2 : InlineItemRun.isWhitespace
            { run with m_logicalLeft := run.m_logicalLeft + -accumulated } = false := hws
        simp only [htext2, hws2, Bool.not_true, Bool.false_eq_true, if_false]
        refine ⟨by simp [(ih _).1], ?_⟩
        intro i before hi
        cases i with
        | zero =>
          simp only [List.getElem?_cons_zero, Option.some.injEq] at hi
          subst hi
          refine ⟨_, List.getElem?_cons_zero, rfl, rfl, rfl, ?_, fun _ => rfl, ?_⟩
          · intro h; rw [hws] at h; cases h
          · intro h; rw [htext] at h; cases h
        | succ i =>
          simp only [List.getElem?_cons_succ] at hi ⊢
          exact (ih _).2 i before hi
    · simp only [Bool.not_eq_true] at htext
      have htext2 : InlineItemRun.isText
          { run with m_logicalLeft := run.m_logicalLeft + -accumulated } = false := htext
      have hws : run.isWhitespace = false := by
        simp only [InlineItemRun.isText] at htext
        simp [InlineItemRun.isWhitespace, htext]
      simp only [htext2, Bool.not_false, if_true]
      refine ⟨by simp [(ih _).1], ?_⟩
      intro i before hi
      cases i with
      | zero =>
        simp only [List.getElem?_cons_zero, Option.some.injEq] at hi
        subst hi
        refine ⟨_, List.getElem?_cons_zero, rfl, rfl, rfl, ?_, fun _ => rfl, fun _ => rfl⟩
        intro h; rw [hws] at h; cases h
      | succ i =>
        simp only [List.getElem?_cons_succ] at hi ⊢
        exact (ih _).2 i before hi

/-- What `TrimmableContent::trim` does to the run list: the number of runs
stays, the runs before the first trimmable index stay, the runs from it on are
trimmed. -/
theorem TrimmableContent.trim_spec (runs : List InlineItemRun) (t : TrimmableContent) :
    (TrimmableContent.trim runs t).1.length = runs.length
      ∧ ∀ (i : Nat) (before : InlineItemRun), runs[i]? = some before →
          ∃ after : InlineItemRun, (TrimmableContent.trim runs t).1[i]? = some after
            ∧ (after = before ∨ Trimmed before after)
            ∧ ((∃ f, t.m_firstRunIndex = some f ∧ f ≤ i) → Trimmed before after) := by
  unfold TrimmableContent.trim
  cases hfirst : t.m_firstRunIndex with
  | none =>
    refine ⟨rfl, ?_⟩
    intro i before hi
    refine ⟨before, hi, Or.inl rfl, ?_⟩
    rintro ⟨f, hf, _⟩
    cases hf
  | some f =>
    simp only
    obtain ⟨hlength, hruns⟩ := TrimmableContent.trimRunsFrom_spec (runs.drop f) 0
    refine ⟨by rw [List.length_append, hlength, List.length_take, List.length_drop]; omega, ?_⟩
    intro i before hi
    have hlt : i < runs.length := (List.getElem?_eq_some_iff.mp hi).1
    by_cases hif : i < f
    · refine ⟨before, ?_, Or.inl rfl, ?_⟩
      · rw [List.getElem?_append_left (by rw [List.length_take]; omega),
          List.getElem?_take_of_lt hif]
        exact hi
      · rintro ⟨g, hg, hle⟩
        simp only [Option.some.injEq] at hg
        omega
    · have hdrop : (runs.drop f)[i - f]? = some before := by
        rw [List.getElem?_drop]
        have : f + (i - f) = i := by omega
        rw [this]
        exact hi
      obtain ⟨after, hafter, htrimmed⟩ := hruns (i - f) before hdrop
      refine ⟨after, ?_, Or.inr htrimmed, fun _ => htrimmed⟩
      rw [List.getElem?_append_right (by rw [List.length_take]; omega), List.length_take]
      have : i - min f runs.length = i - f := by omega
      rw [this]
      exact hafter

end LineBuilder

namespace Display.LineBox

/-! ### The setters of the line box that leave the emptiness flag alone -/

@[simp] theorem setLogicalHeightIfGreater_isConsideredEmpty (lineBox : LineBox)
    (logicalHeight : InlineLayoutUnit) :
    (lineBox.setLogicalHeightIfGreater logicalHeight).m_isConsideredEmpty
      = lineBox.m_isConsideredEmpty := by
  unfold setLogicalHeightIfGreater
  split <;> rfl

@[simp] theorem setBaselineOffsetIfGreater_isConsideredEmpty (lineBox : LineBox)
    (baselineOffset : InlineLayoutUnit) :
    (lineBox.setBaselineOffsetIfGreater baselineOffset).m_isConsideredEmpty
      = lineBox.m_isConsideredEmpty := rfl

@[simp] theorem setAscentIfGreater_isConsideredEmpty (lineBox : LineBox)
    (ascent : InlineLayoutUnit) :
    (lineBox.setAscentIfGreater ascent).m_isConsideredEmpty = lineBox.m_isConsideredEmpty := by
  unfold setAscentIfGreater
  split <;> rfl

@[simp] theorem setDescentIfGreater_isConsideredEmpty (lineBox : LineBox)
    (descent : InlineLayoutUnit) :
    (lineBox.setDescentIfGreater descent).m_isConsideredEmpty = lineBox.m_isConsideredEmpty := by
  unfold setDescentIfGreater
  split <;> rfl

end Display.LineBox

namespace LineBuilder

/-- The members of the builder that `adjustBaselineAndLineHeight` leaves
alone. -/
theorem adjustBaselineAndLineHeight_keeps (env : Environment) (s : LineBuilder)
    (run : Run InlineLayoutUnit) :
    (adjustBaselineAndLineHeight env s run).m_inlineItemRuns = s.m_inlineItemRuns
      ∧ (adjustBaselineAndLineHeight env s run).m_skipAlignment = s.m_skipAlignment
      ∧ (adjustBaselineAndLineHeight env s run).m_lineBox.m_isConsideredEmpty
          = s.m_lineBox.m_isConsideredEmpty := by
  unfold adjustBaselineAndLineHeight
  split_ifs <;> (try split) <;> (try simp) <;> (repeat' split) <;> simp

/-- The members of the builder that the vertical pass of `close` leaves
alone. -/
theorem foldl_adjustBaselineAndLineHeight_keeps (env : Environment)
    (runList : List (Run InlineLayoutUnit)) :
    ∀ s : LineBuilder,
      (runList.foldl (adjustBaselineAndLineHeight env) s).m_inlineItemRuns = s.m_inlineItemRuns
        ∧ (runList.foldl (adjustBaselineAndLineHeight env) s).m_skipAlignment = s.m_skipAlignment
        ∧ (runList.foldl (adjustBaselineAndLineHeight env) s).m_lineBox.m_isConsideredEmpty
            = s.m_lineBox.m_isConsideredEmpty := by
  induction runList with
  | nil => intro s; exact ⟨rfl, rfl, rfl⟩
  | cons run rest ih =>
    intro s
    obtain ⟨h1, h2, h3⟩ := adjustBaselineAndLineHeight_keeps env s run
    obtain ⟨k1, k2, k3⟩ := ih (adjustBaselineAndLineHeight env s run)
    simp only [List.foldl_cons]
    exact ⟨k1.trans h1, k2.trans h2, k3.trans h3⟩

/-- The builder that `close` leaves behind has the committed runs, the
alignment switch and the emptiness flag of the builder after the trimming
step. -/
theorem close_keeps (env : Environment) (s : LineBuilder)
    (isLastLineWithInlineContent : IsLastLineWithInlineContent) :
    (close env s isLastLineWithInlineContent).2.m_inlineItemRuns
        = (removeTrailingTrimmableContent env s).m_inlineItemRuns
      ∧ (close env s isLastLineWithInlineContent).2.m_skipAlignment
        = (removeTrailingTrimmableContent env s).m_skipAlignment
      ∧ (close env s isLastLineWithInlineContent).2.m_lineBox.m_isConsideredEmpty
        = (removeTrailingTrimmableContent env s).m_lineBox.m_isConsideredEmpty := by
  unfold close
  simp only
  split
  · obtain ⟨h1, h2, h3⟩ := foldl_adjustBaselineAndLineHeight_keeps env
      (mergeRuns env.fc.flags (removeTrailingTrimmableContent env s).isTextAlignJustify none
        (removeTrailingTrimmableContent env s).m_inlineItemRuns)
      (removeTrailingTrimmableContent env s)
    refine ⟨Eq.trans ?_ h1, Eq.trans ?_ h2, Eq.trans ?_ h3⟩ <;> (split_ifs <;> rfl)
  · exact ⟨rfl, rfl, rfl⟩

end LineBuilder

namespace LineBuilder

theorem removeTrailingTrimmableContent_skipAlignment (env : Environment) (s : LineBuilder) :
    (removeTrailingTrimmableContent env s).m_skipAlignment = s.m_skipAlignment := by
  unfold removeTrailingTrimmableContent
  simp only
  split_ifs <;> rfl

theorem removeTrailingTrimmableContent_runs (env : Environment) (s : LineBuilder) :
    (removeTrailingTrimmableContent env s).m_inlineItemRuns
      = if (s.m_trimmableContent.isEmpty || s.m_inlineItemRuns.isEmpty) = true then
          s.m_inlineItemRuns
        else (TrimmableContent.trim s.m_inlineItemRuns s.m_trimmableContent).1 := by
  unfold removeTrailingTrimmableContent
  simp only
  split_ifs <;> rfl

/-- What the trimming step of `close` does to the committed runs: their number
stays, and every run stays or is trimmed; the runs from the first trimmable
index on are trimmed. -/
theorem removeTrailingTrimmableContent_spec (env : Environment) (s : LineBuilder) :
    (removeTrailingTrimmableContent env s).m_inlineItemRuns.length = s.m_inlineItemRuns.length
      ∧ ∀ (i : Nat) (before : InlineItemRun), s.m_inlineItemRuns[i]? = some before →
          ∃ after : InlineItemRun,
            (removeTrailingTrimmableContent env s).m_inlineItemRuns[i]? = some after
              ∧ (after = before ∨ Trimmed before after)
              ∧ ((∃ f, s.m_trimmableContent.m_firstRunIndex = some f ∧ f ≤ i) →
                  Trimmed before after) := by
  rw [removeTrailingTrimmableContent_runs]
  by_cases hcond : (s.m_trimmableContent.isEmpty || s.m_inlineItemRuns.isEmpty) = true
  · rw [if_pos hcond]
    refine ⟨rfl, ?_⟩
    intro i before hi
    refine ⟨before, hi, Or.inl rfl, ?_⟩
    rintro ⟨f, hf, _⟩
    exfalso
    simp only [Bool.or_eq_true, TrimmableContent.isEmpty, hf, Option.isSome_some, Bool.not_true,
      Bool.false_eq_true, false_or, List.isEmpty_iff] at hcond
    rw [hcond] at hi
    simp at hi
  · rw [if_neg hcond]
    exact TrimmableContent.trim_spec s.m_inlineItemRuns s.m_trimmableContent

/-- Every run after the trimming step comes from the run at the same index
before it. -/
theorem removeTrailingTrimmableContent_origin (env : Environment) (s : LineBuilder) (i : Nat)
    (after : InlineItemRun)
    (hi : (removeTrailingTrimmableContent env s).m_inlineItemRuns[i]? = some after) :
    ∃ before : InlineItemRun, s.m_inlineItemRuns[i]? = some before
      ∧ (after = before ∨ Trimmed before after)
      ∧ ((∃ f, s.m_trimmableContent.m_firstRunIndex = some f ∧ f ≤ i) → Trimmed before after) := by
  obtain ⟨hlength, hruns⟩ := removeTrailingTrimmableContent_spec env s
  have hlt : i < s.m_inlineItemRuns.length := by
    rw [← hlength]; exact (List.getElem?_eq_some_iff.mp hi).1
  obtain ⟨after2, hafter2, hrel⟩ := hruns i _ (List.getElem?_eq_getElem hlt)
  rw [hi] at hafter2
  simp only [Option.some.injEq] at hafter2
  subst hafter2
  exact ⟨_, List.getElem?_eq_getElem hlt, hrel⟩

/-- Trimming makes no run visually non-empty. -/
theorem not_visual_of_trimmed (env : Environment) (s : LineBuilder)
    (before after : InlineItemRun) (h : after = before ∨ Trimmed before after)
    (hbefore : isVisuallyNonEmpty env s before = false) :
    isVisuallyNonEmpty env s after = false := by
  rcases h with h | ⟨hitem, _, _, hws, hnws, hwidth⟩
  · rw [h]; exact hbefore
  by_cases htext : before.isText = true
  · have htext2 : after.isText = true := by rw [isText_of_item before after hitem]; exact htext
    simp only [isVisuallyNonEmpty, htext, htext2, if_true,
      InlineItemRun.isCollapsedToZeroAdvanceWidth] at hbefore ⊢
    by_cases hw : before.isWhitespace = true
    · rw [(hws hw).2]; rfl
    · simp only [Bool.not_eq_true] at hw
      rw [hnws hw]; exact hbefore
  · simp only [Bool.not_eq_true] at htext
    have htext2 : after.isText = false := by rw [isText_of_item before after hitem]; exact htext
    have hw := hwidth htext
    rw [← hbefore]
    simp [isVisuallyNonEmpty, htext, htext2, InlineItemRun.isContainerStart,
      InlineItemRun.isContainerEnd, InlineItemRun.isLineBreak, InlineItemRun.isBox,
      InlineItemRun.logicalWidth, InlineItemRun.layoutBox, hitem, hw]

end LineBuilder

namespace LineBuilder

/-- On a line that satisfies the invariant, the trimming step of `close`
leaves the line considered empty exactly when no committed run is visually
non-empty, and leaves an empty line empty. -/
theorem removeTrailingTrimmableContent_visual (env : Environment) (s : LineBuilder)
    (hinv : Invariant env s) :
    ((removeTrailingTrimmableContent env s).m_lineBox.m_isConsideredEmpty = true
        ↔ ∀ run ∈ (removeTrailingTrimmableContent env s).m_inlineItemRuns,
            isVisuallyNonEmpty env (removeTrailingTrimmableContent env s) run = false)
      ∧ (s.m_lineBox.m_isConsideredEmpty = true →
          (removeTrailingTrimmableContent env s).m_lineBox.m_isConsideredEmpty = true) := by
  have hskip := removeTrailingTrimmableContent_skipAlignment env s
  have hkey : s.m_lineBox.m_isConsideredEmpty = true →
      ∀ run ∈ (removeTrailingTrimmableContent env s).m_inlineItemRuns,
        isVisuallyNonEmpty env (removeTrailingTrimmableContent env s) run = false := by
    intro hempty after hmem
    obtain ⟨i, hi⟩ := List.mem_iff_getElem?.mp hmem
    obtain ⟨before, hbefore, hrel, _⟩ := removeTrailingTrimmableContent_origin env s i after hi
    rw [isVisuallyNonEmpty_of_skipAlignment env s _ after hskip]
    exact not_visual_of_trimmed env s before after hrel
      ((hinv.visual.mp hempty) before (List.mem_iff_getElem?.mpr ⟨i, hbefore⟩))
  have hof : ∀ run : InlineItemRun,
      isVisuallyNonEmpty env (removeTrailingTrimmableContent env s) run
        = isVisuallyNonEmpty env s run :=
    fun run => isVisuallyNonEmpty_of_skipAlignment env s _ run hskip
  have hflag : removeTrailingTrimmableContent env s = s
      ∨ ((removeTrailingTrimmableContent env s).m_lineBox.m_isConsideredEmpty = true
          ∧ ∀ run ∈ (removeTrailingTrimmableContent env s).m_inlineItemRuns,
              isVisuallyNonEmpty env (removeTrailingTrimmableContent env s) run = false)
      ∨ ((removeTrailingTrimmableContent env s).m_lineBox.m_isConsideredEmpty
            = s.m_lineBox.m_isConsideredEmpty
          ∧ ¬ ∀ run ∈ (removeTrailingTrimmableContent env s).m_inlineItemRuns,
                isVisuallyNonEmpty env (removeTrailingTrimmableContent env s) run = false) := by
    by_cases hcond : (s.m_trimmableContent.isEmpty || s.m_inlineItemRuns.isEmpty) = true
    · left
      unfold removeTrailingTrimmableContent
      rw [if_pos hcond]
    · right
      have hsome : s.m_lineIsVisuallyEmptyBeforeTrimmableContent.isSome = true := by
        apply hinv.flagged
        simp only [Bool.or_eq_true, not_or, TrimmableContent.isEmpty, Bool.not_eq_true,
          Bool.not_eq_false'] at hcond
        exact hcond.1
      have hruns := removeTrailingTrimmableContent_runs env s
      rw [if_neg hcond] at hruns
      by_cases hall : ((TrimmableContent.trim s.m_inlineItemRuns s.m_trimmableContent).1.all
          (fun run => !isVisuallyNonEmpty env s run)) = true
      · left
        constructor
        · unfold removeTrailingTrimmableContent
          rw [if_neg hcond]
          simp only [hsome, Bool.not_true, Bool.false_eq_true, if_false]
          have hall2 : ((TrimmableContent.trim s.m_inlineItemRuns s.m_trimmableContent).1.all
              (fun run => !isVisuallyNonEmpty env
                { s with
                  m_inlineItemRuns :=
                    (TrimmableContent.trim s.m_inlineItemRuns s.m_trimmableContent).1
                  m_trimmableContent :=
                    (TrimmableContent.trim s.m_inlineItemRuns s.m_trimmableContent).2.1
                  m_lineBox :=
                    s.m_lineBox.shrinkHorizontally
                      (TrimmableContent.trim s.m_inlineItemRuns s.m_trimmableContent).2.2 }
                run)) = true := hall
          rw [if_pos hall2]
          rfl
        · intro run hmem
          rw [hruns] at hmem
          rw [hof run]
          simpa using (List.all_eq_true.mp hall) run hmem
      · right
        constructor
        · unfold removeTrailingTrimmableContent
          rw [if_neg hcond]
          simp only [hsome, Bool.not_true, Bool.false_eq_true, if_false]
          have hall2 : ¬ ((TrimmableContent.trim s.m_inlineItemRuns s.m_trimmableContent).1.all
              (fun run => !isVisuallyNonEmpty env
                { s with
                  m_inlineItemRuns :=
                    (TrimmableContent.trim s.m_inlineItemRuns s.m_trimmableContent).1
                  m_trimmableContent :=
                    (TrimmableContent.trim s.m_inlineItemRuns s.m_trimmableContent).2.1
                  m_lineBox :=
                    s.m_lineBox.shrinkHorizontally
                      (TrimmableContent.trim s.m_inlineItemRuns s.m_trimmableContent).2.2 }
                run)) = true := hall
          rw [if_neg hall2]
          rfl
        · intro hnone
          apply hall
          rw [List.all_eq_true]
          intro run hmem
          rw [← hruns] at hmem
          have := hnone run hmem
          rw [hof run] at this
          rw [this]
          rfl
  rcases hflag with hself | ⟨htrue, hnone⟩ | ⟨hsame, hnot⟩
  · rw [hself]
    exact ⟨hinv.visual, fun h => h⟩
  · exact ⟨⟨fun _ => hnone, fun _ => htrue⟩, fun _ => htrue⟩
  · refine ⟨⟨fun hempty => ?_, fun hnone => absurd hnone hnot⟩, fun hempty => ?_⟩
    · rw [hsame] at hempty
      exact hkey hempty
    · rw [hsame]; exact hempty

end LineBuilder

namespace LineBuilder

/-- C18: for every line (a builder initialized and then fed any sequence of
items), after the trimming step of `close` the line is reported visually empty
if and only if no committed run is visually non-empty by `isVisuallyNonEmpty`
evaluated after trimming, and a line that was visually empty before trimming is
visually empty after it; the same holds of the builder `close` leaves behind.
The line [container start][collapsible space][container end][container
start][container end] with markers of zero width closes to a visually empty
line. -/
theorem close_visually_empty_iff (env : Environment) (s : LineBuilder)
    (constraints : Constraints) (items : List (InlineItem × InlineLayoutUnit))
    (isLastLineWithInlineContent : IsLastLineWithInlineContent) :
    ((removeTrailingTrimmableContent env
          (LineBuilder.openLine env s constraints items)).isVisuallyEmpty = true
        ↔ ∀ run ∈ (removeTrailingTrimmableContent env
              (LineBuilder.openLine env s constraints items)).m_inlineItemRuns,
            isVisuallyNonEmpty env
              (removeTrailingTrimmableContent env (LineBuilder.openLine env s constraints items))
              run = false)
      ∧ ((LineBuilder.openLine env s constraints items).isVisuallyEmpty = true →
          (removeTrailingTrimmableContent env
            (LineBuilder.openLine env s constraints items)).isVisuallyEmpty = true)
      ∧ ((close env (LineBuilder.openLine env s constraints items)
            isLastLineWithInlineContent).2.isVisuallyEmpty = true
          ↔ ∀ run ∈ (close env (LineBuilder.openLine env s constraints items)
                isLastLineWithInlineContent).2.m_inlineItemRuns,
              isVisuallyNonEmpty env
                (close env (LineBuilder.openLine env s constraints items)
                  isLastLineWithInlineContent).2 run = false)
      ∧ ((LineBuilder.openLine env s constraints items).isVisuallyEmpty = true →
          (close env (LineBuilder.openLine env s constraints items)
            isLastLineWithInlineContent).2.isVisuallyEmpty = true)
      ∧ (close Sample.environment
            (LineBuilder.openLine Sample.environment Sample.builder Sample.constraints
              Sample.emptySpans)
            IsLastLineWithInlineContent.No).2.isVisuallyEmpty = true := by
  have hinv := Invariant.openLine env s constraints items
  obtain ⟨hiff, hkeep⟩ := removeTrailingTrimmableContent_visual env _ hinv
  obtain ⟨hruns, hskip, hempty⟩ :=
    close_keeps env (LineBuilder.openLine env s constraints items) isLastLineWithInlineContent
  refine ⟨hiff, hkeep, ?_, ?_, by decide⟩
  · simp only [isVisuallyEmpty, Display.LineBox.isConsideredEmpty]
    rw [hruns, hempty]
    constructor
    · intro h run hmem
      rw [isVisuallyNonEmpty_of_skipAlignment env _ _ run hskip]
      exact (hiff.mp h) run hmem
    · intro h
      apply hiff.mpr
      intro run hmem
      rw [← isVisuallyNonEmpty_of_skipAlignment env _ _ run hskip]
      exact h run hmem
  · intro h
    simp only [isVisuallyEmpty, Display.LineBox.isConsideredEmpty]
    rw [hempty]
    exact hkeep h

end LineBuilder

namespace LineBuilder

/-! ### The alignment passes of `close` -/

theorem forall₂_map_self {α : Type} (R : α → α → Prop) (f : α → α) (h : ∀ x, R x (f x)) :
    ∀ l : List α, List.Forall₂ R l (l.map f)
  | [] => List.Forall₂.nil
  | x :: rest => List.Forall₂.cons (h x) (forall₂_map_self R f h rest)

theorem forall₂_trans {α : Type} (R : α → α → Prop)
    (htrans : ∀ a b c, R a b → R b c → R a c) :
    ∀ {l1 l2 l3 : List α}, List.Forall₂ R l1 l2 → List.Forall₂ R l2 l3 → List.Forall₂ R l1 l3
  | [], [], [], _, _ => List.Forall₂.nil
  | _ :: _, _ :: _, _ :: _, List.Forall₂.cons h12 t12, List.Forall₂.cons h23 t23 =>
    List.Forall₂.cons (htrans _ _ _ h12 h23) (forall₂_trans R htrans t12 t23)

theorem forall₂_getLast? {α : Type} (R : α → α → Prop) {l1 l2 : List α}
    (h : List.Forall₂ R l1 l2) (a : α) (ha : l1.getLast? = some a) :
    ∃ b, l2.getLast? = some b ∧ R a b := by
  have hrev := List.forall₂_reverse_iff.mpr h
  rw [List.getLast?_eq_head?_reverse] at ha
  rw [List.getLast?_eq_head?_reverse]
  generalize l1.reverse = r1 at hrev ha
  generalize l2.reverse = r2 at hrev
  cases hrev with
  | nil => cases ha
  | cons hab _ =>
    simp only [List.head?_cons, Option.some.injEq] at ha ⊢
    subst ha
    exact ⟨_, rfl, hab⟩

section

variable {U : Type}

theorem Run.Aligned.self (run : Run U) : Run.Aligned run run :=
  ⟨rfl, rfl, rfl, rfl, rfl, fun _ => rfl⟩

theorem Run.Aligned.trans (a b c : Run U) (hab : Run.Aligned a b) (hbc : Run.Aligned b c) :
    Run.Aligned a c := by
  obtain ⟨h1, h2, h3, h4, h5, h6⟩ := hab
  obtain ⟨k1, k2, k3, k4, k5, k6⟩ := hbc
  refine ⟨k1.trans h1, k2.trans h2, k3.trans h3, k4.trans h4, k5.trans h5, ?_⟩
  intro hzero
  rw [k6 (h4.trans hzero), h6 hzero]

theorem Run.Aligned.setLogicalHeight (run : Run U) (logicalHeight : U) :
    Run.Aligned run (run.setLogicalHeight logicalHeight) :=
  ⟨rfl, rfl, rfl, rfl, rfl, fun _ => rfl⟩

theorem Run.Aligned.adjustLogicalTop (run : Run U) (logicalTop : U) :
    Run.Aligned run (run.adjustLogicalTop logicalTop) :=
  ⟨rfl, rfl, rfl, rfl, rfl, fun _ => rfl⟩

theorem Run.Aligned.moveHorizontally [Add U] (run : Run U) (offset : U) :
    Run.Aligned run (run.moveHorizontally offset) :=
  ⟨rfl, rfl, rfl, rfl, rfl, fun _ => rfl⟩

theorem Run.Aligned.moveVertically [Add U] (run : Run U) (offset : U) :
    Run.Aligned run (run.moveVertically offset) :=
  ⟨rfl, rfl, rfl, rfl, rfl, fun _ => rfl⟩

theorem Run.Aligned.adjustExpansionBehavior (run : Run U)
    (expansionBehavior : Display.ExpansionBehavior) :
    Run.Aligned run (run.adjustExpansionBehavior expansionBehavior) := by
  unfold Run.adjustExpansionBehavior
  cases htc : run.m_textContext with
  | none => exact Run.Aligned.self run
  | some textContext =>
    simp only
    cases hexp : textContext.expansion with
    | none => exact Run.Aligned.self run
    | some expansion =>
      refine ⟨rfl, rfl, ?_, rfl, rfl, fun _ => rfl⟩
      simp [Run.textLength, htc, Display.TextContext.setExpansion]

theorem Run.Aligned.setComputedHorizontalExpansion [Add U] (run : Run U) (logicalExpansion : U)
    (h : run.hasExpansionOpportunity = true) :
    Run.Aligned run (run.setComputedHorizontalExpansion logicalExpansion) := by
  have hcount : run.m_expansionOpportunityCount ≠ 0 := by
    simpa [Run.hasExpansionOpportunity] using h
  unfold Run.setComputedHorizontalExpansion
  cases htc : run.m_textContext with
  | none =>
    simp only
    exact ⟨rfl, rfl, by simp [Run.textLength, htc], rfl, rfl, fun hzero => absurd hzero hcount⟩
  | some textContext =>
    simp only
    cases hexp : textContext.expansion with
    | none =>
      exact ⟨rfl, rfl, by simp [Run.textLength, htc], rfl, rfl, fun hzero => absurd hzero hcount⟩
    | some expansion =>
      exact ⟨rfl, rfl, by simp [Run.textLength, htc, Display.TextContext.setExpansion], rfl, rfl,
        fun hzero => absurd hzero hcount⟩

end

end LineBuilder

namespace LineBuilder

theorem Run.Aligned.alignRunVertically (env : Environment) (s : LineBuilder)
    (run : Run InlineLayoutUnit) : Run.Aligned run (alignRunVertically env s run) := by
  unfold LineBuilder.alignRunVertically
  exact ⟨rfl, rfl, rfl, rfl, rfl, fun _ => rfl⟩

theorem forall₂_aligned_refl {U : Type} (runList : List (Run U)) :
    List.Forall₂ Run.Aligned runList runList :=
  List.forall₂_same.mpr (fun run _ => Run.Aligned.self run)

theorem forbidTrailingExpansionOfLastRun_aligned {U : Type} (flags : ExpansionFlags)
    (runList : List (Run U)) :
    List.Forall₂ Run.Aligned runList (forbidTrailingExpansionOfLastRun flags runList) := by
  unfold forbidTrailingExpansionOfLastRun
  cases hlast : runList.getLast? with
  | none => exact forall₂_aligned_refl runList
  | some lastRun =>
    simp only
    split
    · have hsplit : runList.dropLast ++ [lastRun] = runList :=
        List.dropLast_append_getLast? lastRun hlast
      conv => lhs; rw [← hsplit]
      exact List.rel_append (forall₂_aligned_refl _)
        (List.Forall₂.cons (Run.Aligned.adjustExpansionBehavior lastRun _) List.Forall₂.nil)
    · exact forall₂_aligned_refl runList

theorem distributeExpansion_aligned {U : Type} [LinearOrderedRing U]
    (expansionToDistribute : U) (runList : List (Run U)) :
    ∀ accumulatedExpansion : U,
      List.Forall₂ Run.Aligned runList
        (distributeExpansion expansionToDistribute runList accumulatedExpansion) := by
  induction runList with
  | nil => intro _; exact List.Forall₂.nil
  | cons run rest ih =>
    intro accumulated
    unfold distributeExpansion
    by_cases h : run.hasExpansionOpportunity = true
    · simp only [h, Bool.not_true, Bool.false_eq_true, if_false]
      exact List.Forall₂.cons
        (Run.Aligned.trans _ _ _ (Run.Aligned.setComputedHorizontalExpansion run _ h)
          (Run.Aligned.moveHorizontally _ _))
        (ih _)
    · simp only [h, Bool.not_false, if_true]
      exact List.Forall₂.cons (Run.Aligned.moveHorizontally _ _) (ih _)

theorem justifyRuns_aligned {U : Type} [LinearOrderedRing U] [Div U]
    (flags : ExpansionFlags) (availableWidth : U) (runList : List (Run U)) :
    List.Forall₂ Run.Aligned runList (justifyRuns flags availableWidth runList) := by
  unfold justifyRuns
  simp only
  split
  · exact forbidTrailingExpansionOfLastRun_aligned flags runList
  · exact forall₂_trans Run.Aligned Run.Aligned.trans
      (forbidTrailingExpansionOfLastRun_aligned flags runList)
      (distributeExpansion_aligned _ _ _)

theorem alignContentHorizontally_aligned {U : Type} [LinearOrderedRing U] [Div U]
    (flags : ExpansionFlags) (horizontalAlignment : Option TextAlignMode) (availableWidth : U)
    (runList : List (Run U)) (lastLine : IsLastLineWithInlineContent) :
    List.Forall₂ Run.Aligned runList
      (alignContentHorizontally flags horizontalAlignment availableWidth runList lastLine) := by
  unfold alignContentHorizontally
  split
  · exact forall₂_aligned_refl runList
  · split
    · split
      · exact justifyRuns_aligned flags availableWidth runList
      · exact forall₂_aligned_refl runList
    · split
      · exact forall₂_aligned_refl runList
      · exact forall₂_map_self Run.Aligned _ (fun run => Run.Aligned.moveHorizontally run _) _

/-- The display runs `close` returns are the merged runs, aligned. -/
theorem close_aligned (env : Environment) (s : LineBuilder)
    (isLastLineWithInlineContent : IsLastLineWithInlineContent) :
    List.Forall₂ Run.Aligned
      (mergeRuns env.fc.flags (removeTrailingTrimmableContent env s).isTextAlignJustify none
        (removeTrailingTrimmableContent env s).m_inlineItemRuns)
      (close env s isLastLineWithInlineContent).1 := by
  unfold close
  simp only
  split
  · refine forall₂_trans Run.Aligned Run.Aligned.trans ?_
      (alignContentHorizontally_aligned _ _ _ _ _)
    refine forall₂_trans Run.Aligned Run.Aligned.trans ?_
      (forall₂_map_self Run.Aligned _ (fun run => Run.Aligned.alignRunVertically env _ run) _)
    exact forall₂_map_self Run.Aligned _ (fun run => Run.Aligned.setLogicalHeight run _) _
  · exact forall₂_aligned_refl _

end LineBuilder

namespace LineBuilder

/-! ### The merging loop of `close` -/

/-- A continuous content that was never extended closes to the display run of
its initial run. -/
theorem ContinousContent.close_start (flags : ExpansionFlags) (run : InlineItemRun)
    (textIsAlignJustify : Bool) :
    (ContinousContent.start run textIsAlignJustify).close flags
      = ContinousContent.runOf flags run := by
  simp [ContinousContent.close, ContinousContent.start]

/-- A run collapsed to zero advance width is merged into no continuous
content. -/
theorem ContinousContent.append_collapsed (c : ContinousContent) (run : InlineItemRun)
    (hzero : run.isCollapsedToZeroAdvanceWidth = true) : c.append run = none := by
  unfold ContinousContent.append
  by_cases h : c.m_trailingRunCanBeExpanded = true
  · simp [h, ContinousContent.canBeMerged, hzero]
  · simp [h]

/-- When the last committed run is collapsed to zero advance width, the last
merged run is the display run of that run alone. -/
theorem mergeRuns_getLast? (flags : ExpansionFlags) (textIsAlignJustify : Bool)
    (runs : List InlineItemRun) :
    ∀ (current : Option ContinousContent) (run : InlineItemRun),
      runs.getLast? = some run → run.isCollapsedToZeroAdvanceWidth = true →
      (mergeRuns flags textIsAlignJustify current runs).getLast?
        = some (ContinousContent.runOf flags run) := by
  induction runs with
  | nil =>
    intro current run hlast
    cases hlast
  | cons first rest ih =>
    intro current run hlast hzero
    cases rest with
    | nil =>
      simp only [List.getLast?_singleton, Option.some.injEq] at hlast
      subst hlast
      cases current with
      | none => simp [mergeRuns, ContinousContent.close_start]
      | some continousContent =>
        simp [mergeRuns, ContinousContent.append_collapsed continousContent first hzero,
          ContinousContent.close_start]
    | cons second rest =>
      rw [List.getLast?_cons_cons] at hlast
      cases current with
      | none =>
        rw [mergeRuns]
        exact ih _ run hlast hzero
      | some continousContent =>
        rw [mergeRuns]
        cases happend : continousContent.append first with
        | some merged => exact ih _ run hlast hzero
        | none =>
          simp only
          rw [List.getLast?_cons, ih _ run hlast hzero]
          rfl

/-- The text length of the display run a continuous content closes to. -/
theorem ContinousContent.close_textLength (flags : ExpansionFlags) (c : ContinousContent) :
    (c.close flags).textLength
      = ContinousContent.textLengthOf c.m_initialInlineRun + c.m_expandedLength := by
  unfold ContinousContent.close
  by_cases hzero : c.m_expandedLength = 0
  · rw [if_pos hzero, hzero]
    simp only [ContinousContent.runOf, Run.textLength, ContinousContent.textLengthOf,
      Nat.add_zero]
    cases htc : c.m_initialInlineRun.textContext with
    | none => by_cases hexp : c.m_initialInlineRun.hasExpansionOpportunity = true <;> simp [hexp]
    | some textContext =>
      by_cases hexp : c.m_initialInlineRun.hasExpansionOpportunity = true <;>
        simp [hexp, Display.TextContext.setExpansion]
  · rw [if_neg hzero]
    simp only [Run.textLength, ContinousContent.textLengthOf]
    cases htc : c.m_initialInlineRun.textContext with
    | none =>
      by_cases hjustify : c.m_textIsAlignJustify = true <;>
        simp [hjustify, Display.TextContext.setExpansion, Display.TextContext.expand]
    | some textContext =>
      by_cases hjustify : c.m_textIsAlignJustify = true <;>
        simp [hjustify, Display.TextContext.setExpansion, Display.TextContext.expand]

/-- Merging drops and duplicates no character: the text lengths of the merged
runs add up to those of the content being filled and of the runs still to
visit. -/
theorem mergeRuns_textLength (flags : ExpansionFlags) (textIsAlignJustify : Bool)
    (runs : List InlineItemRun) :
    ∀ current : Option ContinousContent,
      displayTextLength (mergeRuns flags textIsAlignJustify current runs)
        = (match current with
            | none => 0
            | some continousContent =>
              ContinousContent.textLengthOf continousContent.m_initialInlineRun
                + continousContent.m_expandedLength)
          + (runs.map ContinousContent.textLengthOf).sum := by
  induction runs with
  | nil =>
    intro current
    cases current with
    | none => simp [mergeRuns, displayTextLength]
    | some continousContent =>
      simp [mergeRuns, displayTextLength, ContinousContent.close_textLength]
  | cons first rest ih =>
    intro current
    cases current with
    | none =>
      rw [mergeRuns, ih]
      simp [ContinousContent.start]
    | some continousContent =>
      rw [mergeRuns]
      cases happend : continousContent.append first with
      | some merged =>
        simp only
        rw [ih]
        have hmerged : merged.m_initialInlineRun = continousContent.m_initialInlineRun
            ∧ merged.m_expandedLength
                = continousContent.m_expandedLength + ContinousContent.textLengthOf first := by
          unfold ContinousContent.append at happend
          split at happend
          · cases happend
          · split at happend
            · cases happend
            · split at happend <;>
                (simp only [Option.some.injEq] at happend; subst happend; exact ⟨rfl, rfl⟩)
        simp only [hmerged.1, hmerged.2, List.map_cons, List.sum_cons]
        omega
      | none =>
        simp only
        have hcons : ∀ (x : Run InlineLayoutUnit) (l : List (Run InlineLayoutUnit)),
            displayTextLength (x :: l) = x.textLength + displayTextLength l := by
          intro x l
          simp [displayTextLength]
        rw [hcons, ih, ContinousContent.close_textLength]
        simp only [ContinousContent.start, Nat.add_zero, List.map_cons, List.sum_cons]

end LineBuilder

namespace LineBuilder

/-- On a line that satisfies the invariant, the trimming step of `close`
leaves every trimmable whitespace run that is followed by transparent runs
only with width 0 and flagged as collapsed to zero advance width. -/
theorem removeTrailingTrimmableContent_trims (env : Environment) (s : LineBuilder)
    (hinv : Invariant env s) (i : Nat) (run : InlineItemRun)
    (hi : (removeTrailingTrimmableContent env s).m_inlineItemRuns[i]? = some run)
    (htrimmable : run.isTrimmableWhitespace env.o = true)
    (hlater : ∀ (j : Nat) (later : InlineItemRun), i < j →
      (removeTrailingTrimmableContent env s).m_inlineItemRuns[j]? = some later →
      isTransparentForTrimming env.o later = true) :
    run.m_logicalWidth = 0 ∧ run.m_collapsedToZeroAdvanceWidth = true := by
  obtain ⟨before, hbefore, hrel, htrimmed⟩ := removeTrailingTrimmableContent_origin env s i run hi
  have hitem : run.m_inlineItem = before.m_inlineItem := by
    rcases hrel with h | h
    · rw [h]
    · exact h.1
  have hbtrimmable : before.isTrimmableWhitespace env.o = true := by
    rw [← isTrimmableWhitespace_of_item env.o before run hitem]; exact htrimmable
  have hblater : ∀ (j : Nat) (later : InlineItemRun), i < j →
      s.m_inlineItemRuns[j]? = some later → isTransparentForTrimming env.o later = true := by
    intro j later hij hj
    obtain ⟨after, hafter, hrel2, _⟩ := (removeTrailingTrimmableContent_spec env s).2 j later hj
    have hitem2 : after.m_inlineItem = later.m_inlineItem := by
      rcases hrel2 with h | h
      · rw [h]
      · exact h.1
    rw [← isTransparentForTrimming_of_item env.o later after hitem2]
    exact hlater j after hij hafter
  obtain ⟨f, hf, hle⟩ := hinv.covered i before hbefore hbtrimmable hblater
  obtain ⟨_, _, _, hws, _, _⟩ := htrimmed ⟨f, hf, hle⟩
  exact hws (isWhitespace_of_isTrimmableWhitespace env.o before hbtrimmable).1

/-- C17: for every line (a builder initialized and then fed any sequence of
items), after `close` every committed run that is trimmable whitespace and is
followed on the line only by trimmable whitespace, line breaks and container
markers (by no other text run and by no run of an inline box) has width 0; and
when the last committed run is trimmable whitespace, the trailing display run
is the display run of that run and has width 0. -/
theorem close_trims_trailing_whitespace (env : Environment) (s : LineBuilder)
    (constraints : Constraints) (items : List (InlineItem × InlineLayoutUnit))
    (isLastLineWithInlineContent : IsLastLineWithInlineContent) :
    (∀ (i : Nat) (run : InlineItemRun),
        (close env (LineBuilder.openLine env s constraints items)
          isLastLineWithInlineContent).2.m_inlineItemRuns[i]? = some run →
        run.isTrimmableWhitespace env.o = true →
        (∀ (j : Nat) (later : InlineItemRun), i < j →
          (close env (LineBuilder.openLine env s constraints items)
            isLastLineWithInlineContent).2.m_inlineItemRuns[j]? = some later →
          isTransparentForTrimming env.o later = true) →
        run.logicalWidth = 0)
      ∧ (∀ run : InlineItemRun,
          (close env (LineBuilder.openLine env s constraints items)
            isLastLineWithInlineContent).2.m_inlineItemRuns.getLast? = some run →
          run.isTrimmableWhitespace env.o = true →
          ∃ displayRun : Run InlineLayoutUnit,
            (close env (LineBuilder.openLine env s constraints items)
              isLastLineWithInlineContent).1.getLast? = some displayRun
              ∧ displayRun.m_layoutBox = run.layoutBox
              ∧ displayRun.isText = true
              ∧ displayRun.textLength = ContinousContent.textLengthOf run
              ∧ displayRun.m_logicalRect.width = 0) := by
  have hinv := Invariant.openLine env s constraints items
  obtain ⟨hruns, _, _⟩ :=
    close_keeps env (LineBuilder.openLine env s constraints items) isLastLineWithInlineContent
  rw [hruns]
  constructor
  · intro i run hi htrimmable hlater
    exact (removeTrailingTrimmableContent_trims env _ hinv i run hi htrimmable hlater).1
  · intro run hlast htrimmable
    have hi := hlast
    rw [List.getLast?_eq_getElem?] at hi
    obtain ⟨hwidth, hflag⟩ := removeTrailingTrimmableContent_trims env _ hinv _ run hi htrimmable
      (by
        intro j later hij hj
        have := (List.getElem?_eq_some_iff.mp hj).1
        omega)
    have hmerged := mergeRuns_getLast? env.fc.flags
      (removeTrailingTrimmableContent env
        (LineBuilder.openLine env s constraints items)).isTextAlignJustify _ none run hlast hflag
    obtain ⟨displayRun, hdisplay, hbox, htype, hlength, hcount, _, hzero⟩ :=
      forall₂_getLast? Run.Aligned
        (close_aligned env (LineBuilder.openLine env s constraints items)
          isLastLineWithInlineContent) _ hmerged
    have hno : run.hasExpansionOpportunity = false := by
      simp [InlineItemRun.hasExpansionOpportunity, InlineItemRun.isCollapsedToZeroAdvanceWidth,
        hflag]
    have htext := (isWhitespace_of_isTrimmableWhitespace env.o run htrimmable).2
    refine ⟨displayRun, hdisplay, ?_, ?_, ?_, ?_⟩
    · rw [hbox]; rfl
    · simp only [Run.isText, htype, ContinousContent.runOf, InlineItemRun.type]
      simpa [InlineItemRun.isText, InlineItem.isText] using htext
    · rw [hlength]
      simp only [Run.textLength, ContinousContent.runOf, hno, ContinousContent.textLengthOf,
        Bool.false_eq_true, if_false]
      cases run.textContext <;> rfl
    · rw [hzero (by simp [ContinousContent.runOf, hno])]
      simpa [ContinousContent.runOf, InlineItemRun.logicalWidth] using hwidth

end LineBuilder

namespace LineBuilder

theorem close_trims_trailing_whitespace_witness :
    (close Sample.environment
        (LineBuilder.openLine Sample.environment Sample.builder Sample.constraints
          Sample.fooBarLine)
        IsLastLineWithInlineContent.No).2.m_inlineItemRuns.getLast? = some Sample.trimmedSpaceRun
      ∧ Sample.trimmedSpaceRun.isTrimmableWhitespace Sample.environment.o = true
      ∧ ∃ displayRun : Run InlineLayoutUnit,
          (close Sample.environment
              (LineBuilder.openLine Sample.environment Sample.builder Sample.constraints
                Sample.fooBarLine)
              IsLastLineWithInlineContent.No).1.getLast? = some displayRun
            ∧ displayRun.m_layoutBox = Sample.trimmedSpaceRun.layoutBox
            ∧ displayRun.isText = true
            ∧ displayRun.textLength = ContinousContent.textLengthOf Sample.trimmedSpaceRun
            ∧ displayRun.m_logicalRect.width = 0 :=
  ⟨by decide, by decide,
    (close_trims_trailing_whitespace Sample.environment Sample.builder Sample.constraints
      Sample.fooBarLine IsLastLineWithInlineContent.No).2 Sample.trimmedSpaceRun
      (by decide) (by decide)⟩

theorem close_visually_empty_iff_witness :
    (LineBuilder.openLine Sample.environment Sample.builder Sample.constraints
        Sample.emptySpans).isVisuallyEmpty = true
      ∧ (removeTrailingTrimmableContent Sample.environment
          (LineBuilder.openLine Sample.environment Sample.builder Sample.constraints
            Sample.emptySpans)).isVisuallyEmpty = true :=
  ⟨by decide,
    (close_visually_empty_iff Sample.environment Sample.builder Sample.constraints
      Sample.emptySpans IsLastLineWithInlineContent.No).2.1 (by decide)⟩

/-! ### The characters behind the committed runs -/

theorem committedTextLength_append (runs : List InlineItemRun) (run : InlineItemRun) :
    committedTextLength (runs ++ [run])
      = committedTextLength runs
        + (ContinousContent.textLengthOf run
            + (if run.isCollapsed then run.m_inlineItem.length - 1 else 0)) := by
  simp [committedTextLength]

/-- The characters behind the committed runs depend on the item, the text
context and the collapsed flag of each run only. -/
theorem committedTextLength_congr (before after : List InlineItemRun)
    (hlength : after.length = before.length)
    (hruns : ∀ (i : Nat) (run : InlineItemRun), before[i]? = some run →
      ∃ other : InlineItemRun, after[i]? = some other
        ∧ other.m_inlineItem = run.m_inlineItem ∧ other.m_textContext = run.m_textContext
        ∧ other.m_isCollapsed = run.m_isCollapsed) :
    committedTextLength after = committedTextLength before
      ∧ (after.map ContinousContent.textLengthOf).sum
          = (before.map ContinousContent.textLengthOf).sum
      ∧ collapsedTextLength after = collapsedTextLength before := by
  induction before generalizing after with
  | nil =>
    have : after = [] := List.length_eq_zero.mp hlength
    subst this
    exact ⟨rfl, rfl, rfl⟩
  | cons run rest ih =>
    cases after with
    | nil => simp at hlength
    | cons other others =>
      obtain ⟨other2, hother2, hitem, htc, hcollapsed⟩ := hruns 0 run List.getElem?_cons_zero
      simp only [List.getElem?_cons_zero, Option.some.injEq] at hother2
      subst hother2
      obtain ⟨h1, h2, h3⟩ := ih others (by simpa using hlength)
        (fun i r hi => by simpa using hruns (i + 1) r (by simpa using hi))
      have hlen : ContinousContent.textLengthOf other = ContinousContent.textLengthOf run := by
        simp [ContinousContent.textLengthOf, InlineItemRun.textContext, htc]
      have hflag : other.isCollapsed = run.isCollapsed := hcollapsed
      refine ⟨?_, ?_, ?_⟩
      · simp only [committedTextLength, List.map_cons, List.sum_cons] at h1 ⊢
        rw [h1, hlen, hflag, hitem]
      · simp only [List.map_cons, List.sum_cons]
        rw [h2, hlen]
      · simp only [collapsedTextLength, List.filter_cons] at h3 ⊢
        rw [hflag]
        by_cases hc : run.isCollapsed = true
        · simp only [hc, if_true, List.map_cons, List.sum_cons]
          rw [h3, hitem]
        · simp only [hc, Bool.false_eq_true, if_false]
          exact h3

/-- The characters behind the committed runs are those the runs show and those
the collapsed runs stand for beyond that. -/
theorem committedTextLength_split (runs : List InlineItemRun) :
    committedTextLength runs
      = (runs.map ContinousContent.textLengthOf).sum + collapsedTextLength runs := by
  induction runs with
  | nil => rfl
  | cons run rest ih =>
    simp only [committedTextLength, collapsedTextLength, List.map_cons, List.sum_cons,
      List.filter_cons] at ih ⊢
    by_cases hc : run.isCollapsed = true
    · simp only [hc, if_true, List.map_cons, List.sum_cons]
      omega
    · simp only [hc, Bool.false_eq_true, if_false]
      omega

end LineBuilder

namespace LineBuilder

/-- The run recorded for a text item stands for all the characters of the
item. -/
theorem textRunOf_textLength (env : Environment) (s : LineBuilder) (inlineItem : InlineItem)
    (logicalWidth : InlineLayoutUnit) :
    ContinousContent.textLengthOf (textRunOf env s inlineItem logicalWidth)
      + (if (textRunOf env s inlineItem logicalWidth).isCollapsed then
          (textRunOf env s inlineItem logicalWidth).m_inlineItem.length - 1
        else 0)
      = inlineItem.length := by
  rw [textRunOf_item]
  unfold textRunOf
  by_cases hcollapsed : (InlineItemRun.itemIsCollapsible env.q inlineItem
      && decide (inlineItem.length > 1)) = true
  · have hlength : 1 < inlineItem.length := by
      simp only [Bool.and_eq_true, decide_eq_true_eq] at hcollapsed
      exact hcollapsed.2
    by_cases hzero : willCollapseCompletely env s inlineItem = true <;>
      simp [hcollapsed, hzero, ContinousContent.textLengthOf, InlineItemRun.textContext,
        InlineItemRun.setIsCollapsed, InlineItemRun.setCollapsesToZeroAdvanceWidth,
        InlineItemRun.isCollapsed] <;> omega
  · by_cases hzero : willCollapseCompletely env s inlineItem = true <;>
      simp [hcollapsed, hzero, ContinousContent.textLengthOf, InlineItemRun.textContext,
        InlineItemRun.setIsCollapsed, InlineItemRun.setCollapsesToZeroAdvanceWidth,
        InlineItemRun.isCollapsed]

/-- A run without text context that is not flagged collapsed stands for no
character. -/
theorem committedTextLength_append_marker (runs : List InlineItemRun) (inlineItem : InlineItem)
    (left width : InlineLayoutUnit) :
    committedTextLength
        (runs ++ [{ m_inlineItem := inlineItem, m_logicalLeft := left, m_logicalWidth := width }])
      = committedTextLength runs := by
  rw [committedTextLength_append]
  simp [ContinousContent.textLengthOf, InlineItemRun.textContext, InlineItemRun.isCollapsed]

/-- Every append adds the characters of the appended item to those behind the
committed runs. -/
theorem append_committedTextLength (env : Environment) (s : LineBuilder)
    (inlineItem : InlineItem) (logicalWidth : InlineLayoutUnit) (hinv : Invariant env s) :
    committedTextLength (LineBuilder.append env s inlineItem logicalWidth).m_inlineItemRuns
      = committedTextLength s.m_inlineItemRuns + InlineTextItem.textLength inlineItem := by
  unfold LineBuilder.append
  rw [noteVisuallyNonEmpty_runs]
  unfold appendByKind InlineTextItem.textLength
  by_cases htext : inlineItem.isText = true
  · have hsoft : inlineItem.isSoftLineBreak = false := by
      simp only [InlineItem.isText, beq_iff_eq] at htext
      simp [InlineItem.isSoftLineBreak, htext]
    rw [if_pos htext, appendTextContent_runs, committedTextLength_append, textRunOf_textLength]
    simp [hsoft, htext]
  rw [if_neg htext]
  simp only [Bool.not_eq_true] at htext
  by_cases hbreak : inlineItem.isLineBreak = true
  · rw [if_pos hbreak]
    unfold appendLineBreak
    by_cases hhard : inlineItem.isHardLineBreak = true
    · have hsoft : inlineItem.isSoftLineBreak = false := by
        simp only [InlineItem.isHardLineBreak, beq_iff_eq] at hhard
        simp [InlineItem.isSoftLineBreak, hhard]
      rw [if_pos hhard]
      simp only [committedTextLength_append_marker, hsoft, htext, Bool.false_eq_true, if_false,
        Nat.add_zero]
    · have hsoft : inlineItem.isSoftLineBreak = true := by
        simp only [InlineItem.isLineBreak, Bool.or_eq_true] at hbreak
        rcases hbreak with h | h
        · exact absurd h hhard
        · exact h
      rw [if_neg hhard]
      simp only [committedTextLength_append, hsoft, if_true]
      simp [ContinousContent.textLengthOf, InlineItemRun.textContext, InlineItemRun.isCollapsed]
  have hsoft : inlineItem.isSoftLineBreak = false := by
    simp only [Bool.not_eq_true, InlineItem.isLineBreak, Bool.or_eq_false_iff] at hbreak
    exact hbreak.2
  rw [if_neg hbreak]
  simp only [hsoft, htext, Bool.false_eq_true, if_false, Nat.add_zero]
  by_cases hstart : inlineItem.isContainerStart = true
  · rw [if_pos hstart]
    exact committedTextLength_append_marker _ _ _ _
  rw [if_neg hstart]
  by_cases hend : inlineItem.isContainerEnd = true
  · rw [if_pos hend]
    unfold appendInlineContainerEnd appendNonBreakableSpace
    simp only [committedTextLength_append_marker]
    obtain ⟨_, _, _, hlength, hsame, _⟩ := trimTrailingLetterSpacing_spec env s hinv
    refine (committedTextLength_congr _ _ hlength ?_).1
    intro i run hi
    obtain ⟨after, hafter, hitem, _, htc, hcollapsed, _⟩ := hsame i run hi
    exact ⟨after, hafter, hitem, htc, hcollapsed⟩
  rw [if_neg hend]
  by_cases hreplaced : env.fc.replaced inlineItem.layoutBox = true
  · rw [if_pos hreplaced]
    exact committedTextLength_append_marker _ _ _ _
  rw [if_neg hreplaced]
  by_cases hbox : inlineItem.isBox = true
  · rw [if_pos hbox]
    exact committedTextLength_append_marker _ _ _ _
  rw [if_neg hbox]

/-- The characters behind the committed runs of a line are those of the items
appended to it. -/
theorem appendAll_committedTextLength (env : Environment)
    (items : List (InlineItem × InlineLayoutUnit)) :
    ∀ s : LineBuilder, Invariant env s →
      committedTextLength (LineBuilder.appendAll env s items).m_inlineItemRuns
        = committedTextLength s.m_inlineItemRuns + appendedTextLength items := by
  induction items with
  | nil => intro s _; simp [LineBuilder.appendAll, appendedTextLength]
  | cons item rest ih =>
    intro s hinv
    have hstep := ih _ (Invariant.append env s item.1 item.2 hinv)
    rw [append_committedTextLength env s item.1 item.2 hinv] at hstep
    simp only [LineBuilder.appendAll, List.foldl_cons, appendedTextLength, List.map_cons,
      List.sum_cons] at hstep ⊢
    omega

end LineBuilder

namespace LineBuilder

theorem displayTextLength_of_aligned {U : Type} {before after : List (Run U)}
    (h : List.Forall₂ Run.Aligned before after) :
    displayTextLength after = displayTextLength before := by
  induction h with
  | nil => rfl
  | cons hrun _ ih =>
    simp only [displayTextLength, List.map_cons, List.sum_cons] at ih ⊢
    rw [ih, hrun.2.2.1]

/-- C19: for every line (a builder initialized and then fed any sequence of
items), the text lengths of the display runs that `close` returns, plus the
length of the item less 1 for every committed run flagged collapsed, add up to
the text lengths of the appended items (the length of a text item, 1 for a
soft line break): merging drops and duplicates no character. -/
theorem close_text_length (env : Environment) (s : LineBuilder) (constraints : Constraints)
    (items : List (InlineItem × InlineLayoutUnit))
    (isLastLineWithInlineContent : IsLastLineWithInlineContent) :
    displayTextLength
        (close env (LineBuilder.openLine env s constraints items) isLastLineWithInlineContent).1
      + collapsedTextLength
          (close env (LineBuilder.openLine env s constraints items)
            isLastLineWithInlineContent).2.m_inlineItemRuns
      = appendedTextLength items := by
  have hinv := Invariant.openLine env s constraints items
  obtain ⟨hruns, _, _⟩ :=
    close_keeps env (LineBuilder.openLine env s constraints items) isLastLineWithInlineContent
  have haligned := displayTextLength_of_aligned
    (close_aligned env (LineBuilder.openLine env s constraints items)
      isLastLineWithInlineContent)
  have hmerged := mergeRuns_textLength env.fc.flags
    (removeTrailingTrimmableContent env
      (LineBuilder.openLine env s constraints items)).isTextAlignJustify
    (removeTrailingTrimmableContent env
      (LineBuilder.openLine env s constraints items)).m_inlineItemRuns none
  obtain ⟨hlength, hspec⟩ :=
    removeTrailingTrimmableContent_spec env (LineBuilder.openLine env s constraints items)
  obtain ⟨_, hshown, hcollapsed⟩ := committedTextLength_congr
    (LineBuilder.openLine env s constraints items).m_inlineItemRuns
    (removeTrailingTrimmableContent env
      (LineBuilder.openLine env s constraints items)).m_inlineItemRuns hlength
    (by
      intro i run hi
      obtain ⟨after, hafter, hrel, _⟩ := hspec i run hi
      refine ⟨after, hafter, ?_⟩
      rcases hrel with h | h
      · rw [h]; exact ⟨rfl, rfl, rfl⟩
      · exact ⟨h.1, h.2.1, h.2.2.1⟩)
  have hsplit := committedTextLength_split
    (LineBuilder.openLine env s constraints items).m_inlineItemRuns
  have hall := appendAll_committedTextLength env items ( LineBuilder.initialize s constraints)
    (Invariant.initial env s constraints)
  have hnil : committedTextLength ( LineBuilder.initialize s constraints).m_inlineItemRuns = 0 := rfl
  rw [hnil] at hall
  have hopen : LineBuilder.appendAll env ( LineBuilder.initialize s constraints) items
      = LineBuilder.openLine env s constraints items := rfl
  rw [hopen] at hall
  rw [haligned, hmerged, hruns, hshown, hcollapsed]
  simp only
  omega

end LineBuilder

namespace LineBuilder

/-! ### Justification -/

theorem forall₂_getElem? {α : Type} (R : α → α → Prop) {l1 l2 : List α}
    (h : List.Forall₂ R l1 l2) :
    ∀ (i : Nat) (a : α), l1[i]? = some a → ∃ b, l2[i]? = some b ∧ R a b := by
  induction h with
  | nil => intro i a hi; simp at hi
  | cons hab _ ih =>
    intro i a hi
    cases i with
    | zero =>
      simp only [List.getElem?_cons_zero, Option.some.injEq] at hi
      subst hi
      exact ⟨_, List.getElem?_cons_zero, hab⟩
    | succ i =>
      simp only [List.getElem?_cons_succ] at hi ⊢
      exact ih i a hi

/-- The first step of `justifyRuns` keeps the rectangle, the number of
expansion opportunities and the recorded expansion of every run. -/
theorem forbidTrailingExpansionOfLastRun_keeps {U : Type} (flags : ExpansionFlags)
    (runList : List (Run U)) :
    List.Forall₂
      (fun before after : Run U =>
        after.m_logicalRect = before.m_logicalRect
          ∧ after.m_expansionOpportunityCount = before.m_expansionOpportunityCount
          ∧ after.recordedExpansion = before.recordedExpansion)
      runList (forbidTrailingExpansionOfLastRun flags runList) := by
  have hrefl : ∀ l : List (Run U),
      List.Forall₂
        (fun before after : Run U =>
          after.m_logicalRect = before.m_logicalRect
            ∧ after.m_expansionOpportunityCount = before.m_expansionOpportunityCount
            ∧ after.recordedExpansion = before.recordedExpansion) l l :=
    fun l => List.forall₂_same.mpr (fun _ _ => ⟨rfl, rfl, rfl⟩)
  unfold forbidTrailingExpansionOfLastRun
  cases hlast : runList.getLast? with
  | none => exact hrefl runList
  | some lastRun =>
    simp only
    split
    · have hsplit : runList.dropLast ++ [lastRun] = runList :=
        List.dropLast_append_getLast? lastRun hlast
      conv => lhs; rw [← hsplit]
      refine List.rel_append (hrefl _) (List.Forall₂.cons ?_ List.Forall₂.nil)
      unfold Run.adjustExpansionBehavior
      cases htc : lastRun.m_textContext with
      | none => exact ⟨rfl, rfl, rfl⟩
      | some textContext =>
        simp only
        cases hexp : textContext.expansion with
        | none => exact ⟨rfl, rfl, rfl⟩
        | some expansion =>
          refine ⟨rfl, rfl, ?_⟩
          simp [Run.recordedExpansion, htc, hexp, Display.TextContext.setExpansion]
    · exact hrefl runList

/-- The second loop of `justifyRuns`, run by run: a run is moved right by the
accumulated expansion, after it was given its own expansion if it has an
expansion opportunity. -/
theorem distributeExpansion_getElem? {U : Type} [LinearOrderedRing U]
    (expansionToDistribute : U) (runList : List (Run U)) :
    ∀ (accumulatedExpansion : U) (i : Nat) (run : Run U), runList[i]? = some run →
      (distributeExpansion expansionToDistribute runList accumulatedExpansion)[i]?
        = some
            ((if run.hasExpansionOpportunity then
                run.setComputedHorizontalExpansion
                  (expansionToDistribute * (run.expansionOpportunityCount : U))
              else run).moveHorizontally
              (accumulatedExpansion
                + ((runList.take i).map (fun before =>
                    expansionToDistribute * (before.expansionOpportunityCount : U))).sum)) := by
  induction runList with
  | nil => intro _ i run hi; simp at hi
  | cons first rest ih =>
    intro accumulated i run hi
    unfold distributeExpansion
    by_cases h : first.hasExpansionOpportunity = true
    · simp only [h, Bool.not_true, Bool.false_eq_true, if_false]
      cases i with
      | zero =>
        simp only [List.getElem?_cons_zero, Option.some.injEq] at hi
        subst hi
        simp [h]
      | succ i =>
        simp only [List.getElem?_cons_succ] at hi ⊢
        rw [ih _ i run hi]
        simp [add_assoc]
    · simp only [h, Bool.not_false, if_true]
      have hzero : first.expansionOpportunityCount = 0 := by
        simpa [Run.hasExpansionOpportunity, Run.expansionOpportunityCount] using h
      cases i with
      | zero =>
        simp only [List.getElem?_cons_zero, Option.some.injEq] at hi
        subst hi
        simp [h]
      | succ i =>
        simp only [List.getElem?_cons_succ] at hi ⊢
        rw [ih _ i run hi]
        simp [hzero]

/-- The expansions of the runs add up to the expansion per opportunity times
the number of opportunities. -/
theorem sum_expansions {U : Type} [LinearOrderedRing U] (expansionToDistribute : U)
    (runList : List (Run U)) :
    (runList.map (fun run => expansionToDistribute * (run.expansionOpportunityCount : U))).sum
      = expansionToDistribute * ((totalExpansionOpportunityCount runList : Nat) : U) := by
  induction runList with
  | nil => simp [totalExpansionOpportunityCount]
  | cons run rest ih =>
    simp only [List.map_cons, List.sum_cons, totalExpansionOpportunityCount] at ih ⊢
    rw [ih, Nat.cast_add, mul_add]

end LineBuilder

namespace LineBuilder

/-- The first step of `justifyRuns` keeps the numbers of expansion
opportunities. -/
theorem forbidTrailingExpansionOfLastRun_counts {U : Type} (flags : ExpansionFlags)
    (runList : List (Run U)) :
    (forbidTrailingExpansionOfLastRun flags runList).map
        (fun run => run.expansionOpportunityCount)
      = runList.map (fun run => run.expansionOpportunityCount) := by
  have hkeeps := forbidTrailingExpansionOfLastRun_keeps flags runList
  generalize forbidTrailingExpansionOfLastRun flags runList = other at hkeeps
  induction hkeeps with
  | nil => rfl
  | cons hrun _ ih =>
    simp only [List.map_cons, Run.expansionOpportunityCount] at ih ⊢
    rw [ih, hrun.2.1]

/-- C20: in exact arithmetic (any linearly ordered field), for a justified line
that is not the last line, with positive available width `W` and `N > 0`
expansion opportunities over its display runs, horizontal alignment is
`justifyRuns`, which keeps the number of runs, widens every run by `W / N`
times its opportunity count (recording that expansion in a run that has an
opportunity) and moves every run right by the sum of the expansions of the
runs before it; the expansions of the runs add up to exactly `W`. -/
theorem justifyRuns_distributes_available_width {F : Type} [LinearOrderedField F]
    (flags : ExpansionFlags) (availableWidth : F) (runList : List (Run F))
    (hwidth : 0 < availableWidth) (hcount : 0 < totalExpansionOpportunityCount runList) :
    alignContentHorizontally flags (some TextAlignMode.Justify) availableWidth runList
        IsLastLineWithInlineContent.No
        = justifyRuns flags availableWidth runList
      ∧ (justifyRuns flags availableWidth runList).length = runList.length
      ∧ (∀ (i : Nat) (run : Run F), runList[i]? = some run →
          ∃ justified : Run F,
            (justifyRuns flags availableWidth runList)[i]? = some justified
              ∧ justified.m_logicalRect.width
                  = run.m_logicalRect.width
                    + availableWidth / ((totalExpansionOpportunityCount runList : Nat) : F)
                      * (run.expansionOpportunityCount : F)
              ∧ justified.m_logicalRect.left
                  = run.m_logicalRect.left
                    + ((runList.take i).map (fun before =>
                        availableWidth / ((totalExpansionOpportunityCount runList : Nat) : F)
                          * (before.expansionOpportunityCount : F))).sum
              ∧ (run.hasExpansionOpportunity = true → run.recordedExpansion.isSome = true →
                  justified.recordedExpansion
                    = some (availableWidth / ((totalExpansionOpportunityCount runList : Nat) : F)
                        * (run.expansionOpportunityCount : F))))
      ∧ (runList.map (fun run =>
            availableWidth / ((totalExpansionOpportunityCount runList : Nat) : F)
              * (run.expansionOpportunityCount : F))).sum = availableWidth := by
  have hkeeps := forbidTrailingExpansionOfLastRun_keeps flags runList
  have hcounts := forbidTrailingExpansionOfLastRun_counts flags runList
  have htotal : totalExpansionOpportunityCount (forbidTrailingExpansionOfLastRun flags runList)
      = totalExpansionOpportunityCount runList := by
    simp only [totalExpansionOpportunityCount, hcounts]
  have hne : totalExpansionOpportunityCount runList ≠ 0 := by omega
  have hjustify : justifyRuns flags availableWidth runList
      = distributeExpansion
          (availableWidth / ((totalExpansionOpportunityCount runList : Nat) : F))
          (forbidTrailingExpansionOfLastRun flags runList) 0 := by
    unfold justifyRuns
    simp only [htotal, hne, if_false]
  have hnonempty : runList ≠ [] := by
    intro hnil
    rw [hnil] at hcount
    simp [totalExpansionOpportunityCount] at hcount
  refine ⟨?_, ?_, ?_, ?_⟩
  · unfold alignContentHorizontally
    have hcond : (runList.isEmpty || decide (availableWidth ≤ 0)) = false := by
      simp [List.isEmpty_iff, hnonempty, hwidth]
    simp [hcond]
  · rw [hjustify, ← (distributeExpansion_aligned _ _ _).length_eq, ← hkeeps.length_eq]
  · intro i run hi
    obtain ⟨kept, hkept, hrect, hsame, hrecorded⟩ := forall₂_getElem? _ hkeeps i run hi
    have hspec := distributeExpansion_getElem?
      (availableWidth / ((totalExpansionOpportunityCount runList : Nat) : F))
      (forbidTrailingExpansionOfLastRun flags runList) 0 i kept hkept
    have hsums : ((forbidTrailingExpansionOfLastRun flags runList).take i).map
          (fun before : Run F =>
            availableWidth / ((totalExpansionOpportunityCount runList : Nat) : F)
              * (before.expansionOpportunityCount : F))
        = (runList.take i).map (fun before : Run F =>
            availableWidth / ((totalExpansionOpportunityCount runList : Nat) : F)
              * (before.expansionOpportunityCount : F)) := by
      have hcomp : ∀ l : List (Run F),
          (l.take i).map (fun before : Run F =>
            availableWidth / ((totalExpansionOpportunityCount runList : Nat) : F)
              * (before.expansionOpportunityCount : F))
          = ((l.map (fun run => run.expansionOpportunityCount)).take i).map
              (fun count : Nat =>
                availableWidth / ((totalExpansionOpportunityCount runList : Nat) : F)
                  * (count : F)) := by
        intro l
        rw [← List.map_take, List.map_map]
        rfl
      rw [hcomp, hcomp, hcounts]
    rw [hsums, zero_add] at hspec
    have hcountEq : kept.expansionOpportunityCount = run.expansionOpportunityCount := hsame
    rw [hjustify]
    refine ⟨_, hspec, ?_, ?_, ?_⟩
    · by_cases hopp : kept.hasExpansionOpportunity = true
      · simp only [hopp, if_true, Run.moveHorizontally, Display.InlineRect.moveHorizontally]
        unfold Run.setComputedHorizontalExpansion
        rw [← hrect, ← hcountEq]
        cases htc : kept.m_textContext with
        | none => rfl
        | some textContext =>
          simp only
          cases hexp : textContext.expansion <;> rfl
      · have hzero : kept.expansionOpportunityCount = 0 := by
          simpa [Run.hasExpansionOpportunity, Run.expansionOpportunityCount] using hopp
        simp only [hopp, Bool.false_eq_true, if_false, Run.moveHorizontally,
          Display.InlineRect.moveHorizontally]
        rw [← hcountEq, hzero, hrect]
        simp
    · by_cases hopp : kept.hasExpansionOpportunity = true
      · simp only [hopp, if_true, Run.moveHorizontally, Display.InlineRect.moveHorizontally]
        unfold Run.setComputedHorizontalExpansion
        rw [← hrect]
        cases htc : kept.m_textContext with
        | none => rfl
        | some textContext =>
          simp only
          cases hexp : textContext.expansion <;> rfl
      · simp only [hopp, Bool.false_eq_true, if_false, Run.moveHorizontally,
          Display.InlineRect.moveHorizontally]
        rw [hrect]
    · intro hopp hsome
      have hopp2 : kept.hasExpansionOpportunity = true := by
        simp only [Run.hasExpansionOpportunity] at hopp ⊢
        rw [hsame]; exact hopp
      rw [← hrecorded] at hsome
      simp only [hopp2, if_true]
      rw [← hcountEq]
      unfold Run.recordedExpansion at hsome ⊢
      unfold Run.setComputedHorizontalExpansion Run.moveHorizontally
      cases htc : kept.m_textContext with
      | none => rw [htc] at hsome; cases hsome
      | some textContext =>
        rw [htc] at hsome
        simp only at hsome ⊢
        cases hexp : textContext.expansion with
        | none => rw [hexp] at hsome; cases hsome
        | some expansion => simp [Display.TextContext.setExpansion]
  · rw [sum_expansions]
    have hpos : ((totalExpansionOpportunityCount runList : Nat) : F) ≠ 0 :=
      Nat.cast_ne_zero.mpr hne
    exact div_mul_cancel₀ availableWidth hpos

end LineBuilder

namespace LineBuilder

theorem justifyRuns_distributes_available_width_witness :
    (0 : ℚ) < 40 ∧ 0 < totalExpansionOpportunityCount Sample.justifiedRuns
      ∧ (justifyRuns Sample.expansionFlags (40 : ℚ) Sample.justifiedRuns).length
          = Sample.justifiedRuns.length
      ∧ (Sample.justifiedRuns.map (fun run =>
            (40 : ℚ) / ((totalExpansionOpportunityCount Sample.justifiedRuns : Nat) : ℚ)
              * (run.expansionOpportunityCount : ℚ))).sum = 40 :=
  ⟨by norm_num, by decide,
    (justifyRuns_distributes_available_width Sample.expansionFlags (40 : ℚ) Sample.justifiedRuns
      (by norm_num) (by decide)).2.1,
    (justifyRuns_distributes_available_width Sample.expansionFlags (40 : ℚ) Sample.justifiedRuns
      (by norm_num) (by decide)).2.2.2⟩

end LineBuilder

namespace Display.LineBox

/-! ### The setters of the line box that leave its horizontal extent alone -/

@[simp] theorem setLogicalHeightIfGreater_width (lineBox : LineBox)
    (logicalHeight : InlineLayoutUnit) :
    (lineBox.setLogicalHeightIfGreater logicalHeight).m_rect.width = lineBox.m_rect.width := by
  unfold setLogicalHeightIfGreater
  split <;> rfl

@[simp] theorem setLogicalHeightIfGreater_left (lineBox : LineBox)
    (logicalHeight : InlineLayoutUnit) :
    (lineBox.setLogicalHeightIfGreater logicalHeight).m_rect.left = lineBox.m_rect.left := by
  unfold setLogicalHeightIfGreater
  split <;> rfl

@[simp] theorem setBaselineOffsetIfGreater_rect (lineBox : LineBox)
    (baselineOffset : InlineLayoutUnit) :
    (lineBox.setBaselineOffsetIfGreater baselineOffset).m_rect = lineBox.m_rect := rfl

@[simp] theorem setAscentIfGreater_rect (lineBox : LineBox) (ascent : InlineLayoutUnit) :
    (lineBox.setAscentIfGreater ascent).m_rect = lineBox.m_rect := by
  unfold setAscentIfGreater
  split <;> rfl

@[simp] theorem setDescentIfGreater_rect (lineBox : LineBox) (descent : InlineLayoutUnit) :
    (lineBox.setDescentIfGreater descent).m_rect = lineBox.m_rect := by
  unfold setDescentIfGreater
  split <;> rfl

end Display.LineBox

namespace LineBuilder

/-! ### Horizontal alignment without justification -/

/-- The members of the builder that steer horizontal alignment are left alone
by `adjustBaselineAndLineHeight`. -/
theorem adjustBaselineAndLineHeight_horizontalAlignment (env : Environment) (s : LineBuilder)
    (run : Run InlineLayoutUnit) :
    (adjustBaselineAndLineHeight env s run).m_horizontalAlignment = s.m_horizontalAlignment
      ∧ (adjustBaselineAndLineHeight env s run).m_lineLogicalWidth = s.m_lineLogicalWidth
      ∧ (adjustBaselineAndLineHeight env s run).m_lineBox.m_rect.width = s.m_lineBox.m_rect.width
      ∧ (adjustBaselineAndLineHeight env s run).m_lineBox.m_rect.left
          = s.m_lineBox.m_rect.left := by
  unfold adjustBaselineAndLineHeight
  split_ifs <;> (try split) <;> (try simp) <;> (repeat' split) <;> simp

theorem foldl_adjustBaselineAndLineHeight_horizontalAlignment (env : Environment)
    (runList : List (Run InlineLayoutUnit)) :
    ∀ s : LineBuilder,
      (runList.foldl (adjustBaselineAndLineHeight env) s).m_horizontalAlignment
          = s.m_horizontalAlignment
        ∧ (runList.foldl (adjustBaselineAndLineHeight env) s).m_lineLogicalWidth
            = s.m_lineLogicalWidth
        ∧ (runList.foldl (adjustBaselineAndLineHeight env) s).m_lineBox.m_rect.width
            = s.m_lineBox.m_rect.width
        ∧ (runList.foldl (adjustBaselineAndLineHeight env) s).m_lineBox.m_rect.left
            = s.m_lineBox.m_rect.left := by
  induction runList with
  | nil => intro s; exact ⟨rfl, rfl, rfl, rfl⟩
  | cons run rest ih =>
    intro s
    obtain ⟨h1, h2, h3, h4⟩ := adjustBaselineAndLineHeight_horizontalAlignment env s run
    obtain ⟨k1, k2, k3, k4⟩ := ih (adjustBaselineAndLineHeight env s run)
    simp only [List.foldl_cons]
    exact ⟨k1.trans h1, k2.trans h2, k3.trans h3, k4.trans h4⟩

theorem removeTrailingTrimmableContent_horizontalAlignment (env : Environment)
    (s : LineBuilder) :
    (removeTrailingTrimmableContent env s).m_horizontalAlignment = s.m_horizontalAlignment
      ∧ (removeTrailingTrimmableContent env s).m_lineLogicalWidth = s.m_lineLogicalWidth
      ∧ (removeTrailingTrimmableContent env s).m_lineBox.m_rect.left
          = s.m_lineBox.m_rect.left := by
  unfold removeTrailingTrimmableContent
  simp only
  split_ifs <;> exact ⟨rfl, rfl, rfl⟩

/-- The builder that `close` leaves behind has the horizontal alignment, the
line width and the horizontal extent of the line box of the builder after the
trimming step. -/
theorem close_horizontal (env : Environment) (s : LineBuilder)
    (isLastLineWithInlineContent : IsLastLineWithInlineContent) :
    (close env s isLastLineWithInlineContent).2.m_horizontalAlignment = s.m_horizontalAlignment
      ∧ (close env s isLastLineWithInlineContent).2.m_lineLogicalWidth = s.m_lineLogicalWidth
      ∧ (close env s isLastLineWithInlineContent).2.m_lineBox.m_rect.width
          = (removeTrailingTrimmableContent env s).m_lineBox.m_rect.width
      ∧ (close env s isLastLineWithInlineContent).2.m_lineBox.m_rect.left
          = s.m_lineBox.m_rect.left := by
  obtain ⟨r1, r2, r4⟩ := removeTrailingTrimmableContent_horizontalAlignment env s
  unfold close
  simp only
  split
  · obtain ⟨h1, h2, h3, h4⟩ := foldl_adjustBaselineAndLineHeight_horizontalAlignment env
      (mergeRuns env.fc.flags (removeTrailingTrimmableContent env s).isTextAlignJustify none
        (removeTrailingTrimmableContent env s).m_inlineItemRuns)
      (removeTrailingTrimmableContent env s)
    refine ⟨Eq.trans ?_ (h1.trans r1), Eq.trans ?_ (h2.trans r2), Eq.trans ?_ h3,
      Eq.trans ?_ (h4.trans r4)⟩ <;> (split_ifs <;> rfl)
  · exact ⟨r1, r2, rfl, r4⟩

end LineBuilder

namespace LineBuilder

/-- The display runs of `close`, with the builder it leaves behind named: the
merged runs when alignment is skipped, and otherwise the merged runs with
their heights set, aligned vertically and then horizontally. -/
theorem close_runs (env : Environment) (s : LineBuilder)
    (isLastLineWithInlineContent : IsLastLineWithInlineContent) :
    (close env s isLastLineWithInlineContent).1
      = if (removeTrailingTrimmableContent env s).m_skipAlignment = true then
          mergeRuns env.fc.flags (removeTrailingTrimmableContent env s).isTextAlignJustify none
            (removeTrailingTrimmableContent env s).m_inlineItemRuns
        else
          alignContentHorizontally env.fc.flags
            (close env s isLastLineWithInlineContent).2.m_horizontalAlignment
            (close env s isLastLineWithInlineContent).2.availableWidth
            (alignContentVertically env (close env s isLastLineWithInlineContent).2
              ((mergeRuns env.fc.flags (removeTrailingTrimmableContent env s).isTextAlignJustify
                  none (removeTrailingTrimmableContent env s).m_inlineItemRuns).map
                (fun run => run.setLogicalHeight (runContentHeight env run))))
            isLastLineWithInlineContent := by
  by_cases hskip : (removeTrailingTrimmableContent env s).m_skipAlignment = true
  · simp [close, hskip]
  · simp [close, hskip]

/-- C21: when text-align is justify and the line is the last line with inline
content, horizontal alignment changes no display run, for every run list and
available width; so the display runs that `close` returns for such a line are
the runs as they stand before horizontal alignment (merged, given their
heights and aligned vertically), each with the width and the horizontal
position it has without horizontal alignment. -/
theorem close_last_line_is_not_justified {U : Type} [LinearOrderedRing U] [Div U]
    (flags : ExpansionFlags) (availableWidth : U) (runList : List (Run U))
    (env : Environment) (s : LineBuilder) :
    alignContentHorizontally flags (some TextAlignMode.Justify) availableWidth runList
        IsLastLineWithInlineContent.Yes = runList
      ∧ (s.m_horizontalAlignment = some TextAlignMode.Justify →
          (close env s IsLastLineWithInlineContent.Yes).1
            = if (removeTrailingTrimmableContent env s).m_skipAlignment = true then
                mergeRuns env.fc.flags (removeTrailingTrimmableContent env s).isTextAlignJustify
                  none (removeTrailingTrimmableContent env s).m_inlineItemRuns
              else
                alignContentVertically env (close env s IsLastLineWithInlineContent.Yes).2
                  ((mergeRuns env.fc.flags
                      (removeTrailingTrimmableContent env s).isTextAlignJustify none
                      (removeTrailingTrimmableContent env s).m_inlineItemRuns).map
                    (fun run => run.setLogicalHeight (runContentHeight env run)))) := by
  have hgeneric : ∀ {V : Type} [LinearOrderedRing V] [Div V] (width : V) (runs : List (Run V)),
      alignContentHorizontally flags (some TextAlignMode.Justify) width runs
        IsLastLineWithInlineContent.Yes = runs := by
    intro V _ _ width runs
    unfold alignContentHorizontally
    split
    · rfl
    · simp
  refine ⟨hgeneric availableWidth runList, ?_⟩
  intro hjustify
  rw [close_runs, (close_horizontal env s IsLastLineWithInlineContent.Yes).1, hjustify]
  split
  · rfl
  · exact hgeneric _ _

theorem close_last_line_is_not_justified_witness :
    Sample.justifyingBuilder.m_horizontalAlignment = some TextAlignMode.Justify
      ∧ alignContentHorizontally Sample.expansionFlags (some TextAlignMode.Justify) (40 : ℚ)
          Sample.justifiedRuns IsLastLineWithInlineContent.Yes = Sample.justifiedRuns
      ∧ (close Sample.environment
            (LineBuilder.openLine Sample.environment Sample.justifyingBuilder Sample.constraints
              Sample.fooBarLine)
            IsLastLineWithInlineContent.Yes).1.map
          (fun run => (run.m_logicalRect.left, run.m_logicalRect.width))
        = [(0, 70), (70, 0)] :=
  ⟨rfl,
    (close_last_line_is_not_justified Sample.expansionFlags (40 : ℚ) Sample.justifiedRuns
      Sample.environment Sample.justifyingBuilder).1,
    by
      rw [(close_last_line_is_not_justified Sample.expansionFlags (40 : ℚ) Sample.justifiedRuns
        Sample.environment
        (LineBuilder.openLine Sample.environment Sample.justifyingBuilder Sample.constraints
          Sample.fooBarLine)).2 (by decide)]
      decide⟩

end LineBuilder

namespace LineBuilder

/-- C22: in exact arithmetic (any linearly ordered field), for a line that is
not justified `alignContentHorizontally` changes nothing when the run list is
empty or the available width is not positive; with a positive available width
`W` it leaves the runs as they are for left and start (offset 0), moves every
run right by `W` for right and end, and by `W / 2` for center; moving a run
changes its left edge only, never its width. -/
theorem alignContentHorizontally_offset {F : Type} [LinearOrderedField F]
    (flags : ExpansionFlags) (availableWidth : F) (runList : List (Run F))
    (lastLine : IsLastLineWithInlineContent) :
    (∀ alignment : Option TextAlignMode, runList = [] ∨ availableWidth ≤ 0 →
        alignContentHorizontally flags alignment availableWidth runList lastLine = runList)
      ∧ (∀ alignment : TextAlignMode,
          alignment = TextAlignMode.Left ∨ alignment = TextAlignMode.WebKitLeft
            ∨ alignment = TextAlignMode.Start →
          alignContentHorizontally flags (some alignment) availableWidth runList lastLine
            = runList)
      ∧ (∀ alignment : TextAlignMode, 0 < availableWidth →
          alignment = TextAlignMode.Right ∨ alignment = TextAlignMode.WebKitRight
            ∨ alignment = TextAlignMode.End →
          alignContentHorizontally flags (some alignment) availableWidth runList lastLine
            = runList.map (fun run => run.moveHorizontally availableWidth))
      ∧ (∀ alignment : TextAlignMode, 0 < availableWidth →
          alignment = TextAlignMode.Center ∨ alignment = TextAlignMode.WebKitCenter →
          alignContentHorizontally flags (some alignment) availableWidth runList lastLine
            = runList.map (fun run => run.moveHorizontally (availableWidth / 2)))
      ∧ (∀ (run : Run F) (offset : F),
          (run.moveHorizontally offset).m_logicalRect.width = run.m_logicalRect.width
            ∧ (run.moveHorizontally offset).m_logicalRect.left
                = run.m_logicalRect.left + offset) := by
  refine ⟨?_, ?_, ?_, ?_, fun _ _ => ⟨rfl, rfl⟩⟩
  · intro alignment hnothing
    unfold alignContentHorizontally
    have hcond : (runList.isEmpty || decide (availableWidth ≤ 0)) = true := by
      rcases hnothing with h | h
      · simp [h]
      · simp [h]
    rw [if_pos hcond]
  · intro alignment halignment
    unfold alignContentHorizontally
    split
    · rfl
    · rcases halignment with h | h | h <;> subst h <;> simp [adjustmentForAlignment]
  · intro alignment hwidth halignment
    unfold alignContentHorizontally
    have hcond : (runList.isEmpty || decide (availableWidth ≤ 0)) = true → runList = [] := by
      intro h
      simpa [not_le.mpr hwidth, List.isEmpty_iff] using h
    split
    · rename_i h
      rw [hcond h]
      rfl
    · rcases halignment with h | h | h <;> subst h <;>
        simp [adjustmentForAlignment, max_eq_left hwidth.le]
  · intro alignment hwidth halignment
    unfold alignContentHorizontally
    have hcond : (runList.isEmpty || decide (availableWidth ≤ 0)) = true → runList = [] := by
      intro h
      simpa [not_le.mpr hwidth, List.isEmpty_iff] using h
    have hhalf : 0 ≤ availableWidth / 2 := (half_pos hwidth).le
    split
    · rename_i h
      rw [hcond h]
      rfl
    · rcases halignment with h | h <;> subst h <;>
        simp [adjustmentForAlignment, max_eq_left hhalf]

theorem alignContentHorizontally_offset_witness :
    (0 : ℚ) < 40
      ∧ alignContentHorizontally Sample.expansionFlags (some TextAlignMode.Center) (40 : ℚ)
          Sample.justifiedRuns IsLastLineWithInlineContent.No
        = Sample.justifiedRuns.map (fun run => run.moveHorizontally ((40 : ℚ) / 2)) :=
  ⟨by norm_num,
    (alignContentHorizontally_offset Sample.expansionFlags (40 : ℚ) Sample.justifiedRuns
      IsLastLineWithInlineContent.No).2.2.2.1 TextAlignMode.Center (by norm_num) (Or.inl rfl)⟩

/-- C23: `initialize` resets the builder whatever its prior state. After it
the committed runs are empty, the trimmable content is empty with width 0, the
content width is 0 and the available width is that of the constraints; the
builder is the one a freshly constructed builder (same horizontal alignment and
alignment switch, the two constructor arguments) is initialized to, so the same
appends and the same `close` give the same display runs and the same builder,
line box included. -/
theorem initialize_resets (s : LineBuilder) (constraints : Constraints) :
    ( LineBuilder.initialize s constraints).m_inlineItemRuns = []
      ∧ ( LineBuilder.initialize s constraints).m_trimmableContent.isEmpty = true
      ∧ ( LineBuilder.initialize s constraints).trailingTrimmableWidth = 0
      ∧ ( LineBuilder.initialize s constraints).m_lineIsVisuallyEmptyBeforeTrimmableContent = none
      ∧ ( LineBuilder.initialize s constraints).contentLogicalWidth = 0
      ∧ ( LineBuilder.initialize s constraints).availableWidth
          = constraints.availableLogicalWidth
      ∧ LineBuilder.initialize s constraints
          = LineBuilder.initialize
              { m_horizontalAlignment := s.m_horizontalAlignment
                m_skipAlignment := s.m_skipAlignment } constraints
      ∧ (∀ (env : Environment) (items : List (InlineItem × InlineLayoutUnit))
            (isLastLineWithInlineContent : IsLastLineWithInlineContent),
          close env (LineBuilder.openLine env s constraints items) isLastLineWithInlineContent
            = close env
                (LineBuilder.openLine env
                  { m_horizontalAlignment := s.m_horizontalAlignment
                    m_skipAlignment := s.m_skipAlignment } constraints items)
                isLastLineWithInlineContent) := by
  have hfresh : LineBuilder.initialize s constraints
      = LineBuilder.initialize
          { m_horizontalAlignment := s.m_horizontalAlignment
            m_skipAlignment := s.m_skipAlignment } constraints := rfl
  refine ⟨rfl, rfl, rfl, rfl, rfl, ?_, hfresh, ?_⟩
  · simp [availableWidth, logicalWidth, contentLogicalWidth, LineBuilder.initialize,
      Display.LineBox.logicalWidth]
  · intro env items isLastLineWithInlineContent
    unfold LineBuilder.openLine
    rw [hfresh]

end LineBuilder

namespace LineBuilder

/-! ### Where the code leaves the stated behaviour -/

/-- C24, the code at a failing input: on a line whose logical left is 10, the
items of "<span>foo</span>bar" (widths 0, 30, 0, 30) are committed with the
logical lefts 0, 0, 40, 30. The container end is placed at
`contentLogicalRight()`, which counts the logical left of the line, while every
other run is placed at `contentLogicalWidth()`; the run after the container end
lies left of it. -/
theorem append_container_end_left_decreases :
    (LineBuilder.openLine Sample.environment Sample.builder Sample.indentedConstraints
        Sample.spanFooBar).m_inlineItemRuns.map (fun run => run.logicalLeft) = [0, 0, 40, 30]
      ∧ ¬ List.Chain' (fun left next : InlineLayoutUnit => left ≤ next)
          ((LineBuilder.openLine Sample.environment Sample.builder Sample.indentedConstraints
            Sample.spanFooBar).m_inlineItemRuns.map (fun run => run.logicalLeft)) := by
  constructor
  · decide
  · have h : (LineBuilder.openLine Sample.environment Sample.builder Sample.indentedConstraints
        Sample.spanFooBar).m_inlineItemRuns.map (fun run => run.logicalLeft) = [0, 0, 40, 30] := by
      decide
    rw [h]
    simp

/-- C26, the code at a failing input: a line that starts 12 high with the
baseline at 9 (ascent 9, descent 3) and holds one baseline-aligned inline-block
of margin box height 30, whose last line has ascent 28 and descent 2, closes
with ascent 28, descent 3 and height 30: the height is less than the ascent
plus the descent. The baseline offset is 28. -/
theorem close_inline_block_height_below_baseline :
    (close Sample.inlineBlockEnvironment
        (LineBuilder.openLine Sample.inlineBlockEnvironment Sample.builder Sample.strutConstraints
          [(Sample.item Sample.inlineBlock InlineItemType.Box, 20)])
        IsLastLineWithInlineContent.No).2.m_lineBox
      = { m_rect := { top := 0, left := 0, width := 20, height := 30 }
          m_baseline := { ascent := 28, descent := 3 }, m_baselineOffset := 28
          m_isConsideredEmpty := false }
      ∧ (close Sample.inlineBlockEnvironment
          (LineBuilder.openLine Sample.inlineBlockEnvironment Sample.builder
            Sample.strutConstraints [(Sample.item Sample.inlineBlock InlineItemType.Box, 20)])
          IsLastLineWithInlineContent.No).2.m_lineBox.logicalHeight
        < (close Sample.inlineBlockEnvironment
            (LineBuilder.openLine Sample.inlineBlockEnvironment Sample.builder
              Sample.strutConstraints [(Sample.item Sample.inlineBlock InlineItemType.Box, 20)])
            IsLastLineWithInlineContent.No).2.m_lineBox.baseline.height := by
  constructor <;> decide

/-- C29, the code at a failing input: with the runs [text with a
letter-spacing of 2, width 48][container start] and the trimmable content of
that text (first trimmable index 0, width 2), `trimTrailingRun` returns 0 and
changes neither a run nor the trimmable content: its loop stops at the
container start, since the first trimmable index 0 is below the index 1 of the
last run. When the text is the last run it is trimmed to 46. -/
theorem trimTrailingRun_stops_at_marker :
    (LineBuilder.openLine Sample.environment Sample.builder Sample.constraints
        [(Sample.word Sample.spacedBox 0 4, 48),
         (Sample.item Sample.span InlineItemType.ContainerStart, 0)]).m_trimmableContent
      = { m_firstRunIndex := some 0, m_width := 2, m_lastRunIsFullyTrimmable := false }
      ∧ TrimmableContent.trimTrailingRun
          (LineBuilder.openLine Sample.environment Sample.builder Sample.constraints
            [(Sample.word Sample.spacedBox 0 4, 48),
             (Sample.item Sample.span InlineItemType.ContainerStart, 0)]).m_inlineItemRuns
          { m_firstRunIndex := some 0, m_width := 2, m_lastRunIsFullyTrimmable := false }
        = ((LineBuilder.openLine Sample.environment Sample.builder Sample.constraints
              [(Sample.word Sample.spacedBox 0 4, 48),
               (Sample.item Sample.span InlineItemType.ContainerStart, 0)]).m_inlineItemRuns,
            { m_firstRunIndex := some 0, m_width := 2, m_lastRunIsFullyTrimmable := false }, 0)
      ∧ (LineBuilder.openLine Sample.environment Sample.builder Sample.constraints
          [(Sample.word Sample.spacedBox 0 4, 48),
           (Sample.item Sample.span InlineItemType.ContainerStart, 0),
           (Sample.item Sample.span InlineItemType.ContainerEnd, 0)]).m_inlineItemRuns.map
          (fun run => run.logicalWidth) = [48, 0, 0]
      ∧ (LineBuilder.openLine Sample.environment Sample.builder Sample.constraints
          [(Sample.word Sample.spacedBox 0 4, 48),
           (Sample.item Sample.span InlineItemType.ContainerEnd, 0)]).m_inlineItemRuns.map
          (fun run => run.logicalWidth) = [46, 0] := by
  refine ⟨by decide, by decide, by decide, by decide⟩

/-- C30, the code at a failing input: the empty text of a box with a
letter-spacing of 2 is committed as a run of width 0 that counts as partially
trimmable (trimmable width 2); `trim` subtracts the letter-spacing and leaves
the run with width -2, and the closed line with content width -2. -/
theorem trim_empty_text_negative_width :
    InlineTextItem.createAndAppendTextItems Sample.fixedPitch Sample.styleQueries
        Sample.breakAtSpaces 0 [] Sample.emptySpacedBox
      = some [InlineTextItem.createEmptyItem Sample.emptySpacedBox]
      ∧ (LineBuilder.openLine Sample.environment Sample.builder Sample.constraints
          [(InlineTextItem.createEmptyItem Sample.emptySpacedBox, 0)]).m_trimmableContent
        = { m_firstRunIndex := some 0, m_width := 2, m_lastRunIsFullyTrimmable := false }
      ∧ (LineBuilder.openLine Sample.environment Sample.builder Sample.constraints
          [(InlineTextItem.createEmptyItem Sample.emptySpacedBox, 0)]).m_inlineItemRuns.map
          (fun run => run.logicalWidth) = [0]
      ∧ (TrimmableContent.trim
          (LineBuilder.openLine Sample.environment Sample.builder Sample.constraints
            [(InlineTextItem.createEmptyItem Sample.emptySpacedBox, 0)]).m_inlineItemRuns
          { m_firstRunIndex := some 0, m_width := 2, m_lastRunIsFullyTrimmable := false }).1.map
          (fun run => run.logicalWidth) = [-2]
      ∧ (close Sample.environment
          (LineBuilder.openLine Sample.environment Sample.builder Sample.constraints
            [(InlineTextItem.createEmptyItem Sample.emptySpacedBox, 0)])
          IsLastLineWithInlineContent.No).2.contentLogicalWidth = -2 := by
  refine ⟨by decide, by decide, by decide, by decide, by decide⟩

end LineBuilder

namespace LineBreaker

/-- C28, the code at a failing input: appending the text "tight" (width 40) of
a box with a letter-spacing of -2 to an empty candidate records the trailing
trimmable width -2; the non-trimmable width 42 exceeds the total width 40. -/
theorem Content.append_negative_letter_spacing :
    (Content.append Sample.fixedPitch {} (Sample.word Sample.tightBox 0 5)
        40).m_trailingTrimmableContent = { isFullyTrimmable := false, width := -2 }
      ∧ (Content.append Sample.fixedPitch {} (Sample.word Sample.tightBox 0 5) 40).width = 40
      ∧ (Content.append Sample.fixedPitch {} (Sample.word Sample.tightBox 0 5)
          40).nonTrimmableWidth = 42 := by
  refine ⟨by decide, by decide, by decide⟩

end LineBreaker

namespace LineBuilder

/-! ### The tracked trimmable width -/

theorem trailingLetterSpacing_nonneg (run : InlineItemRun) : 0 ≤ run.trailingLetterSpacing := by
  unfold InlineItemRun.trailingLetterSpacing
  by_cases h : run.hasTrailingLetterSpacing = true
  · simp only [h, Bool.not_true, Bool.false_eq_true, if_false]
    simp only [InlineItemRun.hasTrailingLetterSpacing, Bool.and_eq_true, decide_eq_true_eq] at h
    exact h.2.le
  · simp [h]

theorem trailingLetterSpacing_of_item (a b : InlineItemRun)
    (h : b.m_inlineItem = a.m_inlineItem) : b.trailingLetterSpacing = a.trailingLetterSpacing := by
  simp [InlineItemRun.trailingLetterSpacing, InlineItemRun.hasTrailingLetterSpacing,
    InlineItemRun.isWhitespace, InlineItemRun.style, h]

/-- The invariant of the tracked width holds of a line that has just been
initialized. -/
theorem TrimmableWidthInvariant.of_initialize (s : LineBuilder) (constraints : Constraints) :
    TrimmableWidthInvariant ( LineBuilder.initialize s constraints) :=
  ⟨le_refl _, fun _ => rfl, fun _ f run hf _ => by cases hf⟩

/-- The invariant of the tracked width is kept when a run is appended and the
trimmable content is left alone. -/
theorem TrimmableWidthInvariant.push_marker (env : Environment) (s s1 : LineBuilder)
    (newRun : InlineItemRun) (hinv : Invariant env s) (hwidth : TrimmableWidthInvariant s)
    (hruns : s1.m_inlineItemRuns = s.m_inlineItemRuns ++ [newRun])
    (htrim : s1.m_trimmableContent = s.m_trimmableContent) :
    TrimmableWidthInvariant s1 := by
  refine ⟨?_, ?_, ?_⟩
  · rw [htrim]; exact hwidth.nonneg
  · rw [htrim]; exact hwidth.empty
  · rw [htrim, hruns]
    intro hfully f run hf hrun
    have hlt := hinv.first_lt f hf
    rw [List.getElem?_append_left hlt] at hrun
    exact hwidth.partially hfully f run hf hrun

/-- The invariant of the tracked width is kept when the trimmable content is
reset. -/
theorem TrimmableWidthInvariant.of_reset (s s1 : LineBuilder)
    (htrim : s1.m_trimmableContent = s.m_trimmableContent.reset) :
    TrimmableWidthInvariant s1 := by
  refine ⟨?_, ?_, ?_⟩
  · rw [htrim]; exact le_refl _
  · rw [htrim]; intro _; rfl
  · rw [htrim]; intro _ f run hf; cases hf

/-- The invariant of the tracked width is kept by `appendTextContent`. -/
theorem TrimmableWidthInvariant.push_text_run (env : Environment) (s : LineBuilder)
    (inlineItem : InlineItem) (logicalWidth : InlineLayoutUnit) (hinv : Invariant env s)
    (hwidth : TrimmableWidthInvariant s) :
    TrimmableWidthInvariant (appendTextContent env s inlineItem logicalWidth) := by
  have hruns := appendTextContent_runs env s inlineItem logicalWidth
  by_cases htws : (textRunOf env s inlineItem logicalWidth).isTrimmableWhitespace env.o = true
  · have htc : (appendTextContent env s inlineItem logicalWidth).m_trimmableContent
        = { m_width :=
              s.m_trimmableContent.m_width
                + max 0 (textRunOf env s inlineItem logicalWidth).logicalWidth
            m_lastRunIsFullyTrimmable := true
            m_firstRunIndex :=
              some (s.m_trimmableContent.m_firstRunIndex.getD s.m_inlineItemRuns.length) } := by
      simp [appendTextContent, htws, TrimmableContent.append_last]
    refine ⟨?_, ?_, ?_⟩
    · rw [htc]
      exact add_nonneg hwidth.nonneg (le_max_left _ _)
    · rw [htc]; intro h; cases h
    · rw [htc]; intro h; cases h
  · simp only [Bool.not_eq_true] at htws
    by_cases hls : (textRunOf env s inlineItem logicalWidth).hasTrailingLetterSpacing = true
    · have htc : (appendTextContent env s inlineItem logicalWidth).m_trimmableContent
          = { m_width := (textRunOf env s inlineItem logicalWidth).trailingLetterSpacing
              m_lastRunIsFullyTrimmable := false
              m_firstRunIndex := some s.m_inlineItemRuns.length } := by
        have hnonneg := trailingLetterSpacing_nonneg (textRunOf env s inlineItem logicalWidth)
        cases hold : s.m_trimmableContent.m_firstRunIndex with
        | none =>
          have hzero := hwidth.empty hold
          simp [appendTextContent, htws, hls, TrimmableContent.append_last,
            TrimmableContent.isEmpty, hold, hzero, max_eq_right hnonneg]
        | some f =>
          simp [appendTextContent, htws, hls, TrimmableContent.append_last,
            TrimmableContent.isEmpty, TrimmableContent.reset, hold, max_eq_right hnonneg]
      refine ⟨?_, ?_, ?_⟩
      · rw [htc]; exact trailingLetterSpacing_nonneg _
      · rw [htc]; intro h; cases h
      · rw [htc, hruns]
        intro _ f run hf hrun
        simp only [Option.some.injEq] at hf
        subst hf
        rw [getElem?_append_singleton_length] at hrun
        simp only [Option.some.injEq] at hrun
        subst hrun
        rfl
    · simp only [Bool.not_eq_true] at hls
      cases hold : s.m_trimmableContent.m_firstRunIndex with
      | none =>
        have htc : (appendTextContent env s inlineItem logicalWidth).m_trimmableContent
            = s.m_trimmableContent := by
          simp [appendTextContent, htws, hls, TrimmableContent.isEmpty, hold]
        exact TrimmableWidthInvariant.push_marker env s _ _ hinv hwidth hruns htc
      | some f =>
        have htc : (appendTextContent env s inlineItem logicalWidth).m_trimmableContent
            = s.m_trimmableContent.reset := by
          simp [appendTextContent, htws, hls, TrimmableContent.isEmpty, hold]
        exact TrimmableWidthInvariant.of_reset s _ htc

end LineBuilder

namespace LineBuilder

/-- The invariant of the tracked width is kept by `trimTrailingLetterSpacing`:
when the trailing run is trimmed, the tracked width falls from the trailing
letter-spacing of that run to 0. -/
theorem TrimmableWidthInvariant.trim_letter_spacing (env : Environment) (s : LineBuilder)
    (hinv : Invariant env s) (hwidth : TrimmableWidthInvariant s) :
    TrimmableWidthInvariant (trimTrailingLetterSpacing s) := by
  obtain ⟨_, _, _, hlength, hsame, _⟩ := trimTrailingLetterSpacing_spec env s hinv
  have hkeep : (trimTrailingLetterSpacing s).m_trimmableContent = s.m_trimmableContent →
      TrimmableWidthInvariant (trimTrailingLetterSpacing s) := by
    intro htrim
    refine ⟨?_, ?_, ?_⟩
    · rw [htrim]; exact hwidth.nonneg
    · rw [htrim]; exact hwidth.empty
    · rw [htrim]
      intro hfully f after hf hafter
      have hlt := hinv.first_lt f hf
      obtain ⟨before, hbefore⟩ : ∃ before, s.m_inlineItemRuns[f]? = some before :=
        ⟨_, List.getElem?_eq_getElem hlt⟩
      obtain ⟨after2, hafter2, hrel⟩ := hsame f before hbefore
      rw [hafter] at hafter2
      simp only [Option.some.injEq] at hafter2
      subst hafter2
      rw [trailingLetterSpacing_of_item before after hrel.1]
      exact hwidth.partially hfully f before hf hbefore
  by_cases hp : s.m_trimmableContent.isTrailingRunPartiallyTrimmable = true
  swap
  · apply hkeep
    unfold trimTrailingLetterSpacing
    simp only [hp, Bool.not_false, if_true]
  have hp2 := hp
  simp only [TrimmableContent.isTrailingRunPartiallyTrimmable, TrimmableContent.isEmpty,
    TrimmableContent.isTrailingRunFullyTrimmable, Bool.and_eq_true, Bool.not_eq_true',
    Bool.not_eq_false'] at hp2
  obtain ⟨hsome, hfully⟩ := hp2
  obtain ⟨f, hf⟩ := Option.isSome_iff_exists.mp hsome
  obtain ⟨⟨run, hrun, htext, hws⟩, _⟩ := hinv.partially hfully f hf
  have hlt := hinv.first_lt f hf
  have hw := hwidth.partially hfully f run hf hrun
  obtain ⟨n, hn⟩ : ∃ n, s.m_inlineItemRuns.length = n + 1 :=
    ⟨s.m_inlineItemRuns.length - 1, by omega⟩
  by_cases hfn : f ≥ n
  · have hfeq : f = n := by omega
    subst hfeq
    have htc : (trimTrailingLetterSpacing s).m_trimmableContent
        = { s.m_trimmableContent with
            m_width := s.m_trimmableContent.m_width - run.trailingLetterSpacing
            m_firstRunIndex := none } := by
      unfold trimTrailingLetterSpacing
      simp only [hp, Bool.not_true, Bool.false_eq_true, if_false]
      simp only [TrimmableContent.trimTrailingRun, hf, hn, TrimmableContent.trimTrailingRunFrom,
        ge_iff_le, le_refl, if_true, hrun, htext, hws, Bool.not_true, Bool.false_eq_true,
        if_false]
    refine ⟨?_, ?_, ?_⟩
    · rw [htc, hw]; simp
    · rw [htc, hw]; intro _; simp
    · rw [htc]; intro _ g later hg; cases hg
  · apply hkeep
    unfold trimTrailingLetterSpacing
    simp only [hp, Bool.not_true, Bool.false_eq_true, if_false]
    simp only [TrimmableContent.trimTrailingRun, hf, hn, TrimmableContent.trimTrailingRunFrom, hfn,
      if_false]

/-- The invariant of the tracked width is kept by every append. -/
theorem TrimmableWidthInvariant.push (env : Environment) (s : LineBuilder)
    (inlineItem : InlineItem) (logicalWidth : InlineLayoutUnit) (hinv : Invariant env s)
    (hwidth : TrimmableWidthInvariant s) :
    TrimmableWidthInvariant (LineBuilder.append env s inlineItem logicalWidth) := by
  have hnote : ∀ s1 : LineBuilder, TrimmableWidthInvariant s1 →
      TrimmableWidthInvariant (noteVisuallyNonEmpty env s1) := by
    intro s1 h
    refine ⟨?_, ?_, ?_⟩
    · rw [noteVisuallyNonEmpty_trimmableContent]; exact h.nonneg
    · rw [noteVisuallyNonEmpty_trimmableContent]; exact h.empty
    · rw [noteVisuallyNonEmpty_trimmableContent, noteVisuallyNonEmpty_runs]; exact h.partially
  unfold LineBuilder.append
  apply hnote
  unfold appendByKind
  split_ifs
  · exact TrimmableWidthInvariant.push_text_run env s inlineItem logicalWidth hinv hwidth
  · unfold appendLineBreak
    split_ifs
    · exact TrimmableWidthInvariant.push_marker env s _ _ hinv hwidth rfl rfl
    · exact TrimmableWidthInvariant.push_marker env s _ _ hinv hwidth rfl rfl
  · exact TrimmableWidthInvariant.push_marker env s _ _ hinv hwidth rfl rfl
  · exact TrimmableWidthInvariant.push_marker env (LineBuilder.trimTrailingLetterSpacing s) _ _
      (Invariant.trimTrailingLetterSpacing env s hinv)
      (TrimmableWidthInvariant.trim_letter_spacing env s hinv hwidth) rfl rfl
  · exact TrimmableWidthInvariant.of_reset s _ rfl
  · exact TrimmableWidthInvariant.of_reset s _ rfl
  · exact hwidth

/-- The invariant of the tracked width holds after any sequence of appends to
a line that satisfies it. -/
theorem TrimmableWidthInvariant.pushAll (env : Environment)
    (items : List (InlineItem × InlineLayoutUnit)) :
    ∀ s : LineBuilder, Invariant env s → TrimmableWidthInvariant s →
      TrimmableWidthInvariant (LineBuilder.appendAll env s items) := by
  induction items with
  | nil => intro s _ hwidth; exact hwidth
  | cons item rest ih =>
    intro s hinv hwidth
    exact ih _ (Invariant.append env s item.1 item.2 hinv)
      (TrimmableWidthInvariant.push env s item.1 item.2 hinv hwidth)

/-- C27: for every line (a builder in any prior state, initialized and then
fed any sequence of items, whatever the widths and the letter-spacing of the
styles), `trailingTrimmableWidth()` is not negative. -/
theorem trailingTrimmableWidth_nonneg (env : Environment) (s : LineBuilder)
    (constraints : Constraints) (items : List (InlineItem × InlineLayoutUnit)) :
    0 ≤ (LineBuilder.openLine env s constraints items).trailingTrimmableWidth :=
  (TrimmableWidthInvariant.pushAll env items _ (Invariant.initial env s constraints)
    (TrimmableWidthInvariant.of_initialize s constraints)).nonneg

end LineBuilder

namespace LineBuilder

/-! ### The width of the line box and the widths of the runs -/

end LineBuilder

namespace LineBuilder

end LineBuilder

namespace LineBuilder

end LineBuilder

namespace LineBuilder

end LineBuilder

namespace LineBuilder

end LineBuilder

namespace LineBuilder

end LineBuilder


namespace LineBreaker

/-! ## The decision on an empty line -/

/-- C31: on an empty line the line breaker never defers content. For every
non-empty candidate and every line status with `lineIsEmpty` set,
`breakingContextForInlineContent` returns a decision, and the decision is Keep
or Split, never Push. -/
theorem breakingContext_empty_line_never_pushes (o : Collaborators) (self : LineBreaker)
    (candidateRuns : Content) (lineStatus : LineStatus)
    (hnonempty : candidateRuns.runs ≠ [])
    (hempty : lineStatus.lineIsEmpty = true) :
    ∃ result, breakingContextForInlineContent o self candidateRuns lineStatus = some result
      ∧ (result.contentWrappingRule = ContentWrappingRule.Keep
          ∨ result.contentWrappingRule = ContentWrappingRule.Split)
      ∧ result.contentWrappingRule ≠ ContentWrappingRule.Push := by
  obtain ⟨first, hfirst⟩ : ∃ first, candidateRuns.runs[0]? = some first := by
    cases hruns : candidateRuns.runs with
    | nil => exact absurd hruns hnonempty
    | cons first rest => exact ⟨first, List.getElem?_cons_zero⟩
  obtain ⟨last, hlast⟩ : ∃ last, candidateRuns.runs.getLast? = some last := by
    cases hl : candidateRuns.runs.getLast? with
    | none => exact absurd (List.getLast?_eq_none_iff.mp hl) hnonempty
    | some last => exact ⟨last, rfl⟩
  unfold breakingContextForInlineContent
  simp only [hfirst, hlast, hempty, Bool.true_or, if_true, ite_self]
  cases hword : wordBreakingBehavior o self candidateRuns.runs lineStatus.availableWidth with
  | none => split_ifs <;> exact ⟨_, rfl, Or.inl rfl, by simp⟩
  | some partialTrailingContent =>
    split_ifs <;> first
      | exact ⟨_, rfl, Or.inl rfl, by simp⟩
      | exact ⟨_, rfl, Or.inr rfl, by simp⟩

theorem breakingContext_empty_line_never_pushes_witness :
    ∃ result,
      breakingContextForInlineContent Sample.fixedPitch {}
          (Content.ofRuns Sample.fixedPitch [(Sample.word Sample.nowrapBox 0 14, 140)])
          { availableWidth := 100, trimmableWidth := 0, lineHasFullyTrimmableTrailingRun := false
            lineIsEmpty := true } = some result
        ∧ (result.contentWrappingRule = ContentWrappingRule.Keep
            ∨ result.contentWrappingRule = ContentWrappingRule.Split)
        ∧ result.contentWrappingRule ≠ ContentWrappingRule.Push :=
  breakingContext_empty_line_never_pushes Sample.fixedPitch {}
    (Content.ofRuns Sample.fixedPitch [(Sample.word Sample.nowrapBox 0 14, 140)])
    { availableWidth := 100, trimmableWidth := 0, lineHasFullyTrimmableTrailingRun := false
      lineIsEmpty := true } (by decide) (by decide)

end LineBreaker

namespace LineBuilder

/-! ### Boxes aligned to the bottom or to the top of the line -/

end LineBuilder

namespace InlineTextItem

/-! ## Splitting a text item -/

/-- C34: for a text item with start `s` and length `n` (its end representable
as an `unsigned`) and every `k ≤ n`, `left(k)` and `right(n - k)` both return
an item; the left one covers `[s, s + k)`, the right one `[s + k, s + n)`, so
the two partition the original; both are text items of the original's box with
the original's whitespace type and without a cached width. `left` and `right`
fail exactly when the requested length exceeds `n`. -/
theorem left_right_partition (item : InlineItem) (k : Nat)
    (hend : item.start + item.length < 4294967296) (hk : k ≤ item.length) :
    (∃ l r, left item k = some l ∧ right item (item.length - k) = some r
      ∧ l.start = item.start ∧ l.length = k
      ∧ r.start = item.start + k ∧ r.length = item.length - k
      ∧ l.start + l.length = r.start ∧ r.start + r.length = item.start + item.length
      ∧ l.isText = true ∧ r.isText = true
      ∧ l.textItemType = item.textItemType ∧ r.textItemType = item.textItemType
      ∧ l.layoutBox = item.layoutBox ∧ r.layoutBox = item.layoutBox
      ∧ l.width = none ∧ r.width = none)
    ∧ (∀ requested : Nat, left item requested = none ↔ item.length < requested)
    ∧ (∀ requested : Nat, right item requested = none ↔ item.length < requested) := by
  have hstart : unsignedSub (endOffset item) (item.length - k) = item.start + k := by
    unfold unsignedSub endOffset
    omega
  refine ⟨⟨_, _, if_pos hk, if_pos (Nat.sub_le _ _), rfl, rfl, hstart, rfl, ?_, ?_, rfl, rfl,
    rfl, rfl, rfl, rfl, rfl, rfl⟩, ?_, ?_⟩
  · exact hstart.symm
  · show unsignedSub (endOffset item) (item.length - k) + (item.length - k) = _
    rw [hstart]
    omega
  · intro requested
    unfold left
    split_ifs with h
    · simp only [reduceCtorEq, false_iff, not_lt]
      exact h
    · simp only [true_iff]
      omega
  · intro requested
    unfold right
    split_ifs with h
    · simp only [reduceCtorEq, false_iff, not_lt]
      exact h
    · simp only [true_iff]
      omega

theorem left_right_partition_witness :
    (∃ l r, left (Sample.word Sample.hyphenationBox 0 11) 4 = some l
      ∧ right (Sample.word Sample.hyphenationBox 0 11) (11 - 4) = some r
      ∧ l.start = 0 ∧ l.length = 4 ∧ r.start = 0 + 4 ∧ r.length = 11 - 4
      ∧ l.start + l.length = r.start ∧ r.start + r.length = 0 + 11
      ∧ l.isText = true ∧ r.isText = true
      ∧ l.textItemType = TextItemType.NonWhitespace ∧ r.textItemType = TextItemType.NonWhitespace
      ∧ l.layoutBox = Sample.hyphenationBox ∧ r.layoutBox = Sample.hyphenationBox
      ∧ l.width = none ∧ r.width = none) :=
  (left_right_partition (Sample.word Sample.hyphenationBox 0 11) 4 (by decide) (by decide)).1

end InlineTextItem

namespace LineBreaker

/-! ## Word breaking: a whole-run split fits -/

end LineBreaker

namespace LineBreaker

/-! ## Candidates that mix text and boxes -/

/-- C32 (the code at "foo<span><img>"): the commit-boundary test answers false
for each of the three items against the content built so far, so all three are
appended to one candidate. The candidate holds a text run and a box run;
`hasTextContentOnly` is true although its last run is a box; on a line with 40
units left the decision is made by `wordBreakingBehavior`, which is handed the
box run, a run that is neither text nor a container marker. -/
theorem Content.text_and_box_in_one_candidate :
    Content.isAtContentBoundary (Sample.word Sample.fooBar 0 3) {} = false
      ∧ Content.isAtContentBoundary (Sample.item Sample.span InlineItemType.ContainerStart)
          (Content.ofRuns Sample.fixedPitch (Sample.fooSpanImage.take 1)) = false
      ∧ Content.isAtContentBoundary (Sample.item Sample.image InlineItemType.Box)
          (Content.ofRuns Sample.fixedPitch (Sample.fooSpanImage.take 2)) = false
      ∧ (Content.ofRuns Sample.fixedPitch Sample.fooSpanImage).runs.map
          (fun run => (run.inlineItem.isText, run.inlineItem.isBox))
          = [(true, false), (false, false), (false, true)]
      ∧ (Content.ofRuns Sample.fixedPitch Sample.fooSpanImage).hasTextContentOnly = true
      ∧ (Content.ofRuns Sample.fixedPitch Sample.fooSpanImage).runs.map Content.isTextOrMarker
          = [true, true, false]
      ∧ breakingContextForInlineContent Sample.fixedPitch {}
          (Content.ofRuns Sample.fixedPitch Sample.fooSpanImage)
          { availableWidth := 40, trimmableWidth := 0, lineHasFullyTrimmableTrailingRun := false
            lineIsEmpty := false }
          = some { contentWrappingRule := ContentWrappingRule.Split
                   partialTrailingContent :=
                     some { runIndex := 0, length := 3, logicalWidth := 30, needsHyphen := false } }
      ∧ wordBreakingBehavior Sample.fixedPitch {}
          (Content.ofRuns Sample.fixedPitch Sample.fooSpanImage).runs 40
          = some { runIndex := 0, length := 3, logicalWidth := 30, needsHyphen := false } := by
  decide

/-! ## The cached width of a candidate -/

/-- What `Content::trim` leaves as the cached width: the width before the call
less the width of every run, whatever `newSize` is. -/
theorem Content.trim_cached_width (c : Content) (newSize : Nat) :
    (c.trim newSize).width = c.width - c.runsWidth := by
  unfold Content.trim Content.width Content.runsWidth
  simp only
  generalize c.m_width = width
  rw [← List.sum_reverse, ← List.map_reverse]
  induction c.m_continousRuns.reverse generalizing width with
  | nil => simp
  | cons run rest ih =>
    simp only [List.foldl_cons, List.map_cons, List.sum_cons]
    rw [ih]
    ring

/-- C35 (the code at the candidate "foo<span>inner"): after the three appends
the cached width is 80, the sum of the run widths 30, 0 and 50. After
`trim(2)` the two runs of widths 30 and 0 remain, but the cached width is 0, not
30: `trim` has subtracted the width of the remaining runs as well. -/
theorem Content.trim_subtracts_every_run :
    (Content.ofRuns Sample.fixedPitch Sample.fooSpanInner).width = 80
      ∧ (Content.ofRuns Sample.fixedPitch Sample.fooSpanInner).runsWidth = 80
      ∧ ((Content.ofRuns Sample.fixedPitch Sample.fooSpanInner).trim 2).size = 2
      ∧ ((Content.ofRuns Sample.fixedPitch Sample.fooSpanInner).trim 2).runsWidth = 30
      ∧ ((Content.ofRuns Sample.fixedPitch Sample.fooSpanInner).trim 2).width = 0 := by
  decide

/-! ## Progress on an empty line -/

/-- C37 (the code at a `word-break: break-all` word on an empty line narrower
than one character): the word "abc", 30 wide with 10 units per character, is
the candidate of an empty line with 5 units available. The measurement oracle
returns the longest prefix that fits, which is the empty one, and the decision
is Split with trailing run index 0 and length 0: nothing is kept on the
line. -/
theorem breakingContext_empty_split_on_empty_line :
    Sample.fixedPitch.split Sample.breakAllBox 0 3 30 5
        = { start := 0, length := 0, logicalWidth := 0 }
      ∧ breakingContextForInlineContent Sample.fixedPitch {}
          (Content.ofRuns Sample.fixedPitch [(Sample.word Sample.breakAllBox 0 3, 30)])
          { availableWidth := 5, trimmableWidth := 0, lineHasFullyTrimmableTrailingRun := false
            lineIsEmpty := true }
        = some { contentWrappingRule := ContentWrappingRule.Split
                 partialTrailingContent :=
                   some { runIndex := 0, length := 0, logicalWidth := 0, needsHyphen := false } } := by
  decide

/-! ## The width of a hyphenated split of an item that starts inside its text -/

/-- C39 (the code at the word "hyphenation" of the text "to hyphenation"): the
item starts at offset 3 and is 11 characters long; with 80 units available it
is hyphenated after its 4th character. The width returned with the split is
`width(box, 3, 4)`, 10 units, the measure of one character; the four kept
characters are the range `[3, 7)`, which the oracle measures as 40 units, with
the argument convention of the segmenter, `width(box, start, start + length)`. -/
theorem tryBreakingTextRun_hyphen_width_from_offset :
    tryBreakingTextRun Sample.fixedPitch {}
        { inlineItem := Sample.word Sample.toHyphenationBox 3 11, logicalWidth := 110 } 80
        = some { length := 4, logicalWidth := 10, needsHyphen := true }
      ∧ Sample.fixedPitch.width Sample.toHyphenationBox 3 4 = 10
      ∧ Sample.fixedPitch.width Sample.toHyphenationBox 3 (3 + 4) = 40
      ∧ InlineTextItem.inlineItemWidth Sample.fixedPitch Sample.toHyphenationBox
          { content := "to hyphenation".toList, canUseSimplifiedContentMeasuring := true } 3 4
          = some 40
      ∧ breakingContextForInlineContent Sample.fixedPitch {}
          (Content.ofRuns Sample.fixedPitch [(Sample.word Sample.toHyphenationBox 3 11, 110)])
          { availableWidth := 80, trimmableWidth := 0, lineHasFullyTrimmableTrailingRun := false
            lineIsEmpty := true }
        = some { contentWrappingRule := ContentWrappingRule.Split
                 partialTrailingContent :=
                   some { runIndex := 0, length := 4, logicalWidth := 10, needsHyphen := true } } := by
  decide

end LineBreaker

namespace LineBuilder

/-! ### The tracked trimmable width is what `trim` returns -/

/-- The loop of `trim` returns the accumulated width it was entered with plus
the amounts of the runs it visits. -/
theorem TrimmableContent.trimRunsFrom_returned (runs : List InlineItemRun) :
    ∀ accumulatedTrimmedWidth : InlineLayoutUnit,
      (TrimmableContent.trimRunsFrom runs accumulatedTrimmedWidth).2
        = accumulatedTrimmedWidth + (runs.map trimmableAmount).sum := by
  induction runs with
  | nil => intro accumulated; simp [TrimmableContent.trimRunsFrom]
  | cons run rest ih =>
    intro accumulated
    unfold TrimmableContent.trimRunsFrom
    simp only [InlineItemRun.moveHorizontally, List.map_cons, List.sum_cons]
    by_cases htext : run.isText = true
    · have htext2 : InlineItemRun.isText
          { run with m_logicalLeft := run.m_logicalLeft + -accumulated } = true := htext
      by_cases hws : run.isWhitespace = true
      · have hws2 : InlineItemRun.isWhitespace
            { run with m_logicalLeft := run.m_logicalLeft + -accumulated } = true := hws
        simp only [htext2, hws2, Bool.not_true, Bool.false_eq_true, if_false, if_true]
        rw [ih]
        simp only [trimmableAmount, htext, hws, Bool.not_true, Bool.false_eq_true, if_false,
          if_true, InlineItemRun.logicalWidth]
        ring
      · simp only [Bool.not_eq_true] at hws
        have hws2 : InlineItemRun.isWhitespace
            { run with m_logicalLeft := run.m_logicalLeft + -accumulated } = false := hws
        have hspacing : InlineItemRun.trailingLetterSpacing
            { run with m_logicalLeft := run.m_logicalLeft + -accumulated }
            = run.trailingLetterSpacing := trailingLetterSpacing_of_item run _ rfl
        simp only [htext2, hws2, Bool.not_true, Bool.false_eq_true, if_false]
        rw [ih, hspacing]
        simp only [trimmableAmount, htext, hws, Bool.not_true, Bool.false_eq_true, if_false]
        ring
    · simp only [Bool.not_eq_true] at htext
      have htext2 : InlineItemRun.isText
          { run with m_logicalLeft := run.m_logicalLeft + -accumulated } = false := htext
      simp only [htext2, Bool.not_false, if_true]
      rw [ih]
      simp only [trimmableAmount, htext, Bool.not_false, if_true]
      ring

/-- What `TrimmableContent::trim` returns. -/
theorem TrimmableContent.trim_returned (runs : List InlineItemRun) (t : TrimmableContent)
    (f : Nat) (hf : t.m_firstRunIndex = some f) :
    (TrimmableContent.trim runs t).2.2 = ((runs.drop f).map trimmableAmount).sum := by
  unfold TrimmableContent.trim
  simp only [hf]
  rw [TrimmableContent.trimRunsFrom_returned]
  simp

theorem trimmableAmount_of_not_isText (run : InlineItemRun) (h : run.isText = false) :
    trimmableAmount run = 0 := by
  simp [trimmableAmount, h]

/-- The sum invariant holds of a line that has just been initialized. -/
theorem TrimmableSumInvariant.of_fresh (s : LineBuilder) (constraints : Constraints) :
    TrimmableSumInvariant ( LineBuilder.initialize s constraints) := by
  intro f hf
  cases hf

/-- The sum invariant is kept when a run that is not text is appended and the
trimmable content is left alone. -/
theorem TrimmableSumInvariant.push_other (env : Environment) (s s1 : LineBuilder)
    (newRun : InlineItemRun) (hinv : Invariant env s) (hsum : TrimmableSumInvariant s)
    (hruns : s1.m_inlineItemRuns = s.m_inlineItemRuns ++ [newRun])
    (htrim : s1.m_trimmableContent = s.m_trimmableContent)
    (hother : newRun.isText = false) :
    TrimmableSumInvariant s1 := by
  intro f hf
  rw [htrim] at hf ⊢
  rw [hruns, List.drop_append_of_le_length (hinv.first_lt f hf).le]
  simp only [List.map_append, List.sum_append, List.map_cons, List.map_nil, List.sum_cons,
    List.sum_nil, trimmableAmount_of_not_isText newRun hother, add_zero]
  exact hsum f hf

/-- The sum invariant holds whenever the trimmable content is empty. -/
theorem TrimmableSumInvariant.of_empty (s1 : LineBuilder)
    (hnone : s1.m_trimmableContent.m_firstRunIndex = none) :
    TrimmableSumInvariant s1 := by
  intro f hf
  rw [hnone] at hf
  cases hf

end LineBuilder

namespace LineBuilder

/-- The run of a text item that is appended with a non-negative width has a
non-negative width. -/
theorem textRunOf_width_nonneg (env : Environment) (s : LineBuilder) (inlineItem : InlineItem)
    (logicalWidth : InlineLayoutUnit) (hwidth : 0 ≤ logicalWidth) :
    0 ≤ (textRunOf env s inlineItem logicalWidth).logicalWidth := by
  unfold textRunOf
  simp only
  split_ifs <;>
    simp [InlineItemRun.logicalWidth, InlineItemRun.setCollapsesToZeroAdvanceWidth,
      InlineItemRun.setIsCollapsed, hwidth]

/-- The sum invariant is kept by `appendTextContent` of a non-negative
width. -/
theorem TrimmableSumInvariant.push_text_item (env : Environment) (s : LineBuilder)
    (inlineItem : InlineItem) (logicalWidth : InlineLayoutUnit) (hinv : Invariant env s)
    (hwidth : TrimmableWidthInvariant s) (hsum : TrimmableSumInvariant s)
    (htext : inlineItem.isText = true) (hnonneg : 0 ≤ logicalWidth) :
    TrimmableSumInvariant (appendTextContent env s inlineItem logicalWidth) := by
  have hruns := appendTextContent_runs env s inlineItem logicalWidth
  have hisText := textRunOf_isText env s inlineItem logicalWidth htext
  by_cases htws : (textRunOf env s inlineItem logicalWidth).isTrimmableWhitespace env.o = true
  · have htc : (appendTextContent env s inlineItem logicalWidth).m_trimmableContent
        = { m_width :=
              s.m_trimmableContent.m_width
                + max 0 (textRunOf env s inlineItem logicalWidth).logicalWidth
            m_lastRunIsFullyTrimmable := true
            m_firstRunIndex :=
              some (s.m_trimmableContent.m_firstRunIndex.getD s.m_inlineItemRuns.length) } := by
      simp [appendTextContent, htws, TrimmableContent.append_last]
    have hws := (isWhitespace_of_isTrimmableWhitespace env.o _ htws).1
    have hamount : trimmableAmount (textRunOf env s inlineItem logicalWidth)
        = (textRunOf env s inlineItem logicalWidth).logicalWidth := by
      simp [trimmableAmount, hisText, hws]
    have hmax : max 0 (textRunOf env s inlineItem logicalWidth).logicalWidth
        = (textRunOf env s inlineItem logicalWidth).logicalWidth :=
      max_eq_right (textRunOf_width_nonneg env s inlineItem logicalWidth hnonneg)
    intro f hf
    rw [htc] at hf ⊢
    simp only [Option.some.injEq] at hf
    rw [hruns, hmax]
    cases hold : s.m_trimmableContent.m_firstRunIndex with
    | none =>
      rw [hold] at hf
      simp only [Option.getD_none] at hf
      subst hf
      simp only [hwidth.empty hold, List.drop_left, List.map_cons, List.map_nil, List.sum_cons,
        List.sum_nil, hamount]
      ring
    | some g =>
      rw [hold] at hf
      simp only [Option.getD_some] at hf
      subst hf
      rw [List.drop_append_of_le_length (hinv.first_lt g hold).le]
      simp only [List.map_append, List.sum_append, List.map_cons, List.map_nil, List.sum_cons,
        List.sum_nil, hamount, add_zero]
      rw [hsum g hold]
  · simp only [Bool.not_eq_true] at htws
    by_cases hls : (textRunOf env s inlineItem logicalWidth).hasTrailingLetterSpacing = true
    · have htc : (appendTextContent env s inlineItem logicalWidth).m_trimmableContent
          = { m_width := (textRunOf env s inlineItem logicalWidth).trailingLetterSpacing
              m_lastRunIsFullyTrimmable := false
              m_firstRunIndex := some s.m_inlineItemRuns.length } := by
        have hspacing := trailingLetterSpacing_nonneg (textRunOf env s inlineItem logicalWidth)
        cases hold : s.m_trimmableContent.m_firstRunIndex with
        | none =>
          have hzero := hwidth.empty hold
          simp [appendTextContent, htws, hls, TrimmableContent.append_last,
            TrimmableContent.isEmpty, hold, hzero, max_eq_right hspacing]
        | some f =>
          simp [appendTextContent, htws, hls, TrimmableContent.append_last,
            TrimmableContent.isEmpty, TrimmableContent.reset, hold, max_eq_right hspacing]
      have hws : (textRunOf env s inlineItem logicalWidth).isWhitespace = false := by
        simp only [InlineItemRun.hasTrailingLetterSpacing, Bool.and_eq_true,
          Bool.not_eq_true'] at hls
        exact hls.1
      have hamount : trimmableAmount (textRunOf env s inlineItem logicalWidth)
          = (textRunOf env s inlineItem logicalWidth).trailingLetterSpacing := by
        simp [trimmableAmount, hisText, hws]
      intro f hf
      rw [htc] at hf ⊢
      simp only [Option.some.injEq] at hf
      subst hf
      rw [hruns]
      simp only [List.drop_left, List.map_cons, List.map_nil, List.sum_cons, List.sum_nil,
        hamount, add_zero]
    · simp only [Bool.not_eq_true] at hls
      apply TrimmableSumInvariant.of_empty
      cases hold : s.m_trimmableContent.m_firstRunIndex with
      | none =>
        simp [appendTextContent, htws, hls, TrimmableContent.isEmpty, hold]
      | some f =>
        simp [appendTextContent, htws, hls, TrimmableContent.isEmpty, hold,
          TrimmableContent.reset]

end LineBuilder

namespace LineBuilder

/-- The sum invariant is kept by `trimTrailingLetterSpacing`: either nothing
changes, or the trimmable content ends empty. -/
theorem TrimmableSumInvariant.trim_spacing (env : Environment) (s : LineBuilder)
    (hinv : Invariant env s) (hsum : TrimmableSumInvariant s) :
    TrimmableSumInvariant (trimTrailingLetterSpacing s) := by
  have hkeep : (trimTrailingLetterSpacing s).m_trimmableContent = s.m_trimmableContent →
      (trimTrailingLetterSpacing s).m_inlineItemRuns = s.m_inlineItemRuns →
      TrimmableSumInvariant (trimTrailingLetterSpacing s) := by
    intro htrim hruns f hf
    rw [htrim] at hf ⊢
    rw [hruns]
    exact hsum f hf
  by_cases hp : s.m_trimmableContent.isTrailingRunPartiallyTrimmable = true
  swap
  · have hsame : trimTrailingLetterSpacing s = s := by
      unfold trimTrailingLetterSpacing
      simp only [hp, Bool.not_false, if_true]
    exact hkeep (by rw [hsame]) (by rw [hsame])
  have hp2 := hp
  simp only [TrimmableContent.isTrailingRunPartiallyTrimmable, TrimmableContent.isEmpty,
    TrimmableContent.isTrailingRunFullyTrimmable, Bool.and_eq_true, Bool.not_eq_true',
    Bool.not_eq_false'] at hp2
  obtain ⟨hsome, hfully⟩ := hp2
  obtain ⟨f, hf⟩ := Option.isSome_iff_exists.mp hsome
  obtain ⟨⟨run, hrun, htext, hws⟩, _⟩ := hinv.partially hfully f hf
  have hlt := hinv.first_lt f hf
  obtain ⟨n, hn⟩ : ∃ n, s.m_inlineItemRuns.length = n + 1 :=
    ⟨s.m_inlineItemRuns.length - 1, by omega⟩
  by_cases hfn : f ≥ n
  · have hfeq : f = n := by omega
    subst hfeq
    apply TrimmableSumInvariant.of_empty
    unfold trimTrailingLetterSpacing
    simp only [hp, Bool.not_true, Bool.false_eq_true, if_false]
    simp only [TrimmableContent.trimTrailingRun, hf, hn, TrimmableContent.trimTrailingRunFrom,
      ge_iff_le, le_refl, if_true, hrun, htext, hws, Bool.not_true, Bool.false_eq_true,
      if_false]
  · apply hkeep
    · unfold trimTrailingLetterSpacing
      simp only [hp, Bool.not_true, Bool.false_eq_true, if_false]
      simp only [TrimmableContent.trimTrailingRun, hf, hn, TrimmableContent.trimTrailingRunFrom,
        hfn, if_false]
    · unfold trimTrailingLetterSpacing
      simp only [hp, Bool.not_true, Bool.false_eq_true, if_false]
      simp only [TrimmableContent.trimTrailingRun, hf, hn, TrimmableContent.trimTrailingRunFrom,
        hfn, if_false]

/-- The sum invariant is kept by every append of a non-negative width. -/
theorem TrimmableSumInvariant.push_item (env : Environment) (s : LineBuilder)
    (inlineItem : InlineItem) (logicalWidth : InlineLayoutUnit) (hinv : Invariant env s)
    (hwidth : TrimmableWidthInvariant s) (hsum : TrimmableSumInvariant s)
    (hnonneg : 0 ≤ logicalWidth) :
    TrimmableSumInvariant (LineBuilder.append env s inlineItem logicalWidth) := by
  have hnote : ∀ s1 : LineBuilder, TrimmableSumInvariant s1 →
      TrimmableSumInvariant (noteVisuallyNonEmpty env s1) := by
    intro s1 h f hf
    rw [noteVisuallyNonEmpty_trimmableContent] at hf ⊢
    rw [noteVisuallyNonEmpty_runs]
    exact h f hf
  unfold LineBuilder.append
  apply hnote
  unfold appendByKind
  split_ifs with htext hbreak hstart hend hreplaced hbox
  · exact TrimmableSumInvariant.push_text_item env s inlineItem logicalWidth hinv hwidth hsum
      htext hnonneg
  · unfold appendLineBreak
    split_ifs
    · exact TrimmableSumInvariant.push_other env s _ _ hinv hsum rfl rfl
        (by simpa [InlineItemRun.isText] using htext)
    · exact TrimmableSumInvariant.push_other env s _ _ hinv hsum rfl rfl
        (by simpa [InlineItemRun.isText] using htext)
  · exact TrimmableSumInvariant.push_other env s _ _ hinv hsum rfl rfl
      (by simpa [InlineItemRun.isText] using htext)
  · exact TrimmableSumInvariant.push_other env (LineBuilder.trimTrailingLetterSpacing s) _ _
      (Invariant.trimTrailingLetterSpacing env s hinv)
      (TrimmableSumInvariant.trim_spacing env s hinv hsum) rfl rfl
      (by simpa [InlineItemRun.isText] using htext)
  · exact TrimmableSumInvariant.of_empty _ rfl
  · exact TrimmableSumInvariant.of_empty _ rfl
  · exact hsum

/-- The sum invariant holds after any sequence of appends of non-negative
widths to a line that satisfies it. -/
theorem TrimmableSumInvariant.push_items (env : Environment)
    (items : List (InlineItem × InlineLayoutUnit)) :
    ∀ s : LineBuilder, Invariant env s → TrimmableWidthInvariant s → TrimmableSumInvariant s →
      (∀ item ∈ items, 0 ≤ item.2) →
      TrimmableSumInvariant (LineBuilder.appendAll env s items) := by
  induction items with
  | nil => intro s _ _ hsum _; exact hsum
  | cons item rest ih =>
    intro s hinv hwidth hsum hnonneg
    exact ih _ (Invariant.append env s item.1 item.2 hinv)
      (TrimmableWidthInvariant.push env s item.1 item.2 hinv hwidth)
      (TrimmableSumInvariant.push_item env s item.1 item.2 hinv hwidth hsum
        (hnonneg item (List.mem_cons_self _ _)))
      (fun later hlater => hnonneg later (List.mem_cons_of_mem _ hlater))

/-- C40: the trailing trimmable width a line reports while it is open is what
`close()` trims. For every line (a builder in any prior state, initialized and
then fed any sequence of items whose widths are not negative) whose trimmable
content is not empty, `TrimmableContent::trim()` returns the value
`trailingTrimmableWidth()` has before the call (the assertion
`accumulatedTrimmedWidth == width()` holds), and the trimming step of `close()`
shrinks the line box by exactly that amount. -/
theorem trim_returns_trailingTrimmableWidth (env : Environment) (s : LineBuilder)
    (constraints : Constraints) (items : List (InlineItem × InlineLayoutUnit))
    (hnonneg : ∀ item ∈ items, 0 ≤ item.2)
    (hnonempty : (LineBuilder.openLine env s constraints items).m_trimmableContent.isEmpty
      = false) :
    (TrimmableContent.trim (LineBuilder.openLine env s constraints items).m_inlineItemRuns
        (LineBuilder.openLine env s constraints items).m_trimmableContent).2.2
        = (LineBuilder.openLine env s constraints items).trailingTrimmableWidth
      ∧ (removeTrailingTrimmableContent env
          (LineBuilder.openLine env s constraints items)).contentLogicalWidth
        = (LineBuilder.openLine env s constraints items).contentLogicalWidth
          - (LineBuilder.openLine env s constraints items).trailingTrimmableWidth := by
  have hinv := Invariant.openLine env s constraints items
  have hsum : TrimmableSumInvariant (LineBuilder.openLine env s constraints items) :=
    TrimmableSumInvariant.push_items env items _ (Invariant.initial env s constraints)
      (TrimmableWidthInvariant.of_initialize s constraints)
      (TrimmableSumInvariant.of_fresh s constraints) hnonneg
  generalize LineBuilder.openLine env s constraints items = line at hinv hsum hnonempty ⊢
  obtain ⟨f, hf⟩ : ∃ f, line.m_trimmableContent.m_firstRunIndex = some f := by
    simp only [TrimmableContent.isEmpty, Bool.not_eq_false'] at hnonempty
    exact Option.isSome_iff_exists.mp hnonempty
  have hreturned : (TrimmableContent.trim line.m_inlineItemRuns line.m_trimmableContent).2.2
      = line.trailingTrimmableWidth := by
    rw [TrimmableContent.trim_returned _ _ f hf]
    exact (hsum f hf).symm
  refine ⟨hreturned, ?_⟩
  have hlt := hinv.first_lt f hf
  have hruns : line.m_inlineItemRuns.isEmpty = false := by
    cases hlist : line.m_inlineItemRuns with
    | nil => rw [hlist] at hlt; simp at hlt
    | cons run rest => rfl
  rw [← hreturned]
  unfold removeTrailingTrimmableContent
  simp only [hnonempty, hruns, Bool.or_self, Bool.false_eq_true, if_false]
  split_ifs <;>
    simp [contentLogicalWidth, Display.LineBox.logicalWidth, Display.LineBox.shrinkHorizontally,
      Display.LineBox.expandHorizontally, Display.InlineRect.expandHorizontally,
      Display.LineBox.setIsConsideredEmpty, sub_eq_add_neg]

end LineBuilder

namespace LineBuilder

theorem trim_returns_trailingTrimmableWidth_witness :
    (LineBuilder.openLine Sample.environment Sample.builder Sample.constraints
        Sample.fooBarLine).trailingTrimmableWidth = 10
      ∧ (TrimmableContent.trim
          (LineBuilder.openLine Sample.environment Sample.builder Sample.constraints
            Sample.fooBarLine).m_inlineItemRuns
          (LineBuilder.openLine Sample.environment Sample.builder Sample.constraints
            Sample.fooBarLine).m_trimmableContent).2.2
        = (LineBuilder.openLine Sample.environment Sample.builder Sample.constraints
            Sample.fooBarLine).trailingTrimmableWidth
      ∧ (removeTrailingTrimmableContent Sample.environment
          (LineBuilder.openLine Sample.environment Sample.builder Sample.constraints
            Sample.fooBarLine)).contentLogicalWidth
        = (LineBuilder.openLine Sample.environment Sample.builder Sample.constraints
            Sample.fooBarLine).contentLogicalWidth
          - (LineBuilder.openLine Sample.environment Sample.builder Sample.constraints
              Sample.fooBarLine).trailingTrimmableWidth :=
  ⟨by decide,
    trim_returns_trailingTrimmableWidth Sample.environment Sample.builder Sample.constraints
      Sample.fooBarLine (by decide) (by decide)⟩

end LineBuilder

namespace LineBuilder

/-! ### The text ranges of merged runs -/

theorem coversFrom_append (group : List InlineItemRun) (run : InlineItemRun) :
    ∀ start : Nat,
      coversFrom start (group ++ [run])
        ↔ coversFrom start group
          ∧ run.textRange
              = some (start + (group.map ContinousContent.textLengthOf).sum,
                  ContinousContent.textLengthOf run) := by
  induction group with
  | nil => intro start; simp [coversFrom]
  | cons first rest ih =>
    intro start
    show (first.textRange = some (start, ContinousContent.textLengthOf first)
        ∧ coversFrom (start + ContinousContent.textLengthOf first) (rest ++ [run])) ↔ _
    rw [ih]
    simp only [coversFrom, List.map_cons, List.sum_cons, and_assoc, Nat.add_assoc]

/-- The last run of a group whose ranges follow one another ends where the
group ends. -/
theorem coversFrom_getLast (group : List InlineItemRun) (start : Nat) (last : InlineItemRun)
    (hcovers : coversFrom start group) (hlast : group.getLast? = some last) :
    ∃ position, last.textRange = some (position, ContinousContent.textLengthOf last)
      ∧ position + ContinousContent.textLengthOf last
          = start + (group.map ContinousContent.textLengthOf).sum := by
  have hsplit : group.dropLast ++ [last] = group := List.dropLast_append_getLast? last hlast
  rw [← hsplit] at hcovers ⊢
  obtain ⟨_, hrange⟩ := (coversFrom_append _ _ _).mp hcovers
  refine ⟨_, hrange, ?_⟩
  simp only [List.map_append, List.sum_append, List.map_cons, List.map_nil, List.sum_cons,
    List.sum_nil, Nat.add_zero, Nat.add_assoc]

theorem textRange_eq_some (run : InlineItemRun) (position length : Nat)
    (h : run.textRange = some (position, length)) :
    ∃ textContext, run.m_textContext = some textContext ∧ textContext.start = position
      ∧ textContext.length = length := by
  unfold InlineItemRun.textRange at h
  cases htc : run.m_textContext with
  | none => rw [htc] at h; cases h
  | some textContext =>
    rw [htc] at h
    simp only [Option.map_some', Option.some.injEq, Prod.mk.injEq] at h
    exact ⟨textContext, rfl, h.1, h.2⟩

theorem textRange_of_textContext (run : InlineItemRun)
    (textContext : Display.TextContext InlineLayoutUnit)
    (h : run.m_textContext = some textContext) :
    run.textRange = some (textContext.start, ContinousContent.textLengthOf run)
      ∧ ContinousContent.textLengthOf run = textContext.length := by
  simp [InlineItemRun.textRange, ContinousContent.textLengthOf, InlineItemRun.textContext, h]

theorem canBeExpanded_iff (run : InlineItemRun) :
    ContinousContent.canBeExpanded run = true
      ↔ run.isText = true ∧ run.isCollapsed = false
        ∧ run.isCollapsedToZeroAdvanceWidth = false := by
  simp [ContinousContent.canBeExpanded, and_assoc]

/-- What a successful `ContinousContent::append` has checked and recorded. -/
theorem ContinousContent.append_some (c merged : ContinousContent) (run : InlineItemRun)
    (h : c.append run = some merged) :
    c.m_trailingRunCanBeExpanded = true
      ∧ (run.isText = true ∧ run.isCollapsedToZeroAdvanceWidth = false
          ∧ c.m_initialInlineRun.layoutBox.id = run.layoutBox.id)
      ∧ merged.m_initialInlineRun = c.m_initialInlineRun
      ∧ merged.m_expandedLength = c.m_expandedLength + ContinousContent.textLengthOf run
      ∧ merged.m_trailingRunCanBeExpanded = ContinousContent.canBeExpanded run := by
  unfold ContinousContent.append at h
  by_cases htrailing : c.m_trailingRunCanBeExpanded = true
  swap
  · simp [htrailing] at h
  by_cases hmerge : c.canBeMerged run = true
  swap
  · simp [htrailing, hmerge] at h
  simp only [htrailing, hmerge, Bool.not_true, Bool.false_eq_true, if_false] at h
  have hfacts : run.isText = true ∧ run.isCollapsedToZeroAdvanceWidth = false
      ∧ c.m_initialInlineRun.layoutBox.id = run.layoutBox.id := by
    simpa [ContinousContent.canBeMerged, and_assoc] using hmerge
  refine ⟨htrailing, hfacts, ?_⟩
  split_ifs at h <;>
    (simp only [Option.some.injEq] at h
     subst h
     exact ⟨rfl, rfl, rfl⟩)

end LineBuilder

namespace LineBuilder

/-- A continuous content that has just been started is filling the group of
its initial run. -/
theorem Filling.of_start (run : InlineItemRun) (textIsAlignJustify : Bool)
    (hcovers : run.coversItem) :
    Filling (ContinousContent.start run textIsAlignJustify) [run] := by
  refine ⟨[], rfl, rfl, ⟨run, rfl, rfl⟩, ?_, ?_, ?_⟩
  · intro other hmem
    simp at hmem
  · intro other hmem
    simp at hmem
  · intro htext
    obtain ⟨textContext, htc, _, _⟩ := hcovers htext
    exact ⟨textContext.start, (textRange_of_textContext run textContext htc).1, trivial⟩

/-- Extending the continuous content by a run extends the group it is
filling. -/
theorem Filling.extend (c merged : ContinousContent) (group : List InlineItemRun)
    (run : InlineItemRun) (hfilling : Filling c group) (happend : c.append run = some merged)
    (hgroup : ∀ other ∈ group, other.coversItem) (hrun : run.coversItem)
    (hordered : ∀ last, group.getLast? = some last →
      inContentOrder last.m_inlineItem run.m_inlineItem = true) :
    Filling merged (group ++ [run]) := by
  obtain ⟨tail, hshape, hlength, ⟨last, hlast, htrailing⟩, hbefore, htail, hranges⟩ := hfilling
  obtain ⟨hcan, ⟨hrunText, hrunZero, hrunBox⟩, hinitial, hexpanded, hmergedTrailing⟩ :=
    ContinousContent.append_some c merged run happend
  have hlastCan : ContinousContent.canBeExpanded last = true := by rw [← htrailing]; exact hcan
  obtain ⟨hlastText, hlastCollapsed, _⟩ := (canBeExpanded_iff last).mp hlastCan
  have hsplit : group.dropLast ++ [last] = group := List.dropLast_append_getLast? last hlast
  have hall : ∀ other ∈ group, ContinousContent.canBeExpanded other = true := by
    intro other hmem
    rw [← hsplit] at hmem
    rcases List.mem_append.mp hmem with h | h
    · exact hbefore other h
    · simp only [List.mem_singleton] at h
      rw [h]
      exact hlastCan
  have hlastMem : last ∈ group := by
    rw [← hsplit]
    simp
  have hlastBox : last.layoutBox.id = c.m_initialInlineRun.layoutBox.id := by
    rw [hshape] at hlastMem
    rcases List.mem_cons.mp hlastMem with h | h
    · rw [h]
    · exact (htail last h).2.2
  refine ⟨tail ++ [run], ?_, ?_, ⟨run, by simp, hmergedTrailing⟩, ?_, ?_, ?_⟩
  · rw [hinitial, hshape]
    rfl
  · rw [hexpanded, hlength]
    simp
  · intro other hmem
    rw [List.dropLast_concat] at hmem
    exact hall other hmem
  · intro other hmem
    rw [hinitial]
    rcases List.mem_append.mp hmem with h | h
    · exact htail other h
    · simp only [List.mem_singleton] at h
      rw [h]
      exact ⟨hrunText, hrunZero, hrunBox.symm⟩
  · intro hfirstText
    rw [hinitial] at hfirstText
    obtain ⟨start, hcovers⟩ := hranges hfirstText
    refine ⟨start, (coversFrom_append group run start).mpr ⟨hcovers, ?_⟩⟩
    obtain ⟨position, hlastRange, hend⟩ := coversFrom_getLast group start last hcovers hlast
    obtain ⟨lastContext, hlastContext, hlastStart, hlastLength⟩ :=
      textRange_eq_some last _ _ hlastRange
    obtain ⟨lastContext2, hlastContext2, hitemStart, hitemLength⟩ :=
      hgroup last hlastMem hlastText
    rw [hlastContext] at hlastContext2
    simp only [Option.some.injEq] at hlastContext2
    subst hlastContext2
    obtain ⟨runContext, hrunContext, hrunStart, _⟩ := hrun hrunText
    have horder := hordered last hlast
    have hfollows : run.m_inlineItem.start = last.m_inlineItem.start + last.m_inlineItem.length := by
      have hsame : last.m_inlineItem.layoutBox.id = run.m_inlineItem.layoutBox.id := by
        have h1 : last.layoutBox.id = run.layoutBox.id := by rw [hlastBox, hrunBox]
        exact h1
      have hlt : last.m_inlineItem.isText = true := hlastText
      have hrt : run.m_inlineItem.isText = true := hrunText
      simpa [inContentOrder, hlt, hrt, hsame] using horder
    obtain ⟨hrange, _⟩ := textRange_of_textContext run runContext hrunContext
    rw [hrange, ← hend, hrunStart, hfollows, ← hitemStart, ← hitemLength hlastCollapsed,
      hlastStart, hlastLength]

end LineBuilder

namespace LineBuilder

/-- The display run of a committed run has its box and its text range. -/
theorem ContinousContent.runOf_textRange (flags : ExpansionFlags) (run : InlineItemRun) :
    (ContinousContent.runOf flags run).m_layoutBox = run.layoutBox
      ∧ (ContinousContent.runOf flags run).textRange = run.textRange := by
  refine ⟨rfl, ?_⟩
  unfold ContinousContent.runOf Run.textRange InlineItemRun.textRange
  simp only [InlineItemRun.textContext]
  cases htc : run.m_textContext with
  | none => by_cases hexp : run.hasExpansionOpportunity = true <;> simp [hexp]
  | some textContext =>
    by_cases hexp : run.hasExpansionOpportunity = true <;>
      simp [hexp, Display.TextContext.setExpansion]

/-- The text range of the display run a continuous content that was extended
closes to: it starts where the text context of the initial run starts and has
the length of that context plus the expanded length. -/
theorem ContinousContent.close_textRange (flags : ExpansionFlags) (c : ContinousContent)
    (textContext : Display.TextContext InlineLayoutUnit)
    (htc : c.m_initialInlineRun.m_textContext = some textContext)
    (hexpanded : c.m_expandedLength ≠ 0) :
    (c.close flags).m_layoutBox = c.m_initialInlineRun.layoutBox
      ∧ (c.close flags).textRange
          = some (textContext.start, textContext.length + c.m_expandedLength) := by
  unfold ContinousContent.close
  rw [if_neg hexpanded]
  refine ⟨rfl, ?_⟩
  simp only [Run.textRange, InlineItemRun.textContext, htc]
  by_cases hjustify : c.m_textIsAlignJustify = true <;>
    simp [hjustify, Display.TextContext.setExpansion, Display.TextContext.expand]

/-- The display run a continuous content closes to is merged from the group
the content was filling. -/
theorem Filling.merged (flags : ExpansionFlags) (c : ContinousContent)
    (group : List InlineItemRun) (hfilling : Filling c group) :
    MergedFrom group (c.close flags) := by
  obtain ⟨tail, hshape, hlength, ⟨last, hlast, _⟩, hbefore, htail, hranges⟩ := hfilling
  have hbox : (c.close flags).m_layoutBox = c.m_initialInlineRun.layoutBox := by
    unfold ContinousContent.close
    split_ifs <;> rfl
  refine ⟨c.m_initialInlineRun, tail, hshape, hbox, ?_, ?_⟩
  · intro hnil
    have hzero : c.m_expandedLength = 0 := by rw [hlength, hnil]; rfl
    unfold ContinousContent.close
    rw [if_pos hzero]
    exact (ContinousContent.runOf_textRange flags _).2
  · intro hne
    have hfirstMem : c.m_initialInlineRun ∈ group.dropLast := by
      rw [hshape]
      cases tail with
      | nil => exact absurd rfl hne
      | cons second rest => simp [List.dropLast]
    obtain ⟨hfirstText, _, hfirstZero⟩ :=
      (canBeExpanded_iff _).mp (hbefore _ hfirstMem)
    obtain ⟨start, hcovers⟩ := hranges hfirstText
    refine ⟨⟨start, hcovers, ?_⟩, ?_, ?_⟩
    · have hfirstRange : c.m_initialInlineRun.textRange
          = some (start, ContinousContent.textLengthOf c.m_initialInlineRun) := by
        rw [hshape] at hcovers
        exact hcovers.1
      obtain ⟨textContext, htc, hstart, hlen⟩ := textRange_eq_some _ _ _ hfirstRange
      have hsum : (group.map ContinousContent.textLengthOf).sum
          = textContext.length + c.m_expandedLength := by
        rw [hshape, hlength, hlen]
        simp
      rw [hsum]
      by_cases hzero : c.m_expandedLength = 0
      · unfold ContinousContent.close
        rw [if_pos hzero, (ContinousContent.runOf_textRange flags _).2, hfirstRange, hzero,
          hlen]
        rfl
      · rw [(ContinousContent.close_textRange flags c textContext htc hzero).2, hstart]
    · intro run hmem
      rw [hshape] at hmem
      rcases List.mem_cons.mp hmem with h | h
      · rw [h]
        exact ⟨hfirstText, hfirstZero, rfl⟩
      · exact htail run h
    · intro run hmem
      exact ((canBeExpanded_iff run).mp (hbefore run hmem)).2.1

end LineBuilder

namespace LineBuilder

/-- The merging loops of `close` cut the committed runs into groups of
consecutive runs, one group per display run, and each display run is merged
from its group. `group` holds the runs already merged into the continuous
content being filled. -/
theorem mergeRuns_groups (flags : ExpansionFlags) (textIsAlignJustify : Bool)
    (runs : List InlineItemRun) :
    ∀ (current : Option ContinousContent) (group : List InlineItemRun),
      (∀ run ∈ group ++ runs, run.coversItem) →
      List.Chain' (fun a b => inContentOrder a.m_inlineItem b.m_inlineItem = true)
        (group ++ runs) →
      (match current with
        | none => group = []
        | some continousContent => Filling continousContent group) →
      ∃ groups : List (List InlineItemRun), groups.flatten = group ++ runs
        ∧ List.Forall₂ MergedFrom groups (mergeRuns flags textIsAlignJustify current runs) := by
  induction runs with
  | nil =>
    intro current group _ _ hcurrent
    cases current with
    | none =>
      simp only at hcurrent
      subst hcurrent
      exact ⟨[], by simp, by simp [mergeRuns]⟩
    | some continousContent =>
      simp only at hcurrent
      refine ⟨[group], by simp, ?_⟩
      rw [mergeRuns]
      exact List.Forall₂.cons (Filling.merged flags continousContent group hcurrent)
        List.Forall₂.nil
  | cons run rest ih =>
    intro current group hcovers hchain hcurrent
    have hrun : run.coversItem := hcovers run (by simp)
    have hrestCovers : ∀ other ∈ [run] ++ rest, other.coversItem := by
      intro other hmem
      exact hcovers other (List.mem_append_right _ (by simpa using hmem))
    have hrestChain : List.Chain' (fun a b => inContentOrder a.m_inlineItem b.m_inlineItem = true)
        ([run] ++ rest) := (List.chain'_append.mp hchain).2.1
    cases current with
    | none =>
      simp only at hcurrent
      subst hcurrent
      rw [mergeRuns]
      obtain ⟨groups, hjoin, hmerged⟩ := ih (some (ContinousContent.start run textIsAlignJustify))
        [run] hrestCovers hrestChain (Filling.of_start run textIsAlignJustify hrun)
      exact ⟨groups, by simpa using hjoin, hmerged⟩
    | some continousContent =>
      simp only at hcurrent
      rw [mergeRuns]
      cases happend : continousContent.append run with
      | some merged =>
        simp only
        have hassoc : (group ++ [run]) ++ rest = group ++ run :: rest := by simp
        have hfilling : Filling merged (group ++ [run]) := by
          refine Filling.extend continousContent merged group run hcurrent happend
            (fun other hmem => hcovers other (List.mem_append_left _ hmem)) hrun ?_
          intro last hlast
          exact (List.chain'_append.mp hchain).2.2 last (by simpa using hlast) run (by simp)
        obtain ⟨groups, hjoin, hmerged⟩ := ih (some merged) (group ++ [run])
          (by rw [hassoc]; exact hcovers) (by rw [hassoc]; exact hchain) hfilling
        exact ⟨groups, by rw [hjoin, hassoc], hmerged⟩
      | none =>
        simp only
        obtain ⟨groups, hjoin, hmerged⟩ :=
          ih (some (ContinousContent.start run textIsAlignJustify)) [run] hrestCovers hrestChain
            (Filling.of_start run textIsAlignJustify hrun)
        refine ⟨group :: groups, ?_, ?_⟩
        · rw [List.flatten_cons, hjoin]
          simp
        · exact List.Forall₂.cons (Filling.merged flags continousContent group hcurrent) hmerged

end LineBuilder

namespace LineBuilder

/-! ### The alignment passes keep the text ranges -/

theorem sameRange_self {U : Type} (run : Run U) : Run.SameRange run run :=
  ⟨rfl, rfl⟩

theorem sameRange_trans {U : Type} (a b c : Run U) (hab : Run.SameRange a b)
    (hbc : Run.SameRange b c) : Run.SameRange a c :=
  ⟨hbc.1.trans hab.1, hbc.2.trans hab.2⟩

theorem sameRange_moveHorizontally {U : Type} [Add U] (run : Run U) (offset : U) :
    Run.SameRange run (run.moveHorizontally offset) :=
  ⟨rfl, rfl⟩

theorem sameRange_setLogicalHeight {U : Type} (run : Run U) (logicalHeight : U) :
    Run.SameRange run (run.setLogicalHeight logicalHeight) :=
  ⟨rfl, rfl⟩

theorem sameRange_alignRunVertically (env : Environment) (s : LineBuilder)
    (run : Run InlineLayoutUnit) : Run.SameRange run (alignRunVertically env s run) := by
  unfold LineBuilder.alignRunVertically
  exact ⟨rfl, rfl⟩

theorem sameRange_adjustExpansionBehavior {U : Type} (run : Run U)
    (expansionBehavior : Display.ExpansionBehavior) :
    Run.SameRange run (run.adjustExpansionBehavior expansionBehavior) := by
  unfold Run.adjustExpansionBehavior
  cases htc : run.m_textContext with
  | none => exact sameRange_self run
  | some textContext =>
    simp only
    cases hexp : textContext.expansion with
    | none => exact sameRange_self run
    | some expansion =>
      refine ⟨rfl, ?_⟩
      simp [Run.textRange, htc, Display.TextContext.setExpansion]

theorem sameRange_setComputedHorizontalExpansion {U : Type} [Add U] (run : Run U)
    (logicalExpansion : U) :
    Run.SameRange run (run.setComputedHorizontalExpansion logicalExpansion) := by
  unfold Run.setComputedHorizontalExpansion
  cases htc : run.m_textContext with
  | none =>
    simp only
    exact ⟨rfl, by simp [Run.textRange, htc]⟩
  | some textContext =>
    simp only
    cases hexp : textContext.expansion with
    | none => exact ⟨rfl, by simp [Run.textRange, htc]⟩
    | some expansion =>
      exact ⟨rfl, by simp [Run.textRange, htc, Display.TextContext.setExpansion]⟩

theorem forall₂_sameRange_refl {U : Type} (runList : List (Run U)) :
    List.Forall₂ Run.SameRange runList runList :=
  List.forall₂_same.mpr (fun run _ => sameRange_self run)

theorem forbidTrailingExpansionOfLastRun_sameRange {U : Type} (flags : ExpansionFlags)
    (runList : List (Run U)) :
    List.Forall₂ Run.SameRange runList (forbidTrailingExpansionOfLastRun flags runList) := by
  unfold forbidTrailingExpansionOfLastRun
  cases hlast : runList.getLast? with
  | none => exact forall₂_sameRange_refl runList
  | some lastRun =>
    simp only
    split
    · have hsplit : runList.dropLast ++ [lastRun] = runList :=
        List.dropLast_append_getLast? lastRun hlast
      conv => lhs; rw [← hsplit]
      exact List.rel_append (forall₂_sameRange_refl _)
        (List.Forall₂.cons (sameRange_adjustExpansionBehavior lastRun _) List.Forall₂.nil)
    · exact forall₂_sameRange_refl runList

theorem distributeExpansion_sameRange {U : Type} [LinearOrderedRing U]
    (expansionToDistribute : U) (runList : List (Run U)) :
    ∀ accumulatedExpansion : U,
      List.Forall₂ Run.SameRange runList
        (distributeExpansion expansionToDistribute runList accumulatedExpansion) := by
  induction runList with
  | nil => intro _; exact List.Forall₂.nil
  | cons run rest ih =>
    intro accumulated
    unfold distributeExpansion
    by_cases h : run.hasExpansionOpportunity = true
    · simp only [h, Bool.not_true, Bool.false_eq_true, if_false]
      exact List.Forall₂.cons
        (sameRange_trans _ _ _ (sameRange_setComputedHorizontalExpansion run _)
          (sameRange_moveHorizontally _ _))
        (ih _)
    · simp only [h, Bool.not_false, if_true]
      exact List.Forall₂.cons (sameRange_moveHorizontally _ _) (ih _)

theorem justifyRuns_sameRange {U : Type} [LinearOrderedRing U] [Div U]
    (flags : ExpansionFlags) (availableWidth : U) (runList : List (Run U)) :
    List.Forall₂ Run.SameRange runList (justifyRuns flags availableWidth runList) := by
  unfold justifyRuns
  simp only
  split
  · exact forbidTrailingExpansionOfLastRun_sameRange flags runList
  · exact forall₂_trans Run.SameRange sameRange_trans
      (forbidTrailingExpansionOfLastRun_sameRange flags runList)
      (distributeExpansion_sameRange _ _ _)

theorem alignContentHorizontally_sameRange {U : Type} [LinearOrderedRing U] [Div U]
    (flags : ExpansionFlags) (horizontalAlignment : Option TextAlignMode) (availableWidth : U)
    (runList : List (Run U)) (lastLine : IsLastLineWithInlineContent) :
    List.Forall₂ Run.SameRange runList
      (alignContentHorizontally flags horizontalAlignment availableWidth runList lastLine) := by
  unfold alignContentHorizontally
  split
  · exact forall₂_sameRange_refl runList
  · split
    · split
      · exact justifyRuns_sameRange flags availableWidth runList
      · exact forall₂_sameRange_refl runList
    · split
      · exact forall₂_sameRange_refl runList
      · exact forall₂_map_self Run.SameRange _ (fun run => sameRange_moveHorizontally run _) _

/-- The display runs `close` returns have the boxes and the text ranges of the
merged runs. -/
theorem close_sameRange (env : Environment) (s : LineBuilder)
    (isLastLineWithInlineContent : IsLastLineWithInlineContent) :
    List.Forall₂ Run.SameRange
      (mergeRuns env.fc.flags (removeTrailingTrimmableContent env s).isTextAlignJustify none
        (removeTrailingTrimmableContent env s).m_inlineItemRuns)
      (close env s isLastLineWithInlineContent).1 := by
  unfold close
  simp only
  split
  · refine forall₂_trans Run.SameRange sameRange_trans ?_
      (alignContentHorizontally_sameRange _ _ _ _ _)
    refine forall₂_trans Run.SameRange sameRange_trans ?_
      (forall₂_map_self Run.SameRange _ (fun run => sameRange_alignRunVertically env _ run) _)
    exact forall₂_map_self Run.SameRange _ (fun run => sameRange_setLogicalHeight run _) _
  · exact forall₂_sameRange_refl _

/-- A display run with the box and the text range of a run merged from a group
is merged from that group. -/
theorem MergedFrom.of_sameRange (group : List InlineItemRun)
    (before after : Run InlineLayoutUnit) (hmerged : MergedFrom group before)
    (hsame : Run.SameRange before after) : MergedFrom group after := by
  obtain ⟨first, rest, hshape, hbox, hsingle, hseveral⟩ := hmerged
  refine ⟨first, rest, hshape, hsame.1.trans hbox, ?_, ?_⟩
  · intro hnil
    rw [hsame.2]
    exact hsingle hnil
  · intro hne
    obtain ⟨⟨start, hcovers, hrange⟩, hrest⟩ := hseveral hne
    exact ⟨⟨start, hcovers, by rw [hsame.2]; exact hrange⟩, hrest⟩

theorem forall₂_mergedFrom_of_sameRange (groups : List (List InlineItemRun))
    (before after : List (Run InlineLayoutUnit))
    (hmerged : List.Forall₂ MergedFrom groups before)
    (hsame : List.Forall₂ Run.SameRange before after) :
    List.Forall₂ MergedFrom groups after := by
  induction hmerged generalizing after with
  | nil =>
    cases hsame
    exact List.Forall₂.nil
  | cons hhead _ ih =>
    cases hsame with
    | cons hsameHead hsameRest =>
      exact List.Forall₂.cons (MergedFrom.of_sameRange _ _ _ hhead hsameHead) (ih _ hsameRest)

end LineBuilder

namespace LineBuilder

/-! ### The text context of a committed run and its item -/

theorem coversItem_of_same (a b : InlineItemRun) (hitem : b.m_inlineItem = a.m_inlineItem)
    (hcontext : b.m_textContext = a.m_textContext) (hcollapsed : b.m_isCollapsed = a.m_isCollapsed)
    (h : a.coversItem) : b.coversItem := by
  intro htext
  have hatext : a.isText = true := by rw [← isText_of_item a b hitem]; exact htext
  obtain ⟨textContext, htc, hstart, hlength⟩ := h hatext
  refine ⟨textContext, by rw [hcontext]; exact htc, by rw [hitem]; exact hstart, ?_⟩
  intro hflag
  rw [hitem]
  exact hlength (by rw [← hcollapsed]; exact hflag)

theorem coversItem_of_not_isText (run : InlineItemRun) (h : run.isText = false) :
    run.coversItem := by
  intro htext
  rw [h] at htext
  cases htext

/-- The run `appendTextContent` commits for an item starts where the item
starts, and is as long as the item unless it is flagged collapsed. -/
theorem textRunOf_coversItem (env : Environment) (s : LineBuilder) (inlineItem : InlineItem)
    (logicalWidth : InlineLayoutUnit) :
    (textRunOf env s inlineItem logicalWidth).coversItem := by
  intro _
  unfold textRunOf
  by_cases hcollapsed : (InlineItemRun.itemIsCollapsible env.q inlineItem
      && decide (inlineItem.length > 1)) = true
  · by_cases hzero : willCollapseCompletely env s inlineItem = true <;>
      simp [hcollapsed, hzero, InlineItemRun.setIsCollapsed,
        InlineItemRun.setCollapsesToZeroAdvanceWidth]
  · by_cases hzero : willCollapseCompletely env s inlineItem = true <;>
      simp [hcollapsed, hzero, InlineItemRun.setIsCollapsed,
        InlineItemRun.setCollapsesToZeroAdvanceWidth]

/-- Every committed run of an open line covers its item. -/
theorem appendAll_coversItem (env : Environment)
    (items : List (InlineItem × InlineLayoutUnit)) :
    ∀ s : LineBuilder, Invariant env s →
      (∀ run ∈ s.m_inlineItemRuns, run.coversItem) →
      ∀ run ∈ (LineBuilder.appendAll env s items).m_inlineItemRuns, run.coversItem := by
  induction items with
  | nil => intro s _ h; exact h
  | cons item rest ih =>
    intro s hinv hcovers
    refine ih _ (Invariant.append env s item.1 item.2 hinv) ?_
    have hpush : ∀ (runs : List InlineItemRun) (newRun : InlineItemRun),
        (∀ run ∈ runs, run.coversItem) → newRun.coversItem →
        ∀ run ∈ runs ++ [newRun], run.coversItem := by
      intro runs newRun hruns hnew run hmem
      rcases List.mem_append.mp hmem with h | h
      · exact hruns run h
      · simp only [List.mem_singleton] at h
        subst h
        exact hnew
    have hmarker : ∀ (runs : List InlineItemRun) (newRun : InlineItemRun),
        (∀ run ∈ runs, run.coversItem) → newRun.isText = false →
        ∀ run ∈ runs ++ [newRun], run.coversItem := by
      intro runs newRun hruns hnew
      exact hpush runs newRun hruns (coversItem_of_not_isText newRun hnew)
    unfold LineBuilder.append
    rw [noteVisuallyNonEmpty_runs]
    unfold appendByKind
    by_cases htext : item.1.isText = true
    · rw [if_pos htext, appendTextContent_runs]
      exact hpush _ _ hcovers (textRunOf_coversItem env s item.1 item.2)
    rw [if_neg htext]
    simp only [Bool.not_eq_true] at htext
    split_ifs
    · unfold appendLineBreak
      split_ifs
      · exact hmarker _ _ hcovers (isText_mk _ _ _ _ htext)
      · exact hmarker _ _ hcovers (isText_mk _ _ _ _ htext)
    · exact hmarker _ _ hcovers (isText_mk _ _ _ _ htext)
    · refine hmarker _ _ ?_ (isText_mk _ _ _ _ htext)
      obtain ⟨_, _, _, hlength, hsame, _⟩ := trimTrailingLetterSpacing_spec env s hinv
      intro after hmem
      obtain ⟨i, hi⟩ := List.mem_iff_getElem?.mp hmem
      have hlt : i < s.m_inlineItemRuns.length := by
        rw [← hlength]; exact (List.getElem?_eq_some_iff.mp hi).1
      obtain ⟨after2, hafter2, hitem, _, htc, hflag, _, _⟩ :=
        hsame i _ (List.getElem?_eq_getElem hlt)
      rw [hi] at hafter2
      simp only [Option.some.injEq] at hafter2
      subst hafter2
      exact coversItem_of_same _ after hitem htc hflag (hcovers _ (List.getElem_mem hlt))
    · exact hmarker _ _ hcovers (isText_mk _ _ _ _ htext)
    · exact hmarker _ _ hcovers (isText_mk _ _ _ _ htext)
    · exact hcovers

/-- The trimming step of `close` keeps every run covering its item. -/
theorem removeTrailingTrimmableContent_coversItem (env : Environment) (s : LineBuilder)
    (hcovers : ∀ run ∈ s.m_inlineItemRuns, run.coversItem) :
    ∀ run ∈ (removeTrailingTrimmableContent env s).m_inlineItemRuns, run.coversItem := by
  intro after hmem
  obtain ⟨i, hi⟩ := List.mem_iff_getElem?.mp hmem
  obtain ⟨before, hbefore, hrel, _⟩ := removeTrailingTrimmableContent_origin env s i after hi
  have hb := hcovers before (List.mem_iff_getElem?.mpr ⟨i, hbefore⟩)
  rcases hrel with h | ⟨hitem, htc, hflag, _⟩
  · rw [h]; exact hb
  · exact coversItem_of_same before after hitem htc hflag hb

/-- The trimming step of `close` keeps the items of the committed runs. -/
theorem removeTrailingTrimmableContent_items (env : Environment) (s : LineBuilder) :
    (removeTrailingTrimmableContent env s).m_inlineItemRuns.map (fun run => run.m_inlineItem)
      = s.m_inlineItemRuns.map (fun run => run.m_inlineItem) := by
  obtain ⟨hlength, hspec⟩ := removeTrailingTrimmableContent_spec env s
  apply List.ext_getElem?
  intro i
  rw [List.getElem?_map, List.getElem?_map]
  cases hbefore : s.m_inlineItemRuns[i]? with
  | none =>
    have hge : s.m_inlineItemRuns.length ≤ i := List.getElem?_eq_none_iff.mp hbefore
    rw [List.getElem?_eq_none_iff.mpr (by rw [hlength]; exact hge)]
  | some before =>
    obtain ⟨after, hafter, hrel, _⟩ := hspec i before hbefore
    rw [hafter]
    rcases hrel with h | h
    · rw [h]
    · simp only [Option.map_some', Option.some.injEq]
      exact h.1

end LineBuilder

namespace LineBuilder

/-! ### A merged display run covers contiguous text -/

/-- C38: a merged display run covers contiguous text. Take any line (a builder
in any prior state, initialized and then fed any sequence of items) whose
committed runs hold their items in content order: of two runs that follow one
another and are text of the same box, the item of the second starts where the
item of the first ends. Then the committed runs that `close()` leaves are cut
into groups of consecutive runs, one group per display run and in the same
order, and each display run is merged from its group: a group of one run gives
a display run with the text range of that run; in a group of several runs the
text-context ranges follow one another without gap from some `start`, the
display run has the range `[start, start + sum of their lengths)`, every run of
the group is a text run of the same box that is not collapsed to zero advance
width, and no run but the last is flagged collapsed. -/
theorem close_merged_runs_cover_contiguous_text (env : Environment) (s : LineBuilder)
    (constraints : Constraints) (items : List (InlineItem × InlineLayoutUnit))
    (isLastLineWithInlineContent : IsLastLineWithInlineContent)
    (hordered : List.Chain' (fun a b => inContentOrder a b = true)
      ((LineBuilder.openLine env s constraints items).m_inlineItemRuns.map
        (fun run => run.m_inlineItem))) :
    ∃ groups : List (List InlineItemRun),
      groups.flatten
          = (close env (LineBuilder.openLine env s constraints items)
              isLastLineWithInlineContent).2.m_inlineItemRuns
        ∧ List.Forall₂ MergedFrom groups
            (close env (LineBuilder.openLine env s constraints items)
              isLastLineWithInlineContent).1 := by
  have hinv := Invariant.openLine env s constraints items
  have hopen : ∀ run ∈ (LineBuilder.openLine env s constraints items).m_inlineItemRuns,
      run.coversItem :=
    appendAll_coversItem env items ( LineBuilder.initialize s constraints)
      (Invariant.initial env s constraints) (by intro run hmem; cases hmem)
  generalize LineBuilder.openLine env s constraints items = line at hordered hopen ⊢
  have hcovers := removeTrailingTrimmableContent_coversItem env line hopen
  have hchain : List.Chain' (fun a b => inContentOrder a.m_inlineItem b.m_inlineItem = true)
      (removeTrailingTrimmableContent env line).m_inlineItemRuns := by
    rw [← removeTrailingTrimmableContent_items env line] at hordered
    exact (List.chain'_map _).mp hordered
  obtain ⟨groups, hflatten, hmerged⟩ := mergeRuns_groups env.fc.flags
    (removeTrailingTrimmableContent env line).isTextAlignJustify
    (removeTrailingTrimmableContent env line).m_inlineItemRuns none []
    (by simpa using hcovers) (by simpa using hchain) rfl
  refine ⟨groups, ?_, ?_⟩
  · rw [(close_keeps env line isLastLineWithInlineContent).1, hflatten]
    rfl
  · exact forall₂_mergedFrom_of_sameRange groups _ _ hmerged
      (close_sameRange env line isLastLineWithInlineContent)

theorem close_merged_runs_cover_contiguous_text_witness :
    (close Sample.environment
        (LineBuilder.openLine Sample.environment Sample.builder Sample.constraints
          Sample.fooBarLine)
        IsLastLineWithInlineContent.No).1.map Run.textRange = [some (0, 7), some (7, 1)]
      ∧ ∃ groups : List (List InlineItemRun),
        groups.flatten
            = (close Sample.environment
                (LineBuilder.openLine Sample.environment Sample.builder Sample.constraints
                  Sample.fooBarLine)
                IsLastLineWithInlineContent.No).2.m_inlineItemRuns
          ∧ List.Forall₂ MergedFrom groups
              (close Sample.environment
                (LineBuilder.openLine Sample.environment Sample.builder Sample.constraints
                  Sample.fooBarLine)
                IsLastLineWithInlineContent.No).1 :=
  ⟨by decide,
  close_merged_runs_cover_contiguous_text Sample.environment Sample.builder Sample.constraints
    Sample.fooBarLine IsLastLineWithInlineContent.No
    (by
      have hitems : (LineBuilder.openLine Sample.environment Sample.builder Sample.constraints
            Sample.fooBarLine).m_inlineItemRuns.map (fun run => run.m_inlineItem)
          = Sample.fooBarLine.map Prod.fst := by decide
      rw [hitems]
      simp only [Sample.fooBarLine, List.map, List.chain'_cons, List.chain'_singleton, and_true]
      decide)⟩

end LineBuilder
end WebCore.Layout
